import Mathlib

/-!
# Biscuit process and trap core: wait/reap rendezvous and page-fault engine

A shallow embedding of parts of `biscuit/x86/main.go` and
`biscuit/x86/syscall.go`.  Go `int` values are mathematical integers (the
counters involved never approach 2^63); a Go `panic` is the result `none`.
The locked section of an operation is one atomic step; what the operation
does after releasing the lock (channel sends, blocking on a channel) is
returned as data next to the new state.
-/

namespace Biscuit

/-! ## Wait sets (`main.go`, `wait_t`) -/

/-- Errno `ECHILD` (`syscall.go`). -/
def ECHILD : Int := 10

/-- Selector `WAIT_ANY` of `wait4` (`syscall.go`). -/
def WAIT_ANY : Int := -1

/-- Selector `WAIT_MYPGRP` of `wait4` (`syscall.go`). -/
def WAIT_MYPGRP : Int := 0

/-- Status bit `EXITED = 1 << 10` (`syscall.go`). -/
def EXITED : Int := 1024

/-- The two counters of `accnt_t` (its mutex carries no data). -/
structure accnt_t where
  userns : Int
  sysns : Int
deriving DecidableEq, Repr

/-- Record handed to a reaper: `waitst_t`. -/
structure waitst_t where
  pid : Int
  err : Int
  status : Int
  atime : accnt_t
deriving DecidableEq, Repr

/-- Identity of a Go channel of `waitst_t`: the common `w.anys`, or the
`n`-th channel allocated by `make(chan waitst_t)` inside `reap`. -/
inductive chan_t where
  | anys : chan_t
  | made : Nat → chan_t
deriving DecidableEq, Repr

/-- Entry of the id map: `waitent_t`.  A nil `waiter` is `none`. -/
structure waitent_t where
  waiter : Option chan_t
  wstatus : waitst_t
  isproc : Bool
  dead : Bool
deriving DecidableEq, Repr

/-- Go zero value of `waitst_t`. -/
def waitst_zero : waitst_t := ⟨0, 0, 0, ⟨0, 0⟩⟩

/-- Go zero value of `waitent_t`. -/
def waitent_zero : waitent_t := ⟨none, waitst_zero, false, false⟩

/-- Go map `map[int]waitent_t` as an association list without repeated keys. -/
abbrev idmap := List (Int × waitent_t)

/-- Map read `m[k]` with the `ok` flag. -/
def mget (m : idmap) (k : Int) : Option waitent_t :=
  match m with
  | [] => none
  | (k', e) :: r => if k' = k then some e else mget r k

/-- Map `delete(m, k)`. -/
def mdel (m : idmap) (k : Int) : idmap :=
  m.filter (fun p => decide (p.1 ≠ k))

/-- Map write `m[k] = e`. -/
def mset (m : idmap) (k : Int) (e : waitent_t) : idmap :=
  (k, e) :: mdel m k

/-- State of a `wait_t` under its lock.  `nchan` counts the channels
allocated so far by `make` in `reap`, which gives each its identity. -/
structure wait_t where
  ids : idmap
  childs : Int
  anyhints : List Int
  wakeany : Int
  nchan : Nat
deriving DecidableEq, Repr

/-- Initial state: `wait_init`. -/
def wait_init : wait_t := ⟨[], 0, [], 0, 0⟩

/-- Hint queue pop: `_pop_hint` returns the first hint and drops it. -/
def _pop_hint (w : wait_t) : wait_t × Int × Bool :=
  match w.anyhints with
  | [] => (w, 0, false)
  | h :: t => ({ w with anyhints := t }, h, true)

/-- Hint queue push: `_push_hint` appends. -/
def _push_hint (w : wait_t) (id : Int) : wait_t :=
  { w with anyhints := w.anyhints ++ [id] }

/-- Registration of a child: `_start`; panics on an id already in the map. -/
def _start (w : wait_t) (id : Int) (isproc : Bool) : Option wait_t :=
  match mget w.ids id with
  | some _ => none
  | none =>
    if isproc then
      some { w with ids := mset w.ids id { waitent_zero with isproc := true },
                    childs := w.childs + 1 }
    else
      some { w with ids := mset w.ids id waitent_zero }

/-- Orphan count: `_orphancount` returns how many WAIT_ANY callers must be
woken with an error and clears `wakeany` when there are no child processes. -/
def _orphancount (w : wait_t) : wait_t × Int :=
  if w.childs = 0 ∧ w.wakeany ≠ 0 then ({ w with wakeany := 0 }, w.wakeany)
  else (w, 0)

/-- The record `waitst_t{err: -ECHILD}`. -/
def wait_fail : waitst_t := { waitst_zero with err := -ECHILD }

/-- Orphan wake: `_orphanwake` sends the failure record `times` times on
`w.anys` (nothing when `times` is not positive). -/
def _orphanwake (times : Int) : List (chan_t × waitst_t) :=
  List.replicate times.toNat (chan_t.anys, wait_fail)

/-- What `put` does after unlocking: the channel the record goes to (if
any), the record, and the number of orphan wake-ups. -/
structure putout where
  wakechan : Option chan_t
  wstatus : waitst_t
  owake : Int
deriving DecidableEq, Repr

/-- Channel sends of a `put`, in program order. -/
def putout.sends (o : putout) : List (chan_t × waitst_t) :=
  (match o.wakechan with
   | some c => [(c, o.wstatus)]
   | none => []) ++ _orphanwake o.owake

/-- The record `put` writes into the entry: pid, err = 0, status, and the
usage counters when `atime` is not nil (otherwise the entry keeps its own). -/
def put_wstatus (ent0 : waitent_t) (id status : Int) (atime : Option accnt_t) :
    waitst_t :=
  { pid := id, err := 0, status := status,
    atime := match atime with
      | some a => ⟨a.userns, a.sysns⟩
      | none => ent0.wstatus.atime }

/-- Publication of a termination: `put`. -/
def put (w : wait_t) (id status : Int) (atime : Option accnt_t) :
    Option (wait_t × putout) :=
  match mget w.ids id with
  | none => none
  | some ent0 =>
    let ws := put_wstatus ent0 id status atime
    let ent : waitent_t := { ent0 with wstatus := ws, dead := true }
    if ent.waiter.isSome then
      let w1 := { w with ids := mdel w.ids id,
                         childs := if ent.isproc then w.childs - 1 else w.childs }
      let r := _orphancount w1
      some (r.1, ⟨ent.waiter, ws, r.2⟩)
    else if ent.isproc ∧ w.wakeany ≠ 0 then
      if w.wakeany - 1 < 0 then none
      else
        let w1 := { w with wakeany := w.wakeany - 1, ids := mdel w.ids id,
                           childs := w.childs - 1 }
        let r := _orphancount w1
        some (r.1, ⟨some chan_t.anys, ws, r.2⟩)
    else
      let w1 := { w with ids := mset w.ids id ent }
      let w2 := if ent.isproc then _push_hint w1 id else w1
      let r := _orphancount w2
      some (r.1, ⟨none, ws, r.2⟩)

/-- The hint loop of `reap(WAIT_ANY)`, `for hint, ok := w._pop_hint(); ok;
...`: pop hints until one names a dead process; returns that hint, its
entry and the hints left, or `none` when the queue was drained without a
hit. -/
def scan_hints (ids : idmap) : List Int → Option (Int × waitent_t × List Int)
  | [] => none
  | h :: t =>
    let ent := (mget ids h).getD waitent_zero
    if ent.dead ∧ ent.isproc then some (h, ent, t) else scan_hints ids t

/-- What `reap` does after unlocking: `ret` as it stands at the unlock,
the channel the caller then receives its result from (if any), and the
number of orphan wake-ups. -/
structure reapout where
  ret : waitst_t
  waitchan : Option chan_t
  owake : Int
deriving DecidableEq, Repr

/-- Retrieval of a termination: `reap`. -/
def reap (w : wait_t) (id : Int) (noblk : Bool) : Option (wait_t × reapout) :=
  if id = WAIT_MYPGRP then none
  else if id = WAIT_ANY then
    if w.childs < 0 then none
    else if w.childs = 0 then
      some (w, ⟨wait_fail, none, 0⟩)
    else
      match scan_hints w.ids w.anyhints with
      | some (hint, ent, rest) =>
        let w1 := { w with anyhints := rest, ids := mdel w.ids hint,
                           childs := w.childs - 1 }
        let r := _orphancount w1
        some (r.1, ⟨ent.wstatus, none, r.2⟩)
      | none =>
        if !noblk then
          let w1 := { w with anyhints := [], wakeany := w.wakeany + 1 }
          let r := _orphancount w1
          some (r.1, ⟨waitst_zero, some chan_t.anys, r.2⟩)
        else
          let r := _orphancount { w with anyhints := [] }
          some (r.1, ⟨waitst_zero, none, r.2⟩)
  else
    match mget w.ids id with
    | none => some (w, ⟨wait_fail, none, 0⟩)
    | some ent =>
      if ent.waiter.isSome then
        some (w, ⟨wait_fail, none, 0⟩)
      else if ent.dead then
        let w1 := { w with ids := mdel w.ids id,
                           childs := if ent.isproc then w.childs - 1 else w.childs }
        let r := _orphancount w1
        some (r.1, ⟨ent.wstatus, none, r.2⟩)
      else if !noblk then
        let c := chan_t.made w.nchan
        let w1 := { w with ids := mset w.ids id { ent with waiter := some c },
                           nchan := w.nchan + 1 }
        let r := _orphancount w1
        some (r.1, ⟨waitst_zero, some c, r.2⟩)
      else
        let r := _orphancount w
        some (r.1, ⟨waitst_zero, none, r.2⟩)

/-- One call on a wait set. -/
inductive waitop where
  | start (id : Int) (isproc : Bool)
  | put (id status : Int) (atime : Option accnt_t)
  | reap (id : Int) (noblk : Bool)
deriving DecidableEq, Repr

/-- Records that a call makes some `reap` return: a `reap` that does not
block returns its `ret`; every record sent on a channel is returned by the
`reap` blocked on that channel. -/
def reapout.returned (o : reapout) : List waitst_t :=
  (match o.waitchan with
   | some _ => []
   | none => [o.ret]) ++ (_orphanwake o.owake).map Prod.snd

/-- Channel sends of a `reap` after it unlocked: the orphan wake-ups. -/
def reapout.sends (o : reapout) : List (chan_t × waitst_t) :=
  _orphanwake o.owake

/-- Records that a `put` makes blocked `reap`s return. -/
def putout.returned (o : putout) : List waitst_t :=
  o.sends.map Prod.snd

/-- One call: new state and the records returned to reapers by it. -/
def waitstep (w : wait_t) : waitop → Option (wait_t × List waitst_t)
  | .start id isproc => (_start w id isproc).map (fun w1 => (w1, []))
  | .put id status atime => (put w id status atime).map (fun r => (r.1, r.2.returned))
  | .reap id noblk => (reap w id noblk).map (fun r => (r.1, r.2.returned))

/-- A sequence of calls; `none` if one of them panics.  The list holds the
records returned to reapers, oldest first. -/
def waitrun (w : wait_t) : List waitop → Option (wait_t × List waitst_t)
  | [] => some (w, [])
  | op :: ops =>
    match waitstep w op with
    | none => none
    | some (w1, d1) =>
      match waitrun w1 ops with
      | none => none
      | some (w2, d2) => some (w2, d1 ++ d2)

/-- Number of entries of the id map that are processes. -/
def nprocs (m : idmap) : Nat := (m.filter (fun p => p.2.isproc)).length

/-- Keys of the id map. -/
def keys (m : idmap) : List Int := m.map Prod.fst

/-- Consistency of a wait set at any point of a locked section. -/
structure WPre (w : wait_t) : Prop where
  nodup : (keys w.ids).Nodup
  childs_eq : w.childs = (nprocs w.ids : Int)
  wakeany_nonneg : 0 ≤ w.wakeany
  hinted : ∀ k e, mget w.ids k = some e → e.dead = true → e.isproc = true →
    k ∈ w.anyhints
  dead_pid : ∀ k e, mget w.ids k = some e → e.dead = true → e.wstatus.pid = k
  waiter_made : ∀ k e, mget w.ids k = some e → e.waiter ≠ some chan_t.anys

/-- Consistency of a wait set when its lock is released. -/
structure WInv (w : wait_t) : Prop where
  pre : WPre w
  no_orphan : w.childs = 0 → w.wakeany = 0

/-- What a consistent wait set looks like after one `put`. -/
structure PutEffect (w : wait_t) (id : Int) (w1 : wait_t) (o : putout) : Prop where
  inv : WInv w1
  started : ∃ e0, mget w.ids id = some e0
  pid : o.wstatus.pid = id
  gone : o.wakechan ≠ none → mget w1.ids id = none
  kept : ∀ k, mget w.ids k = none → mget w1.ids k = none
  owake_nonneg : 0 ≤ o.owake

/-- What a consistent wait set looks like after one `reap`. -/
structure ReapEffect (w : wait_t) (w1 : wait_t) (o : reapout) : Prop where
  inv : WInv w1
  kept : ∀ k, mget w.ids k = none → mget w1.ids k = none
  owake_nonneg : 0 ≤ o.owake
  ret : o.ret = wait_fail ∨ o.ret = waitst_zero ∨
    ((∃ e, mget w.ids o.ret.pid = some e) ∧ mget w1.ids o.ret.pid = none)

/-- Id allocation: `newpid` increments `pid_cur` and returns it; the pair
is the new counter and the id handed out. -/
def newpid (pid_cur : Int) : Int × Int := (pid_cur + 1, pid_cur + 1)

/-- Events that concern the wait set `mywait` of one process. -/
inductive procop where
  /-- The process forks a child process (`sys_fork` with `FORK_PROCESS`). -/
  | fork_proc
  /-- The process forks a thread (`sys_fork` with `FORK_THREAD`), or its
  first thread is registered by `proc_new`. -/
  | fork_thread
  /-- An id is allocated for some other process. -/
  | other_id
  /-- A child publishes its termination (`thread_dead`, `terminate`). -/
  | put (id status : Int) (atime : Option accnt_t)
  /-- A thread of the process waits (`sys_wait4`). -/
  | reap (id : Int) (noblk : Bool)
deriving DecidableEq, Repr

/-- The calls these events make on the wait set, given the value of the
global `pid_cur`.  `proc_new` takes a pid by `pid_cur++` and a first thread
id by `tid_new`, and `sys_fork` then calls `start_proc(child.pid)`;
for a thread `sys_fork` calls `tid_new` and `start_thread(childtid)`. -/
def calls : Int → List procop → List waitop
  | _, [] => []
  | pid_cur, .fork_proc :: r =>
    let np := pid_cur + 1
    .start np true :: calls (newpid np).1 r
  | pid_cur, .fork_thread :: r =>
    .start (newpid pid_cur).2 false :: calls (newpid pid_cur).1 r
  | pid_cur, .other_id :: r => calls (newpid pid_cur).1 r
  | pid_cur, .put id status atime :: r => .put id status atime :: calls pid_cur r
  | pid_cur, .reap id noblk :: r => .reap id noblk :: calls pid_cur r

/-- Number of records in a list that carry the given pid. -/
def npid (D : List waitst_t) (id : Int) : Nat :=
  (D.filter (fun r => decide (r.pid = id))).length

/-- Shape of the list of records one `put` or `reap` hands to reapers on a
wait set `w` that becomes `w1`: failure records, preceded by at most one
other record, which is empty, a failure, or the record of an id that was
in the map and no longer is. -/
def Delivers (w w1 : wait_t) (d : List waitst_t) : Prop :=
  ∃ l, (∀ r ∈ l, r = wait_fail) ∧
    (d = l ∨ ∃ r, d = r :: l ∧ (r = wait_fail ∨ r = waitst_zero ∨
      ((∃ e, mget w.ids r.pid = some e) ∧ mget w1.ids r.pid = none)))

/-- Consistency of a wait set with the id counter `pid_cur` and with the
records `D` handed to reapers so far. -/
structure SInv (pc : Int) (w : wait_t) (D : List waitst_t) : Prop where
  inv : WInv w
  pc_nonneg : 0 ≤ pc
  keys_pos : ∀ k e, mget w.ids k = some e → 0 < k ∧ k ≤ pc
  ret_old : ∀ r ∈ D, r.pid ≠ 0 → 0 < r.pid ∧ r.pid ≤ pc ∧ mget w.ids r.pid = none
  ret_once : ∀ id, id ≠ 0 → npid D id ≤ 1
  ret_zero : ∀ r ∈ D, r.pid = 0 → r = wait_fail ∨ r = waitst_zero

/-- Bookkeeping of `wakeany` across one `put` on a consistent wait set. -/
structure PutOrphans (w w1 : wait_t) (o : putout) : Prop where
  quiet : w1.childs ≠ 0 → o.owake = 0
  sum : w1.wakeany + o.owake =
    w.wakeany - (if o.wakechan = some chan_t.anys then 1 else 0)
  err : o.wstatus.err = 0

/-- Bookkeeping of `wakeany` across one `reap` on a consistent wait set. -/
structure ReapOrphans (w w1 : wait_t) (o : reapout) : Prop where
  quiet : w1.childs ≠ 0 → o.owake = 0
  sum : w1.wakeany + o.owake =
    w.wakeany + (if o.waitchan = some chan_t.anys then 1 else 0)

/-- The round trip of a record through `put` and `reap`: `put(id, status,
atime)` succeeds and hands the record to nobody, `reap(id, noblk)` on the
resulting wait set succeeds without blocking and returns the record with
pid = id, err = 0, the status and the usage (the entry's own usage when
`atime` is nil), and the entry is gone from `ids`. -/
def RoundTrip (w : wait_t) (id status : Int) (atime : Option accnt_t)
    (e0 : waitent_t) (noblk : Bool) : Prop :=
  ∃ w1 o1 w2 o2, put w id status atime = some (w1, o1) ∧ o1.wakechan = none ∧
    reap w1 id noblk = some (w2, o2) ∧ o2.waitchan = none ∧
    o2.ret = ⟨id, 0, status, (match atime with
        | some a => a
        | none => e0.wstatus.atime)⟩ ∧
    mget w2.ids id = none ∧ w2.ids = mdel w.ids id

/-! ## Physical pages (`main.go`, `physmem`)

A frame is named by its physical address.  The `int32` reference counts
are integers (they stay far from 2^31); `uint32` indices wrap at 2^32. -/

/-- Modelled from the spec: `PGSHIFT`, the page size is 4096 = 1 << 12
(declared outside the two source files). -/
def PGSHIFT : Nat := 12

/-- Modelled from the spec: `PGSIZE` (declared outside the two source files). -/
def PGSIZE : Nat := 4096

/-- Modelled from the spec: `PGOFFSET`, the offset bits of an address
(declared outside the two source files). -/
def PGOFFSET : Nat := 0xfff

/-- Modelled from the spec: page-table flag `P`, present (§3 Page table;
declared outside the two source files, bit 0 on x86-64). -/
def PTE_P : Nat := 0x1

/-- Modelled from the spec: page-table flag `W`, writable (bit 1). -/
def PTE_W : Nat := 0x2

/-- Modelled from the spec: page-table flag `U`, user accessible (bit 2). -/
def PTE_U : Nat := 0x4

/-- Modelled from the spec: page-table flag `COW`, one of the bits the
hardware ignores (bit 9). -/
def PTE_COW : Nat := 0x200

/-- Modelled from the spec: page-table flag `WASCOW`, one of the bits the
hardware ignores (bit 10). -/
def PTE_WASCOW : Nat := 0x400

/-- Modelled from the spec: `ADDR`, the mask of the frame address in an
entry (all bits above the offset bits of a 64-bit word). -/
def PTE_ADDR : Nat := 0xfffffffffffff000

/-- Modelled from the spec: `VUSER`, the first slot of the root table that
belongs to user space (declared outside the two source files). -/
def VUSER : Nat := 0x59

/-- Lowest user address: `USERMIN = VUSER << 39` (`syscall.go`). -/
def USERMIN : Nat := VUSER <<< 39

/-- Frame descriptor: `physpg_t`. -/
structure physpg_t where
  refcnt : Int
  nexti : Nat
deriving DecidableEq, Repr

/-- The global `physmem` (without its mutex). -/
structure physmem_t where
  pgs : List physpg_t
  startn : Nat
  freei : Nat
deriving DecidableEq, Repr

/-- The `uint32` value `^uint32(0)` that ends the free list. -/
def U32MAX : Nat := 0xffffffff

/-- Frame number as `uint32`: `_pg2pgn`. -/
def _pg2pgn (p_pg : Nat) : Nat := (p_pg >>> PGSHIFT) % 2 ^ 32

/-- Index of a frame in `physmem.pgs` with its reference count: `_refaddr`
(`none` when the index is out of range, where Go panics). -/
def _refaddr (pm : physmem_t) (p_pg : Nat) : Option (Int × Nat) :=
  let idx := (_pg2pgn p_pg + 2 ^ 32 - pm.startn % 2 ^ 32) % 2 ^ 32
  match pm.pgs.get? idx with
  | none => none
  | some pg => some (pg.refcnt, idx)

/-- Store of a reference count into `physmem.pgs[idx]`. -/
def set_refcnt (pm : physmem_t) (idx : Nat) (c : Int) : physmem_t :=
  { pm with pgs := pm.pgs.modify (fun pg => { pg with refcnt := c }) idx }

/-- Reference increment: `refup`. -/
def refup (pm : physmem_t) (p_pg : Nat) : Option physmem_t :=
  match _refaddr pm p_pg with
  | none => none
  | some (r, idx) =>
    let c := r + 1
    if c ≤ 0 then none else some (set_refcnt pm idx c)

/-- Reference decrement: `_refdown` returns whether the frame must go to
the free list, and its index. -/
def _refdown (pm : physmem_t) (p_pg : Nat) : Option (physmem_t × Bool × Nat) :=
  match _refaddr pm p_pg with
  | none => none
  | some (r, idx) =>
    let c := r - 1
    if c < 0 then none else some (set_refcnt pm idx c, decide (c = 0), idx)

/-- Push on the free list: `_reffree`. -/
def _reffree (pm : physmem_t) (idx : Nat) : physmem_t :=
  { pm with pgs := pm.pgs.modify (fun pg => { pg with nexti := pm.freei }) idx,
            freei := idx }

/-- Reference decrement with release: `refdown`. -/
def refdown (pm : physmem_t) (p_pg : Nat) : Option physmem_t :=
  match _refdown pm p_pg with
  | none => none
  | some (pm1, add, idx) => if add then some (_reffree pm1 idx) else some pm1

/-- Global kernel memory: the frame descriptors, the flag `_dmapinit`, the
contents of every frame as seen through the direct map (`dmap`), the
address `p_zeropg` of the zero page, and the frames that the objects
behind file mappings hand out (`fops.mmapi(offset, 1)`), by object and
file offset. -/
structure kern_t where
  physmem : physmem_t
  dmapinit : Bool
  mem : Nat → Nat → Nat
  p_zeropg : Nat
  mmapi : Nat → Nat → Nat

/-- Page copy `*pg = *pgsrc` through the direct map. -/
def pgcopy (k : kern_t) (dst src : Nat) : kern_t :=
  { k with mem := fun f => if f = dst then k.mem src else k.mem f }

/-- Frame allocation: `_refpg_new` pops the free list and returns the
frame address; the reference count is left as it is. -/
def _refpg_new (k : kern_t) : Option (kern_t × Nat) :=
  if !k.dmapinit then none
  else
    let firstfree := k.physmem.freei
    match k.physmem.pgs.get? firstfree with
    | none => none
    | some d =>
      let pm1 := { k.physmem with freei := d.nexti }
      if firstfree = U32MAX then none
      else
        let p_pg := ((firstfree + k.physmem.startn) % 2 ^ 32) <<< PGSHIFT
        if d.refcnt < 0 then none
        else some ({ k with physmem := pm1 }, p_pg)

/-- Zeroed frame allocation: `refpg_new`. -/
def refpg_new (k : kern_t) : Option (kern_t × Nat) :=
  match _refpg_new k with
  | none => none
  | some (k1, p_pg) => some (pgcopy k1 p_pg k1.p_zeropg, p_pg)

/-! ## Page tables, VM regions and the page-fault engine

The four-level table of a process is seen at its leaf level: which leaf
tables exist (one per 2 MB, index `va >>> 21`) and the entry of every page
(index `va >>> 12`).  A Go pointer `*int` to the leaf entry of an address
is the address itself; a nil pointer is `none`. -/

/-- Leaf-level view of a page table (`*[512]int` root with its subtrees). -/
structure pmap_t where
  tbl : Nat → Bool
  ent : Nat → Nat

/-- Modelled from the spec: `pmap_lookup(root, va)`, whose body is outside
the two source files: "returns the leaf PTE only if all intermediate
entries are present" (§4.2); the result is the value of the entry. -/
def pmap_lookup (pm : pmap_t) (va : Nat) : Option Nat :=
  if pm.tbl (va >>> 21) then some (pm.ent (va >>> PGSHIFT)) else none

/-- Modelled from the spec: `pmap_walk(root, va, create_flags)`, whose body
is outside the two source files: "returns a pointer to the leaf PTE,
creating intermediate tables as needed" (§4.2); a created leaf table holds
zero entries. -/
def pmap_walk (pm : pmap_t) (va : Nat) : pmap_t :=
  if pm.tbl (va >>> 21) then pm
  else
    { tbl := fun i => if i = va >>> 21 then true else pm.tbl i,
      ent := fun pg => if pg >>> 9 = va >>> 21 then 0 else pm.ent pg }

/-- Read through a leaf pointer: `*pte` for the entry of `va`. -/
def pte_get (pm : pmap_t) (va : Nat) : Nat := pm.ent (va >>> PGSHIFT)

/-- Store through a leaf pointer: `*pte = v` for the entry of `va`. -/
def pte_set (pm : pmap_t) (va : Nat) (v : Nat) : pmap_t :=
  { pm with ent := fun pg => if pg = va >>> PGSHIFT then v else pm.ent pg }

/-- Modelled from the spec: the kinds of a VM region, `mtype_t` with
`VANON` and `VFILE` (§3 VmInfo: Anonymous or File). -/
inductive mtype_t where
  | VANON
  | VFILE
deriving DecidableEq, Repr

/-- Modelled from the spec: `vminfo_t` (§3 VmInfo), with the fields that
`_mkvmi` fills: kind, first page, page count, perms, and for a file
mapping the file offset and the identity of the backing object. -/
structure vminfo_t where
  mtype : mtype_t
  pgn : Nat
  pglen : Nat
  perms : Nat
  foff : Nat
  mfops : Nat
deriving DecidableEq, Repr

/-- Modelled from the spec: `vmregion_t.lookup(va)`, whose body is outside
the two source files: the region that covers the page of `va`, if any
(§4.3). -/
def vmregion_lookup (vr : List vminfo_t) (va : Nat) : Option vminfo_t :=
  vr.find? (fun v => decide (v.pgn ≤ va >>> PGSHIFT ∧ va >>> PGSHIFT < v.pgn + v.pglen))

/-- Modelled from the spec: `vminfo_t.filepage(va)`, whose body is outside
the two source files: the frame of the file page behind `va`, asked from
the backing object with `fops.mmapi(offset, 1)` (§4.5, §6). -/
def filepage (k : kern_t) (vmi : vminfo_t) (va : Nat) : Nat :=
  k.mmapi vmi.mfops (vmi.foff + ((va >>> PGSHIFT) - vmi.pgn) * PGSIZE)

/-- The part of `proc_t` that the VM code uses: page table, address of its
root, regions, the flag `pgfltaken` of the pmap lock, and the number of
live threads (`thread_count()`). -/
structure proc_t where
  pmap : pmap_t
  p_pmap : Nat
  vmregion : List vminfo_t
  pgfltaken : Bool
  nthreads : Nat

/-- TLB maintenance issued by the VM code. -/
inductive tlbev where
  /-- Local invalidation `invlpg(va)`. -/
  | invlpg (va : Nat)
  /-- Cross-CPU shootdown `tlb_shootdown(p_pmap, va, pgcount)`. -/
  | shoot (p_pmap va pgcount : Nat)
deriving DecidableEq, Repr

/-- Shootdown request: `proc_t.tlbshoot`. -/
def tlbshoot (p : proc_t) (startva pgcount : Nat) : Option (List tlbev) :=
  if pgcount = 0 then some []
  else if !p.pgfltaken then none
  else if 1 < p.nthreads then some [.shoot p.p_pmap startva pgcount]
  else some []

/-- Mapping of a frame: `proc_t.page_insert`. -/
def page_insert (k : kern_t) (p : proc_t) (va p_pg perms : Nat) (vempty : Bool) :
    Option (kern_t × proc_t × List tlbev) :=
  if !p.pgfltaken then none
  else
    match refup k.physmem p_pg with
    | none => none
    | some pm1 =>
      let pmap1 := pmap_walk p.pmap va
      let v := pte_get pmap1 va
      let ninval := decide (v &&& PTE_P ≠ 0)
      if ninval && vempty then none
      else
        let p_old := v &&& PTE_ADDR
        let pmap2 := pte_set pmap1 va (p_pg ||| perms ||| PTE_P)
        if ninval then
          match refdown pm1 p_old with
          | none => none
          | some pm2 =>
            some ({ k with physmem := pm2 }, { p with pmap := pmap2 }, [.invlpg va])
        else
          some ({ k with physmem := pm1 }, { p with pmap := pmap2 }, [])

/-- The frame a fault maps when the entry is empty: the zero page for an
anonymous region, the file page for a file region (the `switch vmi.mtype`
of `sys_pgfault`). -/
def fault_src (k : kern_t) (vmi : vminfo_t) (faultaddr : Nat) : Nat :=
  match vmi.mtype with
  | .VANON => k.p_zeropg
  | .VFILE => filepage k vmi faultaddr

/-- The process as `sys_pgfault` sees it once it has a pointer to the
entry: unchanged when the caller passed one, after `pmap_walk` otherwise. -/
def fault_walk (proc : proc_t) (havepte : Bool) (faultaddr : Nat) : proc_t :=
  if havepte then proc else { proc with pmap := pmap_walk proc.pmap faultaddr }

/-- The page-fault engine: `sys_pgfault`.  `havepte` tells whether the
caller passed a non-nil pointer to the leaf entry of `faultaddr`. -/
def sys_pgfault (k : kern_t) (proc : proc_t) (vmi : vminfo_t) (havepte : Bool)
    (faultaddr ecode : Nat) : Option (kern_t × proc_t × List tlbev) :=
  if ecode &&& PTE_U = 0 then none
  else
    let iswrite := decide (ecode &&& PTE_W ≠ 0)
    let proc1 := fault_walk proc havepte faultaddr
    let v := pte_get proc1.pmap faultaddr
    if (iswrite && decide (v &&& PTE_WASCOW ≠ 0)) ||
        (!iswrite && decide (v &&& PTE_P ≠ 0)) then
      some (k, proc1, [])
    else if iswrite then
      if v &&& PTE_W ≠ 0 then none
      else
        match _refpg_new k with
        | none => none
        | some (k1, p_pg) =>
          let cow := decide (v &&& PTE_COW ≠ 0)
          if !cow && decide (v ≠ 0) then none
          else
            let pgsrc := if cow then v &&& PTE_ADDR else fault_src k1 vmi faultaddr
            let k2 := pgcopy k1 p_pg pgsrc
            let perms := PTE_U ||| PTE_P ||| PTE_WASCOW ||| PTE_W
            match page_insert k2 proc1 faultaddr p_pg perms (!cow) with
            | none => none
            | some (k3, proc3, ev) =>
              if cow then
                match tlbshoot proc3 faultaddr 1 with
                | none => none
                | some ev2 => some (k3, proc3, ev ++ ev2)
              else some (k3, proc3, ev)
    else
      if v ≠ 0 then none
      else
        let p_pg := fault_src k vmi faultaddr
        let perms := if vmi.perms &&& PTE_W ≠ 0 then PTE_U ||| PTE_P ||| PTE_COW
          else PTE_U ||| PTE_P
        page_insert k proc1 faultaddr p_pg perms true

/-- User page fault: `proc_t.pgfault`; the Boolean is its result. -/
def pgfault (k : kern_t) (p : proc_t) (fa ecode : Nat) :
    Option (kern_t × proc_t × List tlbev × Bool) :=
  let p1 := { p with pgfltaken := true }
  match vmregion_lookup p1.vmregion fa with
  | none => some (k, { p1 with pgfltaken := false }, [], false)
  | some vmi =>
    let iswrite := decide (ecode &&& PTE_W ≠ 0)
    let writeok := decide (vmi.perms &&& PTE_W ≠ 0)
    if iswrite && !writeok then some (k, { p1 with pgfltaken := false }, [], false)
    else
      match sys_pgfault k p1 vmi false fa ecode with
      | none => none
      | some (k2, p2, ev) => some (k2, { p2 with pgfltaken := false }, ev, true)

/-- Kernel preparation of a write to user memory: `proc_t.cowfault`. -/
def cowfault (k : kern_t) (p : proc_t) (userva : Int) :
    Option (kern_t × proc_t × List tlbev) :=
  if userva < (USERMIN : Int) then some (k, p, [])
  else if !p.pgfltaken then none
  else
    let va := userva.toNat
    let p1 := { p with pmap := pmap_walk p.pmap va }
    let v := pte_get p1.pmap va
    if v &&& PTE_P ≠ 0 ∧ v &&& PTE_COW = 0 then some (k, p1, [])
    else
      match vmregion_lookup p1.vmregion va with
      | none => some (k, p1, [])
      | some vmi => sys_pgfault k p1 vmi true va (PTE_U ||| PTE_W)

/-- Kernel access to user memory: `proc_t.userdmap8_inner`.  The slice it
returns is given by the frame address and the offset `voff` in the frame
(its length is `PGSIZE - voff`); `none` inside stands for `(nil, false)`. -/
def userdmap8_inner (k : kern_t) (p : proc_t) (va : Int) (k2u : Bool) :
    Option (kern_t × proc_t × List tlbev × Option (Nat × Nat)) :=
  if !p.pgfltaken then none
  else if va < (USERMIN : Int) then some (k, p, [], none)
  else
    match (if k2u then cowfault k p va else some (k, p, [])) with
    | none => none
    | some (k1, p1, ev1) =>
      let uva := va.toNat
      let voff := uva &&& PGOFFSET
      let pte := pmap_lookup p1.pmap uva
      let absent := match pte with
        | none => true
        | some v => decide (v &&& PTE_P = 0)
      if absent then
        match vmregion_lookup p1.vmregion uva with
        | none => some (k1, p1, ev1, none)
        | some vmi =>
          match sys_pgfault k1 p1 vmi pte.isSome uva PTE_U with
          | none => none
          | some (k2, p2, ev2) =>
            if pte.isNone then none
            else
              let v2 := pte_get p2.pmap uva
              if v2 &&& PTE_U = 0 then some (k2, p2, ev1 ++ ev2, none)
              else some (k2, p2, ev1 ++ ev2, some (v2 &&& PTE_ADDR, voff))
      else
        let v2 := pte_get p1.pmap uva
        if v2 &&& PTE_U = 0 then some (k1, p1, ev1, none)
        else some (k1, p1, ev1, some (v2 &&& PTE_ADDR, voff))

/-- Modelled from the spec: one page of `ptefork`, whose body is outside
the two source files (§4.6 step 3): for a present, user-accessible entry of
the parent, "if writable, clear W and set COW in the parent; set the same
flags in the child"; "in either case, incref the underlying frame and store
the cloned PTE in the child".  The Boolean tells whether the parent's entry
was demoted. -/
def ptefork_page (pm : physmem_t) (cpmap ppmap : pmap_t) (va : Nat) :
    Option (physmem_t × pmap_t × pmap_t × Bool) :=
  match pmap_lookup ppmap va with
  | none => some (pm, cpmap, ppmap, false)
  | some v =>
    if v &&& PTE_P = 0 ∨ v &&& PTE_U = 0 then some (pm, cpmap, ppmap, false)
    else
      let demote := decide (v &&& PTE_W ≠ 0)
      let v1 := if demote then (v - (v &&& PTE_W)) ||| PTE_COW else v
      match refup pm (v &&& PTE_ADDR) with
      | none => none
      | some pm1 =>
        some (pm1, pte_set (pmap_walk cpmap va) va v1, pte_set ppmap va v1, demote)

/-- Modelled from the spec: `ptefork(child.pmap, parent.pmap, start, end)`
walks the parent's entries page by page (§4.6 step 3) and reports whether
any entry was demoted; `n` is the number of pages from `start`. -/
def ptefork (pm : physmem_t) (cpmap ppmap : pmap_t) (start : Nat) :
    Nat → Option (physmem_t × pmap_t × pmap_t × Bool)
  | 0 => some (pm, cpmap, ppmap, false)
  | n + 1 =>
    match ptefork_page pm cpmap ppmap start with
    | none => none
    | some (pm1, c1, p1, d1) =>
      match ptefork pm1 c1 p1 (start + PGSIZE) n with
      | none => none
      | some (pm2, c2, p2, d2) => some (pm2, c2, p2, d1 || d2)

/-- The loop `parent.vmregion.iter` of `vm_fork`: `ptefork` over every
region of the parent. -/
def vm_fork_regions (pm : physmem_t) (cpmap ppmap : pmap_t) :
    List vminfo_t → Option (physmem_t × pmap_t × pmap_t × Bool)
  | [] => some (pm, cpmap, ppmap, false)
  | vmi :: r =>
    match ptefork pm cpmap ppmap (vmi.pgn <<< PGSHIFT) vmi.pglen with
    | none => none
    | some (pm1, c1, p1, d1) =>
      match vm_fork_regions pm1 c1 p1 r with
      | none => none
      | some (pm2, c2, p2, d2) => some (pm2, c2, p2, d1 || d2)

/-- Address-space fork: `proc_t.vm_fork`; the Boolean is `doflush`.  (The
kernel entries and the recursive slot that it first copies into the child's
root are not user mappings and do not show at the leaf level.) -/
def vm_fork (k : kern_t) (parent child : proc_t) (rsp : Nat) :
    Option (kern_t × proc_t × proc_t × List tlbev × Bool) :=
  match vm_fork_regions k.physmem child.pmap parent.pmap parent.vmregion with
  | none => none
  | some (pm1, cpmap, ppmap, doflush) =>
    let k1 := { k with physmem := pm1 }
    let parent1 := { parent with pmap := ppmap }
    let child1 := { child with pmap := cpmap, vmregion := parent.vmregion }
    let giveup := match pmap_lookup child1.pmap rsp with
      | none => true
      | some v => decide (v &&& PTE_P = 0 ∨ v &&& PTE_U = 0)
    if giveup then some (k1, parent1, child1, [], doflush)
    else
      let child2 := { child1 with pgfltaken := true }
      match vmregion_lookup child2.vmregion rsp with
      | none => none
      | some vmi =>
        match sys_pgfault k1 child2 vmi true rsp (PTE_U ||| PTE_W) with
        | none => none
        | some (k2, child3, ev) =>
          let child4 := { child3 with pgfltaken := false }
          match pmap_lookup parent1.pmap rsp with
          | none => none
          | some v =>
            if v &&& PTE_P = 0 ∨ v &&& PTE_U = 0 then none
            else
              let v1 := (v - (v &&& PTE_COW)) ||| (PTE_W ||| PTE_WASCOW)
              some (k2, { parent1 with pmap := pte_set parent1.pmap rsp v1 },
                child4, ev, doflush)

/-- The address space of a process made by `proc_new`: no user mapping, no
region, one thread, pmap lock free. -/
def proc_new (p_pmap : Nat) : proc_t :=
  { pmap := ⟨fun _ => false, fun _ => 0⟩, p_pmap := p_pmap, vmregion := [],
    pgfltaken := false, nthreads := 1 }

/-- The address-space part of `sys_fork` with `FORK_PROCESS`: a zeroed root
for the child, `vm_fork` under the parent's pmap lock with `rsp` taken
from the trap frame, and the flush of the parent.  Result: kernel memory,
parent, child, TLB maintenance. -/
def sys_fork (k : kern_t) (parent : proc_t) (rsp : Nat) :
    Option (kern_t × proc_t × proc_t × List tlbev) :=
  let parent1 := { parent with pgfltaken := true }
  match refpg_new k with
  | none => none
  | some (k1, p_pmap) =>
    match refup k1.physmem p_pmap with
    | none => none
    | some pm2 =>
      let k2 := { k1 with physmem := pm2 }
      let child := proc_new p_pmap
      match vm_fork k2 parent1 child rsp with
      | none => none
      | some (k3, parent2, child2, ev, doflush) =>
        match (if doflush then tlbshoot parent2 0 1 else some []) with
        | none => none
        | some ev2 =>
          some (k3, { parent2 with pgfltaken := false }, child2, ev ++ ev2)

/-- What the MMU does on a user load from `va`: the word of the mapped
frame when the entry is present and user accessible, `none` (page fault)
otherwise. -/
def mmu_read (k : kern_t) (p : proc_t) (va : Nat) : Option Nat :=
  match pmap_lookup p.pmap va with
  | none => none
  | some v =>
    if v &&& PTE_P ≠ 0 ∧ v &&& PTE_U ≠ 0 then
      some (k.mem (v &&& PTE_ADDR) (va &&& PGOFFSET))
    else none

/-- What the MMU does on a user store to `va`: the word of the mapped
frame is replaced when the entry is present, user accessible and writable,
`none` (page fault) otherwise. -/
def mmu_write (k : kern_t) (p : proc_t) (va val : Nat) : Option kern_t :=
  match pmap_lookup p.pmap va with
  | none => none
  | some v =>
    if v &&& PTE_P ≠ 0 ∧ v &&& PTE_U ≠ 0 ∧ v &&& PTE_W ≠ 0 then
      some { k with mem := fun f off =>
        if f = v &&& PTE_ADDR ∧ off = va &&& PGOFFSET then val else k.mem f off }
    else none

/-! ### A small machine for concrete runs

Eight frames at 0x1000 … 0x8000: the zero page, two frames mapped writable
at the first two user pages of a process (as `sys_mmap` maps them, with
`PTE_P | PTE_U | PTE_W`), the root of its page table, and four free
frames.  The second user page starts with the word 7. -/

/-- Frame descriptors of the small machine. -/
def ex_physmem : physmem_t :=
  { pgs := [⟨1, 0⟩, ⟨1, 0⟩, ⟨1, 0⟩, ⟨1, 0⟩, ⟨0, 5⟩, ⟨0, 6⟩, ⟨0, 7⟩, ⟨0, U32MAX⟩],
    startn := 1, freei := 4 }

/-- Kernel memory of the small machine. -/
def ex_kern : kern_t :=
  { physmem := ex_physmem, dmapinit := true,
    mem := fun f off => if f = 0x3000 ∧ off = 0 then 7 else 0,
    p_zeropg := 0x1000, mmapi := fun _ _ => 0x1000 }

/-- First user page of the small machine. -/
def ex_vaA : Nat := USERMIN

/-- Second user page of the small machine. -/
def ex_vaB : Nat := USERMIN + PGSIZE

/-- A process with one writable anonymous region of two pages, both
mapped writable. -/
def ex_parent : proc_t :=
  { pmap := { tbl := fun i => decide (i = USERMIN >>> 21),
              ent := fun pg =>
                if pg = ex_vaA >>> PGSHIFT then 0x2000 ||| PTE_P ||| PTE_U ||| PTE_W
                else if pg = ex_vaB >>> PGSHIFT then 0x3000 ||| PTE_P ||| PTE_U ||| PTE_W
                else 0 },
    p_pmap := 0x4000,
    vmregion := [⟨.VANON, USERMIN >>> PGSHIFT, 2, PTE_U ||| PTE_W, 0, 0⟩],
    pgfltaken := false, nthreads := 1 }

/-- Two forks of `ex_parent`, the first with the stack pointer in the first
page, the second with the stack pointer in the second page; then the
parent stores 9 at the start of the second page.  The result is what the
first child reads there after the first fork, what the parent's store
does (`true`: no page fault), and what the first child reads afterwards. -/
def ex_fork_twice : Option (Option Nat × Bool × Option Nat) :=
  match sys_fork ex_kern ex_parent (ex_vaA + 0x800) with
  | none => none
  | some (k1, parent1, child1, _) =>
    match sys_fork k1 parent1 (ex_vaB + 0x800) with
    | none => none
    | some (k2, parent2, _, _) =>
      match mmu_write k2 parent2 ex_vaB 9 with
      | none => some (mmu_read k1 child1 ex_vaB, false, mmu_read k2 child1 ex_vaB)
      | some k3 => some (mmu_read k1 child1 ex_vaB, true, mmu_read k3 child1 ex_vaB)

/-- A process with one read-only file region of one page, as `segload`
adds for a segment without `PF_W` (`vmadd_file` with perms `PTE_U`), that
has not been touched: its page table has no entry yet.  The pmap lock is
held, as the callers of `cowfault` hold it. -/
def ex_ro : proc_t :=
  { pmap := ⟨fun _ => false, fun _ => 0⟩, p_pmap := 0x4000,
    vmregion := [⟨.VFILE, USERMIN >>> PGSHIFT, 1, PTE_U, 0, 0⟩],
    pgfltaken := true, nthreads := 1 }

/-- A process as `sys_execv1` lays out its stack: a guard region of one
page with perms 0 (`vmadd_anon(stackva, PGSIZE, 0)`), above it a writable
stack region of six pages, and the top stack page mapped. -/
def ex_guard : proc_t :=
  { pmap := { tbl := fun i => decide (i = USERMIN >>> 21),
              ent := fun pg =>
                if pg = (USERMIN >>> PGSHIFT) + 6 then 0x2000 ||| PTE_P ||| PTE_U ||| PTE_W
                else 0 },
    p_pmap := 0x4000,
    vmregion := [⟨.VANON, USERMIN >>> PGSHIFT, 1, 0, 0, 0⟩,
                 ⟨.VANON, (USERMIN >>> PGSHIFT) + 1, 6, PTE_U ||| PTE_W, 0, 0⟩],
    pgfltaken := false, nthreads := 1 }

/-- The `int` whose 64-bit pattern is `u` (modulo 2^64). -/
def int64 (u : Nat) : Int :=
  if u % 2 ^ 64 < 2 ^ 63 then ((u % 2 ^ 64 : Nat) : Int)
  else ((u % 2 ^ 64 : Nat) : Int) - 2 ^ 64

/-- The 64-bit pattern of an `int`. -/
def uint64 (v : Int) : Nat := (v % 2 ^ 64).toNat

/-- Wrapping `int` addition. -/
def iadd (a b : Int) : Int := int64 (uint64 (a + b))

/-- Wrapping `int` multiplication. -/
def imul (a b : Int) : Int := int64 (uint64 (a * b))

/-- Element `a[i]` of a byte slice for an `int` index. -/
def byteat (a : List Nat) (i : Int) : Option Nat :=
  if i < 0 then none else (a.get? i.toNat).map (fun b => b % 256)

/-- The loop of `readn` from step `i` on, over the bit pattern of `ret`. -/
def readn_loop (a : List Nat) (off : Int) : Nat → Nat → Nat → Option Nat
  | 0, _, ret => some ret
  | n + 1, i, ret =>
    match byteat a (iadd off i) with
    | none => none
    | some b => readn_loop a off n (i + 1) (ret ||| ((b <<< (i * 8)) % 2 ^ 64))

/-- Little-endian read of `n` bytes at `off`: `readn`. -/
def readn (a : List Nat) (n : Nat) (off : Int) : Option Int :=
  (readn_loop a off n 0 0).map int64

/-- Size of an ELF field: `ELF_QUARTER`. -/
def ELF_QUARTER : Nat := 2

/-- Size of an ELF field: `ELF_HALF`. -/
def ELF_HALF : Nat := 4

/-- Size of an ELF field: `ELF_OFF`. -/
def ELF_OFF : Nat := 8

/-- Size of an ELF field: `ELF_ADDR`. -/
def ELF_ADDR : Nat := 8

/-- Size of an ELF field: `ELF_XWORD`. -/
def ELF_XWORD : Nat := 8

/-- The first block of an executable: `elf_t`. -/
structure elf_t where
  data : List Nat
deriving DecidableEq, Repr

/-- Program header: `elf_phdr`. -/
structure elf_phdr where
  etype : Int
  flags : Int
  vaddr : Int
  filesz : Int
  fileoff : Int
  memsz : Int
deriving DecidableEq, Repr

/-- Header validation: `elf_t.sanity`. -/
def elf_t.sanity (e : elf_t) : Option Bool :=
  match readn e.data ELF_HALF 0 with
  | none => none
  | some t =>
    if t ≠ 0x464c457f then some false
    else
      let dlen : Int := e.data.length
      match readn e.data ELF_QUARTER 0x34 with
      | none => none
      | some ehlen =>
        if dlen < ehlen then some false
        else
          match readn e.data ELF_OFF 0x20, readn e.data ELF_QUARTER 0x36,
              readn e.data ELF_QUARTER 0x38 with
          | some poff, some phsz, some phnum =>
            let phend := iadd poff (imul phsz phnum)
            if dlen < phend then some false else some true
          | _, _, _ => none

/-- Number of program headers: `elf_t.npheaders`. -/
def elf_t.npheaders (e : elf_t) : Option Int := readn e.data ELF_QUARTER 0x38

/-- Program header `c`: `elf_t.header` (`none` for its panic and for a
read outside the slice). -/
def elf_t.header (e : elf_t) (c : Int) : Option elf_phdr :=
  match e.npheaders with
  | none => none
  | some nph =>
    if c ≥ nph then none
    else
      match readn e.data ELF_OFF 0x20, readn e.data ELF_QUARTER 0x36 with
      | some hoff, some hsz =>
        let f := fun (w : Int) (sz : Nat) => readn e.data sz (iadd (iadd hoff (imul c hsz)) w)
        match f 0x0 ELF_HALF, f 0x4 ELF_HALF, f 0x8 ELF_OFF, f 0x10 ELF_ADDR,
            f 0x20 ELF_XWORD, f 0x28 ELF_XWORD with
        | some etype, some flags, some fileoff, some vaddr, some filesz, some memsz =>
          some ⟨etype, flags, vaddr, filesz, fileoff, memsz⟩
        | _, _, _, _, _, _ => none
      | _, _ => none

/-- Entry point: `elf_t.entry`. -/
def elf_t.entry (e : elf_t) : Option Int := readn e.data ELF_ADDR 0x18

/-- A first block of 64 bytes: the ELF magic, `e_ehsize` = 64, `e_phoff` =
64, `e_phentsize` = 0 and `e_phnum` = 1; every other byte is zero. -/
def ex_elf : elf_t :=
  ⟨(List.range 64).map (fun i =>
    if i = 0 then 0x7f else if i = 1 then 0x45 else if i = 2 then 0x4c
    else if i = 3 then 0x46 else if i = 0x20 then 64 else if i = 0x34 then 64
    else if i = 0x38 then 1 else 0)⟩

/-! ## Strings and argument vectors from user memory (`main.go`)

A slice returned by `userdmap8_inner` is a window on a frame of the direct
map: frame address and first offset.  `k.mem frame off` is read as the
byte at offset `off` of the frame. -/

/-- Length of a slice of a frame that starts at offset `sl.2`. -/
def slice_len (sl : Nat × Nat) : Nat := PGSIZE - sl.2

/-- Byte `j` of a slice of a frame. -/
def slice_byte (k : kern_t) (sl : Nat × Nat) (j : Nat) : Nat := k.mem sl.1 (sl.2 + j) % 256

/-- The first `n` bytes of a slice: `str[:n]`. -/
def slice_bytes (k : kern_t) (sl : Nat × Nat) (n : Nat) : List Nat :=
  (List.range n).map (slice_byte k sl)

/-- The scan `for j, c := range str { if c == 0 ... }` over the `n` bytes
from index `j` on: index of the first NUL. -/
def find_nul (k : kern_t) (sl : Nat × Nat) : Nat → Nat → Option Nat
  | 0, _ => none
  | n + 1, j => if slice_byte k sl j = 0 then some j else find_nul k sl n (j + 1)

/-- Release of the pmap lock: `Unlock_pmap`. -/
def Unlock_pmap (p : proc_t) : proc_t := { p with pgfltaken := false }

/-- Acquisition of the pmap lock: `Lock_pmap`. -/
def Lock_pmap (p : proc_t) : proc_t := { p with pgfltaken := true }

/-- The loop of `userstr` with `i` bytes consumed and `s` collected.  Every
round that goes on adds at least one byte to `s` and goes on only while
`len(s) < lenmax`, so `lenmax + 1` rounds are enough; `none` is a kernel
panic. -/
def userstr_loop (uva lenmax : Int) :
    Nat → kern_t → proc_t → List tlbev → Nat → List Nat →
      Option (kern_t × proc_t × List tlbev × List Nat × Bool × Bool)
  | 0, _, _, _, _, _ => none
  | fuel + 1, k, p, ev, i, s =>
    match userdmap8_inner k p (uva + i) false with
    | none => none
    | some (k1, p1, ev1, none) => some (k1, Unlock_pmap p1, ev ++ ev1, [], false, false)
    | some (k1, p1, ev1, some sl) =>
      match find_nul k1 sl (slice_len sl) 0 with
      | some j =>
        some (k1, Unlock_pmap p1, ev ++ ev1, s ++ slice_bytes k1 sl j, true, false)
      | none =>
        let s1 := s ++ slice_bytes k1 sl (slice_len sl)
        if lenmax ≤ (s1.length : Int) then
          some (k1, Unlock_pmap p1, ev ++ ev1, [], true, true)
        else userstr_loop uva lenmax fuel k1 p1 (ev ++ ev1) (i + slice_len sl) s1

/-- String from user memory: `proc_t.userstr`.  The result is the string,
whether it is mapped, and whether it is too long. -/
def userstr (k : kern_t) (p : proc_t) (uva lenmax : Int) :
    Option (kern_t × proc_t × List tlbev × List Nat × Bool × Bool) :=
  if lenmax < 0 then some (k, p, [], [], false, false)
  else userstr_loop uva lenmax (lenmax.toNat + 1) k (Lock_pmap p) [] 0 []

/-- Locked access for reading: `proc_t.userdmap8r` (`_userdmap8` with
`k2u` false). -/
def userdmap8r (k : kern_t) (p : proc_t) (va : Int) :
    Option (kern_t × proc_t × List tlbev × Option (Nat × Nat)) :=
  match userdmap8_inner k (Lock_pmap p) va false with
  | none => none
  | some (k1, p1, ev, r) => some (k1, Unlock_pmap p1, ev, r)

/-- The pointer held by the bytes `cptr`, little-endian, as `addarg`
assembles it. -/
def cptr_int (cptr : List Nat) : Int :=
  int64 ((cptr.enum.map (fun ib => (ib.2 <<< (ib.1 * 8)) % 2 ^ 64)).foldl (· ||| ·) 0)

/-- The closure `isnull` of `userargs`. -/
def isnull (cptr : List Nat) : Bool := cptr.all (fun b => decide (b = 0))

/-- The closure `addarg` of `userargs`: the new `ret`, or `none` inside
for its result false. -/
def addarg (k : kern_t) (p : proc_t) (ret : List (List Nat)) (cptr : List Nat) :
    Option (kern_t × proc_t × List tlbev × Option (List (List Nat))) :=
  let argmax := 64
  if ret.length > argmax then some (k, p, [], none)
  else
    let lenmax := 128
    match userstr k p (cptr_int cptr) lenmax with
    | none => none
    | some (k1, p1, ev, str, ok, long) =>
      if !ok || long then some (k1, p1, ev, none)
      else some (k1, p1, ev, some (ret ++ [str]))

/-- How the walk over one slice of the pointer vector ends. -/
inductive argscan where
  /-- An argument could not be added: `return nil, false`. -/
  | fail
  /-- The null pointer was read: `done = true; break`. -/
  | done (ret : List (List Nat))
  /-- The slice is used up. -/
  | more (curaddr : List Nat) (ret : List (List Nat))
deriving DecidableEq, Repr

/-- The loop `for _, ab := range ptrs` of `userargs` over the `n` bytes
from index `j` on. -/
def userargs_slice (sl : Nat × Nat) :
    Nat → Nat → kern_t → proc_t → List tlbev → List Nat → List (List Nat) →
      Option (kern_t × proc_t × List tlbev × argscan)
  | 0, _, k, p, ev, curaddr, ret => some (k, p, ev, .more curaddr ret)
  | n + 1, j, k, p, ev, curaddr, ret =>
    let curaddr1 := curaddr ++ [slice_byte k sl j]
    if curaddr1.length = 8 then
      if isnull curaddr1 then some (k, p, ev, .done ret)
      else
        match addarg k p ret curaddr1 with
        | none => none
        | some (k1, p1, ev1, none) => some (k1, p1, ev ++ ev1, .fail)
        | some (k1, p1, ev1, some ret1) =>
          userargs_slice sl n (j + 1) k1 p1 (ev ++ ev1) [] ret1
    else userargs_slice sl n (j + 1) k p ev curaddr1 ret

/-- The loop `for !done` of `userargs`.  A slice that is used up has let
through every pointer it held, and at most 66 pointers pass `addarg`, so
the loop ends in its second full slice at the latest; `none` is a kernel
panic. -/
def userargs_loop (uva : Int) :
    Nat → kern_t → proc_t → List tlbev → Nat → List Nat → List (List Nat) →
      Option (kern_t × proc_t × List tlbev × Option (List (List Nat)))
  | 0, _, _, _, _, _, _ => none
  | fuel + 1, k, p, ev, uoff, curaddr, ret =>
    match userdmap8r k p (uva + uoff) with
    | none => none
    | some (k1, p1, ev1, none) => some (k1, p1, ev ++ ev1, none)
    | some (k1, p1, ev1, some sl) =>
      match userargs_slice sl (slice_len sl) 0 k1 p1 (ev ++ ev1) curaddr ret with
      | none => none
      | some (k2, p2, ev2, .fail) => some (k2, p2, ev2, none)
      | some (k2, p2, ev2, .done ret2) => some (k2, p2, ev2, some ret2)
      | some (k2, p2, ev2, .more curaddr2 ret2) =>
        userargs_loop uva fuel k2 p2 ev2 (uoff + slice_len sl) curaddr2 ret2

/-- Argument vector from user memory: `proc_t.userargs`; `none` inside for
`(nil, false)`. -/
def userargs (k : kern_t) (p : proc_t) (uva : Int) :
    Option (kern_t × proc_t × List tlbev × Option (List (List Nat))) :=
  if uva = 0 then some (k, p, [], some [])
  else userargs_loop uva 4 k p [] 0 [] []

/-- Kernel memory of the small machine with two strings in the frame
0x2000 (the first user page of `ex_parent`): the bytes `aaa` at offset 0,
and the byte `b` at offset 4095, the last of the page.  Every other byte
is zero. -/
def ex_strkern : kern_t :=
  { ex_kern with
    mem := fun f off => if f = 0x2000 ∧ off < 3 then 0x61
      else if f = 0x2000 ∧ off = 4095 then 0x62 else 0 }

/-- Kernel memory of the small machine with a vector of `n` pointers at
the start of the frame 0x2000 (the first user page of `ex_parent`), each
the little-endian address `USERMIN + PGSIZE` = 0x2c8000001000 of the
second user page, followed by zeros; the second page holds the string of
the single byte 7. -/
def ex_argkern (n : Nat) : kern_t :=
  { ex_kern with
    mem := fun f off =>
      if f = 0x2000 ∧ off < 8 * n then
        (if off % 8 = 1 then 0x10 else if off % 8 = 4 then 0x80
         else if off % 8 = 5 then 0x2c else 0)
      else if f = 0x3000 ∧ off = 0 then 7 else 0 }

/-! ## The per-CPU trap ring (`main.go`, `trapstub` and `trap`)

One CPU's ring is the array `trapstore` with the indices `tshead` (written
by the interrupt stub) and `tstail` (written by the consumer).  A halt of
the stub (`for {}`) and a panic of the consumer are `none`. -/

/-- Size of a trap frame: `TFSIZE` (`syscall.go`). -/
def TFSIZE : Nat := 24

/-- Number of general registers in a trap frame: `TFREGS`. -/
def TFREGS : Nat := 17

/-- Index of the trap number in a trap frame: `TF_TRAP`. -/
def TF_TRAP : Nat := TFREGS

/-- Capacity of the ring: `maxtstore`. -/
def maxtstore : Int := 64

/-- Successor of a ring index: `tsnext` (Go's `%` truncates). -/
def tsnext (c : Int) : Int := (c + 1).tmod maxtstore

/-- Trap number of a page fault: `PGFAULT`. -/
def PGFAULT : Nat := 14

/-- Trap number of the timer: `TIMER`. -/
def TIMER : Nat := 32

/-- First interrupt vector of the IRQs: `IRQ_BASE`. -/
def IRQ_BASE : Nat := 32

/-- Keyboard IRQ: `IRQ_KBD`. -/
def IRQ_KBD : Nat := 1

/-- Serial line IRQ: `IRQ_COM1`. -/
def IRQ_COM1 : Nat := 4

/-- Keyboard interrupt vector: `INT_KBD`. -/
def INT_KBD : Nat := IRQ_BASE + IRQ_KBD

/-- Serial line interrupt vector: `INT_COM1`. -/
def INT_COM1 : Nat := IRQ_BASE + IRQ_COM1

/-- Trap record: `trapstore_t`. -/
structure trapstore_t where
  trapno : Nat
  faultaddr : Nat
  tf : List Nat
  inttime : Int
deriving DecidableEq, Repr

/-- The ring of one CPU: `cpu_t` (without the logical number). -/
structure cpu_t where
  trapstore : List trapstore_t
  tshead : Int
  tstail : Int
deriving DecidableEq, Repr

/-- The zero value of `trapstore_t`. -/
def trapstore_zero : trapstore_t := ⟨0, 0, List.replicate TFSIZE 0, 0⟩

/-- The zero value of `cpu_t`, an element of the global `cpus` at boot:
the empty ring. -/
def cpu_zero : cpu_t := ⟨List.replicate 64 trapstore_zero, 0, 0⟩

/-- What the stub gets from the hardware and the runtime: the trap frame,
`runtime.Nanotime()` and `runtime.Rcr2()`. -/
structure trapin where
  tf : List Nat
  now : Int
  cr2 : Nat
deriving DecidableEq, Repr

/-- The interrupt stub: `trapstub`, for the CPU it runs on.  `INT_DISK` is
the global variable of that name. -/
def trapstub (INT_DISK : Int) (c : cpu_t) (t : trapin) : Option cpu_t :=
  let head := c.tshead
  let tail := c.tstail
  if head < 0 then none
  else
    match c.trapstore.get? head.toNat with
    | none => none
    | some ts =>
      if tsnext head = tail then none
      else
        let ts1 := { ts with inttime := t.now }
        let trapno := t.tf.getD TF_TRAP 0
        if trapno ≤ TIMER then none
        else
          let ts2 := { ts1 with trapno := trapno, tf := t.tf }
          let ts3 := if trapno = PGFAULT then { ts2 with faultaddr := t.cr2 } else ts2
          let c1 := { c with trapstore := c.trapstore.set head.toNat ts3,
                             tshead := tsnext head }
          if trapno = uint64 INT_DISK ∨ trapno = INT_KBD ∨ trapno = INT_COM1 then some c1
          else none

/-- One iteration of the consumer `trap` on one CPU: the record handed to
a handler, if there is work.  `handlers` holds the keys of the handler
map. -/
def trap_cpu (handlers : List Int) (c : cpu_t) : Option (cpu_t × Option trapstore_t) :=
  let head := c.tshead
  let tail := c.tstail
  if tail = head then some (c, none)
  else if tail < 0 then none
  else
    match c.trapstore.get? tail.toNat with
    | none => none
    | some tcur =>
      let c1 := { c with tstail := tsnext tail }
      if int64 tcur.trapno ∈ handlers then some (c1, some tcur) else none

/-- An operation on the ring. -/
inductive ringop where
  /-- An interrupt arrives: `trapstub`. -/
  | enq (t : trapin)
  /-- The consumer looks at the ring: one iteration of `trap`. -/
  | deq
deriving DecidableEq, Repr

/-- One operation; with the state it gives the record that the stub left
in the ring (read back from the slot it wrote) and the record that the
consumer took out. -/
def ringstep (INT_DISK : Int) (handlers : List Int) (c : cpu_t) :
    ringop → Option (cpu_t × List trapstore_t × List trapstore_t)
  | .enq t =>
    match trapstub INT_DISK c t with
    | none => none
    | some c1 => some (c1, (c1.trapstore.get? c.tshead.toNat).toList, [])
  | .deq =>
    match trap_cpu handlers c with
    | none => none
    | some (c1, r) => some (c1, [], r.toList)

/-- A sequence of operations: the final ring, the records enqueued and the
records dequeued, each in order. -/
def ringrun (INT_DISK : Int) (handlers : List Int) (c : cpu_t) :
    List ringop → Option (cpu_t × List trapstore_t × List trapstore_t)
  | [] => some (c, [], [])
  | op :: ops =>
    match ringstep INT_DISK handlers c op with
    | none => none
    | some (c1, e1, d1) =>
      match ringrun INT_DISK handlers c1 ops with
      | none => none
      | some (c2, e2, d2) => some (c2, e1 ++ e2, d1 ++ d2)

/-- The traps of the enqueue operations of a sequence. -/
def enqs : List ringop → List trapin
  | [] => []
  | .enq t :: ops => t :: enqs ops
  | .deq :: ops => enqs ops

/-- Number of pending records of a ring with head `h` and tail `t`. -/
def pending (c : cpu_t) : Int := (c.tshead - c.tstail) % 64

/-- The relation between a ring and the records enqueued and dequeued so
far: the indices are in range, `n` records are pending, they sit in the
slots from the tail on in the order of arrival, and the dequeued records
are the first ones enqueued. -/
structure RInv (c : cpu_t) (E D : List trapstore_t) (t n : Nat) : Prop where
  len : c.trapstore.length = 64
  tail : c.tstail = (t : Int)
  tlt : t < 64
  nle : n ≤ 63
  head : c.tshead = (((t + n) % 64 : Nat) : Int)
  cnt : E.length = D.length + n
  fifo : D = E.take D.length
  slots : ∀ i, i < n → c.trapstore[(t + i) % 64]? = E[D.length + i]?

/-- A trap that the stub accepts: one of the three device interrupts. -/
def okirq (INT_DISK : Int) (t : trapin) : Prop :=
  TIMER < t.tf.getD TF_TRAP 0 ∧
  (t.tf.getD TF_TRAP 0 = uint64 INT_DISK ∨ t.tf.getD TF_TRAP 0 = INT_KBD ∨
    t.tf.getD TF_TRAP 0 = INT_COM1)

/-- A keyboard interrupt taken at time `now`. -/
def ex_kbd (now : Int) : trapin :=
  ⟨(List.replicate TFSIZE 0).set TF_TRAP INT_KBD, now, 0⟩

/-- The record that `trapstub` leaves in the empty ring for `ex_kbd now`. -/
def ex_rec (now : Int) : trapstore_t := ⟨INT_KBD, 0, (ex_kbd now).tf, now⟩

/-- Seven operations: three keyboard interrupts at times 5, 6 and 7 and
four looks of the consumer, the last one at the drained ring. -/
def ex_ringops : List ringop :=
  [.enq (ex_kbd 5), .enq (ex_kbd 6), .deq, .enq (ex_kbd 7), .deq, .deq, .deq]

/-- The ring after `ex_ringops`. -/
def ex_ring_end : cpu_t :=
  ⟨((cpu_zero.trapstore.set 0 (ex_rec 5)).set 1 (ex_rec 6)).set 2 (ex_rec 7), 3, 3⟩

/-- The ring after two keyboard interrupts and one look of the consumer. -/
def ex_ring_mid : cpu_t :=
  ⟨(cpu_zero.trapstore.set 0 (ex_rec 5)).set 1 (ex_rec 6), 2, 1⟩

/-! ## The frame allocator as a whole (`main.go`, `phys_init`, `dec_pmap`) -/

/-- Modelled from the spec: page-table flag `PS`, a large page (declared
outside the two source files, bit 7 on x86-64). -/
def PTE_PS : Nat := 0x80

/-- The local `respgs` of `phys_init`: the number of frame descriptors. -/
def respgs : Nat := 1 <<< 16

/-- The loop of `phys_init` from step `i` on; `gets` are the frames that
the following calls of `runtime.Get_phys()` return.  The bound on the
skipped frames is `int(float64(respgs)*0.01)`, here `respgs / 100`. -/
def phys_init_loop (n : Nat) : Nat → List Nat → physmem_t → Option physmem_t
  | i, [], pm => if i < n - 1 then none else some pm
  | i, p_pg :: gets, pm =>
    if i < n - 1 then
      let idx := (_pg2pgn p_pg + 2 ^ 32 - pm.startn % 2 ^ 32) % 2 ^ 32
      if pm.pgs.length ≤ idx then
        if n - i > n / 100 then none else some pm
      else
        phys_init_loop n (i + 1) gets
          { pm with pgs := pm.pgs.modify (fun _ => ⟨0, pm.freei⟩) idx, freei := idx }
    else some pm

/-- Boot of the allocator: `phys_init` with `n` for `respgs`; `gets` are
the frames that `runtime.Get_phys()` returns, call by call. -/
def phys_init_n (n : Nat) (gets : List Nat) : Option physmem_t :=
  match gets with
  | [] => none
  | first :: rest =>
    let pgs := List.replicate n (⟨-10, 0⟩ : physpg_t)
    if n = 0 then none
    else
      phys_init_loop n 0 rest
        { pgs := pgs.modify (fun _ => ⟨0, U32MAX⟩) 0, startn := _pg2pgn first, freei := 0 }

/-- Boot of the allocator: `phys_init`. -/
def phys_init (gets : List Nat) : Option physmem_t := phys_init_n respgs gets

/-- The walk of `pgcount` along the free list, at most `fuel` steps: the
indices met before the end mark. -/
def freelist_from (pgs : List physpg_t) : Nat → Nat → List Nat
  | 0, _ => []
  | fuel + 1, i =>
    if i = U32MAX then []
    else
      match pgs[i]? with
      | none => []
      | some d => i :: freelist_from pgs fuel d.nexti

/-- The indices on the free list, first to last. -/
def freelist (pm : physmem_t) : List Nat := freelist_from pm.pgs pm.pgs.length pm.freei

/-- The frames that `_scanadd` collects from the table in frame `pg`:
entry `i` of a table is the word at offset `8 * i`. -/
def _scanadd (mem : Nat → Nat → Nat) : Nat → Nat → List Nat
  | 0, _ => []
  | depth + 1, pg =>
    (List.range 512).flatMap (fun i =>
      let pte := mem pg (8 * i)
      if pte &&& PTE_P = 0 ∨ pte &&& PTE_U = 0 ∨ pte &&& PTE_PS ≠ 0 then []
      else (pte &&& PTE_ADDR) :: _scanadd mem depth (pte &&& PTE_ADDR))

/-- What happens to a frame. -/
inductive physev where
  /-- The frame with this index is handed out by `_refpg_new`. -/
  | alloc (idx : Nat)
  /-- The frame with this index is pushed on the free list by `_reffree`. -/
  | free (idx : Nat)
deriving DecidableEq, Repr

/-- Reference decrement with release, `refdown`, with the event. -/
def refdown_ev (pm : physmem_t) (p_pg : Nat) : Option (physmem_t × List physev) :=
  match _refdown pm p_pg with
  | none => none
  | some (pm1, add, idx) =>
    if add then some (_reffree pm1 idx, [.free idx]) else some (pm1, [])

/-- The loop `for _, p_pg := range pgs { refdown(p_pg) }` of `_vmfree`. -/
def _vmfree_loop (pm : physmem_t) : List Nat → Option (physmem_t × List physev)
  | [] => some (pm, [])
  | p_pg :: pgs =>
    match refdown_ev pm p_pg with
    | none => none
    | some (pm1, e1) =>
      match _vmfree_loop pm1 pgs with
      | none => none
      | some (pm2, e2) => some (pm2, e1 ++ e2)

/-- Release of the frames of an address space: `_vmfree`. -/
def _vmfree (k : kern_t) (p_pmap : Nat) : Option (physmem_t × List physev) :=
  _vmfree_loop k.physmem (_scanadd k.mem 4 p_pmap)

/-- Reference decrement of the root of a page table: `dec_pmap`. -/
def dec_pmap (k : kern_t) (p_pmap : Nat) : Option (kern_t × List physev) :=
  match _refdown k.physmem p_pmap with
  | none => none
  | some (pm1, freed, idx) =>
    if !freed then some ({ k with physmem := pm1 }, [])
    else
      match _vmfree { k with physmem := pm1 } p_pmap with
      | none => none
      | some (pm2, ev) => some ({ k with physmem := _reffree pm2 idx }, ev ++ [.free idx])

/-- A call into the allocator, or a store to memory between two calls. -/
inductive physop where
  /-- The call `_refpg_new()`, or `refpg_new()` when `zero` is set. -/
  | new (zero : Bool)
  /-- The call `refup(p_pg)`. -/
  | up (p_pg : Nat)
  /-- The call `refdown(p_pg)`. -/
  | down (p_pg : Nat)
  /-- The call `dec_pmap(p_pmap)`. -/
  | decpmap (p_pmap : Nat)
  /-- A store of `val` at offset `off` of a frame. -/
  | store (frame off val : Nat)
deriving DecidableEq, Repr

/-- One call; `none` is a panic. -/
def physstep (k : kern_t) : physop → Option (kern_t × List physev)
  | .new zero =>
    match (if zero then refpg_new k else _refpg_new k) with
    | none => none
    | some (k1, _) => some (k1, [.alloc k.physmem.freei])
  | .up p_pg =>
    match refup k.physmem p_pg with
    | none => none
    | some pm1 => some ({ k with physmem := pm1 }, [])
  | .down p_pg =>
    match refdown_ev k.physmem p_pg with
    | none => none
    | some (pm1, ev) => some ({ k with physmem := pm1 }, ev)
  | .decpmap p_pmap => dec_pmap k p_pmap
  | .store frame off val =>
    some ({ k with mem := fun f o => if f = frame ∧ o = off then val else k.mem f o }, [])

/-- A sequence of calls, with the events in order. -/
def physrun (k : kern_t) : List physop → Option (kern_t × List physev)
  | [] => some (k, [])
  | op :: ops =>
    match physstep k op with
    | none => none
    | some (k1, e1) =>
      match physrun k1 ops with
      | none => none
      | some (k2, e2) => some (k2, e1 ++ e2)

/-- Whether every `refup` of a sequence of calls is applied to a frame
that is not on the free list at that time. -/
def refup_held (k : kern_t) : List physop → Bool
  | [] => true
  | op :: ops =>
    (match op with
      | .up p_pg =>
        (match _refaddr k.physmem p_pg with
          | none => true
          | some (_, idx) => decide (idx ∉ freelist k.physmem))
      | _ => true) &&
    (match physstep k op with
      | none => true
      | some (k1, _) => refup_held k1 ops)

/-- The frames handed out and not freed since, after the events `ev`,
when `held` were so before. -/
def heldafter : List physev → List Nat → List Nat
  | [], held => held
  | .alloc i :: ev, held => heldafter ev (i :: held)
  | .free i :: ev, held => heldafter ev (held.filter (fun j => decide (j ≠ i)))

/-- Whether no event of `ev` hands out a frame that was handed out before
and not freed since, when `held` were handed out before. -/
def nodouble : List physev → List Nat → Bool
  | [], _ => true
  | .alloc i :: ev, held => decide (i ∉ held) && nodouble ev (i :: held)
  | .free i :: ev, held => nodouble ev (held.filter (fun j => decide (j ≠ i)))

/-- The list `L` is the free list that starts at index `i`: every index is
followed by its `nexti`, up to the end mark. -/
def IsChain (pgs : List physpg_t) : Nat → List Nat → Prop
  | i, [] => i = U32MAX
  | i, j :: L => i = j ∧ j ≠ U32MAX ∧ ∃ d, pgs[j]? = some d ∧ IsChain pgs d.nexti L

/-- Consistency of the frame descriptors with the free list `L`, for the
reserved indices `res`. -/
structure FInv (res : Nat → Prop) (pm : physmem_t) (L : List Nat) : Prop where
  lenb : pm.pgs.length ≤ U32MAX
  chain : IsChain pm.pgs pm.freei L
  nodup : L.Nodup
  free0 : ∀ j ∈ L, ∀ d, pm.pgs[j]? = some d → d.refcnt = 0
  cls : ∀ j d, pm.pgs[j]? = some d → (res j → 0 ≤ d.refcnt) ∧ (¬ res j → d.refcnt = -10)
  resv : ∀ j ∈ L, res j

/-- The frames that `phys_init` reserved: those it gave the count 0. -/
def reserved (pm0 : physmem_t) (j : Nat) : Prop :=
  ∃ d, pm0.pgs[j]? = some d ∧ d.refcnt = 0

/-- Consistency of the frame descriptors with the free list `L` and with
the frames `H` that are handed out and not freed since: none of them is on
the free list, and a frame with count 0 is on the free list or handed out
(or is one of `X`, the root that `dec_pmap` is about to free). -/
structure AInv (res : Nat → Prop) (X : List Nat) (pm : physmem_t) (L H : List Nat) :
    Prop where
  finv : FInv res pm L
  held : ∀ x ∈ H, x ∉ L
  zero : ∀ j d, pm.pgs[j]? = some d → d.refcnt = 0 → j ∈ L ∨ j ∈ H ∨ j ∈ X

/-- Index of the frame `p_pg` in `physmem.pgs` when the first frame has
number `startn`: the `uint32` difference computed by `_refaddr` and
`phys_init`. -/
def idxof (startn p_pg : Nat) : Nat := (_pg2pgn p_pg + 2 ^ 32 - startn % 2 ^ 32) % 2 ^ 32

/-- Consistency of the frame descriptors with the free list `L` while
`phys_init` builds it: the frames on the list have count 0, every other
one has the count -10. -/
structure PInv (pm : physmem_t) (L : List Nat) : Prop where
  lenb : pm.pgs.length ≤ U32MAX
  chain : IsChain pm.pgs pm.freei L
  nodup : L.Nodup
  all : ∀ j d, pm.pgs[j]? = some d → (j ∈ L → d.refcnt = 0) ∧ (j ∉ L → d.refcnt = -10)

/-- The frames that `runtime.Get_phys()` returns at boot on a machine whose
memory is one block from 1 MB on: frame after frame, `respgs` of them. -/
def ex_gets : List Nat :=
  0x100000 :: (List.range (respgs - 1)).map (fun i => 0x100000 + (i + 1) * PGSIZE)

/-- The kernel right after `phys_init`, with the direct map set up and
memory all zero. -/
def ex_boot (pm0 : physmem_t) : kern_t :=
  { physmem := pm0, dmapinit := true, mem := fun _ _ => 0, p_zeropg := 0,
    mmapi := fun _ _ => 0 }

/-- The state of the frame descriptors `pm`, reached from the descriptors
`pm0` that `phys_init` left by calls with the events `ev`, is sound:
a reserved frame has a count of at least 0 and an unreserved one the count
-10; a frame is on the free list exactly when its count is 0 and it is
not handed out (handed out by `_refpg_new` and not freed since); the free
list has no duplicates and runs to its end mark; and no frame was handed
out twice without a free in between. -/
def FramesOK (pm0 pm : physmem_t) (ev : List physev) : Prop :=
  (∀ j d, pm.pgs[j]? = some d →
    (reserved pm0 j → 0 ≤ d.refcnt) ∧ (¬ reserved pm0 j → d.refcnt = -10)) ∧
  (∀ j d, pm.pgs[j]? = some d →
    (j ∈ freelist pm ↔ d.refcnt = 0 ∧ j ∉ heldafter ev [])) ∧
  (freelist pm).Nodup ∧
  IsChain pm.pgs pm.freei (freelist pm) ∧
  nodouble ev [] = true

/-- Eight frames from 0x1000 on, as `Get_phys` returns them on a machine
with eight frames. -/
def ex_gets8 : List Nat := [0x1000, 0x2000, 0x3000, 0x4000, 0x5000, 0x6000, 0x7000, 0x8000]

/-- The descriptors after `phys_init` with eight descriptors on
`ex_gets8`: every frame on the free list, the last one first. -/
def ex_pm8 : physmem_t :=
  { pgs := [⟨0, U32MAX⟩, ⟨0, 0⟩, ⟨0, 1⟩, ⟨0, 2⟩, ⟨0, 3⟩, ⟨0, 4⟩, ⟨0, 5⟩, ⟨0, 6⟩],
    startn := 1, freei := 7 }

/-- Calls on the machine with eight frames: two frames are handed out and
referenced, the first is released and handed out again, and the second,
used as the root of an empty page table, is released by `dec_pmap`. -/
def ex_physops : List physop :=
  [.new false, .up 0x8000, .new true, .up 0x7000, .down 0x8000, .new false,
   .store 0x8000 0 1, .decpmap 0x7000]

/-! ## Exec (`syscall.go`, `sys_execv1`)

Go's `int` addresses and lengths are integers here; where the source
converts to `uintptr` the 64-bit pattern is taken.  A Go panic is `none`. -/

/-- Modelled from the spec: page-table flag `PCD`, cache disable (declared
outside the two source files, bit 4 on x86-64). -/
def PTE_PCD : Nat := 0x10

/-- Modelled from the spec: `rounddown(v, b)`, whose body is outside the
two source files: `v` lowered to a multiple of `b`. -/
def rounddown (v b : Int) : Int := v - v.tmod b

/-- Modelled from the spec: `roundup(v, b)`, whose body is outside the two
source files: `v` raised to a multiple of `b` (§4.7 `roundup(filesz)`). -/
def roundup (v b : Int) : Int := rounddown (v + b - 1) b

/-- Whether two regions share a page. -/
def vmi_overlap (a b : vminfo_t) : Bool :=
  decide (a.pgn < b.pgn + b.pglen ∧ b.pgn < a.pgn + a.pglen)

/-- Modelled from the spec: `vmregion_t.insert(vmi)`, whose body is outside
the two source files: "`insert(VmInfo)` (must not overlap)" (§4.3); an
overlap is a panic. -/
def vmregion_insert (vr : List vminfo_t) (vmi : vminfo_t) : Option (List vminfo_t) :=
  if vr.any (fun v => vmi_overlap v vmi) then none else some (vmi :: vr)

/-- Whether the `len` bytes from `va` on touch no region. -/
def vmregion_free (vr : List vminfo_t) (va len : Nat) : Bool :=
  vr.all (fun v => decide (va + len ≤ v.pgn * PGSIZE ∨ (v.pgn + v.pglen) * PGSIZE ≤ va))

/-- Modelled from the spec: `vmregion_t.empty(start, len)`, whose body is
outside the two source files: "`empty(start, len) → (va, max_len)`
returning the first free gap of sufficient size at or after `start`"
(§4.3).  The candidates are `start` and the ends of the regions above it;
the gap runs to the next region or to the end of the 48-bit space. -/
def vmregion_empty (vr : List vminfo_t) (start len : Nat) : Nat × Nat :=
  let cands := start :: (vr.map (fun v => (v.pgn + v.pglen) * PGSIZE)).filter
    (fun a => decide (start < a))
  let good := cands.filter (fun a => vmregion_free vr a len)
  let va := good.foldl min (good.headD start)
  let above := (vr.map (fun v => v.pgn * PGSIZE)).filter (fun a => decide (va ≤ a))
  let top := above.foldl min (1 <<< 48)
  (va, top - va)

/-- Region descriptor: `proc_t._mkvmi`. -/
def _mkvmi (mt : mtype_t) (start len perms foff : Int) (fops : Nat) : Option vminfo_t :=
  if (uint64 start ||| uint64 len) &&& PGOFFSET ≠ 0 then none
  else
    let pm := PTE_W ||| PTE_COW ||| PTE_WASCOW ||| PTE_PS ||| PTE_PCD ||| PTE_P ||| PTE_U
    let r := uint64 perms &&& pm
    if r ≠ 0 ∧ r ≠ PTE_U ∧ r ≠ (PTE_W ||| PTE_U) then none
    else
      some { mtype := mt, pgn := uint64 start >>> PGSHIFT,
             pglen := uint64 (roundup len PGSIZE) >>> PGSHIFT,
             perms := uint64 perms,
             foff := match mt with
               | .VFILE => uint64 foff
               | .VANON => 0,
             mfops := match mt with
               | .VFILE => fops
               | .VANON => 0 }

/-- Anonymous region: `proc_t.vmadd_anon`. -/
def vmadd_anon (p : proc_t) (start len perms : Int) : Option proc_t :=
  match _mkvmi .VANON start len perms 0 0 with
  | none => none
  | some vmi =>
    match vmregion_insert p.vmregion vmi with
    | none => none
    | some vr => some { p with vmregion := vr }

/-- File region: `proc_t.vmadd_file`. -/
def vmadd_file (p : proc_t) (start len perms : Int) (fops : Nat) (foff : Int) :
    Option proc_t :=
  match _mkvmi .VFILE start len perms foff fops with
  | none => none
  | some vmi =>
    match vmregion_insert p.vmregion vmi with
    | none => none
    | some vr => some { p with vmregion := vr }

/-- Free user address range: `proc_t.unusedva_inner`. -/
def unusedva_inner (p : proc_t) (startva len : Int) : Option Int :=
  if !p.pgfltaken then none
  else if len < 0 ∨ len > 1 <<< 48 then none
  else
    let startva1 := rounddown startva PGSIZE
    let startva2 := if startva1 < (USERMIN : Int) then (USERMIN : Int) else startva1
    let r := vmregion_empty p.vmregion (uint64 startva2) (uint64 len)
    let ret : Int := int64 r.1
    let l : Int := int64 r.2
    if startva2 > ret ∧ startva2 < ret + l then some startva2 else some ret

/-- The store `copy(dst, src)` into a slice of a frame, for `src` not
longer than the slice. -/
def memcpy (k : kern_t) (sl : Nat × Nat) (src : List Nat) : kern_t :=
  { k with mem := fun f o =>
      if f = sl.1 ∧ sl.2 ≤ o ∧ o < sl.2 + src.length then src.getD (o - sl.2) 0
      else k.mem f o }

/-- The loop of `k2user_inner` on the rest `src` of the bytes, with `cnt`
bytes copied.  Every round copies at least one byte, so `len(src) + 1`
rounds are enough. -/
def k2user_loop (uva : Int) :
    Nat → kern_t → proc_t → List tlbev → List Nat → Nat →
      Option (kern_t × proc_t × List tlbev × Bool)
  | 0, _, _, _, _, _ => none
  | fuel + 1, k, p, ev, src, cnt =>
    if src = [] then some (k, p, ev, true)
    else
      match userdmap8_inner k p (uva + cnt) true with
      | none => none
      | some (k1, p1, ev1, none) => some (k1, p1, ev ++ ev1, false)
      | some (k1, p1, ev1, some sl) =>
        let ub := min src.length (slice_len sl)
        k2user_loop uva fuel (memcpy k1 sl (src.take ub)) p1 (ev ++ ev1) (src.drop ub)
          (cnt + ub)

/-- Copy to user memory: `proc_t.k2user_inner`. -/
def k2user_inner (k : kern_t) (p : proc_t) (src : List Nat) (uva : Int) :
    Option (kern_t × proc_t × List tlbev × Bool) :=
  if !p.pgfltaken then none
  else k2user_loop uva (src.length + 1) k p [] src 0

/-- The loop of `writen` from step `i` on. -/
def writen_loop (v : Nat) (off : Int) : Nat → Nat → List Nat → Option (List Nat)
  | 0, _, a => some a
  | n + 1, i, a =>
    let j := iadd off i
    if j < 0 ∨ (a.length : Int) ≤ j then none
    else writen_loop v off n (i + 1) (a.set j.toNat ((v >>> (i * 8)) &&& 0xff))

/-- Little-endian store of `n` bytes at `off`: `writen`. -/
def writen (a : List Nat) (n : Nat) (off : Int) (val : Int) : Option (List Nat) :=
  writen_loop (uint64 val) off n 0 a

/-- The eight bytes of an `int`, little-endian, as `writen(.., 8, .., v)`
stores them. -/
def le8 (v : Int) : List Nat := (List.range 8).map (fun i => (uint64 v >>> (i * 8)) &&& 0xff)

/-- The loop of `insertargs` that copies the strings, each with its NUL,
to the argument page: the pointers so far and the bytes used, or `none`
inside when a copy fails. -/
def insertargs_copy (uva : Int) :
    List (List Nat) → kern_t → proc_t → List tlbev → List Int → Int →
      Option (kern_t × proc_t × List tlbev × Option (List Int × Int))
  | [], k, p, ev, argptrs, cnt => some (k, p, ev, some (argptrs, cnt))
  | arg :: args, k, p, ev, argptrs, cnt =>
    match k2user_inner k p (arg ++ [0]) (uva + cnt) with
    | none => none
    | some (k1, p1, ev1, false) => some (k1, p1, ev ++ ev1, none)
    | some (k1, p1, ev1, true) =>
      insertargs_copy uva args k1 p1 (ev ++ ev1) (argptrs ++ [uva + cnt])
        (cnt + (arg.length + 1 : Nat))

/-- The argument page of a new image: `insertargs`.  The result is `argc`
and `argv`, or `none` inside for its result false. -/
def insertargs (k : kern_t) (p : proc_t) (sargs : List (List Nat)) :
    Option (kern_t × proc_t × List tlbev × Option (Int × Int)) :=
  match unusedva_inner p 0 PGSIZE with
  | none => none
  | some uva =>
    match vmadd_anon p uva PGSIZE PTE_U with
    | none => none
    | some p1 =>
      match refpg_new k with
      | none => none
      | some (k1, p_pg) =>
        match page_insert k1 p1 (uint64 uva) p_pg PTE_U true with
        | none => none
        | some (k2, p2, ev2) =>
          match insertargs_copy uva sargs k2 p2 ev2 [] 0 with
          | none => none
          | some (k3, p3, ev3, none) => some (k3, p3, ev3, none)
          | some (k3, p3, ev3, some (ptrs, cnt)) =>
            let argptrs := ptrs ++ [0]
            let argstart := uva + cnt
            match userdmap8_inner k3 p3 argstart true with
            | none => none
            | some (k4, p4, ev4, none) => some (k4, p4, ev3 ++ ev4, none)
            | some (k4, p4, ev4, some vdata) =>
              if slice_len vdata < argptrs.length * 8 then some (k4, p4, ev3 ++ ev4, none)
              else
                some (memcpy k4 vdata (argptrs.flatMap le8), p4, ev3 ++ ev4,
                  some ((sargs.length : Int), argstart))

/-- All program headers: `elf_t.headers`. -/
def elf_t.headers (e : elf_t) : Option (List elf_phdr) :=
  match e.npheaders with
  | none => none
  | some pnum => (List.range pnum.toNat).mapM (fun i => e.header (i : Int))

/-- The bytes of a slice of a frame as they are now: `n` bytes from the
start of the slice. -/
def slice_read (k : kern_t) (sl : Nat × Nat) (n : Nat) : List Nat :=
  (List.range n).map (fun j => k.mem sl.1 (sl.2 + j) % 256)

/-- One loadable segment: `segload`.  `fops` is the identity of the file
object. -/
def segload (k : kern_t) (p : proc_t) (entry : Int) (hdr : elf_phdr) (fops : Nat) :
    Option (kern_t × proc_t × List tlbev) :=
  if hdr.vaddr.tmod PGSIZE ≠ hdr.fileoff.tmod PGSIZE then none
  else
    let PF_W : Nat := 2
    let perms : Nat := if uint64 hdr.flags &&& PF_W ≠ 0 then PTE_U ||| PTE_W else PTE_U
    let first : Option (kern_t × proc_t × List tlbev × Int) :=
      match vmregion_lookup p.vmregion (uint64 hdr.vaddr) with
      | none => some (k, p, [], 0)
      | some _ =>
        match userdmap8_inner k p hdr.vaddr true with
        | none => none
        | some (_, _, _, none) => none
        | some (k1, p1, ev1, some pg) =>
          let bsrc : Nat × Nat :=
            (k1.mmapi fops (uint64 hdr.fileoff), uint64 hdr.vaddr &&& PGOFFSET)
          if hdr.filesz < 0 then none
          else
            let n := if (slice_len pg : Int) > hdr.filesz then hdr.filesz.toNat
              else slice_len pg
            some (memcpy k1 pg (slice_read k1 bsrc (min n (slice_len bsrc))), p1, ev1,
              (n : Int))
    match first with
    | none => none
    | some (k1, p1, ev1, did) =>
      let filesz := roundup (hdr.vaddr + hdr.filesz - did) PGSIZE - rounddown hdr.vaddr PGSIZE
      match vmadd_file p1 (hdr.vaddr + did) filesz perms fops (hdr.fileoff + did) with
      | none => none
      | some p2 =>
        let second : Option (kern_t × proc_t × List tlbev) :=
          if entry ≥ hdr.vaddr ∧ entry < hdr.vaddr + hdr.memsz then
            match vmregion_lookup p2.vmregion (uint64 entry) with
            | none => none
            | some vmi =>
              match sys_pgfault k1 p2 vmi false (uint64 entry) PTE_U with
              | none => none
              | some (k3, p3, ev3) => some (k3, p3, ev1 ++ ev3)
          else some (k1, p2, ev1)
        match second with
        | none => none
        | some (k3, p3, ev3) =>
          if hdr.filesz = hdr.memsz then some (k3, p3, ev3)
          else
            let bssva := hdr.vaddr + hdr.filesz
            match userdmap8_inner k3 p3 bssva true with
            | none => none
            | some (_, _, _, none) => none
            | some (k4, p4, ev4, some bpg) =>
              let bsslen := hdr.memsz - hdr.filesz
              if bsslen < 0 then none
              else
                let n := if bsslen < (slice_len bpg : Int) then bsslen.toNat else slice_len bpg
                let k5 := memcpy k4 bpg (List.replicate n 0)
                let bssva1 := bssva + (n : Int)
                let bsslen1 := roundup (bsslen - (n : Int)) PGSIZE
                match vmadd_anon p4 bssva1 bsslen1 perms with
                | none => none
                | some p5 => some (k5, p5, ev3 ++ ev4)

/-- What the header loop of `elf_load` keeps about the TLS segment. -/
structure tlsinfo where
  istls : Bool
  tlssize : Int
  tlsaddr : Int
  tlscopylen : Int
deriving DecidableEq, Repr

/-- The loop `for _, hdr := range e.headers()` of `elf_load`. -/
def elf_load_segs (entry : Int) (fops : Nat) :
    List elf_phdr → kern_t → proc_t → List tlbev → tlsinfo →
      Option (kern_t × proc_t × List tlbev × tlsinfo)
  | [], k, p, ev, t => some (k, p, ev, t)
  | hdr :: hdrs, k, p, ev, t =>
    let PT_LOAD : Int := 1
    let PT_TLS : Int := 7
    if hdr.etype = PT_TLS then
      elf_load_segs entry fops hdrs k p ev
        ⟨true, roundup hdr.memsz 8, hdr.vaddr, hdr.filesz⟩
    else if hdr.etype = PT_LOAD ∧ hdr.vaddr ≥ (USERMIN : Int) then
      match segload k p entry hdr fops with
      | none => none
      | some (k1, p1, ev1) => elf_load_segs entry fops hdrs k1 p1 (ev ++ ev1) t
    else elf_load_segs entry fops hdrs k p ev t

/-- The loop of `elf_load` that maps the pages of the two TLS images, for
the page offsets `is`. -/
def elf_load_tlsmap (freshtls t0tls : Int) :
    List Nat → kern_t → proc_t → List tlbev → Option (kern_t × proc_t × List tlbev)
  | [], k, p, ev => some (k, p, ev)
  | i :: is, k, p, ev =>
    match refpg_new k with
    | none => none
    | some (k1, p_pg) =>
      match page_insert k1 p (uint64 (freshtls + i)) p_pg PTE_U true with
      | none => none
      | some (k2, p2, ev2) =>
        match page_insert k2 p2 (uint64 (t0tls + i)) p_pg (PTE_U ||| PTE_COW) true with
        | none => none
        | some (k3, p3, ev3) => elf_load_tlsmap freshtls t0tls is k3 p3 (ev ++ ev2 ++ ev3)

/-- The loop of `elf_load` that copies the TLS data to the fresh image,
from byte `i` on.  Every round advances by at least one byte. -/
def elf_load_tlscopy (tlsvmi : vminfo_t) (tlsaddr freshtls tlscopylen : Int) :
    Nat → Int → kern_t → proc_t → List tlbev → Option (kern_t × proc_t × List tlbev)
  | 0, _, _, _, _ => none
  | fuel + 1, i, k, p, ev =>
    if ¬ i < tlscopylen then some (k, p, ev)
    else
      let off := uint64 (tlsaddr + i) &&& PGOFFSET
      let src : Nat × Nat := (filepage k tlsvmi (uint64 (tlsaddr + i)), off)
      match userdmap8_inner k p (freshtls + i) true with
      | none => none
      | some (_, _, _, none) => none
      | some (k1, p1, ev1, some bpg) =>
        let left := tlscopylen - i
        let n := if (slice_len src : Int) > left then left.toNat else slice_len src
        elf_load_tlscopy tlsvmi tlsaddr freshtls tlscopylen fuel (i + (n : Int))
          (memcpy k1 bpg (slice_read k1 src (min n (slice_len bpg)))) p1 (ev ++ ev1)

/-- Image load: `elf_t.elf_load`.  The result ends with the address of the
fresh TLS image, the TLS pointer of thread 0 and the TLS size. -/
def elf_t.elf_load (e : elf_t) (k : kern_t) (p : proc_t) (fops : Nat) :
    Option (kern_t × proc_t × List tlbev × Int × Int × Int) :=
  match e.entry, e.headers with
  | some entry, some hdrs =>
    match elf_load_segs entry fops hdrs k p [] ⟨false, 0, 0, 0⟩ with
    | none => none
    | some (k1, p1, ev1, t) =>
      if !t.istls then some (k1, p1, ev1, 0, 0, t.tlssize)
      else
        let l := roundup (t.tlsaddr + t.tlssize) PGSIZE - rounddown t.tlsaddr PGSIZE
        match unusedva_inner p1 0 (2 * l) with
        | none => none
        | some freshtls =>
          let t0tls := freshtls + l
          match vmadd_anon p1 freshtls l PTE_U with
          | none => none
          | some p2 =>
            match vmadd_anon p2 t0tls l (PTE_U ||| PTE_W) with
            | none => none
            | some p3 =>
              let pages := (List.range (l.toNat / PGSIZE + 1)).map (fun j => j * PGSIZE)
              match elf_load_tlsmap freshtls t0tls
                  (pages.filter (fun i => decide ((i : Int) < l))) k1 p3 ev1 with
              | none => none
              | some (k4, p4, ev4) =>
                match vmregion_lookup p4.vmregion (uint64 t.tlsaddr) with
                | none => none
                | some tlsvmi =>
                  match elf_load_tlscopy tlsvmi t.tlsaddr freshtls t.tlscopylen
                      (t.tlscopylen.toNat + 1) 0 k4 p4 ev4 with
                  | none => none
                  | some (k5, p5, ev5) =>
                    some (k5, p5, ev5, freshtls, t0tls + t.tlssize, t.tlssize)
  | _, _ => none

/-- Index of `FSBASE` in a trap frame: `TF_FSBASE`. -/
def TF_FSBASE : Nat := 1

/-- Index of `RSI` in a trap frame: `TF_RSI`. -/
def TF_RSI : Nat := 11

/-- Index of `RDI` in a trap frame: `TF_RDI`. -/
def TF_RDI : Nat := 12

/-- Index of `RDX` in a trap frame: `TF_RDX`. -/
def TF_RDX : Nat := 13

/-- Index of `RIP` in a trap frame: `TF_RIP`. -/
def TF_RIP : Nat := TFREGS + 2

/-- Index of `CS` in a trap frame: `TF_CS`. -/
def TF_CS : Nat := TFREGS + 3

/-- Index of `RFLAGS` in a trap frame: `TF_RFLAGS`. -/
def TF_RFLAGS : Nat := TFREGS + 4

/-- Index of `RSP` in a trap frame: `TF_RSP`. -/
def TF_RSP : Nat := TFREGS + 5

/-- Index of `SS` in a trap frame: `TF_SS`. -/
def TF_SS : Nat := TFREGS + 6

/-- The interrupt flag of `RFLAGS`: `TF_FL_IF`. -/
def TF_FL_IF : Int := 1 <<< 9

/-- Error number `EPERM`. -/
def EPERM : Int := 1

/-- Error number `EBADF`. -/
def EBADF : Int := 9

/-- Error number `EINVAL`. -/
def EINVAL : Int := 22

/-- Descriptor flag: `FD_CLOEXEC`. -/
def FD_CLOEXEC : Nat := 0x4

/-- File descriptor: `fd_t`; `fops` is the identity of the file object. -/
structure fd_t where
  fops : Nat
  perms : Nat
deriving DecidableEq, Repr

/-- The part of `proc_t` that exec uses: the address space (`vm`), the
descriptor table `fds` with `fdstart`, the mmap cursor `mmapi` and the
name. -/
structure procfd_t where
  vm : proc_t
  fds : List (Option fd_t)
  fdstart : Int
  mmapi : Int
  name : List Nat

/-- What exec gets from outside the two source files: the file system
(`fs_open` by path: the descriptor of the file and an error number), the
file objects (`fops.read` of the first block: the bytes read and an error
number; `fops.close`: an error number) and `runtime.Pspercycle`. -/
structure execenv where
  fs_open : List Nat → fd_t × Int
  fread : Nat → List Nat × Int
  fclose : Nat → Int
  pspercycle : Int

/-- Removal of a descriptor: `proc_t.fd_del`. -/
def fd_del (p : procfd_t) (fdn : Int) : procfd_t × Option fd_t :=
  if fdn < 0 ∨ fdn ≥ (p.fds.length : Int) then (p, none)
  else
    let ret := (p.fds.get? fdn.toNat).join
    let p1 := { p with fds := p.fds.set fdn.toNat none }
    let ok := ret.isSome
    if ok ∧ fdn < p.fdstart then ({ p1 with fdstart := fdn }, ret) else (p1, ret)

/-- The system call `sys_close`: the process, the file object that was
closed if any, and the result. -/
def sys_close (env : execenv) (p : procfd_t) (fdn : Int) : procfd_t × List Nat × Int :=
  match fd_del p fdn with
  | (p1, none) => (p1, [], -EBADF)
  | (p1, some fd) => (p1, [fd.fops], env.fclose fd.fops)

/-- The loop of `sys_execv1` over the descriptor table that closes the
descriptors marked `FD_CLOEXEC`, for the slots `fdns`; `closed` lists the
file objects closed so far. -/
def cloexec_loop (env : execenv) :
    List Nat → procfd_t → List Nat → Option (procfd_t × List Nat)
  | [], p, closed => some (p, closed)
  | fdn :: fdns, p, closed =>
    match (p.fds.get? fdn).join with
    | none => cloexec_loop env fdns p closed
    | some fd =>
      if fd.perms &&& FD_CLOEXEC ≠ 0 then
        match sys_close env p fdn with
        | (p1, c, r) =>
          if r ≠ 0 then none else cloexec_loop env fdns p1 (closed ++ c)
      else cloexec_loop env fdns p closed

/-- The result of `sys_execv1`: kernel memory, the process, the caller's
trap frame, the file objects closed (in order), the TLB maintenance, and
the value returned. -/
structure execres where
  k : kern_t
  p : procfd_t
  tf : List Int
  closed : List Nat
  ev : List tlbev
  ret : Int

/-- The closure `restore` of `sys_execv1`: the new root is released and the
saved page table, root address and regions are put back. -/
def exec_restore (k : kern_t) (vm : proc_t) (opmap : pmap_t) (op_pmap : Nat)
    (ovmreg : List vminfo_t) : Option (kern_t × proc_t) :=
  match refdown k.physmem vm.p_pmap with
  | none => none
  | some pm1 =>
    some ({ k with physmem := pm1 },
      { vm with pmap := opmap, p_pmap := op_pmap, vmregion := ovmreg })

/-- The return of `sys_execv1` once the file is open: the deferred
`close_panic(file)` and `Unlock_pmap`. -/
def exec_return (env : execenv) (file : fd_t) (k : kern_t) (p : procfd_t) (vm : proc_t)
    (tf : List Int) (closed : List Nat) (ev : List tlbev) (ret : Int) : Option execres :=
  if env.fclose file.fops ≠ 0 then none
  else
    some ⟨k, { p with vm := Unlock_pmap vm }, tf, closed ++ [file.fops], ev, ret⟩

/-- The descriptor that `sys_execv1` puts on the stack: four words. -/
def exec_buf (freshtls tlssz t0tls pspercycle : Int) : Option (List Nat) :=
  match writen (List.replicate (4 * 8) 0) 8 0 freshtls with
  | none => none
  | some b1 =>
    match writen b1 8 8 tlssz with
    | none => none
    | some b2 =>
      match writen b2 8 16 t0tls with
      | none => none
      | some b3 => writen b3 8 24 pspercycle

/-- The last part of `sys_execv1`, after `insertargs` has succeeded: the
old address space is freed, the descriptors marked `FD_CLOEXEC` are
closed, the descriptor is copied to the top of the stack, and the trap
frame, the mmap cursor and the name are set. -/
def exec_commit (env : execenv) (file : fd_t) (e : elf_t) (k : kern_t) (p : procfd_t)
    (vm : proc_t) (tf : List Int) (paths : List Nat) (ev : List tlbev) (op_pmap : Nat)
    (freshtls t0tls tlssz stackva argc argv : Int) : Option execres :=
  match (if op_pmap ≠ 0 then (dec_pmap k op_pmap).map Prod.fst else some k) with
  | none => none
  | some k1 =>
    match cloexec_loop env (List.range p.fds.length) p [] with
    | none => none
    | some (p1, closed) =>
      match exec_buf freshtls tlssz t0tls env.pspercycle with
      | none => none
      | some buf =>
        let words : Int := 4
        let bufdest := stackva - words * 8
        let tls0addr := bufdest + 2 * 8
        match k2user_inner k1 vm buf bufdest with
        | none => none
        | some (_, _, _, false) => none
        | some (k2, vm2, ev2, true) =>
          match e.entry with
          | none => none
          | some entry =>
            let ucseg : Int := 5
            let udseg : Int := 6
            let tf1 := tf.set TF_RSP bufdest
            let tf2 := tf1.set TF_RIP entry
            let tf3 := tf2.set TF_RFLAGS TF_FL_IF
            let tf4 := tf3.set TF_CS (Int.lor (ucseg <<< 3) 3)
            let tf5 := tf4.set TF_SS (Int.lor (udseg <<< 3) 3)
            let tf6 := tf5.set TF_RDI argc
            let tf7 := tf6.set TF_RSI argv
            let tf8 := tf7.set TF_RDX bufdest
            let tf9 := tf8.set TF_FSBASE tls0addr
            exec_return env file k2 { p1 with mmapi := (USERMIN : Int), name := paths } vm2
              tf9 closed (ev ++ ev2) 0

/-- The stack of a new image, as `sys_execv1` maps it: seven pages found
from `0xff << 39` on, the lowest a guard region, the top page mapped.  The
result ends with the top of the stack. -/
def exec_stack (k : kern_t) (vm : proc_t) : Option (kern_t × proc_t × List tlbev × Int) :=
  let numstkpages : Int := 6
  let stksz : Int := (numstkpages + 1) * PGSIZE
  match unusedva_inner vm (0x0ff <<< 39) stksz with
  | none => none
  | some stackva =>
    match vmadd_anon vm stackva PGSIZE 0 with
    | none => none
    | some vm1 =>
      match vmadd_anon vm1 (stackva + PGSIZE) (stksz - PGSIZE) (PTE_U ||| PTE_W : Nat) with
      | none => none
      | some vm2 =>
        let stackva1 := stackva + stksz
        match refpg_new k with
        | none => none
        | some (k1, p_pg) =>
          match page_insert k1 vm2 (uint64 (stackva1 - 1)) p_pg (PTE_U ||| PTE_W) true with
          | none => none
          | some (k2, vm3, ev) => some (k2, vm3, ev, stackva1)

/-- Replacement of the image of a process: `sys_execv1`.  `paths` and
`args` are the path and the arguments as byte strings.  The new page
table is empty in the leaf-level view (the kernel entries `kents` that are
copied into the new root are not user mappings), and `ovmreg.clear()`,
which acts on the file objects behind the old regions, has no effect on
the state kept here. -/
def sys_execv1 (env : execenv) (k : kern_t) (p : procfd_t) (tf : List Int)
    (paths : List Nat) (args : List (List Nat)) : Option execres :=
  if p.vm.nthreads > 1 then none
  else
    let vm0 := Lock_pmap p.vm
    let ovmreg := vm0.vmregion
    let opmap := vm0.pmap
    let op_pmap := vm0.p_pmap
    match refpg_new k with
    | none => none
    | some (k1, p_pmap) =>
      match refup k1.physmem p_pmap with
      | none => none
      | some pm2 =>
        let k2 := { k1 with physmem := pm2 }
        let vm1 := { vm0 with vmregion := [], pmap := ⟨fun _ => false, fun _ => 0⟩,
                              p_pmap := p_pmap }
        let file := (env.fs_open paths).1
        let err := (env.fs_open paths).2
        if err ≠ 0 then
          match exec_restore k2 vm1 opmap op_pmap ovmreg with
          | none => none
          | some (k3, vm3) => some ⟨k3, { p with vm := Unlock_pmap vm3 }, tf, [], [], err⟩
        else
          let data := (env.fread file.fops).1
          let err := (env.fread file.fops).2
          if err ≠ 0 then
            match exec_restore k2 vm1 opmap op_pmap ovmreg with
            | none => none
            | some (k3, vm3) => exec_return env file k3 p vm3 tf [] [] err
          else
            let elfhdr : elf_t := ⟨data.take 512⟩
            match elfhdr.sanity with
            | none => none
            | some false =>
              match exec_restore k2 vm1 opmap op_pmap ovmreg with
              | none => none
              | some (k3, vm3) => exec_return env file k3 p vm3 tf [] [] (-EPERM)
            | some true =>
              match elfhdr.elf_load k2 vm1 file.fops with
              | none => none
              | some (k4, vm4, ev4, freshtls, t0tls, tlssz) =>
                match exec_stack k4 vm4 with
                | none => none
                | some (k5, vm5, ev5, stackva) =>
                  match insertargs k5 vm5 args with
                  | none => none
                  | some (k6, vm6, ev6, none) =>
                    match exec_restore k6 vm6 opmap op_pmap ovmreg with
                    | none => none
                    | some (k7, vm7) =>
                      exec_return env file k7 p vm7 tf [] (ev4 ++ ev5 ++ ev6) (-EINVAL)
                  | some (k6, vm6, ev6, some (argc, argv)) =>
                    exec_commit env file elfhdr k6 p vm6 tf paths (ev4 ++ ev5 ++ ev6)
                      op_pmap freshtls t0tls tlssz stackva argc argv

/-- Whether a slot of the descriptor table holds a descriptor marked
`FD_CLOEXEC`. -/
def cloexec (o : Option fd_t) : Bool :=
  match o with
  | some fd => decide (fd.perms &&& FD_CLOEXEC ≠ 0)
  | none => false

/-- A slot after the close-on-exec pass: emptied when it was marked. -/
def cloexec_strip (o : Option fd_t) : Option fd_t := if cloexec o then none else o

/-- The file object of a slot that the close-on-exec pass closes. -/
def cloexec_fops (o : Option fd_t) : Option Nat := if cloexec o then o.map (fun fd => fd.fops) else none

/-- The trap frame that `sys_execv1` commits, from the caller's frame. -/
def exec_tf (tf : List Int) (bufdest entry argc argv : Int) : List Int :=
  ((((((((tf.set TF_RSP bufdest).set TF_RIP entry).set TF_RFLAGS TF_FL_IF).set TF_CS
    (Int.lor (5 <<< 3) 3)).set TF_SS (Int.lor (6 <<< 3) 3)).set TF_RDI argc).set TF_RSI
    argv).set TF_RDX bufdest).set TF_FSBASE (bufdest + 2 * 8)

/-- A first block of 64 bytes for an image without program headers: the
ELF magic, entry point 0x2c8000001000 (`e_entry` at 0x18), `e_phoff` = 64,
`e_ehsize` = 64, `e_phentsize` = 56 and `e_phnum` = 0. -/
def ex_elf0 : List Nat :=
  (List.range 64).map (fun i =>
    if i = 0 then 0x7f else if i = 1 then 0x45 else if i = 2 then 0x4c
    else if i = 3 then 0x46 else if i = 0x19 then 0x10 else if i = 0x1c then 0x80
    else if i = 0x1d then 0x2c else if i = 0x20 then 64 else if i = 0x34 then 64
    else if i = 0x36 then 56 else 0)

/-- The `n` low bytes of `v`, little-endian. -/
def lebytes (n v : Nat) : List Nat := (List.range n).map (fun i => (v >>> (8 * i)) % 256)

/-- A program header of 56 bytes: type, flags, file offset, virtual
address, file size and memory size. -/
def ex_phdr (ptype flags off vaddr filesz memsz : Nat) : List Nat :=
  lebytes 4 ptype ++ lebytes 4 flags ++ lebytes 8 off ++ lebytes 8 vaddr ++ lebytes 8 0 ++
    lebytes 8 filesz ++ lebytes 8 memsz ++ lebytes 8 0

/-- A first block of 176 bytes for an image with a TLS segment: the ELF
header (entry point 0x2c8000001000, two program headers of 56 bytes from
offset 64 on), a `PT_LOAD` header for 0x100 bytes of the file at
0x2c8000001000, and a `PT_TLS` header for 16 bytes at 0x2c8000001080, the
first 8 of them in the file. -/
def ex_elf_tls : List Nat :=
  [0x7f, 0x45, 0x4c, 0x46] ++ List.replicate 20 0 ++ lebytes 8 0x2c8000001000 ++
    lebytes 8 64 ++ List.replicate 12 0 ++ lebytes 2 64 ++ lebytes 2 56 ++ lebytes 2 2 ++
    List.replicate 6 0 ++ ex_phdr 1 4 0 0x2c8000001000 0x100 0x100 ++
    ex_phdr 7 4 0x80 0x2c8000001080 8 16

/-- A file system with three files: at the path `a` (file object 20) an
image without program headers, first block `ex_elf0`; at the path `t`
(file object 22) an image with a TLS segment, first block `ex_elf_tls`;
at the path `b` (file object 21) 64 zero bytes, not an ELF image.  Every
other path gives `ENOENT`.  Closing succeeds, and `Pspercycle` is 3. -/
def ex_env : execenv :=
  { fs_open := fun path =>
      if path = [0x61] then (⟨20, 1⟩, 0) else if path = [0x62] then (⟨21, 1⟩, 0)
      else if path = [0x74] then (⟨22, 1⟩, 0) else (⟨0, 0⟩, -2),
    fread := fun fops =>
      if fops = 20 then (ex_elf0, 0) else if fops = 22 then (ex_elf_tls, 0)
      else (List.replicate 64 0, 0),
    fclose := fun _ => 0,
    pspercycle := 3 }

/-- The process `ex_parent` with thirteen descriptors: 0, 1 and 2 plain,
3 to 12 marked `FD_CLOEXEC`; descriptor `i` is the file object `100 + i`. -/
def ex_proc : procfd_t :=
  { vm := ex_parent,
    fds := (List.range 13).map (fun i =>
      some ⟨100 + i, if i < 3 then 3 else 3 ||| FD_CLOEXEC⟩),
    fdstart := 13, mmapi := 0x2c8000040000, name := [0x73, 0x68] }

/-- A trap frame with the register of index `i` holding `1000 + i`. -/
def ex_tf : List Int := (List.range TFSIZE).map (fun i => (1000 + i : Int))

/-- Status bit `SIGNALED = 1 << 11`. -/
def SIGNALED : Int := 2048

/-- Position of the signal number in a status: `SIGSHIFT`. -/
def SIGSHIFT : Nat := 27

/-- The status that the `SYS_EXIT` case of `syscall` hands to `sys_exit`
for the argument `a1`: `status := a1 & 0xff; status |= EXITED`. -/
def exit_status (a1 : Int) : Int := int64 ((uint64 a1 &&& 0xff) ||| uint64 EXITED)

/-- The signal field of a status: `mkexitsig`; `none` is its panic. -/
def mkexitsig (sig : Int) : Option Int :=
  if sig < 0 ∨ sig > 32 then none else some (int64 (uint64 sig <<< SIGSHIFT))

/-- The status of a process killed by a signal, as the callers of
`sys_exit` build it: `SIGNALED | mkexitsig(sig)`. -/
def sig_status (sig : Int) : Option Int :=
  (mkexitsig sig).map (fun s => int64 (uint64 SIGNALED ||| uint64 s))
/-! ## Descriptor duplication (`syscall.go`, `sys_dup2`)

A file object is known by its identity; what `fops.reopen()` and
`fops.close()` return comes from outside the two source files, and the calls
made are listed in order. -/

/-- What the file objects answer: the error number of `fops.reopen()` and
of `fops.close()`, by object. -/
structure fopsenv where
  reopen : Nat → Int
  close : Nat → Int

/-- A call on a file object. -/
inductive fopev where
  /-- The call `fops.reopen()`. -/
  | reopen (fops : Nat)
  /-- The call `fops.close()`. -/
  | close (fops : Nat)
deriving DecidableEq, Repr

/-- Lookup of a descriptor: `proc_t.fd_get_inner`; `none` is its result
false. -/
def fd_get_inner (p : procfd_t) (fdn : Int) : Option fd_t :=
  if fdn < 0 ∨ fdn ≥ (p.fds.length : Int) then none
  else (p.fds.get? fdn.toNat).join

/-- Lookup of a descriptor under the table lock: `proc_t.fd_get`. -/
def fd_get (p : procfd_t) (fdn : Int) : Option fd_t := fd_get_inner p fdn

/-- Copy of a descriptor with a new reference on its object: `copyfd`. -/
def copyfd (env : fopsenv) (fd : fd_t) : Option fd_t × Int :=
  let nfd := fd
  let err := env.reopen nfd.fops
  if err ≠ 0 then (none, err) else (some nfd, 0)

/-- The operation `perms &^= FD_CLOEXEC` on the bit pattern of `perms`. -/
def clear_cloexec (perms : Nat) : Nat := perms &&& ((2 ^ 64 - 1) ^^^ FD_CLOEXEC)

/-- The system call `sys_dup2`: the process, the calls made on file
objects, and the value returned; `none` is a panic of the kernel (an index
outside the descriptor table, or `close_panic`). -/
def sys_dup2 (env : fopsenv) (proc : procfd_t) (oldn newn : Int) :
    Option (procfd_t × List fopev × Int) :=
  if oldn = newn then some (proc, [], newn)
  else
    match fd_get proc oldn with
    | none => some (proc, [], -EBADF)
    | some ofd =>
      match copyfd env ofd with
      | (none, err) => some (proc, [.reopen ofd.fops], err)
      | (some nfd0, _) =>
        let nfd : fd_t := { nfd0 with perms := clear_cloexec nfd0.perms }
        if newn < 0 ∨ newn ≥ (proc.fds.length : Int) then none
        else
          let cfd := (proc.fds.get? newn.toNat).join
          let proc1 := { proc with fds := proc.fds.set newn.toNat (some nfd) }
          match cfd with
          | none => some (proc1, [.reopen ofd.fops], newn)
          | some c =>
            if env.close c.fops ≠ 0 then none
            else some (proc1, [.reopen ofd.fops, .close c.fops], newn)

/-- File objects that accept every `reopen` and `close`. -/
def ex_fops : fopsenv := { reopen := fun _ => 0, close := fun _ => 0 }
/-! ## Pollers (`syscall.go`, `pollmsg_t` and `pollers_t`)

A channel is known by a number; 0 is the nil channel.  A non-blocking send
on the one-element channel of a poller is listed by the number of the
channel, in the order of the sends. -/

/-- Readiness bit `R_READ`. -/
def R_READ : Nat := 1

/-- Readiness bit `R_WRITE`. -/
def R_WRITE : Nat := 2

/-- Readiness bit `R_ERROR`. -/
def R_ERROR : Nat := 4

/-- Readiness bit `R_HUP`. -/
def R_HUP : Nat := 8

/-- Message of a polling thread: `pollmsg_t`. -/
structure pollmsg_t where
  notif : Nat
  events : Nat
  dowait : Bool
  tid : Int
deriving DecidableEq, Repr

/-- The zero value of `pollmsg_t`. -/
def pollmsg_zero : pollmsg_t := ⟨0, 0, false, 0⟩

/-- Setting of a message: `pollmsg_t.pm_set`; `newch` is the channel that
`make(chan bool, 1)` returns when the message has none yet. -/
def pollmsg_t.pm_set (pm : pollmsg_t) (newch : Nat) (tid : Int) (events : Nat)
    (dowait : Bool) : pollmsg_t :=
  { notif := if pm.notif = 0 then newch else pm.notif,
    events := events, dowait := dowait, tid := tid }

/-- Outstanding pollers of an object: `pollers_t`; the nil slice is the
empty list. -/
structure pollers_t where
  allmask : Nat
  waiters : List pollmsg_t
deriving DecidableEq, Repr

/-- The zero value of `pollers_t`. -/
def pollers_zero : pollers_t := ⟨0, []⟩

/-- The loop of `_find` from slot `i` on: the index of the slot of `tid`
and the index of the first empty slot seen before it. -/
def _find_loop (tid : Int) (empty : Bool) :
    List pollmsg_t → Nat → Option Nat → Option Nat × Option Nat
  | [], _, eret => (none, eret)
  | w :: ws, i, eret =>
    if w.tid = tid then (some i, eret)
    else if empty ∧ eret = none ∧ w.tid = 0 then _find_loop tid empty ws (i + 1) (some i)
    else _find_loop tid empty ws (i + 1) eret

/-- Search of the slots: `pollers_t._find`, with indices for the pointers. -/
def pollers_t._find (p : pollers_t) (tid : Int) (empty : Bool) : Option Nat × Option Nat :=
  _find_loop tid empty p.waiters 0 none

/-- Registration of a poller: `pollers_t.addpoller`; `none` is its panic
when the ten slots are taken. -/
def pollers_t.addpoller (p : pollers_t) (pm : pollmsg_t) : Option pollers_t :=
  let p1 : pollers_t :=
    if p.waiters = [] then { p with waiters := List.replicate 10 pollmsg_zero } else p
  let p2 : pollers_t := { p1 with allmask := p1.allmask ||| pm.events }
  match p2._find pm.tid true with
  | (some t, _) => some { p2 with waiters := p2.waiters.set t pm }
  | (none, some e) => some { p2 with waiters := p2.waiters.set e pm }
  | (none, none) => none

/-- The loop of `wakeready` over the slots: the slots afterwards, the new
mask, and the channels sent to. -/
def wakeready_loop (r : Nat) : List pollmsg_t → Nat → List pollmsg_t × Nat × List Nat
  | [], newallmask => ([], newallmask, [])
  | pm :: ws, newallmask =>
    if pm.events &&& r ≠ 0 then
      let rest := wakeready_loop r ws newallmask
      ({ pm with tid := 0 } :: rest.1, rest.2.1,
        (if pm.notif ≠ 0 then [pm.notif] else []) ++ rest.2.2)
    else
      let rest := wakeready_loop r ws (newallmask ||| pm.events)
      (pm :: rest.1, rest.2.1, rest.2.2)

/-- Notification of the pollers that wait for `r`: `pollers_t.wakeready`,
with the channels sent to. -/
def pollers_t.wakeready (p : pollers_t) (r : Nat) : pollers_t × List Nat :=
  if p.allmask &&& r = 0 then (p, [])
  else
    let res := wakeready_loop r p.waiters 0
    ({ allmask := res.2.1, waiters := res.1 }, res.2.2)

/-- A call on a `pollers_t`. -/
inductive pollop where
  /-- The call `addpoller(pm)`. -/
  | add (pm : pollmsg_t)
  /-- The call `wakeready(r)`. -/
  | wake (r : Nat)
deriving DecidableEq, Repr

/-- A sequence of calls on a `pollers_t`: the state afterwards and the
channels sent to by each call. -/
def pollrun : pollers_t → List pollop → Option (pollers_t × List (List Nat))
  | p, [] => some (p, [])
  | p, .add pm :: ops =>
    match p.addpoller pm with
    | none => none
    | some p1 => (pollrun p1 ops).map (fun r => (r.1, [] :: r.2))
  | p, .wake r :: ops =>
    (pollrun (p.wakeready r).1 ops).map (fun x => (x.1, (p.wakeready r).2 :: x.2))

/-- The registered waiters: the slots with a `tid` other than 0. -/
def pollers_t.registered (p : pollers_t) : List pollmsg_t :=
  p.waiters.filter (fun w => decide (w.tid ≠ 0))

/-- The bitwise OR of the events of the registered waiters. -/
def pollers_t.regmask (p : pollers_t) : Nat :=
  p.registered.foldl (fun m w => m ||| w.events) 0

/-- Two pollers: thread 1 polls for reading on channel 11, thread 2 for
reading and writing on channel 12. -/
def ex_pollA : pollmsg_t := ⟨11, R_READ, true, 1⟩

/-- The poller of thread 2. -/
def ex_pollB : pollmsg_t := ⟨12, R_READ ||| R_WRITE, true, 2⟩
/-! ## The descriptor scan of `poll` (`syscall.go`, `_checkfds`)

The kernel copy of the `pollfd` array is a byte slice; entry `i` is the
64-bit word at offset `8 * i`: the descriptor in the bits 0 to 31, the
requested events in the bits 32 to 47, the reported events in the bits 48 to
63.  The word is read and written through `unsafe.Pointer(&buf[off])`, which
is the little-endian `readn(buf, 8, off)` and `writen(buf, 8, off, uw)` of
the comments next to it. -/

/-- Event bit `POLLRDNORM`. -/
def POLLRDNORM : Nat := 0x1

/-- Event bit `POLLRDBAND`. -/
def POLLRDBAND : Nat := 0x2

/-- Event bits `POLLIN`. -/
def POLLIN : Nat := POLLRDNORM ||| POLLRDBAND

/-- Event bit `POLLPRI`. -/
def POLLPRI : Nat := 0x4

/-- Event bit `POLLWRNORM`. -/
def POLLWRNORM : Nat := 0x8

/-- Event bit `POLLOUT`. -/
def POLLOUT : Nat := POLLWRNORM

/-- Event bit `POLLWRBAND`. -/
def POLLWRBAND : Nat := 0x10

/-- Event bit `POLLERR`. -/
def POLLERR : Nat := 0x20

/-- Event bit `POLLHUP`. -/
def POLLHUP : Nat := 0x40

/-- Event bit `POLLNVAL`. -/
def POLLNVAL : Nat := 0x80

/-- Conversion of the readiness of an object to the reported events of an
entry: `_ready2rev`. -/
def _ready2rev (orig : Int) (r : Nat) : Int :=
  let inmask := POLLIN ||| POLLPRI
  let outmask := POLLOUT ||| POLLWRBAND
  let pbits := (if r &&& R_READ ≠ 0 then inmask else 0) |||
    (if r &&& R_WRITE ≠ 0 then outmask else 0) |||
    (if r &&& R_HUP ≠ 0 then POLLHUP else 0) |||
    (if r &&& R_ERROR ≠ 0 then POLLERR else 0)
  let wantevents := (uint64 (orig >>> 32) &&& 0xffff) ||| POLLNVAL ||| POLLERR ||| POLLHUP
  let revents := wantevents &&& pbits
  int64 (uint64 orig ||| (revents <<< 48) % 2 ^ 64)

/-- What `_checkfds` returns and leaves behind: the message, the array,
the number of ready descriptors and whether the array has to be copied back,
with the calls of `pollone` made (object and message). -/
structure checkres where
  pm : pollmsg_t
  buf : List Nat
  readyfds : Int
  writeback : Bool
  polled : List (Nat × pollmsg_t)
deriving DecidableEq, Repr

/-- The loop of `_checkfds` from entry `i` on, for `n` more entries;
`pollone` is the readiness that the object of a descriptor reports for a
message, `newch` the channel that `pm_set` would make.  `none` is a panic
(an index outside `buf`). -/
def _checkfds_loop (pollone : Nat → pollmsg_t → Nat) (proc : procfd_t) (tid : Int)
    (newch : Nat) : Nat → Int → Bool → checkres → Option checkres
  | 0, _, _, res => some res
  | n + 1, i, wait, res =>
    let inmask := POLLIN ||| POLLPRI
    let outmask := POLLOUT ||| POLLWRBAND
    let off := imul i 8
    match readn res.buf 8 off with
    | none => none
    | some uw =>
      let fdn : Int := ((uint64 uw % 2 ^ 32 : Nat) : Int)
      if fdn < 0 then _checkfds_loop pollone proc tid newch n (iadd i 1) wait res
      else
        match fd_get_inner proc fdn with
        | none =>
          let uw1 := int64 (uint64 uw ||| POLLNVAL)
          match writen res.buf 8 off uw1 with
          | none => none
          | some buf1 =>
            _checkfds_loop pollone proc tid newch n (iadd i 1) wait
              { res with buf := buf1, writeback := true }
        | some fd =>
          let events := (uint64 uw >>> 32) &&& 0xffff
          let pev := (if events &&& inmask ≠ 0 then R_READ else 0) |||
            (if events &&& outmask ≠ 0 then R_WRITE else 0) |||
            (if events &&& POLLHUP ≠ 0 then R_HUP else 0) ||| (R_ERROR ||| R_HUP)
          let pm1 := res.pm.pm_set newch tid pev wait
          let devstatus := pollone fd.fops pm1
          let res1 := { res with pm := pm1, polled := res.polled ++ [(fd.fops, pm1)] }
          if devstatus ≠ 0 then
            let nuw := _ready2rev uw devstatus
            match writen res1.buf 8 off nuw with
            | none => none
            | some buf1 =>
              _checkfds_loop pollone proc tid newch n (iadd i 1) false
                { res1 with buf := buf1, readyfds := iadd res1.readyfds 1, writeback := true }
          else _checkfds_loop pollone proc tid newch n (iadd i 1) wait res1

/-- The scan of the descriptors of `poll`: `_checkfds`. -/
def _checkfds (pollone : Nat → pollmsg_t → Nat) (proc : procfd_t) (tid : Int) (newch : Nat)
    (pm : pollmsg_t) (wait : Bool) (buf : List Nat) (nfds : Int) : Option checkres :=
  _checkfds_loop pollone proc tid newch nfds.toNat 0 wait ⟨pm, buf, 0, false, []⟩

/-- Entry of a `pollfd` array: descriptor `fd` (32 bits), requested events
`events` and reported events `revents` (16 bits each). -/
def pollfd (fd : Int) (events revents : Nat) : List Nat :=
  le8 (int64 (uint64 fd % 2 ^ 32 ||| (events <<< 32) ||| (revents <<< 48)))

/-- Objects that report readiness for reading when asked for it. -/
def ex_pollone : Nat → pollmsg_t → Nat := fun _ pm => pm.events &&& R_READ
/-! ## Small integers in user memory (`main.go`, `userreadn` and `userwriten`) -/

/-- The loop of `userreadn` from offset `i` on; `ret` is the bit pattern
read so far.  Every round adds the length of a slice (at least 1) to `i`, so
`n + 1` rounds are enough.  `none` inside is the result `(0, false)`. -/
def userreadn_loop (va n : Int) :
    Nat → kern_t → proc_t → List tlbev → Nat → Nat →
      Option (kern_t × proc_t × List tlbev × Option Int)
  | 0, _, _, _, _, _ => none
  | fuel + 1, k, p, ev, i, ret =>
    if ¬ ((i : Int) < n) then some (k, Unlock_pmap p, ev, some (int64 ret))
    else
      match userdmap8_inner k p (va + i) false with
      | none => none
      | some (k1, p1, ev1, none) => some (k1, Unlock_pmap p1, ev ++ ev1, none)
      | some (k1, p1, ev1, some src) =>
        let l := min (n - i).toNat (slice_len src)
        match readn (slice_bytes k1 src l) l 0 with
        | none => none
        | some v =>
          userreadn_loop va n fuel k1 p1 (ev ++ ev1) (i + slice_len src)
            (ret ||| (uint64 v <<< (8 * i)) % 2 ^ 64)

/-- Read of an integer of `n` bytes at the user address `va`:
`proc_t.userreadn`; `none` is a panic, `none` inside the result
`(0, false)`. -/
def userreadn (k : kern_t) (p : proc_t) (va n : Int) :
    Option (kern_t × proc_t × List tlbev × Option Int) :=
  if n > 8 then none
  else userreadn_loop va n (n.toNat + 1) k (Lock_pmap p) [] 0 0

/-- The call `writen(dst, n, 0, val)` on a slice of a frame: byte `i` of
the slice becomes byte `i` of `val`; `none` is the panic of an index that
reaches the length of the slice. -/
def writen_slice (k : kern_t) (dst : Nat × Nat) (n : Nat) (val : Int) : Option kern_t :=
  if slice_len dst < n then none
  else some (memcpy k dst ((List.range n).map (fun i => (uint64 val >>> (i * 8)) &&& 0xff)))

/-- The loop of `userwriten` from offset `i` on. -/
def userwriten_loop (va n val : Int) :
    Nat → kern_t → proc_t → List tlbev → Nat → Option (kern_t × proc_t × List tlbev × Bool)
  | 0, _, _, _, _ => none
  | fuel + 1, k, p, ev, i =>
    if ¬ ((i : Int) < n) then some (k, Unlock_pmap p, ev, true)
    else
      let v := val >>> (8 * i)
      match userdmap8_inner k p (va + i) true with
      | none => none
      | some (k1, p1, ev1, none) => some (k1, Unlock_pmap p1, ev ++ ev1, false)
      | some (k1, p1, ev1, some dst) =>
        match writen_slice k1 dst (n - i).toNat v with
        | none => none
        | some k2 => userwriten_loop va n val fuel k2 p1 (ev ++ ev1) (i + slice_len dst)

/-- Store of the `n` low bytes of `val` at the user address `va`:
`proc_t.userwriten`; `none` is a panic. -/
def userwriten (k : kern_t) (p : proc_t) (va n val : Int) :
    Option (kern_t × proc_t × List tlbev × Bool) :=
  if n > 8 then none
  else userwriten_loop va n val (n.toNat + 1) k (Lock_pmap p) [] 0
/-! ## User buffers and circular buffers (`main.go`, `userbuf_t` and `circbuf_t`) -/

/-- Errno `EFAULT` (`syscall.go`). -/
def EFAULT : Int := 14

/-- Errno `EAGAIN` (`syscall.go`). -/
def EAGAIN : Int := 11

/-- Errno `EWOULDBLOCK` (`syscall.go`). -/
def EWOULDBLOCK : Int := EAGAIN

/-- Errno `EPIPE` (`syscall.go`). -/
def EPIPE : Int := 32

/-- Window on user memory: `userbuf_t`.  Of a fake buffer, `fbuf` is the
slice that is left and `fpre` the part of its array before that slice. -/
structure userbuf_t where
  userva : Int
  len : Int
  off : Int
  fake : Bool
  fbuf : List Nat
  fpre : List Nat
deriving DecidableEq, Repr

/-- Initialisation of a user buffer: `userbuf_t.ub_init`; `none` is its
panic for a negative length. -/
def ub_init (uva len : Int) : Option userbuf_t :=
  if len < 0 then none else some ⟨uva, len, 0, false, [], []⟩

/-- Initialisation of a buffer over kernel memory: `userbuf_t.fake_init`. -/
def fake_init (ub : userbuf_t) (buf : List Nat) : userbuf_t :=
  { ub with fake := true, fbuf := buf, fpre := [], off := 0 }

/-- Bytes left in a buffer: `userbuf_t.remain`. -/
def userbuf_t.remain (ub : userbuf_t) : Int :=
  if ub.fake then (ub.fbuf.length : Int) else ub.len - ub.off

/-- What a transfer leaves behind and returns: kernel memory, the process,
the TLB maintenance, the user buffer, the kernel slice `buf` (as long as it
was, with the bytes read in front), the number of bytes copied and the
error number. -/
structure txres where
  k : kern_t
  p : proc_t
  ev : List tlbev
  ub : userbuf_t
  buf : List Nat
  ret : Int
  err : Int

/-- The loop of `_tx` on a real user buffer: `done` is the part of the
kernel slice that was handled, `buf` the rest of it.  Every round that goes
on copies at least one byte, so `len(buf) + 1` rounds are enough. -/
def _tx_loop (write : Bool) :
    Nat → kern_t → proc_t → List tlbev → userbuf_t → List Nat → List Nat → Int → Option txres
  | 0, _, _, _, _, _, _, _ => none
  | fuel + 1, k, p, ev, ub, done, buf, ret =>
    if buf = [] ∨ ub.off = ub.len then some ⟨k, Unlock_pmap p, ev, ub, done ++ buf, ret, 0⟩
    else
      let va := iadd ub.userva ub.off
      match userdmap8_inner k p va write with
      | none => none
      | some (k1, p1, ev1, none) =>
        some ⟨k1, Unlock_pmap p1, ev ++ ev1, ub, done ++ buf, ret, -EFAULT⟩
      | some (k1, p1, ev1, some ubuf) =>
        let end_ := iadd ub.off (slice_len ubuf)
        if end_ > ub.len ∧ ub.len - ub.off < 0 then none
        else
          let ulen := if end_ > ub.len then (ub.len - ub.off).toNat else slice_len ubuf
          let c := min ulen buf.length
          if write then
            _tx_loop write fuel (memcpy k1 ubuf (buf.take c)) p1 (ev ++ ev1)
              { ub with off := iadd ub.off c } (done ++ buf.take c) (buf.drop c) (iadd ret c)
          else
            _tx_loop write fuel k1 p1 (ev ++ ev1)
              { ub with off := iadd ub.off c } (done ++ slice_bytes k1 ubuf c) (buf.drop c)
              (iadd ret c)

/-- Transfer between a user buffer and the kernel slice `buf`:
`userbuf_t._tx`; `write` is true when the bytes go to the user buffer. -/
def userbuf_t._tx (k : kern_t) (p : proc_t) (ub : userbuf_t) (buf : List Nat)
    (write : Bool) : Option txres :=
  if ub.fake then
    let c := min ub.fbuf.length buf.length
    if write then
      some ⟨k, p, [], { ub with fpre := ub.fpre ++ buf.take c, fbuf := ub.fbuf.drop c },
        buf, c, 0⟩
    else
      some ⟨k, p, [], { ub with fpre := ub.fpre ++ ub.fbuf.take c, fbuf := ub.fbuf.drop c },
        ub.fbuf.take c ++ buf.drop c, c, 0⟩
  else _tx_loop write (buf.length + 1) k (Lock_pmap p) [] ub [] buf 0

/-- Copy from the user buffer to the kernel slice `dst`: `userbuf_t.read`. -/
def userbuf_t.read (k : kern_t) (p : proc_t) (ub : userbuf_t) (dst : List Nat) :
    Option txres :=
  ub._tx k p dst false

/-- Copy from the kernel slice `src` to the user buffer: `userbuf_t.write`. -/
def userbuf_t.write (k : kern_t) (p : proc_t) (ub : userbuf_t) (src : List Nat) :
    Option txres :=
  ub._tx k p src true

/-- Circular buffer: `circbuf_t`; the nil slice is the empty list. -/
structure circbuf_t where
  buf : List Nat
  bufsz : Int
  head : Int
  tail : Int
deriving DecidableEq, Repr

/-- Initialisation of a circular buffer: `circbuf_t.cb_init`; `pool` is the
slice that `_bufpool.Get()` hands out.  `none` is its panic. -/
def cb_init (pool : List Nat) (sz : Int) : Option circbuf_t :=
  let bufmax : Int := 1024 * 1024
  if sz < 0 ∨ sz > bufmax then none
  else
    some { bufsz := sz,
           buf := if (pool.length : Int) < sz then List.replicate sz.toNat 0 else pool,
           head := 0, tail := 0 }

/-- Release of the slice: `circbuf_t.cb_release`, with the slice that goes
back to the pool. -/
def circbuf_t.cb_release (cb : circbuf_t) : circbuf_t × List Nat :=
  ({ cb with buf := [] }, cb.buf)

/-- Test `circbuf_t.full`. -/
def circbuf_t.full (cb : circbuf_t) : Bool := decide (cb.head - cb.tail = cb.bufsz)

/-- Test `circbuf_t.empty`. -/
def circbuf_t.empty (cb : circbuf_t) : Bool := decide (cb.head = cb.tail)

/-- What `copyin` and `copyout` leave behind and return. -/
structure cbres where
  k : kern_t
  p : proc_t
  ev : List tlbev
  cb : circbuf_t
  ub : userbuf_t
  ret : Int
  err : Int

/-- The part of `copyin` from the test `hi > ti` on, with `c` bytes taken
so far. -/
def copyin_rest (k : kern_t) (p : proc_t) (ev : List tlbev) (cb : circbuf_t)
    (src : userbuf_t) (hi ti c : Int) : Option cbres :=
  if hi > ti then none
  else if hi < 0 ∨ ti > (cb.buf.length : Int) then none
  else
    match src.read k p ((cb.buf.take ti.toNat).drop hi.toNat) with
    | none => none
    | some r =>
      let cb1 := { cb with buf := cb.buf.take hi.toNat ++ r.buf ++ cb.buf.drop ti.toNat }
      if r.err ≠ 0 then some ⟨r.k, r.p, ev ++ r.ev, cb1, r.ub, 0, r.err⟩
      else
        let c1 := iadd c r.ret
        some ⟨r.k, r.p, ev ++ r.ev, { cb1 with head := iadd cb1.head c1 }, r.ub, c1, 0⟩

/-- Bytes from a user buffer into the circular buffer: `circbuf_t.copyin`;
`none` is a panic. -/
def circbuf_t.copyin (k : kern_t) (p : proc_t) (cb : circbuf_t) (src : userbuf_t) :
    Option cbres :=
  if cb.full then none
  else if cb.bufsz = 0 then none
  else
    let hi := cb.head.tmod cb.bufsz
    let ti := cb.tail.tmod cb.bufsz
    if ti ≤ hi then
      if hi < 0 ∨ hi > (cb.buf.length : Int) then none
      else
        match src.read k p (cb.buf.drop hi.toNat) with
        | none => none
        | some r =>
          let cb1 := { cb with buf := cb.buf.take hi.toNat ++ r.buf }
          if r.err ≠ 0 then some ⟨r.k, r.p, r.ev, cb1, r.ub, 0, r.err⟩
          else if r.ret ≠ ((cb.buf.drop hi.toNat).length : Int) then
            some ⟨r.k, r.p, r.ev, { cb1 with head := iadd cb1.head r.ret }, r.ub, r.ret, 0⟩
          else
            copyin_rest r.k r.p r.ev cb1 r.ub ((iadd cb1.head r.ret).tmod cb1.bufsz) ti r.ret
    else copyin_rest k p [] cb src hi ti 0

/-- The part of `copyout` from the test `ti > hi` on, with `c` bytes given
so far. -/
def copyout_rest (k : kern_t) (p : proc_t) (ev : List tlbev) (cb : circbuf_t)
    (dst : userbuf_t) (hi ti c : Int) : Option cbres :=
  if ti > hi then none
  else if ti < 0 ∨ hi > (cb.buf.length : Int) then none
  else
    match dst.write k p ((cb.buf.take hi.toNat).drop ti.toNat) with
    | none => none
    | some r =>
      if r.err ≠ 0 then some ⟨r.k, r.p, ev ++ r.ev, cb, r.ub, 0, r.err⟩
      else
        let c1 := iadd c r.ret
        some ⟨r.k, r.p, ev ++ r.ev, { cb with tail := iadd cb.tail c1 }, r.ub, c1, 0⟩

/-- Bytes from the circular buffer to a user buffer: `circbuf_t.copyout`;
`none` is a panic. -/
def circbuf_t.copyout (k : kern_t) (p : proc_t) (cb : circbuf_t) (dst : userbuf_t) :
    Option cbres :=
  if cb.empty then some ⟨k, p, [], cb, dst, 0, 0⟩
  else if cb.bufsz = 0 then none
  else
    let hi := cb.head.tmod cb.bufsz
    let ti := cb.tail.tmod cb.bufsz
    if hi ≤ ti then
      if ti < 0 ∨ ti > (cb.buf.length : Int) then none
      else
        match dst.write k p (cb.buf.drop ti.toNat) with
        | none => none
        | some r =>
          if r.err ≠ 0 then some ⟨r.k, r.p, r.ev, cb, r.ub, 0, r.err⟩
          else if r.ret ≠ ((cb.buf.drop ti.toNat).length : Int) then
            some ⟨r.k, r.p, r.ev, { cb with tail := iadd cb.tail r.ret }, r.ub, r.ret, 0⟩
          else
            copyout_rest r.k r.p r.ev cb r.ub hi ((iadd cb.tail r.ret).tmod cb.bufsz) r.ret
    else copyout_rest k p [] cb dst hi ti 0
/-! ## Pipes (`syscall.go`, `pipe_t`) and the poll of a listening socket

The mutex of a pipe is held for the whole of each operation.  A thread that
has to wait on a condition variable is reported as `wait`: it goes through
the loop of the operation again when it is woken. -/

/-- What a pipe operation does to threads besides its caller. -/
inductive pipeev where
  /-- The call `rcond.Signal()`. -/
  | rsignal
  /-- The call `wcond.Signal()`. -/
  | wsignal
  /-- The call `rcond.Broadcast()`. -/
  | rbroadcast
  /-- The call `wcond.Broadcast()`. -/
  | wbroadcast
  /-- A non-blocking send on the channel of a poller. -/
  | notify (ch : Nat)
  /-- The slice returned to the buffer pool by `cb_release`. -/
  | release (buf : List Nat)
deriving DecidableEq, Repr

/-- How a pipe operation ends: with the values returned, or with the
caller asleep on a condition variable. -/
inductive pipeout where
  /-- Return of the count and the error number. -/
  | ret (n err : Int)
  /-- The caller sleeps in `Wait()`. -/
  | wait
deriving DecidableEq, Repr

/-- The pipe: `pipe_t`, without its mutex and condition variables. -/
structure pipe_t where
  cbuf : circbuf_t
  readers : Int
  writers : Int
  closed : Bool
  pollers : pollers_t
deriving DecidableEq, Repr

/-- A new pipe: `pipe_t.pipe_start` on the zero value; `pool` is the slice
that the buffer pool hands out. -/
def pipe_start (pool : List Nat) : Option pipe_t :=
  (cb_init pool 512).map (fun cb => ⟨cb, 1, 1, false, pollers_zero⟩)

/-- What a pipe operation leaves behind and returns. -/
structure piperes where
  k : kern_t
  p : proc_t
  ev : List tlbev
  o : pipe_t
  ub : userbuf_t
  evs : List pipeev
  out : pipeout

/-- Write to a pipe: `pipe_t.op_write`; `none` is a panic. -/
def pipe_t.op_write (k : kern_t) (p : proc_t) (o : pipe_t) (src : userbuf_t)
    (noblock : Bool) : Option piperes :=
  if o.closed then some ⟨k, p, [], o, src, [], .ret 0 (-EBADF)⟩
  else if o.readers = 0 then some ⟨k, p, [], o, src, [], .ret 0 (-EPIPE)⟩
  else if o.cbuf.full then
    if noblock then some ⟨k, p, [], o, src, [], .ret 0 (-EWOULDBLOCK)⟩
    else some ⟨k, p, [], o, src, [], .wait⟩
  else
    match o.cbuf.copyin k p src with
    | none => none
    | some r =>
      if r.err ≠ 0 then
        some ⟨r.k, r.p, r.ev, { o with cbuf := r.cb }, r.ub, [], .ret 0 r.err⟩
      else
        let w := o.pollers.wakeready R_READ
        some ⟨r.k, r.p, r.ev, { o with cbuf := r.cb, pollers := w.1 }, r.ub,
          .rsignal :: w.2.map .notify, .ret r.ret 0⟩

/-- Read from a pipe: `pipe_t.op_read`; `none` is a panic. -/
def pipe_t.op_read (k : kern_t) (p : proc_t) (o : pipe_t) (dst : userbuf_t)
    (noblock : Bool) : Option piperes :=
  if o.closed then some ⟨k, p, [], o, dst, [], .ret 0 (-EBADF)⟩
  else if ¬ (o.writers = 0 ∨ !o.cbuf.empty) then
    if noblock then some ⟨k, p, [], o, dst, [], .ret 0 (-EWOULDBLOCK)⟩
    else some ⟨k, p, [], o, dst, [], .wait⟩
  else
    match o.cbuf.copyout k p dst with
    | none => none
    | some r =>
      if r.err ≠ 0 then
        some ⟨r.k, r.p, r.ev, { o with cbuf := r.cb }, r.ub, [], .ret 0 r.err⟩
      else
        let w := o.pollers.wakeready R_WRITE
        some ⟨r.k, r.p, r.ev, { o with cbuf := r.cb, pollers := w.1 }, r.ub,
          .wsignal :: w.2.map .notify, .ret r.ret 0⟩

/-- Poll of a pipe: `pipe_t.op_poll`: the pipe afterwards and the
readiness returned; `none` is the panic of `addpoller`. -/
def pipe_t.op_poll (o : pipe_t) (pm : pollmsg_t) : Option (pipe_t × Nat) :=
  if o.closed then some (o, 0)
  else
    let readable := decide (!o.cbuf.empty ∨ o.writers = 0)
    let writeable := decide (!o.cbuf.full ∨ o.readers = 0)
    let r0 := if pm.events &&& R_READ ≠ 0 ∧ readable then R_READ else 0
    let r := if pm.events &&& R_HUP ≠ 0 ∧ o.writers = 0 then r0 ||| R_HUP
      else if pm.events &&& R_WRITE ≠ 0 ∧ writeable then r0 ||| R_WRITE
      else r0
    if r ≠ 0 then some (o, r)
    else
      match o.pollers.addpoller pm with
      | none => none
      | some ps => some ({ o with pollers := ps }, 0)

/-- Change of the number of open ends: `pipe_t.op_reopen`, with the
wake-ups made and the value returned. -/
def pipe_t.op_reopen (o : pipe_t) (rd wd : Int) : pipe_t × List pipeev × Int :=
  if o.closed then (o, [], -EBADF)
  else
    let o1 := { o with readers := iadd o.readers rd, writers := iadd o.writers wd }
    let e1 := if o1.writers = 0 then [pipeev.rbroadcast] else []
    let e2 := if o1.readers = 0 then [pipeev.wbroadcast] else []
    if o1.readers = 0 ∧ o1.writers = 0 then
      ({ o1 with closed := true, cbuf := o1.cbuf.cb_release.1 },
        e1 ++ e2 ++ [.release o1.cbuf.cb_release.2], 0)
    else (o1, e1 ++ e2, 0)

/-- A call on a pipe. -/
inductive pipeop where
  /-- The call `op_read(dst, noblock)`. -/
  | read (dst : userbuf_t) (noblock : Bool)
  /-- The call `op_write(src, noblock)`. -/
  | write (src : userbuf_t) (noblock : Bool)
  /-- The call `op_reopen(rd, wd)`. -/
  | reopen (rd wd : Int)
deriving DecidableEq, Repr

/-- A sequence of calls on a pipe: kernel memory, the process and the pipe
afterwards, and how each call ended. -/
def piperun : kern_t → proc_t → pipe_t → List pipeop →
    Option (kern_t × proc_t × pipe_t × List pipeout)
  | k, p, o, [] => some (k, p, o, [])
  | k, p, o, .read dst nb :: ops =>
    match o.op_read k p dst nb with
    | none => none
    | some r => (piperun r.k r.p r.o ops).map (fun x => (x.1, x.2.1, x.2.2.1, r.out :: x.2.2.2))
  | k, p, o, .write src nb :: ops =>
    match o.op_write k p src nb with
    | none => none
    | some r => (piperun r.k r.p r.o ops).map (fun x => (x.1, x.2.1, x.2.2.1, r.out :: x.2.2.2))
  | k, p, o, .reopen rd wd :: ops =>
    (piperun k p (o.op_reopen rd wd).1 ops).map
      (fun x => (x.1, x.2.1, x.2.2.1, .ret 0 (o.op_reopen rd wd).2.2 :: x.2.2.2))

/-- The part of a listening socket that its poll uses: `susl_t` with
`opencount`, `readyconnectors` and `pollers`. -/
structure susl_t where
  pollers : pollers_t
  opencount : Int
  readyconnectors : Int
deriving DecidableEq, Repr

/-- Poll of a listening socket: `susl_t.susl_poll`. -/
def susl_t.susl_poll (susl : susl_t) (pm : pollmsg_t) : Option (susl_t × Nat) :=
  if susl.opencount = 0 then some (susl, 0)
  else if pm.events &&& R_READ ≠ 0 ∧ susl.readyconnectors > 0 then some (susl, R_READ)
  else if pm.dowait then
    match susl.pollers.addpoller pm with
    | none => none
    | some ps => some ({ susl with pollers := ps }, 0)
  else some (susl, 0)

/-- A pipe with a buffer of four bytes, one reader and one writer. -/
def ex_pipe : pipe_t := ⟨⟨[0, 0, 0, 0], 4, 0, 0⟩, 1, 1, false, pollers_zero⟩

/-- A poll message of thread 5 that asks for reading without waiting. -/
def ex_nowait : pollmsg_t := ⟨9, R_READ ||| R_ERROR ||| R_HUP, false, 5⟩
/-! ## Futex actors (`syscall.go`, `futex_t`)

A channel is known by a number and a point in time by an integer.  One
round of the loop of `futex_start` is one step of the actor; what it sends
is listed as pairs of channel and value, in order.  The actors of the
global table are numbered from 0. -/

/-- Futex operation `FUTEX_SLEEP`. -/
def FUTEX_SLEEP : Nat := 1

/-- Futex operation `FUTEX_WAKE`. -/
def FUTEX_WAKE : Nat := 2

/-- Futex operation `FUTEX_CNDGIVE`. -/
def FUTEX_CNDGIVE : Nat := 3

/-- Internal futex operation `_FUTEX_CNDTAKE`. -/
def _FUTEX_CNDTAKE : Nat := 4

/-- Timeout of a sleeper: `_futto_t` with its deadline `when` and the
channel `who` of the sleeper (the timer channel `tochan` fires at `when`). -/
structure _futto_t where
  when : Int
  who : Nat
deriving DecidableEq, Repr

/-- The queues of a futex: `futex_t` with the sleepers `cnds` and the
timeouts `tos`. -/
structure futex_t where
  cnds : List Nat
  tos : List _futto_t
deriving DecidableEq, Repr

/-- Message to a futex actor: `futexmsg_t`.  `othmut` is the number of the
other actor, and `fuval`, `fuerr` are what `fumem.futload()` returns when
the actor handles the message. -/
structure futexmsg_t where
  op : Nat
  aux : Nat
  ack : Nat
  othmut : Nat
  cndtake : List Nat
  totake : List _futto_t
  fuval : Nat
  fuerr : Int
  timeout : Int
  useto : Bool
deriving DecidableEq, Repr

/-- Addition of a sleeper: `futex_t.cndsleep`. -/
def futex_t.cndsleep (f : futex_t) (c : Nat) : futex_t := { f with cnds := f.cnds ++ [c] }

/-- The search loop of `_torm` from index `i` on: the index of the first
timeout of `who`. -/
def torm_idx (who : Nat) : List _futto_t → Nat → Option Nat
  | [], _ => none
  | nto :: r, i => if nto.who = who then some i else torm_idx who r (i + 1)

/-- Removal of the timeout of a sleeper: `futex_t._torm`. -/
def futex_t._torm (f : futex_t) (who : Nat) : futex_t :=
  match torm_idx who f.tos 0 with
  | none => f
  | some idx => { f with tos := f.tos.eraseIdx idx }

/-- Wake-up of the first sleeper with the value `v`: `futex_t.cndwake`. -/
def futex_t.cndwake (f : futex_t) (v : Int) : futex_t × List (Nat × Int) :=
  match f.cnds with
  | [] => (f, [])
  | c :: rest => (({ f with cnds := rest } : futex_t)._torm c, [(c, v)])

/-- Addition of a timeout: `futex_t.toadd`. -/
def futex_t.toadd (f : futex_t) (who : Nat) (when : Int) : futex_t :=
  { f with tos := f.tos ++ [⟨when, who⟩] }

/-- The loop of `tonext` over the timeouts. -/
def tonext_loop : List _futto_t → Int → _futto_t → _futto_t
  | [], _, next => next
  | nto :: r, small, next =>
    if nto.when < small then tonext_loop r nto.when nto else tonext_loop r small next

/-- The timeout that the actor waits for: `futex_t.tonext`; `none` stands
for the nil channels. -/
def futex_t.tonext (f : futex_t) : Option _futto_t :=
  match f.tos with
  | [] => none
  | t0 :: _ => some (tonext_loop f.tos t0.when t0)

/-- The search loop of `towake` from index `i` on: the index of the first
sleeper `who`. -/
def cnd_idx (who : Nat) : List Nat → Nat → Option Nat
  | [], _ => none
  | c :: r, i => if c = who then some i else cnd_idx who r (i + 1)

/-- Wake-up of a given sleeper: `futex_t.towake`; `none` is the panic of
the slice expression when `who` is not among the sleepers. -/
def futex_t.towake (f : futex_t) (who : Nat) (v : Int) : Option (futex_t × List (Nat × Int)) :=
  let f1 := f._torm who
  match cnd_idx who f1.cnds 0 with
  | none => none
  | some idx => some ({ f1 with cnds := f1.cnds.eraseIdx idx }, [(who, v)])

/-- The case `_FUTEX_CNDTAKE` of the actor. -/
def futex_t.cndtake (f : futex_t) (fm : futexmsg_t) : futex_t × List (Nat × Int) :=
  ({ cnds := f.cnds ++ fm.cndtake, tos := f.tos ++ fm.totake }, [(fm.ack, 0)])

/-- A futex actor: its queues, the channel `pack` and `opencount`. -/
structure futactor where
  f : futex_t
  pack : Nat
  opencount : Int
deriving DecidableEq, Repr

/-- What an actor can receive in its `select`. -/
inductive futev where
  /-- The timer channel returned by `tonext` fires. -/
  | fire
  /-- A value on the channel `reopen`. -/
  | reopen (d : Int)
  /-- A message on the channel `cmd`. -/
  | cmd (fm : futexmsg_t)
deriving DecidableEq, Repr

/-- One round of the loop of `futex_start` of the actor `id`: the actors
afterwards and what was sent to the waiting threads.  `none` is a round that
does not end: a panic, an actor that is not running, or an actor that waits
for itself or for an actor that is not running in `FUTEX_CNDGIVE`. -/
def futstep (s : List futactor) (id : Nat) (e : futev) :
    Option (List futactor × List (Nat × Int)) :=
  match s[id]? with
  | none => none
  | some a =>
    if a.opencount ≤ 0 then none
    else
      match e with
      | .fire =>
        match a.f.tonext with
        | none => some (s, [])
        | some t =>
          (a.f.towake t.who 0).map (fun r => (s.set id { a with f := r.1 }, r.2))
      | .reopen d => some (s.set id { a with opencount := iadd a.opencount d }, [])
      | .cmd fm =>
        if fm.op = FUTEX_SLEEP then
          if fm.fuerr ≠ 0 then some (s, [(fm.ack, fm.fuerr)])
          else if fm.fuval ≠ fm.aux then some (s, [(fm.ack, 0)])
          else
            let f1 := if fm.useto then a.f.toadd fm.ack fm.timeout else a.f
            some (s.set id { a with f := f1.cndsleep fm.ack }, [])
        else if fm.op = FUTEX_WAKE then
          if fm.aux = 1 then
            some (s.set id { a with f := (a.f.cndwake 0).1 }, (a.f.cndwake 0).2 ++ [(fm.ack, 0)])
          else if fm.aux = 0xffffffff then
            some (s.set id { a with f := (a.f.cndwake 1).1 }, (a.f.cndwake 1).2 ++ [(fm.ack, 0)])
          else none
        else if fm.op = FUTEX_CNDGIVE then
          if a.f.cnds.length = 0 then some (s, [(fm.ack, 0)])
          else
            let nfm : futexmsg_t :=
              { op := _FUTEX_CNDTAKE, aux := 0, ack := a.pack, othmut := 0,
                cndtake := a.f.cnds, totake := a.f.tos, fuval := 0, fuerr := 0,
                timeout := 0, useto := false }
            if fm.othmut = id then none
            else
              match s[fm.othmut]? with
              | none => none
              | some b =>
                if b.opencount ≤ 0 then none
                else
                  let s1 := s.set fm.othmut { b with f := (b.f.cndtake nfm).1 }
                  let err : Int := 0
                  some (s1.set id { a with f := ⟨[], []⟩ }, [(fm.ack, err)])
        else if fm.op = _FUTEX_CNDTAKE then
          some (s.set id { a with f := (a.f.cndtake fm).1 }, (a.f.cndtake fm).2)
        else none

/-- A sequence of rounds of the actors, each given by the number of the
actor and what it receives. -/
def futrun : List futactor → List (Nat × futev) → Option (List futactor × List (Nat × Int))
  | s, [] => some (s, [])
  | s, (id, e) :: es =>
    match futstep s id e with
    | none => none
    | some (s1, out) => (futrun s1 es).map (fun r => (r.1, out ++ r.2))

/-- The message that `sys_futex` sends for `FUTEX_WAKE` with the count
`aux`; `ack` is its new channel. -/
def wakemsg (aux ack : Nat) : futexmsg_t :=
  { op := FUTEX_WAKE, aux := aux, ack := ack, othmut := 0, cndtake := [], totake := [],
    fuval := 0, fuerr := 0, timeout := 0, useto := false }

/-- The message that `sys_futex` sends for `FUTEX_SLEEP` when the user word
holds the expected value `aux`: `ack` is its new channel, `dl` the deadline
if there is one. -/
def sleepmsg (aux ack : Nat) (dl : Option Int) : futexmsg_t :=
  { op := FUTEX_SLEEP, aux := aux, ack := ack, othmut := 0, cndtake := [], totake := [],
    fuval := aux, fuerr := 0, timeout := dl.getD 0, useto := dl.isSome }

/-- The message that `sys_futex` sends for `FUTEX_CNDGIVE` to the actor
`oth`. -/
def givemsg (ack oth : Nat) : futexmsg_t :=
  { op := FUTEX_CNDGIVE, aux := 0, ack := ack, othmut := oth, cndtake := [], totake := [],
    fuval := 0, fuerr := 0, timeout := 0, useto := false }

/-- The sleepers of all actors. -/
def allcnds (s : List futactor) : List Nat := s.flatMap (fun a => a.f.cnds)

/-- What `sys_futex` and the runtime guarantee for a round: the channel
`ack` of a `FUTEX_SLEEP` is new (`make(chan int)`), so it is in no sleep
queue; `_FUTEX_CNDTAKE` comes from an actor only (`sys_futex` refuses an
operation above `_FUTEX_LAST`), never from outside. -/
def futev_ok (s : List futactor) : futev → Bool
  | .fire => true
  | .reopen _ => true
  | .cmd fm =>
    if fm.op = FUTEX_SLEEP then decide (fm.ack ∉ allcnds s)
    else decide (fm.op ≠ _FUTEX_CNDTAKE)

/-- The guarantee `futev_ok` for every round of a sequence. -/
def futrun_ok : List futactor → List (Nat × futev) → Bool
  | _, [] => true
  | s, (id, e) :: es =>
    futev_ok s e &&
      match futstep s id e with
      | none => true
      | some (s1, _) => futrun_ok s1 es

/-- Two new actors with the channels 100 and 101 for `pack`. -/
def ex_futs : List futactor := [⟨⟨[], []⟩, 100, 1⟩, ⟨⟨[], []⟩, 101, 1⟩]

/-- Rounds of the two actors: the sleepers 1, 2, 3 and 4 on actor 0 (with
the deadlines 70, 50, none and 60), the sleeper 5 on actor 1 (deadline 55), a
wake-up of one sleeper on actor 0, and the gift of the queue of actor 0 to
actor 1. -/
def ex_futevs : List (Nat × futev) :=
  [(0, .cmd (sleepmsg 5 1 (some 70))), (0, .cmd (sleepmsg 5 2 (some 50))),
   (0, .cmd (sleepmsg 5 3 none)), (0, .cmd (sleepmsg 5 4 (some 60))),
   (1, .cmd (sleepmsg 8 5 (some 55))), (0, .cmd (wakemsg 1 6)), (0, .cmd (givemsg 7 1))]
/-- How often the channel `c` is among the sleepers of all actors. -/
def cndcount (s : List futactor) (c : Nat) : Nat :=
  (s.map (fun a => a.f.cnds.count c)).sum

/-- Consistency of the queues of all actors: no channel sleeps twice, and
a channel has no more timeouts in an actor than places in its sleep queue
(so at most one, and only where it sleeps). -/
def futinv (s : List futactor) : Prop :=
  (∀ c, cndcount s c ≤ 1) ∧
  ∀ a ∈ s, ∀ c, (a.f.tos.map (fun t => t.who)).count c ≤ a.f.cnds.count c

/-! ## The circular buffer as a byte queue

What the claim about `circbuf_t` is measured against: user memory read and
written one byte at a time through the page table, user buffers whose pages
are all mapped, the bytes between `tail` and `head`, and a queue of bytes
with the two operations of the claim. -/

/-- The byte of user memory at the address `va`, through the page table. -/
def uread (k : kern_t) (p : proc_t) (va : Nat) : Nat :=
  k.mem (pte_get p.pmap va &&& PTE_ADDR) (va &&& PGOFFSET) % 256

/-- The `n` bytes of user memory from the address `va` on. -/
def ubytes (k : kern_t) (p : proc_t) (va n : Nat) : List Nat :=
  (List.range n).map (fun i => uread k p (va + i))

/-- Kernel memory after the bytes `bs` were stored in user memory from the
address `va` on, one after the other, through the page table. -/
def ustore (p : proc_t) : kern_t → Nat → List Nat → kern_t
  | k, _, [] => k
  | k, va, b :: bs =>
    ustore p (memcpy k (pte_get p.pmap va &&& PTE_ADDR, va &&& PGOFFSET) [b]) (va + 1) bs

/-- The page `pg` is mapped for the kernel's access: its entry is reached,
present and user accessible, and for a store it is not copy-on-write. -/
def pgmapped (p : proc_t) (write : Bool) (pg : Nat) : Bool :=
  p.pmap.tbl (pg >>> 9) && decide (p.pmap.ent pg &&& PTE_P ≠ 0) &&
    decide (p.pmap.ent pg &&& PTE_U ≠ 0) && (!write || decide (p.pmap.ent pg &&& PTE_COW = 0))

/-- Every byte of the `n` bytes from `va` on lies in a mapped page. -/
def umapped (p : proc_t) (write : Bool) (va n : Nat) : Bool :=
  (List.range n).all (fun i => pgmapped p write ((va + i) >>> PGSHIFT))

/-- A real user buffer that is fully mapped: its offset is within its
length, it lies in user space below 2^63, and every byte that is left of it
lies in a mapped page. -/
def ubok (p : proc_t) (write : Bool) (ub : userbuf_t) : Bool :=
  !ub.fake && decide (0 ≤ ub.off) && decide (ub.off ≤ ub.len) &&
    decide ((USERMIN : Int) ≤ ub.userva) && decide (ub.userva + ub.len < 2 ^ 63) &&
    umapped p write (ub.userva + ub.off).toNat (ub.len - ub.off).toNat

/-- The bytes held by a circular buffer, oldest first: the bytes at the
positions `tail`, `tail + 1`, …, `head - 1` modulo `bufsz`. -/
def cbq (cb : circbuf_t) : List Nat :=
  (List.range (cb.head - cb.tail).toNat).map
    (fun (i : Nat) => cb.buf.getD ((cb.tail + (i : Int)) % cb.bufsz).toNat 0)

/-- A call on a circular buffer. -/
inductive cbop where
  /-- The call `copyin(src)`. -/
  | copyin (src : userbuf_t)
  /-- The call `copyout(dst)`. -/
  | copyout (dst : userbuf_t)
deriving DecidableEq, Repr

/-- A sequence of calls on a circular buffer: kernel memory, the process
and the buffer afterwards, and for each call the user buffer afterwards with
the two values returned. -/
def cbrun : kern_t → proc_t → circbuf_t → List cbop →
    Option (kern_t × proc_t × circbuf_t × List (userbuf_t × Int × Int))
  | k, p, cb, [] => some (k, p, cb, [])
  | k, p, cb, .copyin src :: ops =>
    match cb.copyin k p src with
    | none => none
    | some r =>
      (cbrun r.k r.p r.cb ops).map
        (fun x => (x.1, x.2.1, x.2.2.1, (r.ub, r.ret, r.err) :: x.2.2.2))
  | k, p, cb, .copyout dst :: ops =>
    match cb.copyout k p dst with
    | none => none
    | some r =>
      (cbrun r.k r.p r.cb ops).map
        (fun x => (x.1, x.2.1, x.2.2.1, (r.ub, r.ret, r.err) :: x.2.2.2))

/-- What a sequence of calls does to a queue of bytes: kernel memory and
the queue afterwards, for each call the user buffer afterwards with the two
values returned, and all bytes accepted and all bytes delivered, in order. -/
structure fifores where
  k : kern_t
  q : List Nat
  rets : List (userbuf_t × Int × Int)
  ins : List Nat
  outs : List Nat

/-- The byte queue of the claim with room for `bufsz` bytes: `copyin`
accepts as many bytes of the source as are left of it and fit, and appends
them; `copyout` delivers as many of the oldest bytes as the destination has
room for, and removes them. -/
def fiforun (bufsz : Nat) (p : proc_t) : kern_t → List Nat → List cbop → fifores
  | k, q, [] => ⟨k, q, [], [], []⟩
  | k, q, .copyin src :: ops =>
    let n := min (src.len - src.off).toNat (bufsz - q.length)
    let bs := ubytes k p (src.userva + src.off).toNat n
    let r := fiforun bufsz p k (q ++ bs) ops
    ⟨r.k, r.q, ({ src with off := src.off + n }, n, 0) :: r.rets, bs ++ r.ins, r.outs⟩
  | k, q, .copyout dst :: ops =>
    let n := min (dst.len - dst.off).toNat q.length
    let r := fiforun bufsz p (ustore p k (dst.userva + dst.off).toNat (q.take n)) (q.drop n) ops
    ⟨r.k, r.q, ({ dst with off := dst.off + n }, n, 0) :: r.rets, r.ins, q.take n ++ r.outs⟩

/-- The conditions of the claim on a sequence of calls, for a queue that
holds `n` bytes: `copyin` is called only when the buffer is not full, and
every user buffer is fully mapped. -/
def fifo_ok (bufsz : Nat) (p : proc_t) : Nat → List cbop → Bool
  | _, [] => true
  | n, .copyin src :: ops =>
    decide (n < bufsz) && ubok p false src &&
      fifo_ok bufsz p (n + min (src.len - src.off).toNat (bufsz - n)) ops
  | n, .copyout dst :: ops =>
    ubok p true dst && fifo_ok bufsz p (n - min (dst.len - dst.off).toNat n) ops

/-- The bytes that the sources of a sequence of calls offer. -/
def cbbytes : List cbop → Int
  | [] => 0
  | .copyin src :: ops => (src.len - src.off) + cbbytes ops
  | .copyout _ :: ops => cbbytes ops

/-- The slice `buf` with the bytes `bs` stored from index `pos` on. -/
def bput (buf : List Nat) (pos : Nat) (bs : List Nat) : List Nat :=
  buf.take pos ++ bs ++ buf.drop (pos + bs.length)

/-- Well-formedness of a circular buffer: the slice has `bufsz` bytes,
`bufsz` is positive and at most the `bufmax` of `cb_init`, and
`0 ≤ tail ≤ head ≤ tail + bufsz`. -/
def cbinv (cb : circbuf_t) : Prop :=
  (cb.buf.length : Int) = cb.bufsz ∧ 0 < cb.bufsz ∧ cb.bufsz ≤ 1024 * 1024 ∧
    0 ≤ cb.tail ∧ cb.tail ≤ cb.head ∧ cb.head - cb.tail ≤ cb.bufsz

/-- A circular buffer of four bytes, empty, as `cb_init` leaves it. -/
def ex_cb : circbuf_t := ⟨[0, 0, 0, 0], 4, 0, 0⟩

/-- Four calls on `ex_cb` from the process `ex_parent`: three bytes in from
the start of the first user page, two bytes out to offset 8, two bytes in
from the last two bytes of the page (they go to the positions 3 and 0 of the
slice), and up to four bytes out to offset 16 (they come from the positions
2, 3 and 0). -/
def ex_cbops : List cbop :=
  [.copyin ⟨USERMIN, 3, 0, false, [], []⟩, .copyout ⟨USERMIN + 8, 2, 0, false, [], []⟩,
   .copyin ⟨USERMIN + 4094, 2, 0, false, [], []⟩, .copyout ⟨USERMIN + 16, 4, 0, false, [], []⟩]

/-! ## Theorems about wait sets -/

/-! ### Facts about the id map -/

theorem mget_none_iff (m : idmap) (k : Int) : mget m k = none ↔ k ∉ keys m := by
  induction m with
  | nil => simp [mget, keys]
  | cons p r ih =>
    obtain ⟨k1, e1⟩ := p
    by_cases h : k1 = k
    · simp [mget, keys, h]
    · have h2 : ¬ k = k1 := fun c => h c.symm
      simp [mget, h, h2, keys] at ih ⊢
      exact ih

theorem mget_mdel (m : idmap) (k k1 : Int) :
    mget (mdel m k) k1 = if k1 = k then none else mget m k1 := by
  induction m with
  | nil => simp [mget, mdel]
  | cons p r ih =>
    obtain ⟨k2, e2⟩ := p
    unfold mdel at ih ⊢
    by_cases h : k2 = k
    · subst h
      by_cases h1 : k1 = k2
      · simp [List.filter_cons, h1] at ih ⊢
        simpa [h1] using ih
      · have h3 : ¬ k2 = k1 := fun c => h1 c.symm
        simp [List.filter_cons, mget, h1, h3] at ih ⊢
        exact ih
    · by_cases h1 : k1 = k
      · subst h1
        simp [List.filter_cons, h, mget] at ih ⊢
        exact ih
      · by_cases h4 : k2 = k1
        · simp [List.filter_cons, h, mget, h1, h4]
        · simp [List.filter_cons, h, mget, h1, h4] at ih ⊢
          exact ih

theorem mget_mset (m : idmap) (k k1 : Int) (e : waitent_t) :
    mget (mset m k e) k1 = if k1 = k then some e else mget m k1 := by
  by_cases h : k1 = k
  · simp [mset, mget, h]
  · have h2 : ¬ k = k1 := fun c => h c.symm
    simp [mset, mget, h, h2, mget_mdel]

theorem keys_mdel_sub (m : idmap) (k x : Int) (hx : x ∈ keys (mdel m k)) :
    x ∈ keys m ∧ x ≠ k := by
  simp only [keys, mdel, List.mem_map, List.mem_filter] at hx ⊢
  obtain ⟨p, ⟨hp, hne⟩, rfl⟩ := hx
  exact ⟨⟨p, hp, rfl⟩, by simpa using hne⟩

theorem keys_mdel_nodup (m : idmap) (k : Int) (h : (keys m).Nodup) :
    (keys (mdel m k)).Nodup := by
  unfold keys mdel at *
  exact (List.Nodup.sublist (List.Sublist.map _ (List.filter_sublist _)) h)

theorem keys_mset_nodup (m : idmap) (k : Int) (e : waitent_t) (h : (keys m).Nodup) :
    (keys (mset m k e)).Nodup := by
  have h1 := keys_mdel_nodup m k h
  have h2 : k ∉ keys (mdel m k) := fun c => (keys_mdel_sub m k k c).2 rfl
  simpa [mset, keys] using And.intro (by simpa [keys] using h2) (by simpa [keys] using h1)

theorem mdel_of_none (m : idmap) (k : Int) (h : mget m k = none) : mdel m k = m := by
  rw [mget_none_iff] at h
  unfold mdel
  rw [List.filter_eq_self]
  intro p hp
  have : p.1 ≠ k := fun c => h (by rw [← c]; exact List.mem_map_of_mem _ hp)
  simpa using this

theorem nprocs_mdel (m : idmap) (k : Int) (e : waitent_t) (hn : (keys m).Nodup)
    (h : mget m k = some e) :
    nprocs (mdel m k) + (if e.isproc then 1 else 0) = nprocs m := by
  induction m with
  | nil => simp [mget] at h
  | cons p r ih =>
    obtain ⟨k2, e2⟩ := p
    have hn2 : k2 ∉ keys r ∧ (keys r).Nodup := by simpa [keys] using hn
    by_cases hk : k2 = k
    · subst hk
      have he : e2 = e := by simpa [mget] using h
      subst he
      have h3 : mdel ((k2, e2) :: r) k2 = r := by
        have := mdel_of_none r k2 ((mget_none_iff r k2).2 hn2.1)
        simpa [mdel] using this
      rw [h3]
      cases hp : e2.isproc <;> simp [nprocs, List.filter_cons, hp]
    · have h4 : mget r k = some e := by simpa [mget, hk] using h
      have := ih hn2.2 h4
      have h5 : mdel ((k2, e2) :: r) k = (k2, e2) :: mdel r k := by
        simp [mdel, List.filter_cons, hk]
      rw [h5]
      cases hp : e2.isproc <;> simp [nprocs, List.filter_cons, hp] at this ⊢ <;> omega

theorem nprocs_mset (m : idmap) (k : Int) (e : waitent_t) :
    nprocs (mset m k e) = nprocs (mdel m k) + (if e.isproc then 1 else 0) := by
  cases hp : e.isproc <;> simp [nprocs, mset, List.filter_cons, hp]

/-! ### Consistency of a wait set -/

theorem wait_init_inv : WInv wait_init := by
  refine ⟨⟨?_, ?_, ?_, ?_, ?_, ?_⟩, ?_⟩ <;> simp [wait_init, keys, nprocs, mget]

theorem orphancount_fst (w : wait_t) :
    (_orphancount w).1 = { w with wakeany := if w.childs = 0 then 0 else w.wakeany } := by
  unfold _orphancount
  obtain ⟨a, b, c, d, e⟩ := w
  by_cases h1 : b = 0 <;> by_cases h2 : d = 0 <;> simp [h1, h2]

theorem orphancount_snd (w : wait_t) :
    (_orphancount w).2 = if w.childs = 0 then w.wakeany else 0 := by
  unfold _orphancount
  by_cases h1 : w.childs = 0 <;> by_cases h2 : w.wakeany = 0 <;> simp [h1, h2]

theorem orphancount_inv (w : wait_t) (h : WPre w) : WInv (_orphancount w).1 := by
  rw [orphancount_fst]
  refine ⟨⟨h.nodup, h.childs_eq, ?_, h.hinted, h.dead_pid, h.waiter_made⟩, ?_⟩
  · by_cases h1 : w.childs = 0 <;> simp [h1, h.wakeany_nonneg]
  · intro h1
    have h1 : w.childs = 0 := h1
    simp [h1]

theorem start_inv (w w1 : wait_t) (id : Int) (isproc : Bool) (h : WInv w)
    (hs : _start w id isproc = some w1) : WInv w1 := by
  unfold _start at hs
  cases hg : mget w.ids id with
  | some e => simp [hg] at hs
  | none =>
    have hd := mdel_of_none w.ids id hg
    have hp := h.pre
    cases isproc
    · simp [hg] at hs
      subst hs
      refine ⟨⟨keys_mset_nodup _ _ _ hp.nodup, ?_, hp.wakeany_nonneg, ?_, ?_, ?_⟩, h.no_orphan⟩
      rotate_left 3
      · intro k e hk
        rw [mget_mset] at hk
        by_cases hki : k = id
        · simp [hki] at hk
          subst hk
          simp [waitent_zero]
        · simp [hki] at hk
          exact hp.waiter_made k e hk
      · simp [nprocs_mset, hd, waitent_zero, hp.childs_eq]
      · intro k e hk
        rw [mget_mset] at hk
        by_cases hki : k = id
        · simp [hki] at hk
          subst hk
          simp [waitent_zero]
        · simp [hki] at hk
          exact hp.hinted k e hk
      · intro k e hk
        rw [mget_mset] at hk
        by_cases hki : k = id
        · simp [hki] at hk
          subst hk
          simp [waitent_zero]
        · simp [hki] at hk
          exact hp.dead_pid k e hk
    · simp [hg] at hs
      subst hs
      refine ⟨⟨keys_mset_nodup _ _ _ hp.nodup, ?_, hp.wakeany_nonneg, ?_, ?_, ?_⟩, ?_⟩
      rotate_left 3
      · intro k e hk
        rw [mget_mset] at hk
        by_cases hki : k = id
        · simp [hki] at hk
          subst hk
          simp [waitent_zero]
        · simp [hki] at hk
          exact hp.waiter_made k e hk
      rotate_left 1
      · simp [nprocs_mset, hd, waitent_zero, hp.childs_eq]
      · intro k e hk
        rw [mget_mset] at hk
        by_cases hki : k = id
        · simp [hki] at hk
          subst hk
          simp [waitent_zero]
        · simp [hki] at hk
          exact hp.hinted k e hk
      · intro k e hk
        rw [mget_mset] at hk
        by_cases hki : k = id
        · simp [hki] at hk
          subst hk
          simp [waitent_zero]
        · simp [hki] at hk
          exact hp.dead_pid k e hk
      · intro hc
        have h0 : w.childs + 1 = 0 := hc
        have := hp.childs_eq
        omega

theorem wpre_del (w : wait_t) (id : Int) (e : waitent_t) (c1 : Int)
    (hints1 : List Int) (wk1 : Int) (n1 : Nat) (h : WPre w)
    (hg : mget w.ids id = some e)
    (hc : c1 + (if e.isproc then 1 else 0) = w.childs) (hw : 0 ≤ wk1)
    (hh : ∀ k e1, k ≠ id → mget w.ids k = some e1 → e1.dead = true →
      e1.isproc = true → k ∈ hints1) :
    WPre ⟨mdel w.ids id, c1, hints1, wk1, n1⟩ := by
  refine ⟨keys_mdel_nodup _ _ h.nodup, ?_, hw, ?_, ?_, ?_⟩
  rotate_left 3
  · intro k e1 hk
    have hk : mget (mdel w.ids id) k = some e1 := hk
    rw [mget_mdel] at hk
    by_cases hki : k = id
    · simp [hki] at hk
    · simp [hki] at hk
      exact h.waiter_made k e1 hk
  · have h1 := nprocs_mdel w.ids id e h.nodup hg
    have h2 := h.childs_eq
    show c1 = (nprocs (mdel w.ids id) : Int)
    split at hc <;> split at h1 <;> simp_all
    omega
  · intro k e1 hk hd hp
    have hk : mget (mdel w.ids id) k = some e1 := hk
    rw [mget_mdel] at hk
    by_cases hki : k = id
    · simp [hki] at hk
    · simp [hki] at hk
      exact hh k e1 hki hk hd hp
  · intro k e1 hk hd
    have hk : mget (mdel w.ids id) k = some e1 := hk
    rw [mget_mdel] at hk
    by_cases hki : k = id
    · simp [hki] at hk
    · simp [hki] at hk
      exact h.dead_pid k e1 hk hd

theorem wpre_set (w : wait_t) (id : Int) (e0 e : waitent_t)
    (hints1 : List Int) (wk1 : Int) (n1 : Nat) (h : WPre w)
    (hg : mget w.ids id = some e0) (hp : e.isproc = e0.isproc)
    (hd : e.dead = true → e.wstatus.pid = id) (hw : 0 ≤ wk1)
    (hsub : ∀ k ∈ w.anyhints, k ∈ hints1)
    (hid : e.dead = true → e.isproc = true → id ∈ hints1)
    (hwm : e.waiter ≠ some chan_t.anys) :
    WPre ⟨mset w.ids id e, w.childs, hints1, wk1, n1⟩ := by
  refine ⟨keys_mset_nodup _ _ _ h.nodup, ?_, hw, ?_, ?_, ?_⟩
  rotate_left 3
  · intro k e1 hk
    have hk : mget (mset w.ids id e) k = some e1 := hk
    rw [mget_mset] at hk
    by_cases hki : k = id
    · simp [hki] at hk
      subst hk
      exact hwm
    · simp [hki] at hk
      exact h.waiter_made k e1 hk
  · have h1 := nprocs_mdel w.ids id e0 h.nodup hg
    have h2 := h.childs_eq
    show w.childs = (nprocs (mset w.ids id e) : Int)
    rw [nprocs_mset, hp, h1]
    exact h2
  · intro k e1 hk hd1 hp1
    have hk : mget (mset w.ids id e) k = some e1 := hk
    rw [mget_mset] at hk
    by_cases hki : k = id
    · simp [hki] at hk
      subst hk
      subst hki
      exact hid hd1 hp1
    · simp [hki] at hk
      exact hsub k (h.hinted k e1 hk hd1 hp1)
  · intro k e1 hk hd1
    have hk : mget (mset w.ids id e) k = some e1 := hk
    rw [mget_mset] at hk
    by_cases hki : k = id
    · simp [hki] at hk
      subst hk
      subst hki
      exact hd hd1
    · simp [hki] at hk
      exact h.dead_pid k e1 hk hd1

theorem scan_hints_pop (w : wait_t) :
    scan_hints w.ids w.anyhints =
      match _pop_hint w with
      | (w1, hint, true) =>
        if ((mget w.ids hint).getD waitent_zero).dead = true ∧
            ((mget w.ids hint).getD waitent_zero).isproc = true then
          some (hint, (mget w.ids hint).getD waitent_zero, w1.anyhints)
        else scan_hints w.ids w1.anyhints
      | (_, _, false) => none := by
  unfold _pop_hint
  cases h : w.anyhints with
  | nil => simp [scan_hints]
  | cons a t => simp [scan_hints]

theorem scan_hints_some (ids : idmap) (hs : List Int) (h : Int) (e : waitent_t)
    (rest : List Int) (hsc : scan_hints ids hs = some (h, e, rest)) :
    mget ids h = some e ∧ e.dead = true ∧ e.isproc = true ∧
    (∀ k e1, k ∈ hs → k ≠ h → mget ids k = some e1 → e1.dead = true →
      e1.isproc = true → k ∈ rest) := by
  induction hs with
  | nil => simp [scan_hints] at hsc
  | cons h0 t ih =>
    unfold scan_hints at hsc
    by_cases hc : ((mget ids h0).getD waitent_zero).dead = true ∧
        ((mget ids h0).getD waitent_zero).isproc = true
    · simp only [hc, and_self, if_true] at hsc
      simp only [Option.some.injEq, Prod.mk.injEq] at hsc
      obtain ⟨rfl, rfl, rfl⟩ := hsc
      cases hm : mget ids h0 with
      | none => simp [hm, waitent_zero] at hc
      | some e1 =>
        refine ⟨by simp, ?_, ?_, ?_⟩
        · simpa [hm] using hc.1
        · simpa [hm] using hc.2
        · intro k e2 hk hne _ _ _
          rcases List.mem_cons.1 hk with hk1 | hk1
          · exact absurd hk1 hne
          · exact hk1
    · have hc2 : ¬ (((mget ids h0).getD waitent_zero).dead = true ∧
        ((mget ids h0).getD waitent_zero).isproc = true) := hc
      simp only [hc2, if_false] at hsc
      obtain ⟨h1, h2, h3, h4⟩ := ih hsc
      refine ⟨h1, h2, h3, ?_⟩
      intro k e2 hk hne hm hd hp
      rcases List.mem_cons.1 hk with hk1 | hk1
      · subst hk1
        exact absurd (by simp [hm, hd, hp]) hc
      · exact h4 k e2 hk1 hne hm hd hp

theorem scan_hints_none (ids : idmap) (hs : List Int)
    (hsc : scan_hints ids hs = none) :
    ∀ k e, k ∈ hs → mget ids k = some e → ¬ (e.dead = true ∧ e.isproc = true) := by
  induction hs with
  | nil => simp
  | cons h0 t ih =>
    unfold scan_hints at hsc
    by_cases hc : ((mget ids h0).getD waitent_zero).dead = true ∧
        ((mget ids h0).getD waitent_zero).isproc = true
    · simp [hc] at hsc
    · simp only [hc, if_false] at hsc
      intro k e hk hm
      rcases List.mem_cons.1 hk with hk1 | hk1
      · subst hk1
        simpa [hm] using hc
      · exact ih hsc k e hk1 hm

/-! ### The branches of `put` and `reap` -/

theorem put_waiter (w : wait_t) (id status : Int) (atime : Option accnt_t)
    (e0 : waitent_t) (c : chan_t) (hg : mget w.ids id = some e0)
    (hw : e0.waiter = some c) :
    put w id status atime =
      some ((_orphancount ⟨mdel w.ids id,
              if e0.isproc then w.childs - 1 else w.childs,
              w.anyhints, w.wakeany, w.nchan⟩).1,
            ⟨some c, put_wstatus e0 id status atime,
             (_orphancount ⟨mdel w.ids id,
              if e0.isproc then w.childs - 1 else w.childs,
              w.anyhints, w.wakeany, w.nchan⟩).2⟩) := by
  simp [put, hg, hw]

theorem put_any (w : wait_t) (id status : Int) (atime : Option accnt_t)
    (e0 : waitent_t) (hg : mget w.ids id = some e0)
    (hw : e0.waiter = none) (hp : e0.isproc = true) (hk : 0 < w.wakeany) :
    put w id status atime =
      some ((_orphancount ⟨mdel w.ids id, w.childs - 1,
              w.anyhints, w.wakeany - 1, w.nchan⟩).1,
            ⟨some chan_t.anys, put_wstatus e0 id status atime,
             (_orphancount ⟨mdel w.ids id, w.childs - 1,
              w.anyhints, w.wakeany - 1, w.nchan⟩).2⟩) := by
  have h1 : w.wakeany ≠ 0 := by omega
  have h2 : ¬ (w.wakeany - 1 < 0) := by omega
  have h3 : ¬ (w.wakeany < 1) := by omega
  simp [put, hg, hw, hp, h1, h3]

theorem put_keep (w : wait_t) (id status : Int) (atime : Option accnt_t)
    (e0 : waitent_t) (hg : mget w.ids id = some e0)
    (hw : e0.waiter = none) (hk : ¬ (e0.isproc = true ∧ w.wakeany ≠ 0)) :
    put w id status atime =
      some ((_orphancount ⟨mset w.ids id
                { e0 with wstatus := put_wstatus e0 id status atime, dead := true },
              w.childs, if e0.isproc then w.anyhints ++ [id] else w.anyhints,
              w.wakeany, w.nchan⟩).1,
            ⟨none, put_wstatus e0 id status atime,
             (_orphancount ⟨mset w.ids id
                { e0 with wstatus := put_wstatus e0 id status atime, dead := true },
              w.childs, if e0.isproc then w.anyhints ++ [id] else w.anyhints,
              w.wakeany, w.nchan⟩).2⟩) := by
  cases hp : e0.isproc
  · simp [put, hg, hw, hp]
  · have h1 : w.wakeany = 0 := by
      by_contra hc
      exact hk ⟨hp, hc⟩
    simp [put, hg, hw, hp, h1, _push_hint]

theorem put_negative (w : wait_t) (id status : Int) (atime : Option accnt_t)
    (e0 : waitent_t) (hg : mget w.ids id = some e0)
    (hw : e0.waiter = none) (hp : e0.isproc = true) (hk : w.wakeany < 0) :
    put w id status atime = none := by
  have h1 : w.wakeany ≠ 0 := by omega
  have h3 : w.wakeany < 1 := by omega
  simp [put, hg, hw, hp, h1, h3]

theorem put_unstarted (w : wait_t) (id status : Int) (atime : Option accnt_t)
    (hg : mget w.ids id = none) : put w id status atime = none := by
  simp [put, hg]

theorem reap_any_nochild (w : wait_t) (noblk : Bool) (hc : w.childs = 0) :
    reap w WAIT_ANY noblk = some (w, ⟨wait_fail, none, 0⟩) := by
  simp [reap, WAIT_ANY, WAIT_MYPGRP, hc]

theorem reap_any_found (w : wait_t) (noblk : Bool) (h : Int) (e : waitent_t)
    (rest : List Int) (hc : 0 < w.childs)
    (hs : scan_hints w.ids w.anyhints = some (h, e, rest)) :
    reap w WAIT_ANY noblk =
      some ((_orphancount ⟨mdel w.ids h, w.childs - 1, rest, w.wakeany, w.nchan⟩).1,
            ⟨e.wstatus, none,
             (_orphancount ⟨mdel w.ids h, w.childs - 1, rest, w.wakeany, w.nchan⟩).2⟩) := by
  have h1 : ¬ w.childs < 0 := by omega
  have h2 : ¬ w.childs = 0 := by omega
  simp [reap, WAIT_ANY, WAIT_MYPGRP, h1, h2, hs]

theorem reap_any_block (w : wait_t) (hc : 0 < w.childs)
    (hs : scan_hints w.ids w.anyhints = none) :
    reap w WAIT_ANY false =
      some ((_orphancount ⟨w.ids, w.childs, [], w.wakeany + 1, w.nchan⟩).1,
            ⟨waitst_zero, some chan_t.anys,
             (_orphancount ⟨w.ids, w.childs, [], w.wakeany + 1, w.nchan⟩).2⟩) := by
  have h1 : ¬ w.childs < 0 := by omega
  have h2 : ¬ w.childs = 0 := by omega
  simp [reap, WAIT_ANY, WAIT_MYPGRP, h1, h2, hs]

theorem reap_any_poll (w : wait_t) (hc : 0 < w.childs)
    (hs : scan_hints w.ids w.anyhints = none) :
    reap w WAIT_ANY true =
      some ((_orphancount ⟨w.ids, w.childs, [], w.wakeany, w.nchan⟩).1,
            ⟨waitst_zero, none,
             (_orphancount ⟨w.ids, w.childs, [], w.wakeany, w.nchan⟩).2⟩) := by
  have h1 : ¬ w.childs < 0 := by omega
  have h2 : ¬ w.childs = 0 := by omega
  simp [reap, WAIT_ANY, WAIT_MYPGRP, h1, h2, hs]

theorem reap_unknown (w : wait_t) (id : Int) (noblk : Bool)
    (h0 : id ≠ WAIT_MYPGRP) (h1 : id ≠ WAIT_ANY) (hg : mget w.ids id = none) :
    reap w id noblk = some (w, ⟨wait_fail, none, 0⟩) := by
  simp [reap, h0, h1, hg]

theorem reap_busy (w : wait_t) (id : Int) (noblk : Bool) (e : waitent_t)
    (c : chan_t) (h0 : id ≠ WAIT_MYPGRP) (h1 : id ≠ WAIT_ANY)
    (hg : mget w.ids id = some e) (hw : e.waiter = some c) :
    reap w id noblk = some (w, ⟨wait_fail, none, 0⟩) := by
  simp [reap, h0, h1, hg, hw]

theorem reap_dead (w : wait_t) (id : Int) (noblk : Bool) (e : waitent_t)
    (h0 : id ≠ WAIT_MYPGRP) (h1 : id ≠ WAIT_ANY)
    (hg : mget w.ids id = some e) (hw : e.waiter = none) (hd : e.dead = true) :
    reap w id noblk =
      some ((_orphancount ⟨mdel w.ids id,
              if e.isproc then w.childs - 1 else w.childs,
              w.anyhints, w.wakeany, w.nchan⟩).1,
            ⟨e.wstatus, none,
             (_orphancount ⟨mdel w.ids id,
              if e.isproc then w.childs - 1 else w.childs,
              w.anyhints, w.wakeany, w.nchan⟩).2⟩) := by
  simp [reap, h0, h1, hg, hw, hd]

theorem reap_block (w : wait_t) (id : Int) (e : waitent_t)
    (h0 : id ≠ WAIT_MYPGRP) (h1 : id ≠ WAIT_ANY)
    (hg : mget w.ids id = some e) (hw : e.waiter = none) (hd : e.dead = false) :
    reap w id false =
      some ((_orphancount ⟨mset w.ids id { e with waiter := some (chan_t.made w.nchan) },
              w.childs, w.anyhints, w.wakeany, w.nchan + 1⟩).1,
            ⟨waitst_zero, some (chan_t.made w.nchan),
             (_orphancount ⟨mset w.ids id { e with waiter := some (chan_t.made w.nchan) },
              w.childs, w.anyhints, w.wakeany, w.nchan + 1⟩).2⟩) := by
  simp [reap, h0, h1, hg, hw, hd]

theorem reap_poll (w : wait_t) (id : Int) (e : waitent_t)
    (h0 : id ≠ WAIT_MYPGRP) (h1 : id ≠ WAIT_ANY)
    (hg : mget w.ids id = some e) (hw : e.waiter = none) (hd : e.dead = false) :
    reap w id true = some ((_orphancount w).1, ⟨waitst_zero, none, (_orphancount w).2⟩) := by
  simp [reap, h0, h1, hg, hw, hd]

/-! ### Effect of one call on a consistent wait set -/

theorem orphanwake_pid (k : Int) (r : waitst_t)
    (h : r ∈ (_orphanwake k).map Prod.snd) : r = wait_fail := by
  simp only [_orphanwake, List.map_replicate] at h
  exact List.eq_of_mem_replicate h

theorem filter_pid_nil (l : List waitst_t) (id : Int) (hid : id ≠ 0)
    (h : ∀ r ∈ l, r = wait_fail ∨ r = waitst_zero) :
    l.filter (fun r => decide (r.pid = id)) = [] := by
  rw [List.filter_eq_nil_iff]
  intro r hr
  rcases h r hr with h1 | h1 <;> subst h1 <;>
    simp [wait_fail, waitst_zero] <;> exact fun c => hid c.symm

theorem orphancount_snd_nonneg (w : wait_t) (h : 0 ≤ w.wakeany) :
    0 ≤ (_orphancount w).2 := by
  rw [orphancount_snd]
  split
  · exact h
  · exact le_refl _

theorem put_effect (w w1 : wait_t) (id status : Int) (atime : Option accnt_t)
    (o : putout) (h : WInv w) (hp : put w id status atime = some (w1, o)) :
    PutEffect w id w1 o := by
  have hpre := h.pre
  cases hg : mget w.ids id with
  | none => simp [put_unstarted w id status atime hg] at hp
  | some e0 =>
    cases hw : e0.waiter with
    | some c =>
      rw [put_waiter w id status atime e0 c hg hw] at hp
      simp only [Option.some.injEq, Prod.mk.injEq] at hp
      obtain ⟨rfl, rfl⟩ := hp
      have hpre1 : WPre ⟨mdel w.ids id, if e0.isproc then w.childs - 1 else w.childs,
          w.anyhints, w.wakeany, w.nchan⟩ := by
        apply wpre_del w id e0 _ _ _ _ hpre hg ?_ hpre.wakeany_nonneg
        · intro k e1 _ hk hd hpr
          exact hpre.hinted k e1 hk hd hpr
        · split <;> simp
      refine ⟨orphancount_inv _ hpre1, ⟨e0, hg⟩, rfl, ?_, ?_, ?_⟩
      · intro _
        simp [orphancount_fst, mget_mdel]
      · intro k hk
        simp only [orphancount_fst, mget_mdel]
        split <;> simp [hk]
      · exact orphancount_snd_nonneg _ hpre.wakeany_nonneg
    | none =>
      by_cases hk : e0.isproc = true ∧ w.wakeany ≠ 0
      · have hk1 : 0 < w.wakeany := by
          have := hpre.wakeany_nonneg
          have := hk.2
          omega
        rw [put_any w id status atime e0 hg hw hk.1 hk1] at hp
        simp only [Option.some.injEq, Prod.mk.injEq] at hp
        obtain ⟨rfl, rfl⟩ := hp
        have hpre1 : WPre ⟨mdel w.ids id, w.childs - 1,
            w.anyhints, w.wakeany - 1, w.nchan⟩ := by
          apply wpre_del w id e0 _ _ _ _ hpre hg ?_ (by omega)
          · intro k e1 _ hk hd hpr
            exact hpre.hinted k e1 hk hd hpr
          · simp [hk.1]
        refine ⟨orphancount_inv _ hpre1, ⟨e0, hg⟩, rfl, ?_, ?_, ?_⟩
        · intro _
          simp [orphancount_fst, mget_mdel]
        · intro k hk
          simp only [orphancount_fst, mget_mdel]
          split <;> simp [hk]
        · exact orphancount_snd_nonneg _ hpre1.wakeany_nonneg
      · rw [put_keep w id status atime e0 hg hw hk] at hp
        simp only [Option.some.injEq, Prod.mk.injEq] at hp
        obtain ⟨rfl, rfl⟩ := hp
        have hpre1 : WPre ⟨mset w.ids id
            { e0 with wstatus := put_wstatus e0 id status atime, dead := true },
            w.childs, if e0.isproc then w.anyhints ++ [id] else w.anyhints,
            w.wakeany, w.nchan⟩ := by
          apply wpre_set w id e0
            { e0 with wstatus := put_wstatus e0 id status atime, dead := true }
            _ _ _ hpre hg rfl ?_ hpre.wakeany_nonneg
          · intro k hk
            split <;> simp [hk]
          · intro _ hpr
            have hpr : e0.isproc = true := hpr
            simp [hpr]
          · show e0.waiter ≠ some chan_t.anys
            simp [hw]
          · intro _
            rfl
        refine ⟨orphancount_inv _ hpre1, ⟨e0, hg⟩, rfl, ?_, ?_, ?_⟩
        · intro hc
          exact absurd rfl hc
        · intro k hk
          simp only [orphancount_fst, mget_mset]
          split
          · rename_i hki
            rw [hki, hg] at hk
            exact absurd hk (by simp)
          · exact hk
        · exact orphancount_snd_nonneg _ hpre.wakeany_nonneg

theorem childs_nonneg (w : wait_t) (h : WPre w) : 0 ≤ w.childs := by
  rw [h.childs_eq]
  exact Int.ofNat_nonneg _

theorem reap_effect (w w1 : wait_t) (id : Int) (noblk : Bool)
    (o : reapout) (h : WInv w) (hr : reap w id noblk = some (w1, o)) :
    ReapEffect w w1 o := by
  have hpre := h.pre
  have hc0 := childs_nonneg w hpre
  by_cases h0 : id = WAIT_MYPGRP
  · simp [reap, h0] at hr
  by_cases h1 : id = WAIT_ANY
  · subst h1
    by_cases hc : w.childs = 0
    · rw [reap_any_nochild w noblk hc] at hr
      simp only [Option.some.injEq, Prod.mk.injEq] at hr
      obtain ⟨rfl, rfl⟩ := hr
      exact ⟨h, fun _ hk => hk, le_refl _, Or.inl rfl⟩
    · have hc1 : 0 < w.childs := by omega
      cases hs : scan_hints w.ids w.anyhints with
      | some r =>
        obtain ⟨hint, e, rest⟩ := r
        obtain ⟨hm, hd, hp, hrest⟩ := scan_hints_some _ _ _ _ _ hs
        rw [reap_any_found w noblk hint e rest hc1 hs] at hr
        simp only [Option.some.injEq, Prod.mk.injEq] at hr
        obtain ⟨rfl, rfl⟩ := hr
        have hpre1 : WPre ⟨mdel w.ids hint, w.childs - 1, rest, w.wakeany, w.nchan⟩ := by
          apply wpre_del w hint e _ _ _ _ hpre hm ?_ hpre.wakeany_nonneg
          · intro k e1 hne hk hd1 hp1
            exact hrest k e1 (hpre.hinted k e1 hk hd1 hp1) hne hk hd1 hp1
          · simp [hp]
        refine ⟨orphancount_inv _ hpre1, ?_, orphancount_snd_nonneg _ hpre.wakeany_nonneg, ?_⟩
        · intro k hk
          simp only [orphancount_fst, mget_mdel]
          split <;> simp [hk]
        · right; right
          have hpid : e.wstatus.pid = hint := hpre.dead_pid hint e hm hd
          refine ⟨⟨e, ?_⟩, ?_⟩
          · show mget w.ids e.wstatus.pid = some e
            rw [hpid]; exact hm
          · show mget (_orphancount _).1.ids e.wstatus.pid = none
            rw [hpid]
            simp [orphancount_fst, mget_mdel]
      | none =>
        have hpre1 : ∀ k, 0 ≤ k → WPre ⟨w.ids, w.childs, [], k, w.nchan⟩ := by
          intro k hk
          refine ⟨hpre.nodup, hpre.childs_eq, hk, ?_, hpre.dead_pid, hpre.waiter_made⟩
          intro k e hm hd hp
          exact absurd ⟨hd, hp⟩ (scan_hints_none _ _ hs k e (hpre.hinted k e hm hd hp) hm)
        cases noblk
        · rw [reap_any_block w hc1 hs] at hr
          simp only [Option.some.injEq, Prod.mk.injEq] at hr
          obtain ⟨rfl, rfl⟩ := hr
          have hk : 0 ≤ w.wakeany + 1 := by have := hpre.wakeany_nonneg; omega
          refine ⟨orphancount_inv _ (hpre1 _ hk), ?_, orphancount_snd_nonneg _ hk, Or.inr (Or.inl rfl)⟩
          intro k hk
          simpa [orphancount_fst] using hk
        · rw [reap_any_poll w hc1 hs] at hr
          simp only [Option.some.injEq, Prod.mk.injEq] at hr
          obtain ⟨rfl, rfl⟩ := hr
          refine ⟨orphancount_inv _ (hpre1 _ hpre.wakeany_nonneg), ?_,
            orphancount_snd_nonneg _ hpre.wakeany_nonneg, Or.inr (Or.inl rfl)⟩
          intro k hk
          simpa [orphancount_fst] using hk
  · cases hg : mget w.ids id with
    | none =>
      rw [reap_unknown w id noblk h0 h1 hg] at hr
      simp only [Option.some.injEq, Prod.mk.injEq] at hr
      obtain ⟨rfl, rfl⟩ := hr
      exact ⟨h, fun _ hk => hk, le_refl _, Or.inl rfl⟩
    | some e =>
      cases hw : e.waiter with
      | some c =>
        rw [reap_busy w id noblk e c h0 h1 hg hw] at hr
        simp only [Option.some.injEq, Prod.mk.injEq] at hr
        obtain ⟨rfl, rfl⟩ := hr
        exact ⟨h, fun _ hk => hk, le_refl _, Or.inl rfl⟩
      | none =>
        cases hd : e.dead with
        | true =>
          rw [reap_dead w id noblk e h0 h1 hg hw hd] at hr
          simp only [Option.some.injEq, Prod.mk.injEq] at hr
          obtain ⟨rfl, rfl⟩ := hr
          have hpre1 : WPre ⟨mdel w.ids id, if e.isproc then w.childs - 1 else w.childs,
              w.anyhints, w.wakeany, w.nchan⟩ := by
            apply wpre_del w id e _ _ _ _ hpre hg ?_ hpre.wakeany_nonneg
            · intro k e1 _ hk hd hpr
              exact hpre.hinted k e1 hk hd hpr
            · split <;> simp
          refine ⟨orphancount_inv _ hpre1, ?_, orphancount_snd_nonneg _ hpre.wakeany_nonneg, ?_⟩
          · intro k hk
            simp only [orphancount_fst, mget_mdel]
            split <;> simp [hk]
          · right; right
            have hpid : e.wstatus.pid = id := hpre.dead_pid id e hg hd
            refine ⟨⟨e, ?_⟩, ?_⟩
            · show mget w.ids e.wstatus.pid = some e
              rw [hpid]; exact hg
            · show mget (_orphancount _).1.ids e.wstatus.pid = none
              rw [hpid]
              simp [orphancount_fst, mget_mdel]
        | false =>
          cases noblk
          · rw [reap_block w id e h0 h1 hg hw hd] at hr
            simp only [Option.some.injEq, Prod.mk.injEq] at hr
            obtain ⟨rfl, rfl⟩ := hr
            have hpre1 : WPre ⟨mset w.ids id { e with waiter := some (chan_t.made w.nchan) },
                w.childs, w.anyhints, w.wakeany, w.nchan + 1⟩ := by
              apply wpre_set w id e { e with waiter := some (chan_t.made w.nchan) }
                _ _ _ hpre hg rfl ?_ hpre.wakeany_nonneg
              · intro k hk
                exact hk
              · intro hd1
                have hd1 : e.dead = true := hd1
                simp [hd] at hd1
              · simp
              · intro hd1
                have hd1 : e.dead = true := hd1
                simp [hd] at hd1
            refine ⟨orphancount_inv _ hpre1, ?_, orphancount_snd_nonneg _ hpre.wakeany_nonneg,
              Or.inr (Or.inl rfl)⟩
            intro k hk
            simp only [orphancount_fst, mget_mset]
            split
            · rename_i hki
              rw [hki, hg] at hk
              exact absurd hk (by simp)
            · exact hk
          · rw [reap_poll w id e h0 h1 hg hw hd] at hr
            simp only [Option.some.injEq, Prod.mk.injEq] at hr
            obtain ⟨rfl, rfl⟩ := hr
            refine ⟨orphancount_inv _ hpre, ?_, orphancount_snd_nonneg _ hpre.wakeany_nonneg,
              Or.inr (Or.inl rfl)⟩
            intro k hk
            simpa [orphancount_fst] using hk

/-! ### Sequences of calls -/

theorem waitstep_inv (w w1 : wait_t) (op : waitop) (d : List waitst_t)
    (h : WInv w) (hs : waitstep w op = some (w1, d)) : WInv w1 := by
  cases op with
  | start id isproc =>
    simp only [waitstep, Option.map_eq_some'] at hs
    obtain ⟨w2, h2, h3⟩ := hs
    simp only [Prod.mk.injEq] at h3
    rw [← h3.1]
    exact start_inv w w2 id isproc h h2
  | put id status atime =>
    simp only [waitstep, Option.map_eq_some'] at hs
    obtain ⟨⟨w2, o⟩, h2, h3⟩ := hs
    simp only [Prod.mk.injEq] at h3
    rw [← h3.1]
    exact (put_effect w w2 id status atime o h h2).inv
  | reap id noblk =>
    simp only [waitstep, Option.map_eq_some'] at hs
    obtain ⟨⟨w2, o⟩, h2, h3⟩ := hs
    simp only [Prod.mk.injEq] at h3
    rw [← h3.1]
    exact (reap_effect w w2 id noblk o h h2).inv

theorem waitrun_cons (w w2 : wait_t) (op : waitop) (ops : List waitop)
    (D : List waitst_t) (h : waitrun w (op :: ops) = some (w2, D)) :
    ∃ w1 d1 d2, waitstep w op = some (w1, d1) ∧ waitrun w1 ops = some (w2, d2) ∧
      D = d1 ++ d2 := by
  unfold waitrun at h
  cases hs : waitstep w op with
  | none => simp [hs] at h
  | some r =>
    obtain ⟨w1, d1⟩ := r
    cases hr : waitrun w1 ops with
    | none => simp [hs, hr] at h
    | some r2 =>
      obtain ⟨w3, d2⟩ := r2
      simp only [hs, hr, Option.some.injEq, Prod.mk.injEq] at h
      obtain ⟨rfl, rfl⟩ := h
      exact ⟨w1, d1, d2, rfl, hr, rfl⟩

theorem waitrun_inv (ops : List waitop) (w w1 : wait_t) (D : List waitst_t)
    (h : WInv w) (hr : waitrun w ops = some (w1, D)) : WInv w1 := by
  induction ops generalizing w D with
  | nil =>
    simp only [waitrun, Option.some.injEq, Prod.mk.injEq] at hr
    rw [← hr.1]; exact h
  | cons op ops ih =>
    obtain ⟨w2, d1, d2, hs, hr2, _⟩ := waitrun_cons w w1 op ops D hr
    exact ih w2 d2 (waitstep_inv w w2 op d1 h hs) hr2

theorem npid_append (D d : List waitst_t) (id : Int) :
    npid (D ++ d) id = npid D id + npid d id := by
  simp [npid, List.filter_append]

theorem npid_zero_of (D : List waitst_t) (id : Int) (h : ∀ r ∈ D, r.pid ≠ id) :
    npid D id = 0 := by
  unfold npid
  rw [List.length_eq_zero, List.filter_eq_nil_iff]
  intro r hr
  simpa using h r hr

theorem npid_pos_mem (D : List waitst_t) (id : Int) (h : 0 < npid D id) :
    ∃ r ∈ D, r.pid = id := by
  unfold npid at h
  obtain ⟨r, hr⟩ := List.exists_mem_of_length_pos h
  rw [List.mem_filter] at hr
  exact ⟨r, hr.1, by simpa using hr.2⟩

theorem npid_cons (r : waitst_t) (l : List waitst_t) (id : Int) :
    npid (r :: l) id = (if r.pid = id then 1 else 0) + npid l id := by
  unfold npid
  by_cases h : r.pid = id <;> simp [List.filter_cons, h]
  omega

theorem put_delivers (w w1 : wait_t) (id status : Int) (atime : Option accnt_t)
    (o : putout) (h : WInv w) (hp : put w id status atime = some (w1, o)) :
    Delivers w w1 o.returned := by
  have he := put_effect w w1 id status atime o h hp
  refine ⟨(_orphanwake o.owake).map Prod.snd, fun r hr => orphanwake_pid _ r hr, ?_⟩
  cases hc : o.wakechan with
  | none =>
    left
    simp [putout.returned, putout.sends, hc]
  | some c =>
    right
    refine ⟨o.wstatus, by simp [putout.returned, putout.sends, hc], Or.inr (Or.inr ?_)⟩
    rw [he.pid]
    exact ⟨he.started, he.gone (by simp [hc])⟩

theorem reap_delivers (w w1 : wait_t) (id : Int) (noblk : Bool)
    (o : reapout) (h : WInv w) (hr : reap w id noblk = some (w1, o)) :
    Delivers w w1 o.returned := by
  have he := reap_effect w w1 id noblk o h hr
  refine ⟨(_orphanwake o.owake).map Prod.snd, fun r hr => orphanwake_pid _ r hr, ?_⟩
  cases hc : o.waitchan with
  | some c =>
    left
    simp [reapout.returned, hc]
  | none =>
    right
    exact ⟨o.ret, by simp [reapout.returned, hc], he.ret⟩

theorem sinv_deliver (pc : Int) (w w1 : wait_t) (D d : List waitst_t)
    (hS : SInv pc w D) (hinv : WInv w1)
    (kept : ∀ k, mget w.ids k = none → mget w1.ids k = none)
    (hd : Delivers w w1 d) : SInv pc w1 (D ++ d) := by
  obtain ⟨l, hl, hd⟩ := hd
  have hl0 : ∀ r ∈ l, r.pid = 0 := by
    intro r hr
    rw [hl r hr]; rfl
  have hkeys : ∀ k e, mget w1.ids k = some e → 0 < k ∧ k ≤ pc := by
    intro k e hk
    cases hk0 : mget w.ids k with
    | none => rw [kept k hk0] at hk; exact absurd hk (by simp)
    | some e0 => exact hS.keys_pos k e0 hk0
  have hold : ∀ r ∈ D, r.pid ≠ 0 → 0 < r.pid ∧ r.pid ≤ pc ∧ mget w1.ids r.pid = none := by
    intro r hr h0
    obtain ⟨h1, h2, h3⟩ := hS.ret_old r hr h0
    exact ⟨h1, h2, kept _ h3⟩
  have hnl : ∀ id, id ≠ 0 → npid l id = 0 := by
    intro id hid
    apply npid_zero_of
    intro r hr hc
    rw [hl0 r hr] at hc
    exact hid hc.symm
  rcases hd with rfl | ⟨r, rfl, hr⟩
  · refine ⟨hinv, hS.pc_nonneg, hkeys, ?_, ?_, ?_⟩
    rotate_left 2
    · intro r hr h0
      rcases List.mem_append.1 hr with h1 | h1
      · exact hS.ret_zero r h1 h0
      · exact Or.inl (hl r h1)
    · intro r hr h0
      rcases List.mem_append.1 hr with h1 | h1
      · exact hold r h1 h0
      · exact absurd (hl0 r h1) h0
    · intro id hid
      rw [npid_append, hnl id hid]
      exact hS.ret_once id hid
  · refine ⟨hinv, hS.pc_nonneg, hkeys, ?_, ?_, ?_⟩
    rotate_left 2
    · intro r1 hr1 h0
      rcases List.mem_append.1 hr1 with h1 | h1
      · exact hS.ret_zero r1 h1 h0
      · rcases List.mem_cons.1 h1 with h2 | h2
        · subst h2
          rcases hr with h3 | h3 | ⟨⟨e, h3⟩, h4⟩
          · exact Or.inl h3
          · exact Or.inr h3
          · have := (hS.keys_pos _ e h3).1
            omega
        · exact Or.inl (hl r1 h2)
    · intro r1 hr1 h0
      rcases List.mem_append.1 hr1 with h1 | h1
      · exact hold r1 h1 h0
      · rcases List.mem_cons.1 h1 with h2 | h2
        · subst h2
          rcases hr with h3 | h3 | ⟨⟨e, h3⟩, h4⟩
          · rw [h3] at h0; exact absurd rfl h0
          · rw [h3] at h0; exact absurd rfl h0
          · obtain ⟨h5, h6⟩ := hS.keys_pos _ e h3
            exact ⟨h5, h6, h4⟩
        · exact absurd (hl0 r1 h2) h0
    · intro id hid
      rw [npid_append, npid_cons, hnl id hid]
      by_cases hri : r.pid = id
      · rcases hr with h3 | h3 | ⟨⟨e, h3⟩, _⟩
        · rw [h3] at hri; exact absurd hri.symm hid
        · rw [h3] at hri; exact absurd hri.symm hid
        · have hz : npid D id = 0 := by
            apply npid_zero_of
            intro r2 hr2 hc
            have := (hS.ret_old r2 hr2 (by rw [hc]; exact hid)).2.2
            rw [hc, ← hri, h3] at this
            exact absurd this (by simp)
          simp [hri, hz]
      · have := hS.ret_once id hid
        simp [hri]
        exact this

theorem start_ids (w w1 : wait_t) (id : Int) (isproc : Bool)
    (hs : _start w id isproc = some w1) :
    mget w.ids id = none ∧ ∃ e, w1.ids = mset w.ids id e := by
  unfold _start at hs
  cases hg : mget w.ids id with
  | some e => simp [hg] at hs
  | none =>
    cases isproc <;> simp [hg] at hs <;> subst hs <;> exact ⟨rfl, _, rfl⟩

theorem sinv_start (pc pc1 : Int) (w w1 : wait_t) (D : List waitst_t) (id : Int)
    (isproc : Bool) (hS : SInv pc w D) (hid : pc < id) (hpc : id ≤ pc1)
    (hs : _start w id isproc = some w1) : SInv pc1 w1 D := by
  obtain ⟨_, e, he⟩ := start_ids w w1 id isproc hs
  have h0 := hS.pc_nonneg
  refine ⟨start_inv w w1 id isproc hS.inv hs, by omega, ?_, ?_, hS.ret_once, hS.ret_zero⟩
  · intro k e1 hk
    rw [he, mget_mset] at hk
    by_cases hki : k = id
    · subst hki; omega
    · simp [hki] at hk
      have := hS.keys_pos k e1 hk
      omega
  · intro r hr hr0
    obtain ⟨h1, h2, h3⟩ := hS.ret_old r hr hr0
    refine ⟨h1, by omega, ?_⟩
    rw [he, mget_mset]
    have : ¬ r.pid = id := by omega
    simp [this, h3]

theorem calls_inv (ops : List procop) :
    ∀ (pc : Int) (w w1 : wait_t) (D0 D : List waitst_t), SInv pc w D0 →
      waitrun w (calls pc ops) = some (w1, D) → ∃ pc1, SInv pc1 w1 (D0 ++ D) := by
  induction ops with
  | nil =>
    intro pc w w1 D0 D hS hr
    simp only [calls, waitrun, Option.some.injEq, Prod.mk.injEq] at hr
    obtain ⟨rfl, rfl⟩ := hr
    exact ⟨pc, by simpa using hS⟩
  | cons op ops ih =>
    intro pc w w1 D0 D hS hr
    cases op with
    | fork_proc =>
      simp only [calls] at hr
      obtain ⟨w2, d1, d2, hs, hr2, rfl⟩ := waitrun_cons _ _ _ _ _ hr
      simp only [waitstep, Option.map_eq_some'] at hs
      obtain ⟨w3, h3, h4⟩ := hs
      simp only [Prod.mk.injEq] at h4
      obtain ⟨rfl, rfl⟩ := h4
      have hS2 : SInv (newpid (pc + 1)).1 w3 D0 :=
        sinv_start pc _ w w3 D0 (pc + 1) true hS (by omega) (by simp [newpid]) h3
      simpa using ih _ w3 w1 D0 d2 hS2 hr2
    | fork_thread =>
      simp only [calls] at hr
      obtain ⟨w2, d1, d2, hs, hr2, rfl⟩ := waitrun_cons _ _ _ _ _ hr
      simp only [waitstep, Option.map_eq_some'] at hs
      obtain ⟨w3, h3, h4⟩ := hs
      simp only [Prod.mk.injEq] at h4
      obtain ⟨rfl, rfl⟩ := h4
      have hS2 : SInv (newpid pc).1 w3 D0 :=
        sinv_start pc _ w w3 D0 (newpid pc).2 false hS (by simp [newpid]) (by simp [newpid]) h3
      simpa using ih _ w3 w1 D0 d2 hS2 hr2
    | other_id =>
      simp only [calls] at hr
      have h0 := hS.pc_nonneg
      have hS2 : SInv (newpid pc).1 w D0 := by
        refine ⟨hS.inv, by simp [newpid]; omega, ?_, ?_, hS.ret_once, hS.ret_zero⟩
        · intro k e hk
          have := hS.keys_pos k e hk
          simp only [newpid]; omega
        · intro r hr hr0
          have := hS.ret_old r hr hr0
          simp only [newpid]
          exact ⟨this.1, by omega, this.2.2⟩
      exact ih _ w w1 D0 D hS2 hr
    | put id status atime =>
      simp only [calls] at hr
      obtain ⟨w2, d1, d2, hs, hr2, rfl⟩ := waitrun_cons _ _ _ _ _ hr
      simp only [waitstep, Option.map_eq_some'] at hs
      obtain ⟨⟨w3, o⟩, h3, h4⟩ := hs
      simp only [Prod.mk.injEq] at h4
      obtain ⟨rfl, rfl⟩ := h4
      have he := put_effect w w3 id status atime o hS.inv h3
      have hS2 := sinv_deliver pc w w3 D0 _ hS he.inv he.kept
        (put_delivers w w3 id status atime o hS.inv h3)
      simpa [List.append_assoc] using ih _ w3 w1 _ d2 hS2 hr2
    | reap id noblk =>
      simp only [calls] at hr
      obtain ⟨w2, d1, d2, hs, hr2, rfl⟩ := waitrun_cons _ _ _ _ _ hr
      simp only [waitstep, Option.map_eq_some'] at hs
      obtain ⟨⟨w3, o⟩, h3, h4⟩ := hs
      simp only [Prod.mk.injEq] at h4
      obtain ⟨rfl, rfl⟩ := h4
      have he := reap_effect w w3 id noblk o hS.inv h3
      have hS2 := sinv_deliver pc w w3 D0 _ hS he.inv he.kept
        (reap_delivers w w3 id noblk o hS.inv h3)
      simpa [List.append_assoc] using ih _ w3 w1 _ d2 hS2 hr2

theorem sinv_init : SInv 0 wait_init [] := by
  refine ⟨wait_init_inv, le_refl _, ?_, ?_, ?_, ?_⟩
  · intro k e hk
    simp [wait_init, mget] at hk
  · intro r hr
    simp at hr
  · intro id _
    simp [npid]
  · intro r hr
    simp at hr

/-! ### Properties of the wait set -/

theorem started_ids_positive (ops : List procop) (w : wait_t) (D : List waitst_t)
    (h : waitrun wait_init (calls 0 ops) = some (w, D)) :
    ∀ k e, mget w.ids k = some e → k ≠ WAIT_MYPGRP ∧ k ≠ WAIT_ANY := by
  obtain ⟨pc, hS⟩ := calls_inv ops 0 wait_init w [] D sinv_init h
  intro k e hk
  have := (hS.keys_pos k e hk).1
  constructor
  · simp only [WAIT_MYPGRP]; omega
  · simp only [WAIT_ANY]; omega

theorem run_init_inv (ops : List waitop) (w : wait_t) (D : List waitst_t)
    (h : waitrun wait_init ops = some (w, D)) : WInv w :=
  waitrun_inv ops wait_init w D wait_init_inv h

theorem nprocs_split (m : idmap) :
    nprocs m = (m.filter (fun p => p.2.isproc && !p.2.dead)).length +
      (m.filter (fun p => p.2.isproc && p.2.dead)).length := by
  induction m with
  | nil => rfl
  | cons p r ih =>
    unfold nprocs at ih ⊢
    cases hp : p.2.isproc <;> cases hd : p.2.dead <;>
      simp [List.filter_cons, hp, hd] at ih ⊢ <;> omega

theorem mdel_mset (m : idmap) (k : Int) (e : waitent_t) :
    mdel (mset m k e) k = mdel m k := by
  simp [mset, mdel, List.filter_cons, List.filter_filter]

theorem orphancount_sum (w : wait_t) :
    (_orphancount w).1.wakeany + (_orphancount w).2 = w.wakeany := by
  rw [orphancount_fst, orphancount_snd]
  by_cases h : w.childs = 0 <;> simp [h]

theorem orphancount_quiet (w : wait_t) (h : (_orphancount w).1.childs ≠ 0) :
    (_orphancount w).2 = 0 := by
  rw [orphancount_fst] at h
  rw [orphancount_snd]
  have h : w.childs ≠ 0 := h
  simp [h]

/-- C1 (wait uniqueness).  Take any sequence of events on the wait set of
a process, started from `wait_init` with ids handed out by `newpid`, that
runs without a panic, and let `D` be the records returned to reapers.
Every record with pid 0 is the failure record or the empty record; for
every child id, at most one record of `D` carries it; once such a record
has been returned, `reap(id)` fails with `-ECHILD` and changes nothing;
and while a waiter is parked on an id, `reap(id)` fails with `-ECHILD`. -/
theorem wait_uniqueness (ops : List procop) (w : wait_t) (D : List waitst_t)
    (h : waitrun wait_init (calls 0 ops) = some (w, D)) :
    (∀ r ∈ D, r.pid = 0 → r = wait_fail ∨ r = waitst_zero) ∧
    (∀ id, id ≠ 0 → npid D id ≤ 1) ∧
    (∀ id noblk, id ≠ 0 → 0 < npid D id →
      reap w id noblk = some (w, ⟨wait_fail, none, 0⟩)) ∧
    (∀ id e noblk, mget w.ids id = some e → e.waiter ≠ none →
      reap w id noblk = some (w, ⟨wait_fail, none, 0⟩)) := by
  obtain ⟨pc, hS⟩ := calls_inv ops 0 wait_init w [] D sinv_init h
  simp only [List.nil_append] at hS
  refine ⟨hS.ret_zero, hS.ret_once, ?_, ?_⟩
  · intro id noblk hid hn
    obtain ⟨r, hr, hri⟩ := npid_pos_mem D id hn
    obtain ⟨h1, _, h3⟩ := hS.ret_old r hr (by rw [hri]; exact hid)
    rw [hri] at h1 h3
    exact reap_unknown w id noblk (by simp [WAIT_MYPGRP]; omega)
      (by simp [WAIT_ANY]; omega) h3
  · intro id e noblk hg hw
    have h1 := (hS.keys_pos id e hg).1
    cases hc : e.waiter with
    | none => exact absurd hc hw
    | some c =>
      exact reap_busy w id noblk e c (by simp [WAIT_MYPGRP]; omega)
        (by simp [WAIT_ANY]; omega) hg hc

theorem wait_uniqueness_witness :
    waitrun wait_init (calls 0 [.fork_proc, .put 1 1031 (some ⟨5, 6⟩),
        .reap (-1) true, .reap 1 true]) =
      some (⟨[], 0, [], 0, 0⟩, [⟨1, 0, 1031, ⟨5, 6⟩⟩, wait_fail]) ∧
    npid [⟨1, 0, 1031, ⟨5, 6⟩⟩, wait_fail] 1 ≤ 1 :=
  ⟨by decide, (wait_uniqueness [.fork_proc, .put 1 1031 (some ⟨5, 6⟩),
      .reap (-1) true, .reap 1 true] ⟨[], 0, [], 0, 0⟩
      [⟨1, 0, 1031, ⟨5, 6⟩⟩, wait_fail] (by decide)).2.1 1 (by decide)⟩

/-- C2 (child count).  In every state reached from `wait_init` by `_start`,
`put` and `reap` without a panic, `childs` is the number of entries of
`ids` with `isproc` set, which is the number of live child processes plus
the number of dead ones not yet reaped; so `childs` is not negative. -/
theorem childs_counts_procs (ops : List waitop) (w : wait_t) (D : List waitst_t)
    (h : waitrun wait_init ops = some (w, D)) :
    w.childs = (nprocs w.ids : Int) ∧
    w.childs = ((w.ids.filter (fun p => p.2.isproc && !p.2.dead)).length : Int) +
      ((w.ids.filter (fun p => p.2.isproc && p.2.dead)).length : Int) ∧
    0 ≤ w.childs := by
  have hinv := run_init_inv ops w D h
  refine ⟨hinv.pre.childs_eq, ?_, childs_nonneg w hinv.pre⟩
  rw [hinv.pre.childs_eq, nprocs_split]
  push_cast
  rfl

theorem childs_counts_procs_witness :
    waitrun wait_init [.start 1 true, .start 2 false, .start 3 true,
        .put 3 1031 none, .put 2 0 none] =
      some (⟨[(2, ⟨none, ⟨2, 0, 0, ⟨0, 0⟩⟩, false, true⟩),
              (3, ⟨none, ⟨3, 0, 1031, ⟨0, 0⟩⟩, true, true⟩),
              (1, ⟨none, waitst_zero, true, false⟩)], 2, [3], 0, 0⟩, []) ∧
    (2 : Int) = (nprocs [(2, ⟨none, ⟨2, 0, 0, ⟨0, 0⟩⟩, false, true⟩),
              (3, ⟨none, ⟨3, 0, 1031, ⟨0, 0⟩⟩, true, true⟩),
              (1, ⟨none, waitst_zero, true, false⟩)] : Int) :=
  ⟨by decide, (childs_counts_procs [.start 1 true, .start 2 false, .start 3 true,
        .put 3 1031 none, .put 2 0 none]
      ⟨[(2, ⟨none, ⟨2, 0, 0, ⟨0, 0⟩⟩, false, true⟩),
        (3, ⟨none, ⟨3, 0, 1031, ⟨0, 0⟩⟩, true, true⟩),
        (1, ⟨none, waitst_zero, true, false⟩)], 2, [3], 0, 0⟩ [] (by decide)).1⟩

/-- C3 (`reap(WAIT_ANY)`).  In every state reached from `wait_init` by
`_start`, `put` and `reap`: with `childs = 0` the call returns the
`-ECHILD` record at once and leaves the set as it is; otherwise, if some
entry of `ids` is a dead process, the call does not block and returns the
record of such an entry, whose pid is its id, removes that id from `ids`
and lowers `childs` by one. -/
theorem reap_any_spec (ops : List waitop) (w : wait_t) (D : List waitst_t)
    (noblk : Bool) (h : waitrun wait_init ops = some (w, D)) :
    (w.childs = 0 → reap w WAIT_ANY noblk = some (w, ⟨wait_fail, none, 0⟩)) ∧
    (w.childs ≠ 0 →
      (∃ k e, mget w.ids k = some e ∧ e.dead = true ∧ e.isproc = true) →
      ∃ w1 o k e, reap w WAIT_ANY noblk = some (w1, o) ∧ o.waitchan = none ∧
        mget w.ids k = some e ∧ e.dead = true ∧ e.isproc = true ∧
        o.ret = e.wstatus ∧ o.ret.pid = k ∧
        w1.ids = mdel w.ids k ∧ mget w1.ids k = none ∧
        w1.childs = w.childs - 1) := by
  have hinv := run_init_inv ops w D h
  refine ⟨fun hc => reap_any_nochild w noblk hc, ?_⟩
  intro hc ⟨k, e, hk, hd, hp⟩
  have hc0 := childs_nonneg w hinv.pre
  have hc1 : 0 < w.childs := by omega
  cases hs : scan_hints w.ids w.anyhints with
  | none =>
    exact absurd ⟨hd, hp⟩
      (scan_hints_none _ _ hs k e (hinv.pre.hinted k e hk hd hp) hk)
  | some r =>
    obtain ⟨hint, e1, rest⟩ := r
    obtain ⟨hm, hd1, hp1, _⟩ := scan_hints_some _ _ _ _ _ hs
    refine ⟨_, _, hint, e1, reap_any_found w noblk hint e1 rest hc1 hs, rfl, hm, hd1, hp1,
      rfl, hinv.pre.dead_pid hint e1 hm hd1, ?_, ?_, ?_⟩
    · simp [orphancount_fst]
    · simp [orphancount_fst, mget_mdel]
    · simp [orphancount_fst]

theorem reap_any_spec_witness :
    waitrun wait_init [.start 1 true, .start 2 true, .put 1 1031 none,
        .reap 1 true, .put 2 1024 none] =
      some (⟨[(2, ⟨none, ⟨2, 0, 1024, ⟨0, 0⟩⟩, true, true⟩)], 1, [1, 2], 0, 0⟩,
        [⟨1, 0, 1031, ⟨0, 0⟩⟩]) ∧
    ((⟨[(2, ⟨none, ⟨2, 0, 1024, ⟨0, 0⟩⟩, true, true⟩)], 1, [1, 2], 0, 0⟩ : wait_t).childs = 0 →
      reap ⟨[(2, ⟨none, ⟨2, 0, 1024, ⟨0, 0⟩⟩, true, true⟩)], 1, [1, 2], 0, 0⟩ WAIT_ANY true =
        some (⟨[(2, ⟨none, ⟨2, 0, 1024, ⟨0, 0⟩⟩, true, true⟩)], 1, [1, 2], 0, 0⟩,
          ⟨wait_fail, none, 0⟩)) :=
  ⟨by decide, (reap_any_spec [.start 1 true, .start 2 true, .put 1 1031 none,
        .reap 1 true, .put 2 1024 none]
      ⟨[(2, ⟨none, ⟨2, 0, 1024, ⟨0, 0⟩⟩, true, true⟩)], 1, [1, 2], 0, 0⟩
      [⟨1, 0, 1031, ⟨0, 0⟩⟩] true (by decide)).1⟩

/-- C4 (`put`).  On a wait set whose `wakeany` is not negative, `put` on an
id that is not in `ids` panics, and on an id in `ids` it builds the record
(pid = id, err = 0, status, usage) and follows the three-way rule: with a
registered waiter the record goes to the waiter's channel and the entry is
removed; else for a process with `wakeany > 0`, `wakeany` is lowered by
one, the record goes to the any-channel and the entry is removed; else the
entry stays in `ids`, dead, holding the record, and for a process the id is
appended to the hint queue.  `childs` goes down by one exactly when a
process entry is removed.  (`wakeany` is given up to the orphan wake-ups
`owake` that the same call sends.) -/
theorem put_three_way (w : wait_t) (id status : Int) (atime : Option accnt_t)
    (hw : 0 ≤ w.wakeany) :
    (mget w.ids id = none → put w id status atime = none) ∧
    (∀ e0, mget w.ids id = some e0 →
      ∃ w1 o, put w id status atime = some (w1, o) ∧
        o.wstatus = ⟨id, 0, status, (match atime with
            | some a => a
            | none => e0.wstatus.atime)⟩ ∧
        (∀ c, e0.waiter = some c →
          o.sends = (c, o.wstatus) :: _orphanwake o.owake ∧
          w1.ids = mdel w.ids id ∧ mget w1.ids id = none ∧
          w1.anyhints = w.anyhints ∧ w1.wakeany + o.owake = w.wakeany ∧
          w1.childs = if e0.isproc then w.childs - 1 else w.childs) ∧
        (e0.waiter = none → e0.isproc = true → 0 < w.wakeany →
          o.sends = (chan_t.anys, o.wstatus) :: _orphanwake o.owake ∧
          w1.ids = mdel w.ids id ∧ mget w1.ids id = none ∧
          w1.anyhints = w.anyhints ∧ w1.wakeany + o.owake = w.wakeany - 1 ∧
          w1.childs = w.childs - 1) ∧
        (e0.waiter = none → ¬ (e0.isproc = true ∧ 0 < w.wakeany) →
          o.sends = _orphanwake o.owake ∧
          w1.ids = mset w.ids id ⟨none, o.wstatus, e0.isproc, true⟩ ∧
          mget w1.ids id = some ⟨none, o.wstatus, e0.isproc, true⟩ ∧
          w1.anyhints = (if e0.isproc then w.anyhints ++ [id] else w.anyhints) ∧
          w1.wakeany + o.owake = w.wakeany ∧
          w1.childs = w.childs)) := by
  refine ⟨put_unstarted w id status atime, ?_⟩
  intro e0 hg
  have hrec : put_wstatus e0 id status atime = ⟨id, 0, status, (match atime with
      | some a => a
      | none => e0.wstatus.atime)⟩ := by
    cases atime <;> rfl
  cases hwt : e0.waiter with
  | some c =>
    refine ⟨_, _, put_waiter w id status atime e0 c hg hwt, hrec, ?_, ?_, ?_⟩
    · intro c1 hc1
      simp only [Option.some.injEq] at hc1
      subst hc1
      refine ⟨by simp [putout.sends], by simp [orphancount_fst],
        by simp [orphancount_fst, mget_mdel], by simp [orphancount_fst],
        orphancount_sum _, by simp [orphancount_fst]⟩
    · intro hc; simp at hc
    · intro hc; simp at hc
  | none =>
    by_cases hk : e0.isproc = true ∧ 0 < w.wakeany
    · refine ⟨_, _, put_any w id status atime e0 hg hwt hk.1 hk.2, hrec, ?_, ?_, ?_⟩
      · intro c1 hc1; simp at hc1
      · intro _ _ _
        refine ⟨by simp [putout.sends], by simp [orphancount_fst],
          by simp [orphancount_fst, mget_mdel], by simp [orphancount_fst],
          orphancount_sum _, by simp [orphancount_fst]⟩
      · intro _ hc; exact absurd hk hc
    · have hk2 : ¬ (e0.isproc = true ∧ w.wakeany ≠ 0) := by
        intro hc
        exact hk ⟨hc.1, by have := hc.2; omega⟩
      refine ⟨_, _, put_keep w id status atime e0 hg hwt hk2, hrec, ?_, ?_, ?_⟩
      · intro c1 hc1; simp at hc1
      · intro _ h1 h2; exact absurd ⟨h1, h2⟩ hk
      · intro _ _
        refine ⟨by simp [putout.sends], by simp [orphancount_fst, hwt],
          by simp [orphancount_fst, mget_mset, hwt], by simp [orphancount_fst],
          orphancount_sum _, by simp [orphancount_fst]⟩

theorem put_three_way_witness :
    (0 : Int) ≤ (⟨[(7, ⟨none, waitst_zero, true, false⟩)], 1, [], 1, 0⟩ : wait_t).wakeany ∧
    put ⟨[(7, ⟨none, waitst_zero, true, false⟩)], 1, [], 1, 0⟩ 8 1031 none = none :=
  ⟨by decide, (put_three_way ⟨[(7, ⟨none, waitst_zero, true, false⟩)], 1, [], 1, 0⟩
    8 1031 none (by decide)).1 (by decide)⟩

theorem put_reap_at (w : wait_t) (id status : Int) (atime : Option accnt_t)
    (e0 : waitent_t) (noblk : Bool)
    (h0 : id ≠ WAIT_MYPGRP) (h1 : id ≠ WAIT_ANY)
    (hg : mget w.ids id = some e0) (hw : e0.waiter = none)
    (hp : e0.isproc = true → w.wakeany = 0) :
    RoundTrip w id status atime e0 noblk := by
  have hk : ¬ (e0.isproc = true ∧ w.wakeany ≠ 0) := fun hc => hc.2 (hp hc.1)
  have hrec : put_wstatus e0 id status atime = ⟨id, 0, status, (match atime with
      | some a => a
      | none => e0.wstatus.atime)⟩ := by
    cases atime <;> rfl
  refine ⟨_, _, _, _, put_keep w id status atime e0 hg hw hk, rfl,
    reap_dead _ id noblk
      { e0 with wstatus := put_wstatus e0 id status atime, dead := true } h0 h1
      (by simp [orphancount_fst, mget_mset]) hw rfl, rfl, hrec, ?_, ?_⟩
  · simp [orphancount_fst, mget_mdel]
  · simp [orphancount_fst, mdel_mset]

/-- C5 (put/reap round trip).  Take an id in `ids` with no waiter parked on
it and, for a process, no any-waiter parked.  Then `put(id, status, usage)`
hands the record to nobody, and `reap(id, noblk)` right after returns,
without blocking, the record with pid = id, err = 0, the status and the
usage, and removes the entry.  This holds in every wait set for an id
that is neither of the selectors `WAIT_ANY`, `WAIT_MYPGRP`, and so for
every started id of every wait set reached by fork, put and reap events
with ids handed out by `newpid`. -/
theorem put_reap_roundtrip :
    (∀ (w : wait_t) (id status : Int) (atime : Option accnt_t) (e0 : waitent_t)
        (noblk : Bool), id ≠ WAIT_MYPGRP → id ≠ WAIT_ANY →
      mget w.ids id = some e0 → e0.waiter = none →
      (e0.isproc = true → w.wakeany = 0) → RoundTrip w id status atime e0 noblk) ∧
    (∀ (ops : List procop) (w : wait_t) (D : List waitst_t),
      waitrun wait_init (calls 0 ops) = some (w, D) →
      ∀ (id status : Int) (atime : Option accnt_t) (e0 : waitent_t) (noblk : Bool),
      mget w.ids id = some e0 → e0.waiter = none →
      (e0.isproc = true → w.wakeany = 0) → RoundTrip w id status atime e0 noblk) := by
  constructor
  · intro w id status atime e0 noblk h0 h1 hg hw hp
    exact put_reap_at w id status atime e0 noblk h0 h1 hg hw hp
  · intro ops w D h id status atime e0 noblk hg hw hp
    obtain ⟨h0, h1⟩ := started_ids_positive ops w D h id e0 hg
    exact put_reap_at w id status atime e0 noblk h0 h1 hg hw hp

theorem put_reap_roundtrip_witness :
    waitrun wait_init (calls 0 [.fork_proc]) =
      some (⟨[(1, ⟨none, waitst_zero, true, false⟩)], 1, [], 0, 0⟩, []) ∧
    ∃ w1 o1 w2 o2,
      put ⟨[(1, ⟨none, waitst_zero, true, false⟩)], 1, [], 0, 0⟩ 1 (Int.lor EXITED 7)
        (some ⟨5, 6⟩) = some (w1, o1) ∧ o1.wakechan = none ∧
      reap w1 1 true = some (w2, o2) ∧ o2.waitchan = none ∧
      o2.ret = ⟨1, 0, Int.lor EXITED 7, ⟨5, 6⟩⟩ ∧
      mget w2.ids 1 = none ∧
      w2.ids = mdel [(1, ⟨none, waitst_zero, true, false⟩)] 1 :=
  ⟨by decide,
    put_reap_roundtrip.2 [.fork_proc]
      ⟨[(1, ⟨none, waitst_zero, true, false⟩)], 1, [], 0, 0⟩ [] (by decide)
      1 (Int.lor EXITED 7) (some ⟨5, 6⟩) ⟨none, waitst_zero, true, false⟩ true
      rfl rfl (fun _ => rfl)⟩

theorem orphanwake_filter (k : Int) :
    (_orphanwake k).filter (fun s => decide (s.2.err = -ECHILD)) = _orphanwake k := by
  rw [List.filter_eq_self]
  intro s hs
  simp only [_orphanwake] at hs
  rw [List.eq_of_mem_replicate hs]
  simp [wait_fail]

theorem put_orphans (w w1 : wait_t) (id status : Int) (atime : Option accnt_t)
    (o : putout) (h : WInv w) (hp : put w id status atime = some (w1, o)) :
    PutOrphans w w1 o := by
  have hpre := h.pre
  cases hg : mget w.ids id with
  | none => simp [put_unstarted w id status atime hg] at hp
  | some e0 =>
    cases hw : e0.waiter with
    | some c =>
      have hc : c ≠ chan_t.anys := by
        intro hc
        exact hpre.waiter_made id e0 hg (by rw [hw, hc])
      rw [put_waiter w id status atime e0 c hg hw] at hp
      simp only [Option.some.injEq, Prod.mk.injEq] at hp
      obtain ⟨rfl, rfl⟩ := hp
      refine ⟨orphancount_quiet _, ?_, rfl⟩
      rw [orphancount_sum]
      simp [hc]
    | none =>
      by_cases hk : e0.isproc = true ∧ w.wakeany ≠ 0
      · have hk1 : 0 < w.wakeany := by
          have := hpre.wakeany_nonneg
          have := hk.2
          omega
        rw [put_any w id status atime e0 hg hw hk.1 hk1] at hp
        simp only [Option.some.injEq, Prod.mk.injEq] at hp
        obtain ⟨rfl, rfl⟩ := hp
        refine ⟨orphancount_quiet _, ?_, rfl⟩
        rw [orphancount_sum]
        simp
      · rw [put_keep w id status atime e0 hg hw hk] at hp
        simp only [Option.some.injEq, Prod.mk.injEq] at hp
        obtain ⟨rfl, rfl⟩ := hp
        refine ⟨orphancount_quiet _, ?_, rfl⟩
        rw [orphancount_sum]
        simp

theorem reap_orphans (w w1 : wait_t) (id : Int) (noblk : Bool)
    (o : reapout) (h : WInv w) (hr : reap w id noblk = some (w1, o)) :
    ReapOrphans w w1 o := by
  have hpre := h.pre
  have hc0 := childs_nonneg w hpre
  by_cases h0 : id = WAIT_MYPGRP
  · simp [reap, h0] at hr
  by_cases h1 : id = WAIT_ANY
  · subst h1
    by_cases hc : w.childs = 0
    · rw [reap_any_nochild w noblk hc] at hr
      simp only [Option.some.injEq, Prod.mk.injEq] at hr
      obtain ⟨rfl, rfl⟩ := hr
      exact ⟨fun _ => rfl, by simp⟩
    · have hc1 : 0 < w.childs := by omega
      cases hs : scan_hints w.ids w.anyhints with
      | some r =>
        obtain ⟨hint, e, rest⟩ := r
        rw [reap_any_found w noblk hint e rest hc1 hs] at hr
        simp only [Option.some.injEq, Prod.mk.injEq] at hr
        obtain ⟨rfl, rfl⟩ := hr
        refine ⟨orphancount_quiet _, ?_⟩
        rw [orphancount_sum]
        simp
      | none =>
        cases noblk
        · rw [reap_any_block w hc1 hs] at hr
          simp only [Option.some.injEq, Prod.mk.injEq] at hr
          obtain ⟨rfl, rfl⟩ := hr
          refine ⟨orphancount_quiet _, ?_⟩
          rw [orphancount_sum]
          simp
        · rw [reap_any_poll w hc1 hs] at hr
          simp only [Option.some.injEq, Prod.mk.injEq] at hr
          obtain ⟨rfl, rfl⟩ := hr
          refine ⟨orphancount_quiet _, ?_⟩
          rw [orphancount_sum]
          simp
  · cases hg : mget w.ids id with
    | none =>
      rw [reap_unknown w id noblk h0 h1 hg] at hr
      simp only [Option.some.injEq, Prod.mk.injEq] at hr
      obtain ⟨rfl, rfl⟩ := hr
      exact ⟨fun _ => rfl, by simp⟩
    | some e =>
      cases hw : e.waiter with
      | some c =>
        rw [reap_busy w id noblk e c h0 h1 hg hw] at hr
        simp only [Option.some.injEq, Prod.mk.injEq] at hr
        obtain ⟨rfl, rfl⟩ := hr
        exact ⟨fun _ => rfl, by simp⟩
      | none =>
        cases hd : e.dead with
        | true =>
          rw [reap_dead w id noblk e h0 h1 hg hw hd] at hr
          simp only [Option.some.injEq, Prod.mk.injEq] at hr
          obtain ⟨rfl, rfl⟩ := hr
          refine ⟨orphancount_quiet _, ?_⟩
          rw [orphancount_sum]
          simp
        | false =>
          cases noblk
          · rw [reap_block w id e h0 h1 hg hw hd] at hr
            simp only [Option.some.injEq, Prod.mk.injEq] at hr
            obtain ⟨rfl, rfl⟩ := hr
            refine ⟨orphancount_quiet _, ?_⟩
            rw [orphancount_sum]
            simp
          · rw [reap_poll w id e h0 h1 hg hw hd] at hr
            simp only [Option.some.injEq, Prod.mk.injEq] at hr
            obtain ⟨rfl, rfl⟩ := hr
            refine ⟨orphancount_quiet _, ?_⟩
            rw [orphancount_sum]
            simp

/-- C6 (no orphaned any-waiters).  In every state reached from `wait_init`
by `_start`, `put` and `reap`, after the locked section of a further `put`
or `reap` it is not the case that `childs = 0` and `wakeany > 0`.  If the
call leaves `childs = 0`, `wakeany` is reset to 0 and the number `owake` of
`-ECHILD` records then sent on the any-channel is the number of any-waiters
parked at that point (those parked before, less the one served by this
`put`, plus the caller if this `reap` parks); if it leaves `childs ≠ 0`,
no such record is sent. -/
theorem no_orphaned_anywaiters (ops : List waitop) (w : wait_t) (D : List waitst_t)
    (h : waitrun wait_init ops = some (w, D)) :
    (∀ id status atime w1 o, put w id status atime = some (w1, o) →
      ¬ (w1.childs = 0 ∧ 0 < w1.wakeany) ∧ 0 ≤ o.owake ∧
      o.sends.filter (fun s => decide (s.2.err = -ECHILD)) =
        List.replicate o.owake.toNat (chan_t.anys, wait_fail) ∧
      (w1.childs = 0 → w1.wakeany = 0 ∧
        o.owake = w.wakeany - (if o.wakechan = some chan_t.anys then 1 else 0)) ∧
      (w1.childs ≠ 0 → o.owake = 0)) ∧
    (∀ id noblk w1 o, reap w id noblk = some (w1, o) →
      ¬ (w1.childs = 0 ∧ 0 < w1.wakeany) ∧ 0 ≤ o.owake ∧
      o.sends = List.replicate o.owake.toNat (chan_t.anys, wait_fail) ∧
      (w1.childs = 0 → w1.wakeany = 0 ∧
        o.owake = w.wakeany + (if o.waitchan = some chan_t.anys then 1 else 0)) ∧
      (w1.childs ≠ 0 → o.owake = 0)) := by
  have hinv := run_init_inv ops w D h
  constructor
  · intro id status atime w1 o hp
    have he := put_effect w w1 id status atime o hinv hp
    have ho := put_orphans w w1 id status atime o hinv hp
    refine ⟨?_, he.owake_nonneg, ?_, ?_, ho.quiet⟩
    · intro hc
      have := he.inv.no_orphan hc.1
      omega
    · have herr : ¬ o.wstatus.err = -ECHILD := by
        rw [ho.err]; decide
      cases hc : o.wakechan with
      | none =>
        simp only [putout.sends, hc, List.nil_append]
        exact orphanwake_filter o.owake
      | some c =>
        simp only [putout.sends, hc, List.singleton_append, List.filter_cons, herr,
          decide_False, Bool.false_eq_true, if_false]
        exact orphanwake_filter o.owake
    · intro hc
      have h1 := he.inv.no_orphan hc
      have h2 := ho.sum
      rw [h1] at h2
      exact ⟨h1, by omega⟩
  · intro id noblk w1 o hr
    have he := reap_effect w w1 id noblk o hinv hr
    have ho := reap_orphans w w1 id noblk o hinv hr
    refine ⟨?_, he.owake_nonneg, rfl, ?_, ho.quiet⟩
    · intro hc
      have := he.inv.no_orphan hc.1
      omega
    · intro hc
      have h1 := he.inv.no_orphan hc
      have h2 := ho.sum
      rw [h1] at h2
      exact ⟨h1, by omega⟩

theorem no_orphaned_anywaiters_witness :
    waitrun wait_init [.start 1 true, .reap (-1) false, .reap (-1) false] =
      some (⟨[(1, ⟨none, waitst_zero, true, false⟩)], 1, [], 2, 0⟩, []) ∧
    put ⟨[(1, ⟨none, waitst_zero, true, false⟩)], 1, [], 2, 0⟩ 1 1031 none =
      some (⟨[], 0, [], 0, 0⟩, ⟨some chan_t.anys, ⟨1, 0, 1031, ⟨0, 0⟩⟩, 1⟩) ∧
    (⟨some chan_t.anys, ⟨1, 0, 1031, ⟨0, 0⟩⟩, 1⟩ : putout).owake = 2 - 1 :=
  ⟨by decide, by decide,
    (((no_orphaned_anywaiters [.start 1 true, .reap (-1) false, .reap (-1) false]
      ⟨[(1, ⟨none, waitst_zero, true, false⟩)], 1, [], 2, 0⟩ [] (by decide)).1
      1 1031 none ⟨[], 0, [], 0, 0⟩ ⟨some chan_t.anys, ⟨1, 0, 1031, ⟨0, 0⟩⟩, 1⟩
      (by decide)).2.2.2.1 rfl).2⟩

/-! ## Theorems about the page-fault engine -/

/-- C7 (fork COW round trip), evaluated on the small machine.  The parent
forks with its stack pointer in the first page, so that its second page
stays shared copy-on-write with the first child, who reads 7 there.  The
parent forks again with its stack pointer in the second page: `vm_fork`
gives the parent's entry of that page `W` back without a copy.  The
parent's store of 9 then raises no page fault, and the first child reads 9
instead of 7. -/
theorem fork_cow_shared_stack :
    ex_fork_twice = some (some 7, true, some 9) := by
  decide

/-- C8 (PTE/region permissions), evaluated on the small machine.  In a
region whose perms are `PTE_U` only, with no entry yet for its page,
`cowfault` (and so `userdmap8_inner` with `k2u`) installs an entry with
`PTE_W` set: frame 0x5000 with `P | U | W | WASCOW`. -/
theorem cowfault_readonly_region :
    vmregion_lookup ex_ro.vmregion USERMIN =
      some ⟨.VFILE, USERMIN >>> PGSHIFT, 1, PTE_U, 0, 0⟩ ∧
    PTE_U &&& PTE_W = 0 ∧
    pmap_lookup ex_ro.pmap USERMIN = none ∧
    (cowfault ex_kern ex_ro USERMIN).map (fun r => pmap_lookup r.2.1.pmap USERMIN) =
      some (some (0x5000 ||| PTE_P ||| PTE_U ||| PTE_W ||| PTE_WASCOW)) ∧
    (userdmap8_inner ex_kern ex_ro USERMIN true).map
        (fun r => (pmap_lookup r.2.1.pmap USERMIN, r.2.2.2)) =
      some (some (0x5000 ||| PTE_P ||| PTE_U ||| PTE_W ||| PTE_WASCOW), some (0x5000, 0)) ∧
    (0x5000 ||| PTE_P ||| PTE_U ||| PTE_W ||| PTE_WASCOW) &&& PTE_W ≠ 0 := by
  decide

/-- C10 (guard regions), evaluated on the small machine with the stack
layout of `sys_execv1`.  A user write fault on the guard page makes
`pgfault` return false and maps nothing; but a user read fault makes
`pgfault` return true and maps the zero page there, a kernel read through
`userdmap8_inner` maps the zero page and returns a slice of it, and
`cowfault` maps a fresh writable frame. -/
theorem guard_page_gets_mapped :
    vmregion_lookup ex_guard.vmregion USERMIN =
      some ⟨.VANON, USERMIN >>> PGSHIFT, 1, 0, 0, 0⟩ ∧
    pmap_lookup ex_guard.pmap USERMIN = some 0 ∧
    (pgfault ex_kern ex_guard USERMIN (PTE_U ||| PTE_W)).map
        (fun r => (r.2.2.2, pmap_lookup r.2.1.pmap USERMIN)) = some (false, some 0) ∧
    (pgfault ex_kern ex_guard USERMIN PTE_U).map
        (fun r => (r.2.2.2, pmap_lookup r.2.1.pmap USERMIN)) =
      some (true, some (0x1000 ||| PTE_P ||| PTE_U)) ∧
    (userdmap8_inner ex_kern { ex_guard with pgfltaken := true } USERMIN false).map
        (fun r => (pmap_lookup r.2.1.pmap USERMIN, r.2.2.2)) =
      some (some (0x1000 ||| PTE_P ||| PTE_U), some (0x1000, 0)) ∧
    (cowfault ex_kern { ex_guard with pgfltaken := true } USERMIN).map
        (fun r => pmap_lookup r.2.1.pmap USERMIN) =
      some (some (0x5000 ||| PTE_P ||| PTE_U ||| PTE_W ||| PTE_WASCOW)) := by
  decide

theorem pmap_walk_of_tbl (pm : pmap_t) (va : Nat) (h : pm.tbl (va >>> 21) = true) :
    pmap_walk pm va = pm := by
  simp [pmap_walk, h]

/-- C18 (userdmap8), evaluated on the small machine.  The process `ex_ro`
holds the pmap lock and has a user-accessible file region over the page of
`USERMIN`, but no leaf table yet, so that `pmap_lookup` returns nil.  The
page-fault engine, called with the nil pointer, walks the table itself and
maps the page; `userdmap8_inner` then reads through its own pointer, which
is still nil, and the kernel faults instead of returning a slice. -/
theorem userdmap8_nil_pte :
    ex_ro.pgfltaken = true ∧
    vmregion_lookup ex_ro.vmregion USERMIN =
      some ⟨.VFILE, USERMIN >>> PGSHIFT, 1, PTE_U, 0, 0⟩ ∧
    pmap_lookup ex_ro.pmap USERMIN = none ∧
    (sys_pgfault ex_kern ex_ro ⟨.VFILE, USERMIN >>> PGSHIFT, 1, PTE_U, 0, 0⟩ false
        USERMIN PTE_U).map (fun r => pmap_lookup r.2.1.pmap USERMIN) =
      some (some (0x1000 ||| PTE_P ||| PTE_U)) ∧
    (userdmap8_inner ex_kern ex_ro USERMIN false).isNone = true := by
  decide

/-! ## Theorems about ELF headers -/

/-- C17 (ELF header validation), evaluated.  `sanity` reads the magic, and
then the fields at 0x34, 0x20, 0x36 and 0x38, without looking at the
length of the slice first: on the empty slice (an empty file) and on a
slice that holds the magic alone the index leaves the slice and the kernel
panics.  On the 64-byte block `ex_elf`, whose program-header table starts
at the end of the slice with entries of size 0, `sanity` returns true and
`header(0)`, a header below `npheaders()`, reads outside the slice. -/
theorem sanity_reads_outside :
    elf_t.sanity ⟨[]⟩ = none ∧
    elf_t.sanity ⟨[0x7f, 0x45, 0x4c, 0x46]⟩ = none ∧
    ex_elf.data.length = 64 ∧
    ex_elf.sanity = some true ∧
    ex_elf.npheaders = some 1 ∧
    ex_elf.header 0 = none := by
  decide

/-- C19 (userstr bound), evaluated on the small machine.  The string `aaa`
of three bytes lies at the start of the first user page: with `lenmax` = 2
`userstr` returns it, mapped and not too long, because the length is
compared with `lenmax` only after a slice without NUL.  The string `b` of
one byte ends with the page: with `lenmax` = 1 it is reported too long,
with `lenmax` = 2 it is returned. -/
theorem userstr_bound_at_page_end :
    (userstr ex_strkern ex_parent USERMIN 2).map (fun r => r.2.2.2) =
      some ([0x61, 0x61, 0x61], true, false) ∧
    (userstr ex_strkern ex_parent (USERMIN + 4095) 1).map (fun r => r.2.2.2) =
      some ([], true, true) ∧
    (userstr ex_strkern ex_parent (USERMIN + 4095) 2).map (fun r => r.2.2.2) =
      some ([0x62], true, false) := by
  decide

set_option maxRecDepth 100000 in
/-- C20 (userargs limits), evaluated on the small machine.  A vector of 65
pointers followed by the null pointer, each pointer to the one-byte string
at the second user page: `userargs` returns the 65 strings, because
`addarg` refuses only when `ret` already holds more than `argmax` = 64
strings.  With 64 pointers it returns 64 strings, with 66 it fails, and
`userargs(0)` returns the empty list. -/
theorem userargs_takes_65 :
    (userargs (ex_argkern 65) ex_parent USERMIN).map (fun r => r.2.2.2) =
      some (some (List.replicate 65 [7])) ∧
    (userargs (ex_argkern 64) ex_parent USERMIN).map (fun r => r.2.2.2) =
      some (some (List.replicate 64 [7])) ∧
    (userargs (ex_argkern 66) ex_parent USERMIN).map (fun r => r.2.2.2) = some none ∧
    (userargs ex_kern ex_parent 0).map (fun r => r.2.2.2) = some (some []) := by
  decide

/-! ## Theorems about the trap ring -/

theorem tsnext_nat (h : Nat) : tsnext (h : Int) = (((h + 1) % 64 : Nat) : Int) := by
  unfold tsnext maxtstore
  rw [Int.tmod_eq_emod] <;> omega

theorem rinv_zero : RInv cpu_zero [] [] 0 0 := by
  refine ⟨by simp [cpu_zero], rfl, by omega, by omega, rfl, rfl, rfl, ?_⟩
  intro i hi
  omega

/-- What an accepted trap leaves: the slot at the old head holds the trap
number, the frame and the time of the trap, and keeps its fault address. -/
theorem trapstub_some (I : Int) (c c1 : cpu_t) (t : trapin)
    (h : trapstub I c t = some c1) :
    0 ≤ c.tshead ∧ tsnext c.tshead ≠ c.tstail ∧ okirq I t ∧
    ∃ ts, c.trapstore.get? c.tshead.toNat = some ts ∧
      c1 = { c with
        trapstore := c.trapstore.set c.tshead.toNat
          ⟨t.tf.getD TF_TRAP 0, ts.faultaddr, t.tf, t.now⟩,
        tshead := tsnext c.tshead } := by
  unfold trapstub at h
  unfold okirq
  generalize t.tf.getD TF_TRAP 0 = n at h ⊢
  by_cases h0 : c.tshead < 0
  · rw [if_pos h0] at h; cases h
  · rw [if_neg h0] at h
    cases hg : c.trapstore.get? c.tshead.toNat with
    | none => rw [hg] at h; cases h
    | some ts =>
      rw [hg] at h
      dsimp only at h
      by_cases h1 : tsnext c.tshead = c.tstail
      · rw [if_pos h1] at h; cases h
      · rw [if_neg h1] at h
        by_cases h2 : n ≤ TIMER
        · rw [if_pos h2] at h; cases h
        · rw [if_neg h2] at h
          have h3 : n ≠ PGFAULT := by
            unfold TIMER at h2; unfold PGFAULT; omega
          rw [if_neg h3] at h
          by_cases h4 : n = uint64 I ∨ n = INT_KBD ∨ n = INT_COM1
          · rw [if_pos h4] at h
            injection h with h
            exact ⟨by omega, h1, ⟨by omega, h4⟩, ts, rfl, h.symm⟩
          · rw [if_neg h4] at h; cases h

/-- An accepted trap on a ring that is not full is enqueued. -/
theorem trapstub_ok (I : Int) (c : cpu_t) (t : trapin) (ts : trapstore_t)
    (h0 : 0 ≤ c.tshead) (hg : c.trapstore.get? c.tshead.toNat = some ts)
    (h1 : tsnext c.tshead ≠ c.tstail) (hok : okirq I t) :
    trapstub I c t = some { c with
        trapstore := c.trapstore.set c.tshead.toNat
          ⟨t.tf.getD TF_TRAP 0, ts.faultaddr, t.tf, t.now⟩,
        tshead := tsnext c.tshead } := by
  unfold okirq at hok
  unfold trapstub
  generalize t.tf.getD TF_TRAP 0 = n at hok ⊢
  obtain ⟨h2, h4⟩ := hok
  have h3 : n ≠ PGFAULT := by
    unfold TIMER at h2; unfold PGFAULT; omega
  have h2n : ¬ n ≤ TIMER := by omega
  have h0n : ¬ c.tshead < 0 := by omega
  rw [if_neg h0n, hg]
  dsimp only
  rw [if_neg h1, if_neg h2n, if_neg h3, if_pos h4]

/-- Effect of an accepted trap on a ring that satisfies the relation. -/
theorem rinv_enq (I : Int) (c c1 : cpu_t) (x : trapin) (E D : List trapstore_t) (t n : Nat)
    (hi : RInv c E D t n) (h : trapstub I c x = some c1) :
    ∃ r, c1.trapstore.get? c.tshead.toNat = some r ∧
      r.trapno = x.tf.getD TF_TRAP 0 ∧ r.tf = x.tf ∧ r.inttime = x.now ∧
      (∃ ts ∈ c.trapstore, r.faultaddr = ts.faultaddr) ∧
      c1.trapstore.map (fun s => s.faultaddr) = c.trapstore.map (fun s => s.faultaddr) ∧
      okirq I x ∧ RInv c1 (E ++ [r]) D t (n + 1) := by
  obtain ⟨h0, h1, hok, ts, hg, rfl⟩ := trapstub_some I c c1 x h
  have hh := hi.head
  have hlen := hi.len
  have htl := hi.tail
  have htlt := hi.tlt
  have hnle := hi.nle
  rw [hh, tsnext_nat, htl] at h1
  have hn : n ≤ 62 := by
    by_contra hc
    have : n = 63 := by omega
    subst this
    apply h1
    congr 1
    omega
  have hidx : c.tshead.toNat = (t + n) % 64 := by rw [hh]; exact Int.toNat_ofNat _
  rw [hidx] at hg ⊢
  rw [List.get?_eq_getElem?] at hg
  have hlt : (t + n) % 64 < c.trapstore.length := by rw [hlen]; omega
  refine ⟨⟨x.tf.getD TF_TRAP 0, ts.faultaddr, x.tf, x.now⟩, ?_, rfl, rfl, rfl, ?_, ?_, hok, ?_⟩
  · rw [List.get?_eq_getElem?]
    exact List.getElem?_set_self hlt
  · exact ⟨ts, List.getElem?_mem hg, rfl⟩
  · apply List.ext_getElem?
    intro j
    simp only [List.getElem?_map, List.getElem?_set]
    by_cases hj : (t + n) % 64 = j
    · subst hj
      simp [hlt, hg]
    · simp [hj]
  · refine ⟨by simp [hlen], htl, htlt, by omega, ?_, ?_, ?_, ?_⟩
    · show tsnext c.tshead = _
      rw [hh, tsnext_nat]
      congr 1
      omega
    · simp [hi.cnt]; omega
    · rw [List.take_append_of_le_length (by have := hi.cnt; omega)]
      exact hi.fifo
    · intro i hin
      show (c.trapstore.set _ _)[(t + i) % 64]? = _
      by_cases hin2 : i = n
      · subst hin2
        rw [List.getElem?_set_self hlt, ← hi.cnt, List.getElem?_concat_length]
      · have hlt2 : i < n := by omega
        rw [List.getElem?_set_ne (by omega), hi.slots i hlt2,
          List.getElem?_append_left (by have := hi.cnt; omega)]

/-- Effect of one look of the consumer on a ring that satisfies the
relation. -/
theorem rinv_deq (H : List Int) (c c1 : cpu_t) (r : Option trapstore_t)
    (E D : List trapstore_t) (t n : Nat)
    (hi : RInv c E D t n) (h : trap_cpu H c = some (c1, r)) :
    (n = 0 ∧ r = none ∧ c1 = c) ∨
    (0 < n ∧ c1.trapstore = c.trapstore ∧
      ∃ x, r = some x ∧ RInv c1 E (D ++ [x]) ((t + 1) % 64) (n - 1)) := by
  have hh := hi.head
  have hlen := hi.len
  have htl := hi.tail
  have htlt := hi.tlt
  have hnle := hi.nle
  unfold trap_cpu at h
  by_cases h0 : c.tstail = c.tshead
  · rw [if_pos h0] at h
    injection h with h
    injection h with h1 h2
    left
    rw [htl, hh] at h0
    refine ⟨by omega, h2.symm, h1.symm⟩
  · rw [if_neg h0] at h
    have hneg : ¬ c.tstail < 0 := by rw [htl]; omega
    rw [if_neg hneg] at h
    have hn : 0 < n := by
      by_contra hc
      apply h0
      rw [htl, hh]
      congr 1
      have : n = 0 := by omega
      subst this
      omega
    have hidx : c.tstail.toNat = t := by rw [htl]; exact Int.toNat_ofNat _
    have hs := hi.slots 0 hn
    simp only [Nat.add_zero, Nat.mod_eq_of_lt htlt] at hs
    rw [hidx, List.get?_eq_getElem?, hs] at h
    have hE : D.length < E.length := by have := hi.cnt; omega
    rw [List.getElem?_eq_getElem hE] at h
    dsimp only at h
    by_cases hm : int64 E[D.length].trapno ∈ H
    · rw [if_pos hm] at h
      injection h with h
      injection h with h1 h2
      right
      subst h1
      refine ⟨hn, rfl, E[D.length], h2.symm, ?_⟩
      refine ⟨hlen, ?_, by omega, by omega, ?_, ?_, ?_, ?_⟩
      · show tsnext c.tstail = _
        rw [htl, tsnext_nat]
      · show c.tshead = _
        rw [hh]
        congr 1
        omega
      · simp [hi.cnt]; omega
      · rw [List.length_append, List.length_singleton, List.take_succ,
          List.getElem?_eq_getElem hE, ← hi.fifo]
        rfl
      · intro i hin
        show c.trapstore[((t + 1) % 64 + i) % 64]? = _
        have := hi.slots (i + 1) (by omega)
        rw [List.length_append, List.length_singleton]
        have e1 : ((t + 1) % 64 + i) % 64 = (t + (i + 1)) % 64 := by omega
        have e2 : D.length + 1 + i = D.length + (i + 1) := by omega
        rw [e1, e2]
        exact this
    · rw [if_neg hm] at h; cases h

/-- The relation is kept by every sequence of operations; the records
enqueued carry the trap number, the frame and the time of their traps, and
the fault address of a slot is never written. -/
theorem ringrun_inv (I : Int) (H : List Int) (ops : List ringop) :
    ∀ (c c1 : cpu_t) (E0 D0 E D : List trapstore_t) (t n : Nat),
      RInv c E0 D0 t n → ringrun I H c ops = some (c1, E, D) →
      (∃ t1 n1, RInv c1 (E0 ++ E) (D0 ++ D) t1 n1) ∧
      E.map (fun r => (r.trapno, r.tf, r.inttime)) =
        (enqs ops).map (fun x => (x.tf.getD TF_TRAP 0, x.tf, x.now)) ∧
      (∀ x ∈ enqs ops, okirq I x) ∧
      c1.trapstore.map (fun s => s.faultaddr) = c.trapstore.map (fun s => s.faultaddr) ∧
      ∀ r ∈ E, r.faultaddr ∈ c.trapstore.map (fun s => s.faultaddr) := by
  induction ops with
  | nil =>
    intro c c1 E0 D0 E D t n hi h
    simp only [ringrun, Option.some.injEq, Prod.mk.injEq] at h
    obtain ⟨rfl, rfl, rfl⟩ := h
    refine ⟨⟨t, n, ?_⟩, rfl, ?_, rfl, ?_⟩
    · rw [List.append_nil, List.append_nil]; exact hi
    · intro x hx; cases hx
    · intro r hr; cases hr
  | cons op ops ih =>
    intro c c1 E0 D0 E D t n hi h
    simp only [ringrun] at h
    cases hs : ringstep I H c op with
    | none => rw [hs] at h; cases h
    | some s =>
      obtain ⟨c2, e1, d1⟩ := s
      rw [hs] at h
      dsimp only at h
      cases hr : ringrun I H c2 ops with
      | none => rw [hr] at h; cases h
      | some s2 =>
        obtain ⟨c3, e2, d2⟩ := s2
        rw [hr] at h
        simp only [Option.some.injEq, Prod.mk.injEq] at h
        obtain ⟨rfl, rfl, rfl⟩ := h
        cases op with
        | enq x =>
          simp only [ringstep] at hs
          cases ht : trapstub I c x with
          | none => rw [ht] at hs; cases hs
          | some c4 =>
            rw [ht] at hs
            simp only [Option.some.injEq, Prod.mk.injEq] at hs
            obtain ⟨rfl, rfl, rfl⟩ := hs
            obtain ⟨r, hg, hr1, hr2, hr3, ⟨ts, hts, hfa⟩, hmap, hok, hi2⟩ :=
              rinv_enq I c c4 x E0 D0 t n hi ht
            obtain ⟨hinv, hE, hoks, hm, hf⟩ := ih c4 c3 (E0 ++ [r]) D0 e2 d2 t (n + 1) hi2 hr
            rw [hg]
            simp only [Option.toList, List.singleton_append, List.nil_append, enqs,
              List.map_cons, List.append_assoc] at hinv ⊢
            refine ⟨hinv, ?_, ?_, hm.trans hmap, ?_⟩
            · rw [hE, hr1, hr2, hr3]
            · intro y hy
              rcases List.mem_cons.mp hy with rfl | hy
              · exact hok
              · exact hoks y hy
            · intro y hy
              rcases List.mem_cons.mp hy with rfl | hy
              · rw [hfa]
                exact List.mem_map_of_mem _ hts
              · rw [← hmap]
                exact hf y hy
        | deq =>
          simp only [ringstep] at hs
          cases ht : trap_cpu H c with
          | none => rw [ht] at hs; cases hs
          | some s4 =>
            obtain ⟨c4, r⟩ := s4
            rw [ht] at hs
            simp only [Option.some.injEq, Prod.mk.injEq] at hs
            obtain ⟨rfl, rfl, rfl⟩ := hs
            rcases rinv_deq H c c4 r E0 D0 t n hi ht with ⟨_, rfl, rfl⟩ | ⟨_, hst, x, rfl, hi2⟩
            · obtain ⟨hinv, hE, hoks, hm, hf⟩ := ih c4 c3 E0 D0 e2 d2 t n hi hr
              simp only [Option.toList, List.nil_append, enqs]
              exact ⟨hinv, hE, hoks, hm, hf⟩
            · obtain ⟨hinv, hE, hoks, hm, hf⟩ :=
                ih c4 c3 E0 (D0 ++ [x]) e2 d2 _ _ hi2 hr
              simp only [Option.toList, List.nil_append, enqs, List.singleton_append,
                List.append_assoc] at hinv ⊢
              rw [hst] at hm hf
              exact ⟨hinv, hE, hoks, hm, hf⟩

/-- A burst of accepted traps fits in the ring as long as the number of
pending records stays at most 63. -/
theorem ringrun_burst (I : Int) (H : List Int) (burst : List trapin) :
    ∀ (c : cpu_t) (E D : List trapstore_t) (t n : Nat),
      RInv c E D t n → (∀ x ∈ burst, okirq I x) → n + burst.length ≤ 63 →
      ∃ c1 E1, ringrun I H c (burst.map ringop.enq) = some (c1, E1, []) ∧
        E1.length = burst.length := by
  induction burst with
  | nil =>
    intro c E D t n _ _ _
    exact ⟨c, [], rfl, rfl⟩
  | cons x xs ih =>
    intro c E D t n hi hok hn
    simp only [List.length_cons] at hn
    have hh := hi.head
    have htl := hi.tail
    have htlt := hi.tlt
    have hlt : (t + n) % 64 < c.trapstore.length := by rw [hi.len]; omega
    have hidx : c.tshead.toNat = (t + n) % 64 := by rw [hh]; exact Int.toNat_ofNat _
    have hfull : tsnext c.tshead ≠ c.tstail := by
      rw [hh, tsnext_nat, htl]
      intro hc
      have := Int.ofNat_inj.mp hc
      omega
    have hg : c.trapstore.get? c.tshead.toNat = some (c.trapstore[(t + n) % 64]) := by
      rw [hidx, List.get?_eq_getElem?, List.getElem?_eq_getElem hlt]
    have ht := trapstub_ok I c x _ (by rw [hh]; omega) hg hfull (hok x (List.mem_cons_self _ _))
    obtain ⟨r, hgr, _, _, _, _, _, _, hi2⟩ := rinv_enq I c _ x E D t n hi ht
    obtain ⟨c1, E1, hrun, hlen⟩ := ih _ (E ++ [r]) D t (n + 1) hi2
      (fun y hy => hok y (List.mem_cons_of_mem _ hy)) (by omega)
    refine ⟨c1, r :: E1, ?_, by simp [hlen]⟩
    simp only [List.map_cons, ringrun, ringstep, ht, hrun, hgr, Option.toList,
      List.singleton_append, List.append_nil]

/-- C12 (trap ring FIFO).  For every sequence of stub calls and looks of
the consumer on one CPU's ring, started from the empty ring at boot, in
which no stub call halts and the consumer does not panic: the records
dequeued are, in order, the first records enqueued (the k-th dequeued is
the k-th enqueued, as the stub left it in its slot); each enqueued record
carries the trap number, the register frame and the time of its trap; its
fault address is the one the slot had at boot, 0, because the stub
accepts no page fault. -/
theorem trap_ring_fifo (I : Int) (H : List Int) (ops : List ringop) (c : cpu_t)
    (E D : List trapstore_t) (h : ringrun I H cpu_zero ops = some (c, E, D)) :
    D = E.take D.length ∧
    (∀ k, k < D.length → D[k]? = E[k]?) ∧
    E.map (fun r => (r.trapno, r.tf, r.inttime)) =
      (enqs ops).map (fun x => (x.tf.getD TF_TRAP 0, x.tf, x.now)) ∧
    (∀ r ∈ E, r.faultaddr = 0) := by
  obtain ⟨⟨t1, n1, hinv⟩, hE, _, _, hf⟩ :=
    ringrun_inv I H ops cpu_zero c [] [] E D 0 0 rinv_zero h
  have hfifo := hinv.fifo
  simp only [List.nil_append] at hfifo
  refine ⟨hfifo, ?_, hE, ?_⟩
  · intro k hk
    conv_lhs => rw [hfifo]
    rw [List.getElem?_take_of_lt hk]
  · intro r hr
    have := hf r hr
    simp only [cpu_zero, List.map_replicate, List.mem_replicate] at this
    exact this.2

/-- C12 on the operations `ex_ringops`. -/
theorem trap_ring_fifo_witness :
    ringrun 46 [46, 33, 36] cpu_zero ex_ringops =
      some (ex_ring_end, [ex_rec 5, ex_rec 6, ex_rec 7], [ex_rec 5, ex_rec 6, ex_rec 7]) ∧
    ([ex_rec 5, ex_rec 6, ex_rec 7] =
        [ex_rec 5, ex_rec 6, ex_rec 7].take [ex_rec 5, ex_rec 6, ex_rec 7].length ∧
      (∀ k, k < [ex_rec 5, ex_rec 6, ex_rec 7].length →
        [ex_rec 5, ex_rec 6, ex_rec 7][k]? = [ex_rec 5, ex_rec 6, ex_rec 7][k]?) ∧
      [ex_rec 5, ex_rec 6, ex_rec 7].map (fun r => (r.trapno, r.tf, r.inttime)) =
        (enqs ex_ringops).map (fun x => (x.tf.getD TF_TRAP 0, x.tf, x.now)) ∧
      (∀ r ∈ [ex_rec 5, ex_rec 6, ex_rec 7], r.faultaddr = 0)) :=
  ⟨by decide, trap_ring_fifo 46 [46, 33, 36] ex_ringops ex_ring_end _ _ (by decide)⟩

set_option maxRecDepth 100000 in
/-- C13 as stated fails.  On the empty ring 63 keyboard interrupts fill the
ring, one look of the consumer takes one record out, and one more interrupt
is accepted: the ring is full again, with `tshead = 0` and `tstail = 1`.
The next interrupt finds `tsnext(tshead) == tstail` and the stub halts,
although no more than 63 interrupts came between two looks of the
consumer. -/
theorem trap_ring_full_after_dequeue :
    (ringrun 46 [46, 33, 36] cpu_zero
        (List.replicate 63 (.enq (ex_kbd 5)) ++ [.deq, .enq (ex_kbd 6)])).map
        (fun r => (r.1.tshead, r.1.tstail, r.2.1.length, r.2.2.length)) =
      some (0, 1, 64, 1) ∧
    ringrun 46 [46, 33, 36] cpu_zero
        (List.replicate 63 (.enq (ex_kbd 5)) ++ [.deq, .enq (ex_kbd 6), .enq (ex_kbd 7)]) =
      none := by
  decide

/-- C13 (amended).  In every state of one CPU's ring reached from the
empty ring at boot by stub calls that do not halt and looks of the consumer
that do not panic: both indices are in 0..63; the number of records
enqueued and not yet dequeued is `(tshead - tstail) mod 64` and is at most
63; `tshead == tstail` exactly when no record is pending and
`tsnext(tshead) == tstail` exactly when 63 are pending, and then every stub
call halts; and every burst of device interrupts that keeps the number of
pending records at most 63 (so every burst of at most 63 on a drained ring)
is enqueued without a halt. -/
theorem trap_ring_bound (I : Int) (H : List Int) (ops : List ringop) (c : cpu_t)
    (E D : List trapstore_t) (h : ringrun I H cpu_zero ops = some (c, E, D)) :
    0 ≤ c.tshead ∧ c.tshead < 64 ∧ 0 ≤ c.tstail ∧ c.tstail < 64 ∧
    D.length ≤ E.length ∧ E.length - D.length ≤ 63 ∧
    pending c = ((E.length - D.length : Nat) : Int) ∧
    (c.tshead = c.tstail ↔ E.length = D.length) ∧
    (tsnext c.tshead = c.tstail ↔ E.length - D.length = 63) ∧
    (E.length - D.length = 63 → ∀ x, trapstub I c x = none) ∧
    ∀ burst : List trapin, (∀ x ∈ burst, okirq I x) →
      (E.length - D.length) + burst.length ≤ 63 →
      ∃ c1 E1, ringrun I H c (burst.map ringop.enq) = some (c1, E1, []) ∧
        E1.length = burst.length := by
  obtain ⟨⟨t1, n1, hinv⟩, _, _, _, _⟩ :=
    ringrun_inv I H ops cpu_zero c [] [] E D 0 0 rinv_zero h
  simp only [List.nil_append] at hinv
  have hh := hinv.head
  have htl := hinv.tail
  have htlt := hinv.tlt
  have hnle := hinv.nle
  have hcnt := hinv.cnt
  have hpend : E.length - D.length = n1 := by omega
  have hfull : tsnext c.tshead = c.tstail ↔ n1 = 63 := by
    rw [hh, tsnext_nat, htl]
    constructor
    · intro hc
      have := Int.ofNat_inj.mp hc
      omega
    · intro hc
      subst hc
      congr 1
      omega
  rw [hpend]
  refine ⟨by omega, by omega, by omega, by omega, by omega, hnle, ?_, ?_, hfull, ?_, ?_⟩
  · unfold pending
    rw [hh, htl]
    omega
  · rw [hh, htl]
    constructor
    · intro hc
      have := Int.ofNat_inj.mp hc
      omega
    · intro hc
      have : n1 = 0 := by omega
      subst this
      congr 1
      omega
  · intro h63 x
    have hf := hfull.mpr h63
    unfold trapstub
    by_cases h0 : c.tshead < 0
    · rw [if_pos h0]
    · rw [if_neg h0]
      cases hg : c.trapstore.get? c.tshead.toNat with
      | none => rfl
      | some ts =>
        dsimp only
        rw [if_pos hf]
  · intro burst hok hn
    exact ringrun_burst I H burst c E D t1 n1 hinv hok hn

/-- C13 on the ring after two keyboard interrupts and one look of the
consumer: one record is pending, and a burst of 62 more keyboard interrupts
is enqueued without a halt. -/
theorem trap_ring_bound_witness :
    ringrun 46 [46, 33, 36] cpu_zero [.enq (ex_kbd 5), .enq (ex_kbd 6), .deq] =
      some (ex_ring_mid, [ex_rec 5, ex_rec 6], [ex_rec 5]) ∧
    (0 ≤ ex_ring_mid.tshead ∧ ex_ring_mid.tshead < 64 ∧
      0 ≤ ex_ring_mid.tstail ∧ ex_ring_mid.tstail < 64 ∧
      [ex_rec 5].length ≤ [ex_rec 5, ex_rec 6].length ∧
      [ex_rec 5, ex_rec 6].length - [ex_rec 5].length ≤ 63 ∧
      pending ex_ring_mid = (([ex_rec 5, ex_rec 6].length - [ex_rec 5].length : Nat) : Int) ∧
      (ex_ring_mid.tshead = ex_ring_mid.tstail ↔
        [ex_rec 5, ex_rec 6].length = [ex_rec 5].length) ∧
      (tsnext ex_ring_mid.tshead = ex_ring_mid.tstail ↔
        [ex_rec 5, ex_rec 6].length - [ex_rec 5].length = 63) ∧
      ([ex_rec 5, ex_rec 6].length - [ex_rec 5].length = 63 →
        ∀ x, trapstub 46 ex_ring_mid x = none) ∧
      ∀ burst : List trapin, (∀ x ∈ burst, okirq 46 x) →
        ([ex_rec 5, ex_rec 6].length - [ex_rec 5].length) + burst.length ≤ 63 →
        ∃ c1 E1, ringrun 46 [46, 33, 36] ex_ring_mid (burst.map ringop.enq) =
            some (c1, E1, []) ∧
          E1.length = burst.length) ∧
    ∃ c1 E1, ringrun 46 [46, 33, 36] ex_ring_mid
        ((List.replicate 62 (ex_kbd 7)).map ringop.enq) = some (c1, E1, []) ∧
      E1.length = 62 := by
  have h := trap_ring_bound 46 [46, 33, 36] [.enq (ex_kbd 5), .enq (ex_kbd 6), .deq]
    ex_ring_mid [ex_rec 5, ex_rec 6] [ex_rec 5] (by decide)
  refine ⟨by decide, h, ?_⟩
  have hb := h.2.2.2.2.2.2.2.2.2.2 (List.replicate 62 (ex_kbd 7))
    (fun x hx => by rw [List.eq_of_mem_replicate hx]; unfold okirq; decide) (by decide)
  simpa using hb

/-! ## Theorems about the frame allocator -/

theorem chain_congr (pgs pgs1 : List physpg_t) (L : List Nat) :
    ∀ i, IsChain pgs i L →
      (∀ j ∈ L, ∀ d, pgs[j]? = some d → ∃ d1, pgs1[j]? = some d1 ∧ d1.nexti = d.nexti) →
      IsChain pgs1 i L := by
  induction L with
  | nil => intro i h _; exact h
  | cons j L ih =>
    intro i h hag
    obtain ⟨h1, h2, d, hd, hc⟩ := h
    obtain ⟨d1, hd1, hn⟩ := hag j (List.mem_cons_self _ _) d hd
    refine ⟨h1, h2, d1, hd1, ?_⟩
    rw [hn]
    exact ih _ hc (fun x hx => hag x (List.mem_cons_of_mem _ hx))

theorem chain_lt (pgs : List physpg_t) (L : List Nat) :
    ∀ i, IsChain pgs i L → ∀ j ∈ L, j < pgs.length := by
  induction L with
  | nil => intro i _ j hj; cases hj
  | cons x L ih =>
    intro i h j hj
    obtain ⟨_, _, d, hd, hc⟩ := h
    rcases List.mem_cons.mp hj with rfl | hj
    · by_contra hlt
      rw [List.getElem?_eq_none_iff.mpr (by omega)] at hd
      cases hd
    · exact ih _ hc j hj

theorem nodup_length_le (L : List Nat) (n : Nat) (hn : L.Nodup) (hl : ∀ j ∈ L, j < n) :
    L.length ≤ n := by
  have h1 : L.toFinset ⊆ Finset.range n := by
    intro x hx
    rw [List.mem_toFinset] at hx
    exact Finset.mem_range.mpr (hl x hx)
  have h2 := Finset.card_le_card h1
  rw [List.toFinset_card_of_nodup hn, Finset.card_range] at h2
  exact h2

theorem freelist_from_eq (pgs : List physpg_t) (L : List Nat) :
    ∀ i fuel, IsChain pgs i L → L.length ≤ fuel → freelist_from pgs fuel i = L := by
  induction L with
  | nil =>
    intro i fuel h _
    have h0 : i = U32MAX := h
    cases fuel with
    | zero => rfl
    | succ f => simp [freelist_from, h0]
  | cons j L ih =>
    intro i fuel h hf
    obtain ⟨rfl, h2, d, hd, hc⟩ := h
    cases fuel with
    | zero => simp at hf
    | succ f =>
      simp only [List.length_cons, Nat.add_le_add_iff_right] at hf
      simp only [freelist_from, h2, if_false, hd]
      rw [ih _ f hc hf]

/-- Under the consistency relation the walk of `pgcount` yields the list
of the relation. -/
theorem freelist_eq (res : Nat → Prop) (pm : physmem_t) (L : List Nat)
    (h : FInv res pm L) : freelist pm = L :=
  freelist_from_eq pm.pgs L pm.freei pm.pgs.length h.chain
    (nodup_length_le L _ h.nodup (chain_lt pm.pgs L pm.freei h.chain))

theorem set_refcnt_get (pm : physmem_t) (idx j : Nat) (c : Int) :
    (set_refcnt pm idx c).pgs[j]? =
      (pm.pgs[j]?).map (fun d => if idx = j then { d with refcnt := c } else d) := by
  unfold set_refcnt
  simp only [List.getElem?_modify]
  rfl

theorem reffree_get (pm : physmem_t) (idx j : Nat) :
    (_reffree pm idx).pgs[j]? =
      (pm.pgs[j]?).map (fun d => if idx = j then { d with nexti := pm.freei } else d) := by
  unfold _reffree
  simp only [List.getElem?_modify]
  rfl

theorem refaddr_some (pm : physmem_t) (p_pg idx : Nat) (r : Int)
    (h : _refaddr pm p_pg = some (r, idx)) :
    ∃ d, pm.pgs[idx]? = some d ∧ d.refcnt = r := by
  unfold _refaddr at h
  dsimp only at h
  rw [List.get?_eq_getElem?] at h
  split at h
  · cases h
  · rename_i pg hpg
    simp only [Option.some.injEq, Prod.mk.injEq] at h
    obtain ⟨h1, h2⟩ := h
    rw [← h2]
    exact ⟨pg, hpg, h1⟩

theorem finv_set_refcnt (res : Nat → Prop) (pm : physmem_t) (L : List Nat) (idx : Nat)
    (c : Int) (h : FInv res pm L) (hL : idx ∉ L)
    (hc : (res idx → 0 ≤ c) ∧ (¬ res idx → c = -10)) :
    FInv res (set_refcnt pm idx c) L := by
  refine ⟨?_, ?_, h.nodup, ?_, ?_, h.resv⟩
  · show (List.modify _ _ _).length ≤ _
    rw [List.length_modify]; exact h.lenb
  · apply chain_congr pm.pgs _ L _ h.chain
    intro j hj d hd
    rw [set_refcnt_get, hd]
    refine ⟨_, rfl, ?_⟩
    split <;> rfl
  · intro j hj d hd
    rw [set_refcnt_get] at hd
    have hne : idx ≠ j := fun e => hL (e ▸ hj)
    cases hg : pm.pgs[j]? with
    | none => rw [hg] at hd; cases hd
    | some d0 =>
      rw [hg] at hd
      simp only [Option.map_some', if_neg hne, Option.some.injEq] at hd
      rw [← hd]
      exact h.free0 j hj d0 hg
  · intro j d hd
    rw [set_refcnt_get] at hd
    cases hg : pm.pgs[j]? with
    | none => rw [hg] at hd; cases hd
    | some d0 =>
      rw [hg] at hd
      by_cases hne : idx = j
      · simp only [Option.map_some', if_pos hne, Option.some.injEq] at hd
        rw [← hd, ← hne]
        exact hc
      · simp only [Option.map_some', if_neg hne, Option.some.injEq] at hd
        rw [← hd]
        exact h.cls j d0 hg

theorem refup_some (pm pm1 : physmem_t) (p_pg : Nat) (h : refup pm p_pg = some pm1) :
    ∃ idx d, _refaddr pm p_pg = some (d.refcnt, idx) ∧ pm.pgs[idx]? = some d ∧
      0 < d.refcnt + 1 ∧ pm1 = set_refcnt pm idx (d.refcnt + 1) := by
  unfold refup at h
  cases hr : _refaddr pm p_pg with
  | none => rw [hr] at h; cases h
  | some x =>
    obtain ⟨r, idx⟩ := x
    rw [hr] at h
    dsimp only at h
    obtain ⟨d, hd, rfl⟩ := refaddr_some pm p_pg idx r hr
    by_cases hc : d.refcnt + 1 ≤ 0
    · rw [if_pos hc] at h; cases h
    · rw [if_neg hc] at h
      injection h with h
      exact ⟨idx, d, rfl, hd, by omega, h.symm⟩

theorem refdown_some (pm pm1 : physmem_t) (p_pg idx : Nat) (add : Bool)
    (h : _refdown pm p_pg = some (pm1, add, idx)) :
    ∃ d, pm.pgs[idx]? = some d ∧ 0 ≤ d.refcnt - 1 ∧
      pm1 = set_refcnt pm idx (d.refcnt - 1) ∧ add = decide (d.refcnt - 1 = 0) := by
  unfold _refdown at h
  cases hr : _refaddr pm p_pg with
  | none => rw [hr] at h; cases h
  | some x =>
    obtain ⟨r, i⟩ := x
    rw [hr] at h
    dsimp only at h
    obtain ⟨d, hd, rfl⟩ := refaddr_some pm p_pg i r hr
    by_cases hc : d.refcnt - 1 < 0
    · rw [if_pos hc] at h; cases h
    · rw [if_neg hc] at h
      simp only [Option.some.injEq, Prod.mk.injEq] at h
      obtain ⟨h1, h2, h3⟩ := h
      subst h3
      exact ⟨d, hd, by omega, h1.symm, h2.symm⟩

theorem finv_refup (res : Nat → Prop) (pm pm1 : physmem_t) (L : List Nat) (p_pg : Nat)
    (h : FInv res pm L) (hu : refup pm p_pg = some pm1)
    (hL : ∀ r idx, _refaddr pm p_pg = some (r, idx) → idx ∉ L) : FInv res pm1 L := by
  obtain ⟨idx, d, hra, hd, hpos, rfl⟩ := refup_some pm pm1 p_pg hu
  apply finv_set_refcnt res pm L idx _ h (hL _ _ hra)
  have := h.cls idx d hd
  constructor
  · intro _; omega
  · intro hn
    have := this.2 hn
    omega

theorem finv_refdown (res : Nat → Prop) (pm pm1 : physmem_t) (L : List Nat)
    (p_pg idx : Nat) (add : Bool)
    (h : FInv res pm L) (hu : _refdown pm p_pg = some (pm1, add, idx)) :
    FInv res pm1 L ∧ idx ∉ L ∧ res idx ∧ idx < pm.pgs.length ∧
    (∃ d, pm.pgs[idx]? = some d ∧ 0 < d.refcnt ∧ pm1 = set_refcnt pm idx (d.refcnt - 1) ∧
      add = decide (d.refcnt = 1)) := by
  obtain ⟨d, hd, hpos, rfl, hadd⟩ := refdown_some pm pm1 p_pg idx add hu
  have hcls := h.cls idx d hd
  have hnL : idx ∉ L := by
    intro hm
    have := h.free0 idx hm d hd
    omega
  have hres : res idx := by
    by_contra hn
    have := hcls.2 hn
    omega
  have hlt : idx < pm.pgs.length := by
    by_contra hc
    rw [List.getElem?_eq_none_iff.mpr (by omega)] at hd
    cases hd
  refine ⟨?_, hnL, hres, hlt, d, hd, by omega, rfl, ?_⟩
  · apply finv_set_refcnt res pm L idx _ h hnL
    exact ⟨fun _ => hpos, fun hn => absurd hres hn⟩
  · rw [hadd]
    by_cases h1 : d.refcnt = 1
    · simp [h1]
    · have : ¬ d.refcnt - 1 = 0 := by omega
      simp [h1, this]

theorem finv_reffree (res : Nat → Prop) (pm : physmem_t) (L : List Nat) (idx : Nat)
    (d : physpg_t) (h : FInv res pm L) (hL : idx ∉ L) (hd : pm.pgs[idx]? = some d)
    (h0 : d.refcnt = 0) (hres : res idx) : FInv res (_reffree pm idx) (idx :: L) := by
  have hlt : idx < pm.pgs.length := by
    by_contra hc
    rw [List.getElem?_eq_none_iff.mpr (by omega)] at hd
    cases hd
  have hlen := h.lenb
  refine ⟨?_, ?_, List.nodup_cons.mpr ⟨hL, h.nodup⟩, ?_, ?_, ?_⟩
  · show (List.modify _ _ _).length ≤ _
    rw [List.length_modify]; exact hlen
  · refine ⟨rfl, by omega, { d with nexti := pm.freei }, ?_, ?_⟩
    · rw [reffree_get, hd]; simp
    · apply chain_congr pm.pgs _ L _ h.chain
      intro j hj d1 hd1
      have hne : idx ≠ j := fun e => hL (e ▸ hj)
      rw [reffree_get, hd1]
      exact ⟨_, rfl, by simp [hne]⟩
  · intro j hj d1 hd1
    rw [reffree_get] at hd1
    cases hg : pm.pgs[j]? with
    | none => rw [hg] at hd1; cases hd1
    | some d0 =>
      rw [hg] at hd1
      by_cases hne : idx = j
      · subst hne
        rw [hd] at hg
        injection hg with hg
        simp only [Option.map_some', if_true, Option.some.injEq] at hd1
        rw [← hd1, ← hg]
        exact h0
      · simp only [Option.map_some', if_neg hne, Option.some.injEq] at hd1
        rw [← hd1]
        rcases List.mem_cons.mp hj with e | hj
        · exact absurd e.symm hne
        · exact h.free0 j hj d0 hg
  · intro j d1 hd1
    rw [reffree_get] at hd1
    cases hg : pm.pgs[j]? with
    | none => rw [hg] at hd1; cases hd1
    | some d0 =>
      rw [hg] at hd1
      have := h.cls j d0 hg
      by_cases hne : idx = j
      · simp only [Option.map_some', if_pos hne, Option.some.injEq] at hd1
        rw [← hd1]
        exact this
      · simp only [Option.map_some', if_neg hne, Option.some.injEq] at hd1
        rw [← hd1]
        exact this
  · intro j hj
    rcases List.mem_cons.mp hj with e | hj
    · rw [e]; exact hres
    · exact h.resv j hj

theorem heldafter_append (e1 e2 : List physev) :
    ∀ H, heldafter (e1 ++ e2) H = heldafter e2 (heldafter e1 H) := by
  induction e1 with
  | nil => intro H; rfl
  | cons e es ih =>
    intro H
    cases e with
    | alloc i => exact ih _
    | free i => exact ih _

theorem nodouble_append (e1 e2 : List physev) :
    ∀ H, nodouble (e1 ++ e2) H = (nodouble e1 H && nodouble e2 (heldafter e1 H)) := by
  induction e1 with
  | nil => intro H; simp [nodouble, heldafter]
  | cons e es ih =>
    intro H
    cases e with
    | alloc i =>
      show (decide (i ∉ H) && nodouble (es ++ e2) (i :: H)) = _
      rw [ih]
      simp only [nodouble, heldafter, Bool.and_assoc]
    | free i =>
      show nodouble (es ++ e2) _ = _
      rw [ih]
      simp only [nodouble, heldafter]

/-- Effect of `refup` on a consistent allocator, for a frame that is off
the free list. -/
theorem ainv_refup (res : Nat → Prop) (X : List Nat) (pm pm1 : physmem_t) (L H : List Nat)
    (p_pg : Nat) (h : AInv res X pm L H) (hu : refup pm p_pg = some pm1)
    (hL : ∀ r idx, _refaddr pm p_pg = some (r, idx) → idx ∉ L) : AInv res X pm1 L H := by
  refine ⟨finv_refup res pm pm1 L p_pg h.finv hu hL, h.held, ?_⟩
  obtain ⟨idx, d, _, hd, hpos, rfl⟩ := refup_some pm pm1 p_pg hu
  intro j d1 hd1 h0
  rw [set_refcnt_get] at hd1
  cases hg : pm.pgs[j]? with
  | none => rw [hg] at hd1; cases hd1
  | some d0 =>
    rw [hg] at hd1
    by_cases hne : idx = j
    · simp only [Option.map_some', if_pos hne, Option.some.injEq] at hd1
      rw [← hd1] at h0
      simp only at h0
      omega
    · simp only [Option.map_some', if_neg hne, Option.some.injEq] at hd1
      rw [← hd1] at h0
      exact h.zero j d0 hg h0

/-- Effect of `refdown` on a consistent allocator; a frame with count 0
that is off the free list stays so. -/
theorem ainv_refdown_ev (res : Nat → Prop) (X : List Nat) (pm pm1 : physmem_t)
    (L H : List Nat) (p_pg : Nat) (ev : List physev)
    (h : AInv res X pm L H) (hu : refdown_ev pm p_pg = some (pm1, ev)) :
    ∃ L1, AInv res X pm1 L1 (heldafter ev H) ∧ nodouble ev H = true ∧
      ∀ r d, pm.pgs[r]? = some d → d.refcnt = 0 → r ∉ L →
        r ∉ L1 ∧ ∃ d1, pm1.pgs[r]? = some d1 ∧ d1.refcnt = 0 := by
  unfold refdown_ev at hu
  cases hr : _refdown pm p_pg with
  | none => rw [hr] at hu; cases hu
  | some x =>
    obtain ⟨pm2, add, idx⟩ := x
    rw [hr] at hu
    dsimp only at hu
    obtain ⟨hf, hnL, hres, hlt, d, hd, hpos, rfl, hadd⟩ :=
      finv_refdown res pm pm2 L p_pg idx add h.finv hr
    have hd2 : (set_refcnt pm idx (d.refcnt - 1)).pgs[idx]? =
        some { d with refcnt := d.refcnt - 1 } := by
      rw [set_refcnt_get, hd]; simp
    have hother : ∀ r d0, pm.pgs[r]? = some d0 → d0.refcnt = 0 →
        idx ≠ r ∧ (set_refcnt pm idx (d.refcnt - 1)).pgs[r]? = some d0 := by
      intro r d0 hd0 h0
      have hne : idx ≠ r := by
        intro e
        subst e
        rw [hd] at hd0
        injection hd0 with hd0
        rw [hd0] at hpos
        omega
      refine ⟨hne, ?_⟩
      rw [set_refcnt_get, hd0]
      simp [hne]
    have hback : ∀ r d1, idx ≠ r → (set_refcnt pm idx (d.refcnt - 1)).pgs[r]? = some d1 →
        pm.pgs[r]? = some d1 := by
      intro r d1 hne hd1
      rw [set_refcnt_get] at hd1
      cases hg : pm.pgs[r]? with
      | none => rw [hg] at hd1; cases hd1
      | some d0 =>
        rw [hg] at hd1
        simp only [Option.map_some', if_neg hne, Option.some.injEq] at hd1
        rw [hd1]
    cases add with
    | false =>
      simp only [Bool.false_eq_true, if_false, Option.some.injEq, Prod.mk.injEq] at hu
      obtain ⟨rfl, rfl⟩ := hu
      have hne1 : d.refcnt ≠ 1 := by
        intro e
        rw [e] at hadd
        simp at hadd
      refine ⟨L, ⟨hf, h.held, ?_⟩, rfl, ?_⟩
      · intro j d1 hd1 h0
        by_cases hne : idx = j
        · subst hne
          rw [hd2] at hd1
          injection hd1 with hd1
          rw [← hd1] at h0
          simp only at h0
          omega
        · exact h.zero j d1 (hback j d1 hne hd1) h0
      · intro r d0 hd0 h0 hrL
        exact ⟨hrL, d0, (hother r d0 hd0 h0).2, h0⟩
    | true =>
      simp only [if_true, Option.some.injEq, Prod.mk.injEq] at hu
      obtain ⟨rfl, rfl⟩ := hu
      have h1 : d.refcnt = 1 := of_decide_eq_true hadd.symm
      refine ⟨idx :: L, ⟨finv_reffree res _ L idx _ hf hnL hd2 (by simp [h1]) hres, ?_, ?_⟩,
        rfl, ?_⟩
      · intro x hx
        simp only [heldafter, List.mem_filter, decide_eq_true_eq] at hx
        intro hm
        rcases List.mem_cons.mp hm with e | hm
        · exact hx.2 e
        · exact h.held x hx.1 hm
      · intro j d1 hd1 h0
        by_cases hne : idx = j
        · left; rw [hne]; exact List.mem_cons_self _ _
        · rw [reffree_get] at hd1
          cases hg : (set_refcnt pm idx (d.refcnt - 1)).pgs[j]? with
          | none => rw [hg] at hd1; cases hd1
          | some d0 =>
            rw [hg] at hd1
            simp only [Option.map_some', if_neg hne, Option.some.injEq] at hd1
            rw [← hd1] at h0
            rcases h.zero j d0 (hback j d0 hne hg) h0 with hz | hz | hz
            · left; exact List.mem_cons_of_mem _ hz
            · right; left
              simp only [heldafter, List.mem_filter, decide_eq_true_eq]
              exact ⟨hz, fun e => hne e.symm⟩
            · right; right; exact hz
      · intro r d0 hd0 h0 hrL
        obtain ⟨hne, hg⟩ := hother r d0 hd0 h0
        refine ⟨?_, d0, ?_, h0⟩
        · intro hm
          rcases List.mem_cons.mp hm with e | hm
          · exact hne e.symm
          · exact hrL hm
        · rw [reffree_get, hg]
          simp [hne]

/-- Effect of the release loop of `_vmfree` on a consistent allocator. -/
theorem ainv_vmfree_loop (res : Nat → Prop) (X : List Nat) (ps : List Nat) :
    ∀ (pm pm1 : physmem_t) (L H : List Nat) (ev : List physev),
      AInv res X pm L H → _vmfree_loop pm ps = some (pm1, ev) →
      ∃ L1, AInv res X pm1 L1 (heldafter ev H) ∧ nodouble ev H = true ∧
        ∀ r d, pm.pgs[r]? = some d → d.refcnt = 0 → r ∉ L →
          r ∉ L1 ∧ ∃ d1, pm1.pgs[r]? = some d1 ∧ d1.refcnt = 0 := by
  induction ps with
  | nil =>
    intro pm pm1 L H ev h hu
    simp only [_vmfree_loop, Option.some.injEq, Prod.mk.injEq] at hu
    obtain ⟨rfl, rfl⟩ := hu
    exact ⟨L, h, rfl, fun r d hd h0 hr => ⟨hr, d, hd, h0⟩⟩
  | cons p ps ih =>
    intro pm pm1 L H ev h hu
    simp only [_vmfree_loop] at hu
    cases h1 : refdown_ev pm p with
    | none => rw [h1] at hu; cases hu
    | some x =>
      obtain ⟨pm2, e1⟩ := x
      rw [h1] at hu
      dsimp only at hu
      cases h2 : _vmfree_loop pm2 ps with
      | none => rw [h2] at hu; cases hu
      | some y =>
        obtain ⟨pm3, e2⟩ := y
        rw [h2] at hu
        simp only [Option.some.injEq, Prod.mk.injEq] at hu
        obtain ⟨rfl, rfl⟩ := hu
        obtain ⟨L1, ha1, hn1, hp1⟩ := ainv_refdown_ev res X pm pm2 L H p e1 h h1
        obtain ⟨L2, ha2, hn2, hp2⟩ := ih pm2 pm3 L1 _ e2 ha1 h2
        refine ⟨L2, ?_, ?_, ?_⟩
        · rw [heldafter_append]; exact ha2
        · rw [nodouble_append, hn1, hn2]; rfl
        · intro r d hd h0 hr
          obtain ⟨hr1, d1, hd1, h01⟩ := hp1 r d hd h0 hr
          exact hp2 r d1 hd1 h01 hr1

/-- Effect of `dec_pmap` on a consistent allocator. -/
theorem ainv_dec_pmap (res : Nat → Prop) (k k1 : kern_t) (L H : List Nat)
    (p_pmap : Nat) (ev : List physev)
    (h : AInv res [] k.physmem L H) (hu : dec_pmap k p_pmap = some (k1, ev)) :
    ∃ L1, AInv res [] k1.physmem L1 (heldafter ev H) ∧ nodouble ev H = true := by
  unfold dec_pmap at hu
  cases hr : _refdown k.physmem p_pmap with
  | none => rw [hr] at hu; cases hu
  | some x =>
    obtain ⟨pm1, freed, idx⟩ := x
    rw [hr] at hu
    dsimp only at hu
    obtain ⟨hf, hnL, hres, hlt, d, hd, hpos, rfl, hadd⟩ :=
      finv_refdown res k.physmem pm1 L p_pmap idx freed h.finv hr
    have hd2 : (set_refcnt k.physmem idx (d.refcnt - 1)).pgs[idx]? =
        some { d with refcnt := d.refcnt - 1 } := by
      rw [set_refcnt_get, hd]; simp
    have hzero : ∀ j d1, (set_refcnt k.physmem idx (d.refcnt - 1)).pgs[j]? = some d1 →
        d1.refcnt = 0 → j ∈ L ∨ j ∈ H ∨ j ∈ [idx] := by
      intro j d1 hd1 h0
      by_cases hne : idx = j
      · right; right; rw [hne]; exact List.mem_singleton_self _
      · rw [set_refcnt_get] at hd1
        cases hg : k.physmem.pgs[j]? with
        | none => rw [hg] at hd1; cases hd1
        | some d0 =>
          rw [hg] at hd1
          simp only [Option.map_some', if_neg hne, Option.some.injEq] at hd1
          rw [← hd1] at h0
          rcases h.zero j d0 hg h0 with hz | hz | hz
          · left; exact hz
          · right; left; exact hz
          · cases hz
    cases freed with
    | false =>
      simp only [Bool.not_false, if_true, Bool.not_true] at hu
      simp only [Option.some.injEq, Prod.mk.injEq] at hu
      obtain ⟨rfl, rfl⟩ := hu
      have hne1 : d.refcnt ≠ 1 := by
        intro e
        rw [e] at hadd
        simp at hadd
      refine ⟨L, ⟨hf, h.held, ?_⟩, rfl⟩
      intro j d1 hd1 h0
      rcases hzero j d1 hd1 h0 with hz | hz | hz
      · left; exact hz
      · right; left; exact hz
      · have e := List.mem_singleton.mp hz
        subst e
        show _ ∨ _ ∨ _
        rw [hd2] at hd1
        injection hd1 with hd1
        rw [← hd1] at h0
        simp only at h0
        omega
    | true =>
      simp only [Bool.not_true, Bool.false_eq_true, if_false] at hu
      cases hv : _vmfree { k with physmem := set_refcnt k.physmem idx (d.refcnt - 1) } p_pmap with
      | none => rw [hv] at hu; cases hu
      | some y =>
        obtain ⟨pm2, e2⟩ := y
        rw [hv] at hu
        simp only [Option.some.injEq, Prod.mk.injEq] at hu
        obtain ⟨rfl, rfl⟩ := hu
        have h1 : d.refcnt = 1 := of_decide_eq_true hadd.symm
        unfold _vmfree at hv
        obtain ⟨L1, ha1, hn1, hp1⟩ :=
          ainv_vmfree_loop res [idx] _ _ pm2 L H e2 ⟨hf, h.held, hzero⟩ hv
        obtain ⟨hr1, d1, hd1, h01⟩ := hp1 idx _ hd2 (by simp [h1]) hnL
        refine ⟨idx :: L1,
          ⟨finv_reffree res pm2 L1 idx d1 ha1.finv hr1 hd1 h01 hres, ?_, ?_⟩, ?_⟩
        · intro x hx
          rw [heldafter_append] at hx
          simp only [heldafter, List.mem_filter, decide_eq_true_eq] at hx
          intro hm
          rcases List.mem_cons.mp hm with e | hm
          · exact hx.2 e
          · exact ha1.held x hx.1 hm
        · intro j d3 hd3 h0
          by_cases hne : idx = j
          · left; rw [hne]; exact List.mem_cons_self _ _
          · rw [reffree_get] at hd3
            cases hg : pm2.pgs[j]? with
            | none => rw [hg] at hd3; cases hd3
            | some d0 =>
              rw [hg] at hd3
              simp only [Option.map_some', if_neg hne, Option.some.injEq] at hd3
              rw [← hd3] at h0
              rcases ha1.zero j d0 hg h0 with hz | hz | hz
              · left; exact List.mem_cons_of_mem _ hz
              · right; left
                rw [heldafter_append]
                simp only [heldafter, List.mem_filter, decide_eq_true_eq]
                exact ⟨hz, fun e => hne e.symm⟩
              · exact absurd (List.mem_singleton.mp hz).symm hne
        · rw [nodouble_append, hn1]
          rfl

/-- Effect of `_refpg_new` on a consistent allocator: the head of the free
list is handed out and leaves the list with its count still 0. -/
theorem ainv_refpg_new (res : Nat → Prop) (k k1 : kern_t) (L H : List Nat) (p_pg : Nat)
    (h : AInv res [] k.physmem L H) (hu : _refpg_new k = some (k1, p_pg)) :
    ∃ L1 d, L = k.physmem.freei :: L1 ∧ AInv res [] k1.physmem L1 (k.physmem.freei :: H) ∧
      k.physmem.freei ∉ H ∧ k.physmem.freei ∉ L1 ∧
      k1.physmem.pgs[k.physmem.freei]? = some d ∧ d.refcnt = 0 ∧
      k1.mem = k.mem ∧ k1.physmem.startn = k.physmem.startn ∧
      p_pg = ((k.physmem.freei + k.physmem.startn) % 2 ^ 32) <<< PGSHIFT := by
  unfold _refpg_new at hu
  by_cases hdm : (!k.dmapinit) = true
  · rw [if_pos hdm] at hu; cases hu
  · rw [if_neg hdm] at hu
    dsimp only at hu
    rw [List.get?_eq_getElem?] at hu
    cases hg : k.physmem.pgs[k.physmem.freei]? with
    | none => rw [hg] at hu; cases hu
    | some d =>
      rw [hg] at hu
      dsimp only at hu
      by_cases hmax : k.physmem.freei = U32MAX
      · rw [if_pos hmax] at hu; cases hu
      · rw [if_neg hmax] at hu
        by_cases hneg : d.refcnt < 0
        · rw [if_pos hneg] at hu; cases hu
        · rw [if_neg hneg] at hu
          simp only [Option.some.injEq, Prod.mk.injEq] at hu
          obtain ⟨rfl, rfl⟩ := hu
          have hch := h.finv.chain
          cases L with
          | nil => exact absurd hch hmax
          | cons j L1 =>
            obtain ⟨hj, hj2, d2, hd2, hc⟩ := hch
            subst hj
            rw [hg] at hd2
            injection hd2 with hd2
            subst hd2
            have hnd := List.nodup_cons.mp h.finv.nodup
            refine ⟨L1, d, rfl, ⟨⟨h.finv.lenb, hc, hnd.2, ?_, h.finv.cls, ?_⟩, ?_, ?_⟩, ?_,
              hnd.1, hg, ?_, rfl, rfl, rfl⟩
            · intro x hx
              exact h.finv.free0 x (List.mem_cons_of_mem _ hx)
            · intro x hx
              exact h.finv.resv x (List.mem_cons_of_mem _ hx)
            · intro x hx hm
              rcases List.mem_cons.mp hx with e | hx
              · rw [e] at hm; exact hnd.1 hm
              · exact h.held x hx (List.mem_cons_of_mem _ hm)
            · intro x d1 hd1 h0
              rcases h.zero x d1 hd1 h0 with hz | hz | hz
              · rcases List.mem_cons.mp hz with e | hz
                · right; left; rw [e]; exact List.mem_cons_self _ _
                · left; exact hz
              · right; left; exact List.mem_cons_of_mem _ hz
              · cases hz
            · intro hm
              exact h.held _ hm (List.mem_cons_self _ _)
            · exact h.finv.free0 _ (List.mem_cons_self _ _) d hg

theorem refpg_new_some (k k1 : kern_t) (p_pg : Nat) (h : refpg_new k = some (k1, p_pg)) :
    ∃ k0, _refpg_new k = some (k0, p_pg) ∧ k1.physmem = k0.physmem := by
  unfold refpg_new at h
  cases hr : _refpg_new k with
  | none => rw [hr] at h; cases h
  | some x =>
    obtain ⟨k0, p⟩ := x
    rw [hr] at h
    simp only [Option.some.injEq, Prod.mk.injEq] at h
    obtain ⟨rfl, rfl⟩ := h
    exact ⟨k0, rfl, rfl⟩

/-- Effect of one call on a consistent allocator. -/
theorem ainv_physstep (res : Nat → Prop) (k k1 : kern_t) (L H : List Nat) (op : physop)
    (ev : List physev) (h : AInv res [] k.physmem L H)
    (hup : refup_held k [op] = true) (hu : physstep k op = some (k1, ev)) :
    ∃ L1, AInv res [] k1.physmem L1 (heldafter ev H) ∧ nodouble ev H = true := by
  cases op with
  | new zero =>
    simp only [physstep] at hu
    cases hz : (if zero = true then refpg_new k else _refpg_new k) with
    | none => rw [hz] at hu; cases hu
    | some x =>
      obtain ⟨k2, p⟩ := x
      rw [hz] at hu
      simp only [Option.some.injEq, Prod.mk.injEq] at hu
      obtain ⟨rfl, rfl⟩ := hu
      have hex : ∃ k0, _refpg_new k = some (k0, p) ∧ k2.physmem = k0.physmem := by
        cases zero with
        | true => exact refpg_new_some k k2 p (by simpa using hz)
        | false => exact ⟨k2, by simpa using hz, rfl⟩
      obtain ⟨k0, h0, he⟩ := hex
      obtain ⟨L1, d, _, ha, hnH, _, _, _, _, _, _⟩ := ainv_refpg_new res k k0 L H p h h0
      refine ⟨L1, ?_, ?_⟩
      · rw [he]; exact ha
      · simp [nodouble, hnH]
  | up p =>
    simp only [physstep] at hu
    cases hr : refup k.physmem p with
    | none => rw [hr] at hu; cases hu
    | some pm1 =>
      rw [hr] at hu
      simp only [Option.some.injEq, Prod.mk.injEq] at hu
      obtain ⟨rfl, rfl⟩ := hu
      refine ⟨L, ?_, rfl⟩
      apply ainv_refup res [] k.physmem pm1 L H p h hr
      intro r idx hra
      simp only [refup_held, hra, Bool.and_eq_true, decide_eq_true_eq] at hup
      rw [freelist_eq res k.physmem L h.finv] at hup
      exact hup.1
  | down p =>
    simp only [physstep] at hu
    cases hr : refdown_ev k.physmem p with
    | none => rw [hr] at hu; cases hu
    | some x =>
      obtain ⟨pm1, e⟩ := x
      rw [hr] at hu
      simp only [Option.some.injEq, Prod.mk.injEq] at hu
      obtain ⟨rfl, rfl⟩ := hu
      obtain ⟨L1, ha, hn, _⟩ := ainv_refdown_ev res [] k.physmem pm1 L H p e h hr
      exact ⟨L1, ha, hn⟩
  | decpmap p =>
    simp only [physstep] at hu
    exact ainv_dec_pmap res k k1 L H p ev h hu
  | store f o v =>
    simp only [physstep, Option.some.injEq, Prod.mk.injEq] at hu
    obtain ⟨rfl, rfl⟩ := hu
    exact ⟨L, h, rfl⟩

theorem refup_held_cons (k k1 : kern_t) (op : physop) (ops : List physop)
    (ev : List physev) (h : refup_held k (op :: ops) = true)
    (hs : physstep k op = some (k1, ev)) :
    refup_held k [op] = true ∧ refup_held k1 ops = true := by
  simp only [refup_held, hs, Bool.and_eq_true] at h ⊢
  exact ⟨⟨h.1, trivial⟩, h.2⟩

/-- Effect of a sequence of calls on a consistent allocator. -/
theorem ainv_physrun (res : Nat → Prop) (ops : List physop) :
    ∀ (k k1 : kern_t) (L H : List Nat) (ev : List physev),
      AInv res [] k.physmem L H → refup_held k ops = true →
      physrun k ops = some (k1, ev) →
      ∃ L1, AInv res [] k1.physmem L1 (heldafter ev H) ∧ nodouble ev H = true := by
  induction ops with
  | nil =>
    intro k k1 L H ev h _ hu
    simp only [physrun, Option.some.injEq, Prod.mk.injEq] at hu
    obtain ⟨rfl, rfl⟩ := hu
    exact ⟨L, h, rfl⟩
  | cons op ops ih =>
    intro k k1 L H ev h hup hu
    simp only [physrun] at hu
    cases hs : physstep k op with
    | none => rw [hs] at hu; cases hu
    | some x =>
      obtain ⟨k2, e1⟩ := x
      rw [hs] at hu
      dsimp only at hu
      cases hr : physrun k2 ops with
      | none => rw [hr] at hu; cases hu
      | some y =>
        obtain ⟨k3, e2⟩ := y
        rw [hr] at hu
        simp only [Option.some.injEq, Prod.mk.injEq] at hu
        obtain ⟨rfl, rfl⟩ := hu
        obtain ⟨hup1, hup2⟩ := refup_held_cons k k2 op ops e1 hup hs
        obtain ⟨L1, ha1, hn1⟩ := ainv_physstep res k k2 L H op e1 h hup1 hs
        obtain ⟨L2, ha2, hn2⟩ := ih k2 k3 L1 _ e2 ha1 hup2 hr
        refine ⟨L2, ?_, ?_⟩
        · rw [heldafter_append]; exact ha2
        · rw [nodouble_append, hn1, hn2]; rfl

theorem pg2pgn_lt (p : Nat) : _pg2pgn p < 2 ^ 32 := by
  unfold _pg2pgn
  exact Nat.mod_lt _ (by norm_num)

theorem idxof_inj (s p q : Nat) (h : idxof s p = idxof s q) : _pg2pgn p = _pg2pgn q := by
  unfold idxof at h
  have h1 := pg2pgn_lt p
  have h2 := pg2pgn_lt q
  omega

theorem idxof_self (p : Nat) : idxof (_pg2pgn p) p = 0 := by
  unfold idxof
  have h1 := pg2pgn_lt p
  omega

theorem nodup_idxof (s : Nat) (gets : List Nat) (h : (gets.map _pg2pgn).Nodup) :
    (gets.map (idxof s)).Nodup := by
  induction gets with
  | nil => exact List.nodup_nil
  | cons p gets ih =>
    simp only [List.map_cons, List.nodup_cons, List.mem_map, not_exists, not_and] at h ⊢
    refine ⟨?_, ih h.2⟩
    intro q hq he
    exact h.1 q hq (idxof_inj s q p he)

/-- The loop of `phys_init` keeps the descriptors consistent with the list
it builds, when no frame comes twice. -/
theorem phys_init_loop_pinv (n : Nat) :
    ∀ (gets : List Nat) (i : Nat) (pm pm0 : physmem_t) (L : List Nat),
      PInv pm L → (gets.map (idxof pm.startn)).Nodup →
      (∀ j ∈ L, ∀ p ∈ gets, idxof pm.startn p ≠ j) →
      phys_init_loop n i gets pm = some pm0 →
      ∃ L0, PInv pm0 L0 ∧ (L ≠ [] → L0 ≠ []) := by
  intro gets
  induction gets with
  | nil =>
    intro i pm pm0 L h _ _ hu
    simp only [phys_init_loop] at hu
    split at hu
    · cases hu
    · injection hu with hu
      subst hu
      exact ⟨L, h, id⟩
  | cons p gets ih =>
    intro i pm pm0 L h hnd hne hu
    simp only [phys_init_loop] at hu
    split at hu
    · have hidx : (_pg2pgn p + 2 ^ 32 - pm.startn % 2 ^ 32) % 2 ^ 32 = idxof pm.startn p := rfl
      rw [hidx] at hu
      split at hu
      · split at hu
        · cases hu
        · injection hu with hu
          subst hu
          exact ⟨L, h, id⟩
      · rename_i hlen
        have hlt : idxof pm.startn p < pm.pgs.length := by omega
        have hnL : idxof pm.startn p ∉ L := fun hm => hne _ hm p (List.mem_cons_self _ _) rfl
        have hnd2 := List.nodup_cons.mp hnd
        have hget : ∀ j, (List.modify (fun _ => (⟨0, pm.freei⟩ : physpg_t))
            (idxof pm.startn p) pm.pgs)[j]? =
            (pm.pgs[j]?).map (fun a => if idxof pm.startn p = j then ⟨0, pm.freei⟩ else a) := by
          intro j
          rw [List.getElem?_modify]
          rfl
        have hP : PInv ⟨pm.pgs.modify (fun _ => ⟨0, pm.freei⟩) (idxof pm.startn p),
            pm.startn, idxof pm.startn p⟩ (idxof pm.startn p :: L) := by
          refine ⟨?_, ?_, List.nodup_cons.mpr ⟨hnL, h.nodup⟩, ?_⟩
          · show (List.modify _ _ _).length ≤ _
            rw [List.length_modify]; exact h.lenb
          · refine ⟨rfl, by have := h.lenb; omega, ⟨0, pm.freei⟩, ?_, ?_⟩
            · show (List.modify _ _ _)[_]? = _
              rw [hget, List.getElem?_eq_getElem hlt]
              simp
            · apply chain_congr pm.pgs _ L _ h.chain
              intro j hj d hd
              have hjne : idxof pm.startn p ≠ j := fun e => hnL (e ▸ hj)
              refine ⟨d, ?_, rfl⟩
              show (List.modify _ _ _)[_]? = _
              rw [hget, hd]
              simp [hjne]
          · intro j d hd
            have hd1 : (List.modify (fun _ => (⟨0, pm.freei⟩ : physpg_t))
                (idxof pm.startn p) pm.pgs)[j]? = some d := hd
            rw [hget] at hd1
            cases hg : pm.pgs[j]? with
            | none => rw [hg] at hd1; cases hd1
            | some d0 =>
              rw [hg] at hd1
              by_cases hjne : idxof pm.startn p = j
              · simp only [Option.map_some', if_pos hjne, Option.some.injEq] at hd1
                rw [← hd1]
                refine ⟨fun _ => rfl, fun hn => ?_⟩
                exact absurd (hjne ▸ List.mem_cons_self _ _) hn
              · simp only [Option.map_some', if_neg hjne, Option.some.injEq] at hd1
                rw [← hd1]
                have := h.all j d0 hg
                refine ⟨fun hm => ?_, fun hn => ?_⟩
                · rcases List.mem_cons.mp hm with e | hm
                  · exact absurd e.symm hjne
                  · exact this.1 hm
                · exact this.2 (fun hm => hn (List.mem_cons_of_mem _ hm))
        have hQ : ∀ j ∈ idxof pm.startn p :: L, ∀ q ∈ gets, idxof pm.startn q ≠ j := by
          intro j hj q hq
          rcases List.mem_cons.mp hj with e | hj
          · rw [e]
            intro he
            exact hnd2.1 (List.mem_map.mpr ⟨q, hq, he⟩)
          · exact hne j hj q (List.mem_cons_of_mem _ hq)
        obtain ⟨L0, h0, hne0⟩ := ih (i + 1) _ pm0 (idxof pm.startn p :: L) hP hnd2.2 hQ hu
        exact ⟨L0, h0, fun _ => hne0 (List.cons_ne_nil _ _)⟩
    · injection hu with hu
      subst hu
      exact ⟨L, h, id⟩

/-- After `phys_init` the descriptors are consistent with a free list that
is not empty, when no frame comes twice from `Get_phys`. -/
theorem phys_init_pinv (n : Nat) (gets : List Nat) (pm0 : physmem_t)
    (hn : n ≤ U32MAX) (hg : (gets.map _pg2pgn).Nodup)
    (hi : phys_init_n n gets = some pm0) :
    ∃ L0, PInv pm0 L0 ∧ L0 ≠ [] := by
  unfold phys_init_n at hi
  cases gets with
  | nil => cases hi
  | cons first rest =>
    dsimp only at hi
    by_cases h0 : n = 0
    · rw [if_pos h0] at hi; cases hi
    · rw [if_neg h0] at hi
      have hnd := List.nodup_cons.mp (by simpa using hg : (_pg2pgn first :: rest.map _pg2pgn).Nodup)
      have hget : ∀ j, (List.modify (fun _ => (⟨0, U32MAX⟩ : physpg_t)) 0
          (List.replicate n (⟨-10, 0⟩ : physpg_t)))[j]? =
          if j < n then some (if 0 = j then ⟨0, U32MAX⟩ else ⟨-10, 0⟩) else none := by
        intro j
        rw [List.getElem?_modify, List.getElem?_replicate]
        by_cases hj : j < n
        · by_cases h0j : 0 = j <;> simp [hj, h0j]
        · simp [hj]
      have hP : PInv ⟨(List.replicate n (⟨-10, 0⟩ : physpg_t)).modify (fun _ => ⟨0, U32MAX⟩) 0,
          _pg2pgn first, 0⟩ [0] := by
        refine ⟨?_, ?_, by simp, ?_⟩
        · show (List.modify _ _ _).length ≤ _
          rw [List.length_modify, List.length_replicate]; exact hn
        · refine ⟨rfl, by unfold U32MAX; omega, ⟨0, U32MAX⟩, ?_, rfl⟩
          show (List.modify _ _ _)[_]? = _
          rw [hget]
          simp [Nat.pos_of_ne_zero h0]
        · intro j d hd
          have hd1 : (List.modify (fun _ => (⟨0, U32MAX⟩ : physpg_t)) 0
              (List.replicate n (⟨-10, 0⟩ : physpg_t)))[j]? = some d := hd
          rw [hget] at hd1
          split at hd1
          · injection hd1 with hd1
            by_cases hj : 0 = j
            · rw [if_pos hj] at hd1
              rw [← hd1]
              exact ⟨fun _ => rfl, fun hn => absurd (by simp [← hj]) hn⟩
            · rw [if_neg hj] at hd1
              rw [← hd1]
              refine ⟨fun hm => ?_, fun _ => rfl⟩
              simp at hm
              exact absurd hm.symm hj
          · cases hd1
      have hQ : ∀ j ∈ [0], ∀ q ∈ rest, idxof (_pg2pgn first) q ≠ j := by
        intro j hj q hq
        simp only [List.mem_singleton] at hj
        subst hj
        show idxof (_pg2pgn first) q ≠ 0
        intro he
        rw [← idxof_self first] at he
        have := idxof_inj _ _ _ he
        exact hnd.1 (List.mem_map.mpr ⟨q, hq, this⟩)
      obtain ⟨L0, hp, hne⟩ := phys_init_loop_pinv n rest 0 _ pm0 [0] hP
        (nodup_idxof _ rest hnd.2) hQ hi
      exact ⟨L0, hp, hne (by simp)⟩

/-- Right after `phys_init` the allocator is consistent, with every
reserved frame on the free list and no frame handed out. -/
theorem phys_init_ainv (n : Nat) (gets : List Nat) (pm0 : physmem_t)
    (hn : n ≤ U32MAX) (hg : (gets.map _pg2pgn).Nodup)
    (hi : phys_init_n n gets = some pm0) :
    ∃ L0, AInv (reserved pm0) [] pm0 L0 [] ∧ L0 ≠ [] := by
  obtain ⟨L0, hp, hne⟩ := phys_init_pinv n gets pm0 hn hg hi
  refine ⟨L0, ⟨⟨hp.lenb, hp.chain, hp.nodup, ?_, ?_, ?_⟩, ?_, ?_⟩, hne⟩
  · intro j hj d hd
    exact (hp.all j d hd).1 hj
  · intro j d hd
    refine ⟨fun hr => ?_, fun hr => ?_⟩
    · obtain ⟨d1, hd1, h0⟩ := hr
      rw [hd] at hd1
      injection hd1 with hd1
      rw [hd1, h0]
    · by_cases hm : j ∈ L0
      · exact absurd ⟨d, hd, (hp.all j d hd).1 hm⟩ hr
      · exact (hp.all j d hd).2 hm
  · intro j hj
    have hlt := chain_lt pm0.pgs L0 pm0.freei hp.chain j hj
    exact ⟨pm0.pgs[j], List.getElem?_eq_getElem hlt,
      (hp.all j _ (List.getElem?_eq_getElem hlt)).1 hj⟩
  · intro x hx; cases hx
  · intro j d hd h0
    left
    by_contra hm
    have := (hp.all j d hd).2 hm
    omega

/-- The frame that `_refpg_new` hands out is found by `_refaddr` at the
index that left the free list, with count 0. -/
theorem refaddr_of_new (pm : physmem_t) (j : Nat) (d : physpg_t)
    (hlen : pm.pgs.length ≤ U32MAX) (hd : pm.pgs[j]? = some d) :
    _refaddr pm (((j + pm.startn) % 2 ^ 32) <<< PGSHIFT) = some (d.refcnt, j) := by
  have hlt : j < pm.pgs.length := by
    by_contra hc
    rw [List.getElem?_eq_none_iff.mpr (by omega)] at hd
    cases hd
  have hj : j < 2 ^ 32 := by unfold U32MAX at hlen; omega
  have hidx : (_pg2pgn (((j + pm.startn) % 2 ^ 32) <<< PGSHIFT) + 2 ^ 32 -
      pm.startn % 2 ^ 32) % 2 ^ 32 = j := by
    unfold _pg2pgn PGSHIFT
    rw [Nat.shiftLeft_shiftRight]
    omega
  unfold _refaddr
  dsimp only
  rw [hidx, List.get?_eq_getElem?, hd]

theorem phys_init_loop_some (n : Nat) :
    ∀ (gets : List Nat) (i : Nat) (pm : physmem_t),
      (∀ p ∈ gets, idxof pm.startn p < pm.pgs.length) → n - 1 ≤ i + gets.length →
      ∃ pm0, phys_init_loop n i gets pm = some pm0 := by
  intro gets
  induction gets with
  | nil =>
    intro i pm _ hl
    simp only [List.length_nil, Nat.add_zero] at hl
    exact ⟨pm, by simp only [phys_init_loop]; rw [if_neg (by omega)]⟩
  | cons p gets ih =>
    intro i pm hp hl
    simp only [phys_init_loop]
    by_cases hi : i < n - 1
    · rw [if_pos hi]
      have hlt := hp p (List.mem_cons_self _ _)
      have hidx : (_pg2pgn p + 2 ^ 32 - pm.startn % 2 ^ 32) % 2 ^ 32 = idxof pm.startn p := rfl
      rw [hidx, if_neg (by omega)]
      apply ih
      · intro q hq
        show idxof pm.startn q < (List.modify _ _ _).length
        rw [List.length_modify]
        exact hp q (List.mem_cons_of_mem _ hq)
      · simp only [List.length_cons] at hl
        omega
    · rw [if_neg hi]
      exact ⟨pm, rfl⟩

theorem ex_gets_pgn (i : Nat) (hi : i < respgs) :
    _pg2pgn (0x100000 + i * PGSIZE) = 0x100 + i := by
  unfold _pg2pgn PGSHIFT PGSIZE
  unfold respgs at hi
  rw [Nat.shiftRight_eq_div_pow]
  simp only [Nat.shiftLeft_eq] at hi
  omega

theorem ex_gets_nodup : (ex_gets.map _pg2pgn).Nodup := by
  unfold ex_gets
  have h0 : _pg2pgn 0x100000 = 0x100 := by
    have := ex_gets_pgn 0 (by unfold respgs; decide)
    simpa using this
  simp only [List.map_cons, List.map_map, List.nodup_cons, List.mem_map, List.mem_range,
    Function.comp, not_exists, not_and, h0]
  constructor
  · intro i hi he
    rw [ex_gets_pgn (i + 1) (by omega)] at he
    omega
  · apply List.Nodup.map_on _ (List.nodup_range _)
    intro x hx y hy he
    rw [List.mem_range] at hx hy
    simp only [Function.comp_apply] at he
    rw [ex_gets_pgn (x + 1) (by omega), ex_gets_pgn (y + 1) (by omega)] at he
    omega

theorem ex_gets_init : ∃ pm0, phys_init ex_gets = some pm0 := by
  unfold phys_init phys_init_n ex_gets
  dsimp only
  rw [if_neg (by unfold respgs; decide)]
  apply phys_init_loop_some
  · intro p hp
    simp only [List.mem_map, List.mem_range] at hp
    obtain ⟨i, hi, rfl⟩ := hp
    show idxof (_pg2pgn 0x100000) _ < (List.modify _ _ _).length
    rw [List.length_modify, List.length_replicate]
    have h0 : _pg2pgn 0x100000 = 0x100 := by
      have := ex_gets_pgn 0 (by unfold respgs; decide)
      simpa using this
    unfold idxof
    rw [h0, ex_gets_pgn (i + 1) (by omega)]
    unfold respgs at hi ⊢
    simp only [Nat.shiftLeft_eq] at hi ⊢
    omega
  · simp only [List.length_map, List.length_range]
    omega

/-- C11, the claim as stated fails: right after boot on a machine with
one block of memory, `phys_init` succeeds and the first `_refpg_new`
hands out a reserved frame whose count is 0 and which is not on the free
list. -/
theorem fresh_frame_off_freelist :
    ∃ pm0 k1 p_pg idx, phys_init ex_gets = some pm0 ∧
      physrun (ex_boot pm0) [.new false] = some (k1, [.alloc idx]) ∧
      _refpg_new (ex_boot pm0) = some (k1, p_pg) ∧
      _refaddr k1.physmem p_pg = some (0, idx) ∧
      reserved pm0 idx ∧ idx ∉ freelist k1.physmem := by
  obtain ⟨pm0, hi⟩ := ex_gets_init
  obtain ⟨L0, ha, hne⟩ := phys_init_ainv respgs ex_gets pm0 (by unfold respgs U32MAX; decide)
    ex_gets_nodup hi
  cases L0 with
  | nil => exact absurd rfl hne
  | cons j L1 =>
    obtain ⟨hj, hj2, d, hd, hc⟩ := ha.finv.chain
    have h0 := ha.finv.free0 j (List.mem_cons_self _ _) d hd
    have hnew : _refpg_new (ex_boot pm0) =
        some ({ ex_boot pm0 with physmem := { pm0 with freei := d.nexti } },
          ((j + pm0.startn) % 2 ^ 32) <<< PGSHIFT) := by
      unfold _refpg_new
      simp only [ex_boot, Bool.not_true, Bool.false_eq_true, if_false]
      rw [List.get?_eq_getElem?, hj, hd]
      dsimp only
      rw [if_neg hj2, if_neg (by omega)]
    obtain ⟨L2, d2, hL, ha2, _, hn2, hd2, h02, _, hs, hp⟩ :=
      ainv_refpg_new (reserved pm0) (ex_boot pm0) _ (j :: L1) [] _ ha hnew
    have hf : (ex_boot pm0).physmem.freei = j := hj
    rw [hf] at hn2 hd2
    refine ⟨pm0, _, _, j, hi, ?_, hnew, ?_, ha.finv.resv j (List.mem_cons_self _ _), ?_⟩
    · simp only [physrun, physstep, Bool.false_eq_true, if_false, hnew]
      rw [hf]
      rfl
    · have := refaddr_of_new { pm0 with freei := d.nexti } j d2 ha2.finv.lenb hd2
      rw [h02] at this
      exact this
    · rw [freelist_eq _ _ L2 ha2.finv]
      exact hn2

/-- C11 (frame-descriptor invariant), as the code has it.  `phys_init`
runs with any number `n` of descriptors up to 2^32 - 1 (65536 in the
source) on frames that `Get_phys` returns without repetition; then any
sequence of `_refpg_new`, `refpg_new`, `refup`, `refdown` and `dec_pmap`
calls and of stores to memory runs without a panic, every `refup` being
applied to a frame that is off the free list.  In the state reached:
every reserved frame has a count of at least 0 and every unreserved frame
keeps the count -10; a frame is on the free list exactly when its count
is 0 and it is not handed out; the free list is duplicate-free and ends
at the end mark; and no frame is handed out twice without a free in
between. -/
theorem frame_invariant (n : Nat) (gets : List Nat) (pm0 pm : physmem_t) (k0 : kern_t)
    (ops : List physop) (ev : List physev)
    (hn : n ≤ U32MAX) (hg : (gets.map _pg2pgn).Nodup)
    (hi : phys_init_n n gets = some pm0) (hk : k0.physmem = pm0)
    (hup : refup_held k0 ops = true)
    (hr : (physrun k0 ops).map (fun r => (r.1.physmem, r.2)) = some (pm, ev)) :
    FramesOK pm0 pm ev := by
  obtain ⟨L0, ha, _⟩ := phys_init_ainv n gets pm0 hn hg hi
  cases hrun : physrun k0 ops with
  | none => rw [hrun] at hr; cases hr
  | some x =>
    obtain ⟨k, ev1⟩ := x
    rw [hrun] at hr
    simp only [Option.map_some', Option.some.injEq, Prod.mk.injEq] at hr
    obtain ⟨rfl, rfl⟩ := hr
    subst hk
    obtain ⟨L1, ha1, hnd⟩ := ainv_physrun _ ops k0 k L0 [] ev1 ha hup hrun
    have hfl := freelist_eq _ _ L1 ha1.finv
    refine ⟨ha1.finv.cls, ?_, ?_, ?_, hnd⟩
    · intro j d hd
      rw [hfl]
      constructor
      · intro hm
        exact ⟨ha1.finv.free0 j hm d hd, fun hh => ha1.held j hh hm⟩
      · intro ⟨h0, hh⟩
        rcases ha1.zero j d hd h0 with hz | hz | hz
        · exact hz
        · exact absurd hz hh
        · cases hz
    · rw [hfl]; exact ha1.finv.nodup
    · rw [hfl]; exact ha1.finv.chain

set_option maxRecDepth 10000 in
/-- C11 on the machine with eight frames and the calls `ex_physops`. -/
theorem frame_invariant_witness :
    (8 ≤ U32MAX ∧ (ex_gets8.map _pg2pgn).Nodup ∧ phys_init_n 8 ex_gets8 = some ex_pm8 ∧
      refup_held (ex_boot ex_pm8) ex_physops = true ∧
      (physrun (ex_boot ex_pm8) ex_physops).map (fun r => (r.1.physmem, r.2)) =
        some (⟨[⟨0, U32MAX⟩, ⟨0, 0⟩, ⟨0, 1⟩, ⟨0, 2⟩, ⟨0, 3⟩, ⟨0, 4⟩, ⟨0, 5⟩, ⟨0, 5⟩], 1, 6⟩,
          [.alloc 7, .alloc 6, .free 7, .alloc 7, .free 6])) ∧
    FramesOK ex_pm8
      ⟨[⟨0, U32MAX⟩, ⟨0, 0⟩, ⟨0, 1⟩, ⟨0, 2⟩, ⟨0, 3⟩, ⟨0, 4⟩, ⟨0, 5⟩, ⟨0, 5⟩], 1, 6⟩
      [.alloc 7, .alloc 6, .free 7, .alloc 7, .free 6] :=
  ⟨⟨by decide, by decide, by decide, by decide, by decide⟩,
    frame_invariant 8 ex_gets8 ex_pm8 _ (ex_boot ex_pm8) ex_physops _ (by decide) (by decide)
      (by decide) rfl (by decide) (by decide)⟩

/-! ## Theorems about exec -/

theorem exec_restore_some (k k3 : kern_t) (vm vm3 : proc_t) (opmap : pmap_t)
    (op_pmap : Nat) (ovmreg : List vminfo_t)
    (h : exec_restore k vm opmap op_pmap ovmreg = some (k3, vm3)) :
    vm3.pmap = opmap ∧ vm3.p_pmap = op_pmap ∧ vm3.vmregion = ovmreg := by
  unfold exec_restore at h
  split at h
  · cases h
  · simp only [Option.some.injEq, Prod.mk.injEq] at h
    obtain ⟨_, rfl⟩ := h
    exact ⟨rfl, rfl, rfl⟩

theorem exec_return_some (env : execenv) (file : fd_t) (k : kern_t) (p : procfd_t)
    (vm : proc_t) (tf : List Int) (closed : List Nat) (ev : List tlbev) (ret : Int)
    (r : execres) (h : exec_return env file k p vm tf closed ev ret = some r) :
    r.p = { p with vm := Unlock_pmap vm } ∧ r.tf = tf ∧ r.ret = ret ∧
    r.closed = closed ++ [file.fops] ∧ r.k = k := by
  unfold exec_return at h
  split at h
  · cases h
  · injection h with h
    subst h
    exact ⟨rfl, rfl, rfl, rfl, rfl⟩

theorem exec_commit_ret (env : execenv) (file : fd_t) (e : elf_t) (k : kern_t)
    (p : procfd_t) (vm : proc_t) (tf : List Int) (paths : List Nat) (ev : List tlbev)
    (op_pmap : Nat) (freshtls t0tls tlssz stackva argc argv : Int) (r : execres)
    (h : exec_commit env file e k p vm tf paths ev op_pmap freshtls t0tls tlssz stackva
      argc argv = some r) : r.ret = 0 := by
  unfold exec_commit at h
  repeat' first | split at h | (dsimp only at h; split at h)
  all_goals first
    | exact Option.noConfusion h
    | exact (exec_return_some _ _ _ _ _ _ _ _ _ _ h).2.2.1

/-- What a failed `sys_execv1` leaves: page table, root address, regions,
descriptor table, mmap cursor, name and trap frame as they were, and the
pmap lock free. -/
theorem exec_fail_state (env : execenv) (k : kern_t) (p : procfd_t) (tf : List Int)
    (paths : List Nat) (args : List (List Nat)) (r : execres)
    (h : sys_execv1 env k p tf paths args = some r) (hr : r.ret ≠ 0) :
    r.p.vm.pmap = p.vm.pmap ∧ r.p.vm.p_pmap = p.vm.p_pmap ∧
    r.p.vm.vmregion = p.vm.vmregion ∧ r.p.fds = p.fds ∧ r.p.fdstart = p.fdstart ∧
    r.p.mmapi = p.mmapi ∧ r.p.name = p.name ∧ r.tf = tf ∧ r.p.vm.pgfltaken = false := by
  unfold sys_execv1 at h
  repeat' first | split at h | (dsimp only at h; split at h)
  all_goals first
    | exact Option.noConfusion h
    | (injection h with h
       subst h
       obtain ⟨h1, h2, h3⟩ := exec_restore_some _ _ _ _ _ _ _ ‹_›
       exact ⟨h1, h2, h3, rfl, rfl, rfl, rfl, rfl, rfl⟩)
    | (exact absurd (exec_commit_ret _ _ _ _ _ _ _ _ _ _ _ _ _ _ _ _ _ h) hr)
    | (obtain ⟨hp, htf, _⟩ := exec_return_some _ _ _ _ _ _ _ _ _ _ h
       obtain ⟨h1, h2, h3⟩ := exec_restore_some _ _ _ _ _ _ _ ‹_›
       rw [hp]
       exact ⟨h1, h2, h3, rfl, rfl, rfl, rfl, htf, rfl⟩)

theorem fd_del_some (p : procfd_t) (i : Nat) (fd : fd_t)
    (h : (p.fds.get? i).join = some fd) :
    (fd_del p (i : Int)).1.fds = p.fds.set i none ∧ (fd_del p (i : Int)).2 = some fd ∧
    (fd_del p (i : Int)).1.vm = p.vm ∧ (fd_del p (i : Int)).1.mmapi = p.mmapi ∧
    (fd_del p (i : Int)).1.name = p.name := by
  have hlt : i < p.fds.length := by
    by_contra hc
    rw [List.get?_eq_getElem?, List.getElem?_eq_none_iff.mpr (by omega)] at h
    cases h
  have hc : ¬ ((i : Int) < 0 ∨ (i : Int) ≥ (p.fds.length : Int)) := by omega
  unfold fd_del
  rw [if_neg hc]
  simp only [Int.toNat_ofNat, h]
  split <;> exact ⟨rfl, rfl, rfl, rfl, rfl⟩

/-- The close-on-exec pass over the slots `fdns`: a marked slot among them
is emptied and its file object closed once, every other slot is kept. -/
theorem cloexec_loop_spec (env : execenv) (fdns : List Nat) :
    ∀ (p p1 : procfd_t) (closed closed1 : List Nat), fdns.Nodup →
      cloexec_loop env fdns p closed = some (p1, closed1) →
      p1.vm = p.vm ∧ p1.mmapi = p.mmapi ∧ p1.name = p.name ∧
      (∀ i, p1.fds[i]? = if i ∈ fdns then (p.fds[i]?).map cloexec_strip else p.fds[i]?) ∧
      closed1 = closed ++ fdns.filterMap (fun i => cloexec_fops (p.fds[i]?).join) := by
  induction fdns with
  | nil =>
    intro p p1 closed closed1 _ h
    simp only [cloexec_loop, Option.some.injEq, Prod.mk.injEq] at h
    obtain ⟨rfl, rfl⟩ := h
    simp
  | cons fdn fdns ih =>
    intro p p1 closed closed1 hnd h
    have hnd2 := List.nodup_cons.mp hnd
    simp only [cloexec_loop] at h
    cases hg : (p.fds.get? fdn).join with
    | none =>
      rw [hg] at h
      dsimp only at h
      obtain ⟨h1, h2, h3, h4, h5⟩ := ih p p1 closed closed1 hnd2.2 h
      rw [List.get?_eq_getElem?] at hg
      refine ⟨h1, h2, h3, ?_, ?_⟩
      · intro i
        rw [h4 i]
        by_cases hi : i = fdn
        · subst hi
          rw [if_neg hnd2.1, if_pos (List.mem_cons_self _ _)]
          cases hx : p.fds[i]? with
          | none => rfl
          | some o =>
            rw [hx] at hg
            have ho : o = none := hg
            subst ho
            rfl
        · simp only [List.mem_cons, hi, false_or]
      · have hcf : cloexec_fops (p.fds[fdn]?).join = none := by rw [hg]; rfl
        rw [h5, List.filterMap_cons, hcf]
    | some fd =>
      rw [hg] at h
      dsimp only at h
      have hg2 := hg
      rw [List.get?_eq_getElem?] at hg2
      have hx : p.fds[fdn]? = some (some fd) := by
        cases hx : p.fds[fdn]? with
        | none => rw [hx] at hg2; cases hg2
        | some o =>
          rw [hx] at hg2
          exact congrArg some (hg2 : o = some fd)
      by_cases hc : fd.perms &&& FD_CLOEXEC ≠ 0
      · rw [if_pos hc] at h
        obtain ⟨hd1, hd2, hd3, hd4, hd5⟩ := fd_del_some p fdn fd hg
        have hsc : sys_close env p (fdn : Int) =
            ((fd_del p (fdn : Int)).1, [fd.fops], env.fclose fd.fops) := by
          unfold sys_close
          cases hfd : fd_del p (fdn : Int) with
          | mk q o =>
            rw [hfd] at hd2
            simp only at hd2
            subst hd2
            rfl
        rw [hsc] at h
        dsimp only at h
        split at h
        · cases h
        · obtain ⟨h1, h2, h3, h4, h5⟩ := ih _ p1 _ closed1 hnd2.2 h
          have hset : ∀ i, (fd_del p (fdn : Int)).1.fds[i]? =
              if fdn = i then some none else p.fds[i]? := by
            intro i
            rw [hd1, List.getElem?_set]
            by_cases hi : fdn = i
            · subst hi
              have hlt : fdn < p.fds.length := by
                by_contra hcc
                rw [List.getElem?_eq_none_iff.mpr (by omega)] at hx
                cases hx
              simp [hlt]
            · simp [hi]
          refine ⟨h1.trans hd3, h2.trans hd4, h3.trans hd5, ?_, ?_⟩
          · intro i
            rw [h4 i, hset i]
            by_cases hi : i = fdn
            · subst hi
              rw [if_neg hnd2.1, if_pos (List.mem_cons_self _ _), hx]
              simp [cloexec_strip, cloexec, hc]
            · have hi2 : ¬ fdn = i := fun e => hi e.symm
              simp only [List.mem_cons, hi, false_or, hi2, if_false]
          · rw [h5, List.filterMap_cons, List.append_assoc]
            have hcf : cloexec_fops (p.fds[fdn]?).join = some fd.fops := by
              rw [hx]
              simp [cloexec_fops, cloexec, hc]
            rw [hcf]
            congr 1
            simp only [List.singleton_append]
            congr 1
            apply List.filterMap_congr
            intro j hj
            have hj2 : ¬ fdn = j := fun e => hnd2.1 (e ▸ hj)
            rw [hset j, if_neg hj2]
      · rw [if_neg hc] at h
        obtain ⟨h1, h2, h3, h4, h5⟩ := ih p p1 closed closed1 hnd2.2 h
        refine ⟨h1, h2, h3, ?_, ?_⟩
        · intro i
          rw [h4 i]
          by_cases hi : i = fdn
          · subst hi
            rw [if_neg hnd2.1, if_pos (List.mem_cons_self _ _), hx]
            simp [cloexec_strip, cloexec, hc]
          · simp only [List.mem_cons, hi, false_or]
        · rw [h5, List.filterMap_cons]
          have hcf : cloexec_fops (p.fds[fdn]?).join = none := by
            rw [hx]
            simp [cloexec_fops, cloexec, hc]
          rw [hcf]

theorem filterMap_range_get (l : List (Option fd_t)) (g : Option fd_t → Option Nat) :
    (List.range l.length).filterMap (fun i => g (l[i]?).join) = l.filterMap g := by
  induction l using List.reverseRecOn with
  | nil => rfl
  | append_singleton l a ih =>
    rw [List.length_append, List.length_singleton, List.range_succ, List.filterMap_append,
      List.filterMap_append]
    congr 1
    · rw [← ih]
      apply List.filterMap_congr
      intro i hi
      rw [List.mem_range] at hi
      rw [List.getElem?_append_left hi]
    · have hl : ((l ++ [a])[l.length]?).join = a := by
        rw [List.getElem?_concat_length]; rfl
      simp only [List.filterMap_cons, List.filterMap_nil, hl]

/-- The close-on-exec pass of `sys_execv1` over the whole table. -/
theorem cloexec_loop_all (env : execenv) (p p1 : procfd_t) (closed1 : List Nat)
    (h : cloexec_loop env (List.range p.fds.length) p [] = some (p1, closed1)) :
    p1.vm = p.vm ∧ p1.mmapi = p.mmapi ∧ p1.name = p.name ∧
    p1.fds = p.fds.map cloexec_strip ∧ closed1 = p.fds.filterMap cloexec_fops := by
  obtain ⟨h1, h2, h3, h4, h5⟩ :=
    cloexec_loop_spec env _ p p1 [] closed1 (List.nodup_range _) h
  refine ⟨h1, h2, h3, ?_, ?_⟩
  · apply List.ext_getElem?
    intro i
    rw [h4 i, List.getElem?_map]
    by_cases hi : i < p.fds.length
    · rw [if_pos (List.mem_range.mpr hi)]
    · rw [if_neg (fun hm => hi (List.mem_range.mp hm)),
        List.getElem?_eq_none_iff.mpr (by omega)]
      rfl
  · rw [h5, List.nil_append]
    exact filterMap_range_get p.fds cloexec_fops

/-- The steps of a `sys_execv1` that returns 0. -/
theorem exec_ok_shape (env : execenv) (k : kern_t) (p : procfd_t) (tf : List Int)
    (paths : List Nat) (args : List (List Nat)) (r : execres)
    (h : sys_execv1 env k p tf paths args = some r) (h0 : r.ret = 0) :
    ∃ k1 p_pmap pm2 file data k4 vm4 ev4 freshtls t0tls tlssz k5 vm5 ev5 stackva k6 vm6 ev6
        argc argv,
      refpg_new k = some (k1, p_pmap) ∧ refup k1.physmem p_pmap = some pm2 ∧
      env.fs_open paths = (file, 0) ∧ env.fread file.fops = (data, 0) ∧
      elf_t.sanity ⟨data.take 512⟩ = some true ∧
      elf_t.elf_load ⟨data.take 512⟩ { k1 with physmem := pm2 }
          { Lock_pmap p.vm with vmregion := [], pmap := ⟨fun _ => false, fun _ => 0⟩,
                                p_pmap := p_pmap } file.fops =
        some (k4, vm4, ev4, freshtls, t0tls, tlssz) ∧
      exec_stack k4 vm4 = some (k5, vm5, ev5, stackva) ∧
      insertargs k5 vm5 args = some (k6, vm6, ev6, some (argc, argv)) ∧
      exec_commit env file ⟨data.take 512⟩ k6 p vm6 tf paths (ev4 ++ ev5 ++ ev6)
          p.vm.p_pmap freshtls t0tls tlssz stackva argc argv = some r := by
  unfold sys_execv1 at h
  generalize h3 : env.fs_open paths = fo at h
  obtain ⟨file, err⟩ := fo
  split at h
  · cases h
  · simp only [] at h
    cases h1 : refpg_new k with
    | none => rw [h1] at h; cases h
    | some x1 =>
      obtain ⟨k1, p_pmap⟩ := x1
      rw [h1] at h
      simp only [] at h
      cases h2 : refup k1.physmem p_pmap with
      | none => rw [h2] at h; cases h
      | some pm2 =>
        rw [h2] at h
        simp only [] at h
        · by_cases he : err ≠ 0
          · rw [if_pos he] at h
            split at h
            · cases h
            · injection h with h
              subst h
              exact absurd h0 he
          · rw [if_neg he] at h
            have he0 : err = 0 := not_not.mp he
            subst he0
            generalize h4 : env.fread file.fops = fr at h
            cases fr with
            | mk data err2 =>
              simp only [] at h
              by_cases he2 : err2 ≠ 0
              · rw [if_pos he2] at h
                split at h
                · cases h
                · have := (exec_return_some _ _ _ _ _ _ _ _ _ _ h).2.2.1
                  exact absurd (this.symm.trans h0) he2
              · rw [if_neg he2] at h
                have he20 : err2 = 0 := not_not.mp he2
                subst he20
                cases h5 : elf_t.sanity ⟨data.take 512⟩ with
                | none => rw [h5] at h; cases h
                | some b =>
                  rw [h5] at h
                  cases b with
                  | false =>
                    simp only [] at h
                    split at h
                    · cases h
                    · have := (exec_return_some _ _ _ _ _ _ _ _ _ _ h).2.2.1
                      rw [h0] at this
                      exact absurd this (by decide)
                  | true =>
                    simp only [] at h
                    cases h6 : elf_t.elf_load ⟨data.take 512⟩ { k1 with physmem := pm2 }
                        { Lock_pmap p.vm with vmregion := [],
                                              pmap := ⟨fun _ => false, fun _ => 0⟩,
                                              p_pmap := p_pmap } file.fops with
                    | none => rw [h6] at h; cases h
                    | some x6 =>
                      obtain ⟨k4, vm4, ev4, freshtls, t0tls, tlssz⟩ := x6
                      rw [h6] at h
                      simp only [] at h
                      cases h7 : exec_stack k4 vm4 with
                      | none => rw [h7] at h; cases h
                      | some x7 =>
                        obtain ⟨k5, vm5, ev5, stackva⟩ := x7
                        rw [h7] at h
                        simp only [] at h
                        cases h8 : insertargs k5 vm5 args with
                        | none => rw [h8] at h; cases h
                        | some x8 =>
                          obtain ⟨k6, vm6, ev6, o⟩ := x8
                          rw [h8] at h
                          cases o with
                          | none =>
                            simp only [] at h
                            split at h
                            · cases h
                            · have := (exec_return_some _ _ _ _ _ _ _ _ _ _ h).2.2.1
                              rw [h0] at this
                              exact absurd this (by decide)
                          | some a =>
                            obtain ⟨argc, argv⟩ := a
                            simp only [] at h
                            exact ⟨k1, p_pmap, pm2, file, data, k4, vm4, ev4, freshtls, t0tls,
                              tlssz, k5, vm5, ev5, stackva, k6, vm6, ev6, argc, argv,
                              rfl, h2, rfl, h4, h5, h6, h7, h8, h⟩

/-- The steps of the last part of `sys_execv1`. -/
theorem exec_commit_some (env : execenv) (file : fd_t) (e : elf_t) (k : kern_t)
    (p : procfd_t) (vm : proc_t) (tf : List Int) (paths : List Nat) (ev : List tlbev)
    (op_pmap : Nat) (freshtls t0tls tlssz stackva argc argv : Int) (r : execres)
    (h : exec_commit env file e k p vm tf paths ev op_pmap freshtls t0tls tlssz stackva
      argc argv = some r) :
    ∃ k1 p1 closed buf k2 vm2 ev2 entry,
      cloexec_loop env (List.range p.fds.length) p [] = some (p1, closed) ∧
      exec_buf freshtls tlssz t0tls env.pspercycle = some buf ∧
      k2user_inner k1 vm buf (stackva - 4 * 8) = some (k2, vm2, ev2, true) ∧
      e.entry = some entry ∧
      r.k = k2 ∧ r.p.vm = Unlock_pmap vm2 ∧ r.p.fds = p1.fds ∧
      r.p.mmapi = (USERMIN : Int) ∧ r.p.name = paths ∧
      r.tf = exec_tf tf (stackva - 4 * 8) entry argc argv ∧
      r.closed = closed ++ [file.fops] ∧ r.ret = 0 := by
  unfold exec_commit at h
  split at h
  · cases h
  · rename_i k1 _
    split at h
    · cases h
    · rename_i p1 closed hcl
      split at h
      · cases h
      · rename_i buf hbuf
        simp only [] at h
        split at h
        · cases h
        · cases h
        · rename_i k2 vm2 ev2 hk2
          split at h
          · cases h
          · rename_i entry hent
            obtain ⟨hp, htf, hret, hcd, hk⟩ := exec_return_some _ _ _ _ _ _ _ _ _ _ h
            refine ⟨k1, p1, closed, buf, k2, vm2, ev2, entry, hcl, hbuf, hk2, hent, hk, ?_, ?_,
              ?_, ?_, htf, hcd, hret⟩
            · rw [hp]
            · rw [hp]
            · rw [hp]
            · rw [hp]

/-- C14 (exec rollback).  Whenever `sys_execv1` returns a value other than
0 (the error of `fs_open`, the error of the read of the first block,
`-EPERM` for a bad ELF header, `-EINVAL` when `insertargs` fails), the
process has the page table, the root address, the regions, the descriptor
table with `fdstart`, the mmap cursor and the name that it had on entry,
the pmap lock is free, and the caller's trap frame is as it was. -/
theorem exec_rollback (env : execenv) (k : kern_t) (p : procfd_t) (tf : List Int)
    (paths : List Nat) (args : List (List Nat)) (e : Int)
    (h : (sys_execv1 env k p tf paths args).map (fun r => r.ret) = some e) (he : e ≠ 0) :
    ∃ r, sys_execv1 env k p tf paths args = some r ∧ r.ret = e ∧
      r.p.vm.pmap = p.vm.pmap ∧ r.p.vm.p_pmap = p.vm.p_pmap ∧
      r.p.vm.vmregion = p.vm.vmregion ∧ r.p.fds = p.fds ∧ r.p.fdstart = p.fdstart ∧
      r.p.mmapi = p.mmapi ∧ r.p.name = p.name ∧ r.tf = tf ∧ r.p.vm.pgfltaken = false := by
  cases hr : sys_execv1 env k p tf paths args with
  | none => rw [hr] at h; cases h
  | some r =>
    rw [hr] at h
    simp only [Option.map_some', Option.some.injEq] at h
    exact ⟨r, rfl, h, exec_fail_state env k p tf paths args r hr (h ▸ he)⟩

set_option maxRecDepth 100000 in
/-- C14 on the small machine: exec of the file `b`, which is not an ELF
image, returns `-EPERM`. -/
theorem exec_rollback_witness :
    ((sys_execv1 ex_env ex_kern ex_proc ex_tf [0x62] [[0x78]]).map (fun r => r.ret) =
        some (-1) ∧ (-1 : Int) ≠ 0) ∧
    ∃ r, sys_execv1 ex_env ex_kern ex_proc ex_tf [0x62] [[0x78]] = some r ∧ r.ret = -1 ∧
      r.p.vm.pmap = ex_proc.vm.pmap ∧ r.p.vm.p_pmap = ex_proc.vm.p_pmap ∧
      r.p.vm.vmregion = ex_proc.vm.vmregion ∧ r.p.fds = ex_proc.fds ∧
      r.p.fdstart = ex_proc.fdstart ∧ r.p.mmapi = ex_proc.mmapi ∧
      r.p.name = ex_proc.name ∧ r.tf = ex_tf ∧ r.p.vm.pgfltaken = false :=
  ⟨⟨by decide, by decide⟩,
    exec_rollback ex_env ex_kern ex_proc ex_tf [0x62] [[0x78]] (-1) (by decide) (by decide)⟩

/-- C16 (exec close-on-exec).  After a `sys_execv1` that returns 0, the
descriptor table is the table on entry with every slot marked
`FD_CLOEXEC` emptied and every other slot as it was (same file object,
same perms); the file objects closed are those of the marked slots, each
once and in slot order, followed by the executable itself. -/
theorem exec_cloexec (env : execenv) (k : kern_t) (p : procfd_t) (tf : List Int)
    (paths : List Nat) (args : List (List Nat))
    (h : (sys_execv1 env k p tf paths args).map (fun r => r.ret) = some 0) :
    ∃ r file, sys_execv1 env k p tf paths args = some r ∧
      env.fs_open paths = (file, 0) ∧
      r.p.fds = p.fds.map cloexec_strip ∧
      r.closed = p.fds.filterMap cloexec_fops ++ [file.fops] ∧
      (∀ (i : Nat) (fd : fd_t), p.fds[i]? = some (some fd) → fd.perms &&& FD_CLOEXEC ≠ 0 →
        r.p.fds[i]? = some none) ∧
      (∀ (i : Nat) (fd : fd_t), p.fds[i]? = some (some fd) → fd.perms &&& FD_CLOEXEC = 0 →
        r.p.fds[i]? = some (some fd)) ∧
      (∀ i : Nat, p.fds[i]? = some none → r.p.fds[i]? = some none) := by
  cases hr : sys_execv1 env k p tf paths args with
  | none => rw [hr] at h; cases h
  | some r =>
    rw [hr] at h
    simp only [Option.map_some', Option.some.injEq] at h
    obtain ⟨k1, p_pmap, pm2, file, data, k4, vm4, ev4, freshtls, t0tls, tlssz, k5, vm5, ev5,
      stackva, k6, vm6, ev6, argc, argv, _, _, hfo, _, _, _, _, _, hcm⟩ :=
      exec_ok_shape env k p tf paths args r hr h
    obtain ⟨k7, p1, closed, buf, k8, vm8, ev8, entry, hcl, _, _, _, _, _, hfds, _, _, _,
      hclosed, _⟩ := exec_commit_some _ _ _ _ _ _ _ _ _ _ _ _ _ _ _ _ r hcm
    obtain ⟨_, _, _, h4, h5⟩ := cloexec_loop_all env p p1 closed hcl
    have hmap : r.p.fds = p.fds.map cloexec_strip := hfds.trans h4
    refine ⟨r, file, rfl, hfo, hmap, ?_, ?_, ?_, ?_⟩
    · rw [hclosed, h5]
    · intro i fd hi hc
      rw [hmap, List.getElem?_map, hi]
      simp [cloexec_strip, cloexec, hc]
    · intro i fd hi hc
      rw [hmap, List.getElem?_map, hi]
      simp [cloexec_strip, cloexec, hc]
    · intro i hi
      rw [hmap, List.getElem?_map, hi]
      rfl

set_option maxRecDepth 100000 in
/-- C16 on the small machine: descriptors 0, 1 and 2 plain and 3 to 12
marked `FD_CLOEXEC`; after exec of the file `a` exactly 0, 1 and 2
remain, and the file objects 103 to 112 and the executable are closed. -/
theorem exec_cloexec_witness :
    ((sys_execv1 ex_env ex_kern ex_proc ex_tf [0x61] [[0x78]]).map (fun r => r.ret) = some 0 ∧
      (sys_execv1 ex_env ex_kern ex_proc ex_tf [0x61] [[0x78]]).map
          (fun r => (r.p.fds, r.closed)) =
        some ([some ⟨100, 3⟩, some ⟨101, 3⟩, some ⟨102, 3⟩, none, none, none, none, none,
            none, none, none, none, none],
          [103, 104, 105, 106, 107, 108, 109, 110, 111, 112, 20])) ∧
    ∃ r file, sys_execv1 ex_env ex_kern ex_proc ex_tf [0x61] [[0x78]] = some r ∧
      ex_env.fs_open [0x61] = (file, 0) ∧
      r.p.fds = ex_proc.fds.map cloexec_strip ∧
      r.closed = ex_proc.fds.filterMap cloexec_fops ++ [file.fops] ∧
      (∀ (i : Nat) (fd : fd_t), ex_proc.fds[i]? = some (some fd) → fd.perms &&& FD_CLOEXEC ≠ 0 →
        r.p.fds[i]? = some none) ∧
      (∀ (i : Nat) (fd : fd_t), ex_proc.fds[i]? = some (some fd) → fd.perms &&& FD_CLOEXEC = 0 →
        r.p.fds[i]? = some (some fd)) ∧
      (∀ i : Nat, ex_proc.fds[i]? = some none → r.p.fds[i]? = some none) :=
  ⟨⟨by decide, by decide⟩,
    exec_cloexec ex_env ex_kern ex_proc ex_tf [0x61] [[0x78]] (by decide)⟩

/-! ## Theorems about the exit status -/

theorem uint64_int64_small (u : Nat) (h : u < 2 ^ 63) : uint64 (int64 u) = u := by
  have h1 : u % 2 ^ 64 = u := Nat.mod_eq_of_lt (by omega)
  unfold int64 uint64
  rw [h1, if_pos h]
  omega

theorem uint64_natCast (u : Nat) (h : u < 2 ^ 64) : uint64 (u : Int) = u := by
  unfold uint64
  omega

/-- A status word with exit code `c`, the flags `e` and `g` and the signal
`sig` is the sum of its fields: the fields do not overlap. -/
theorem status_word_sum (c sig : Nat) (e g : Bool) (hc : c < 256) :
    c ||| (if e then uint64 EXITED else 0) ||| (if g then uint64 SIGNALED else 0) ||| (sig <<< SIGSHIFT) =
      2 ^ 27 * sig + (2 ^ 11 * g.toNat + (2 ^ 10 * e.toNat + c)) := by
  have he : (if e then uint64 EXITED else 0) = 2 ^ 10 * e.toNat := by cases e <;> rfl
  have hg : (if g then uint64 SIGNALED else 0) = 2 ^ 11 * g.toNat := by cases g <;> rfl
  have e1 : e.toNat ≤ 1 := Bool.toNat_le e
  have g1 : g.toNat ≤ 1 := Bool.toNat_le g
  have h1 : 2 ^ 10 * e.toNat + c = 2 ^ 10 * e.toNat ||| c :=
    Nat.mul_add_lt_is_or (by omega) _
  have h2 : 2 ^ 11 * g.toNat + (2 ^ 10 * e.toNat + c) =
      2 ^ 11 * g.toNat ||| (2 ^ 10 * e.toNat + c) :=
    Nat.mul_add_lt_is_or (by omega) _
  have h3 : 2 ^ 27 * sig + (2 ^ 11 * g.toNat + (2 ^ 10 * e.toNat + c)) =
      2 ^ 27 * sig ||| (2 ^ 11 * g.toNat + (2 ^ 10 * e.toNat + c)) :=
    Nat.mul_add_lt_is_or (by omega) _
  rw [h3, h2, h1, he, hg, Nat.shiftLeft_eq, SIGSHIFT, Nat.mul_comm sig]
  rw [Nat.or_comm (2 ^ 27 * sig), Nat.or_comm (2 ^ 11 * g.toNat), Nat.or_comm (2 ^ 10 * e.toNat)]

/-- Decoding of a status word: the exit code is the low byte, the signal
is the word shifted right by 27, and the two flags are the bits 10 and 11. -/
theorem status_word_decode (c sig : Nat) (e g : Bool) (hc : c < 256) (w : Nat)
    (hw : w = c ||| (if e then uint64 EXITED else 0) ||| (if g then uint64 SIGNALED else 0) |||
      (sig <<< SIGSHIFT)) :
    w &&& 0xff = c ∧ w >>> SIGSHIFT = sig ∧
      w &&& uint64 EXITED = (if e then uint64 EXITED else 0) ∧
      w &&& uint64 SIGNALED = (if g then uint64 SIGNALED else 0) := by
  rw [status_word_sum c sig e g hc] at hw
  have e1 : e.toNat ≤ 1 := Bool.toNat_le e
  have g1 : g.toNat ≤ 1 := Bool.toNat_le g
  have hm : w &&& 0xff = w % 2 ^ 8 := Nat.and_pow_two_sub_one_eq_mod w 8
  have hE : w &&& uint64 EXITED = (w.testBit 10).toNat * 2 ^ 10 := Nat.and_two_pow w 10
  have hS : w &&& uint64 SIGNALED = (w.testBit 11).toNat * 2 ^ 11 := Nat.and_two_pow w 11
  have tE : w.testBit 10 = e := by
    rw [Nat.testBit_to_div_mod]
    cases e
    · simp only [Bool.toNat_false] at hw
      exact decide_eq_false (by omega)
    · simp only [Bool.toNat_true] at hw
      exact decide_eq_true (by omega)
  have tS : w.testBit 11 = g := by
    rw [Nat.testBit_to_div_mod]
    cases g
    · simp only [Bool.toNat_false] at hw
      exact decide_eq_false (by omega)
    · simp only [Bool.toNat_true] at hw
      exact decide_eq_true (by omega)
  refine ⟨?_, ?_, ?_, ?_⟩
  · rw [hm]; omega
  · rw [Nat.shiftRight_eq_div_pow, SIGSHIFT]; omega
  · rw [hE, tE]; cases e <;> rfl
  · rw [hS, tS]; cases g <;> rfl

/-- C26 (exit status encoding).  For every argument `a` the status
published by the exit system call is `(a & 0xff) | EXITED`: its low byte is
the low byte of `a`, the bit `EXITED` = 2^10 is set, the bit `SIGNALED` =
2^11 is clear and the signal field is 0.  For every `sig` from 0 to 32,
`mkexitsig sig` is `sig << 27` (it panics for every other `sig`), and the
status `SIGNALED | mkexitsig sig` has the low byte 0, `EXITED` clear,
`SIGNALED` set and the signal field `sig`.  In every word made of an exit
code `c` < 256, the two flags and the signal field of `sig`, the fields do
not overlap: `w & 0xff = c`, `w >> 27 = sig`, and each flag bit is set
exactly when it was put in. -/
theorem exit_status_encoding (a sig : Int) (h0 : 0 ≤ sig) (h1 : sig ≤ 32) :
    uint64 (exit_status a) = (uint64 a &&& 0xff) ||| uint64 EXITED ∧
    uint64 (exit_status a) &&& 0xff = uint64 a % 256 ∧
    uint64 (exit_status a) &&& uint64 EXITED = uint64 EXITED ∧
    uint64 (exit_status a) &&& uint64 SIGNALED = 0 ∧
    uint64 (exit_status a) >>> SIGSHIFT = 0 ∧
    mkexitsig sig = some (sig * 2 ^ 27) ∧
    (∀ s : Int, s < 0 ∨ 32 < s → mkexitsig s = none) ∧
    (∃ st, sig_status sig = some st ∧ 0 ≤ st ∧
      uint64 st = uint64 SIGNALED ||| (sig.toNat <<< SIGSHIFT) ∧
      uint64 st &&& 0xff = 0 ∧ uint64 st &&& uint64 EXITED = 0 ∧
      uint64 st &&& uint64 SIGNALED = uint64 SIGNALED ∧ ((uint64 st >>> SIGSHIFT : Nat) : Int) = sig) ∧
    (∀ (c : Nat) (e g : Bool), c < 256 →
      (c ||| (if e then uint64 EXITED else 0) ||| (if g then uint64 SIGNALED else 0) |||
          (sig.toNat <<< SIGSHIFT)) &&& 0xff = c ∧
      (c ||| (if e then uint64 EXITED else 0) ||| (if g then uint64 SIGNALED else 0) |||
          (sig.toNat <<< SIGSHIFT)) >>> SIGSHIFT = sig.toNat ∧
      (c ||| (if e then uint64 EXITED else 0) ||| (if g then uint64 SIGNALED else 0) |||
          (sig.toNat <<< SIGSHIFT)) &&& uint64 EXITED = (if e then uint64 EXITED else 0) ∧
      (c ||| (if e then uint64 EXITED else 0) ||| (if g then uint64 SIGNALED else 0) |||
          (sig.toNat <<< SIGSHIFT)) &&& uint64 SIGNALED = (if g then uint64 SIGNALED else 0)) := by
  have hc : uint64 a &&& 0xff < 256 := by
    have := Nat.and_pow_two_sub_one_eq_mod (uint64 a) 8
    have h2 : uint64 a &&& 0xff = uint64 a % 2 ^ 8 := this
    omega
  have hA := status_word_decode (uint64 a &&& 0xff) 0 true false hc
    ((uint64 a &&& 0xff) ||| uint64 EXITED) (by simp)
  have hsum := status_word_sum (uint64 a &&& 0xff) 0 true false hc
  have hlt : (uint64 a &&& 0xff) ||| uint64 EXITED < 2 ^ 63 := by
    have e : (uint64 a &&& 0xff) ||| uint64 EXITED =
        (uint64 a &&& 0xff) ||| (if true then uint64 EXITED else 0) |||
          (if false then uint64 SIGNALED else 0) ||| (0 <<< SIGSHIFT) := by simp
    rw [e, hsum]
    simp only [Bool.toNat_true, Bool.toNat_false]
    omega
  have hu : uint64 (exit_status a) = (uint64 a &&& 0xff) ||| uint64 EXITED := by
    unfold exit_status
    exact uint64_int64_small _ hlt
  have hbyte : (uint64 a &&& 0xff) = uint64 a % 256 :=
    Nat.and_pow_two_sub_one_eq_mod (uint64 a) 8
  obtain ⟨n, rfl⟩ := Int.eq_ofNat_of_zero_le h0
  have hn : n ≤ 32 := by omega
  have hun : uint64 (n : Int) = n := uint64_natCast n (by omega)
  have hsh : n <<< SIGSHIFT = 2 ^ 27 * n := by rw [Nat.shiftLeft_eq, SIGSHIFT, Nat.mul_comm]
  have hmk : mkexitsig (n : Int) = some ((n : Int) * 2 ^ 27) := by
    unfold mkexitsig
    rw [if_neg (by omega), hun, hsh]
    unfold int64
    have : 2 ^ 27 * n % 2 ^ 64 = 2 ^ 27 * n := Nat.mod_eq_of_lt (by omega)
    rw [this, if_pos (by omega)]
    push_cast
    ring_nf
  have hS := status_word_decode 0 n false true (by norm_num)
    (uint64 SIGNALED ||| (n <<< SIGSHIFT)) (by simp)
  have hSsum := status_word_sum 0 n false true (by norm_num)
  have hSlt : uint64 SIGNALED ||| (n <<< SIGSHIFT) < 2 ^ 63 := by
    have e : uint64 SIGNALED ||| (n <<< SIGSHIFT) =
        0 ||| (if false then uint64 EXITED else 0) ||| (if true then uint64 SIGNALED else 0) |||
          (n <<< SIGSHIFT) := by simp
    rw [e, hSsum]
    simp only [Bool.toNat_true, Bool.toNat_false]
    omega
  refine ⟨hu, ?_, ?_, ?_, ?_, hmk, ?_, ?_, ?_⟩
  · rw [hu, hA.1, hbyte]
  · rw [hu, hA.2.2.1]; rfl
  · rw [hu, hA.2.2.2]; rfl
  · rw [hu, hA.2.1]
  · intro s hs
    unfold mkexitsig
    rw [if_pos (by omega)]
  · have hmul : uint64 ((n : Int) * 2 ^ 27) = n <<< SIGSHIFT := by
      rw [hsh]
      have : ((n : Int) * 2 ^ 27) = ((2 ^ 27 * n : Nat) : Int) := by push_cast; ring
      rw [this]
      exact uint64_natCast _ (by omega)
    refine ⟨int64 (uint64 SIGNALED ||| (n <<< SIGSHIFT)), ?_, ?_, ?_, ?_, ?_, ?_, ?_⟩
    · unfold sig_status
      rw [hmk, Option.map_some', hmul]
    · unfold int64
      have : (uint64 SIGNALED ||| n <<< SIGSHIFT) % 2 ^ 64 = uint64 SIGNALED ||| n <<< SIGSHIFT :=
        Nat.mod_eq_of_lt (by omega)
      rw [this, if_pos hSlt]
      exact Int.natCast_nonneg _
    · rw [uint64_int64_small _ hSlt, Int.toNat_ofNat]
    · rw [uint64_int64_small _ hSlt, hS.1]
    · rw [uint64_int64_small _ hSlt, hS.2.2.1]; rfl
    · rw [uint64_int64_small _ hSlt, hS.2.2.2]; rfl
    · rw [uint64_int64_small _ hSlt, hS.2.1]
  · intro c e g hc2
    rw [Int.toNat_ofNat]
    exact status_word_decode c n e g hc2 _ rfl

/-- C26 at the argument -1 and the signal 11: the exit status is
`0xff | EXITED` and the signal status is `SIGNALED | 11 << 27`. -/
theorem exit_status_encoding_witness :
    ((0 : Int) ≤ 11 ∧ (11 : Int) ≤ 32) ∧
    exit_status (-1) = 0x4ff ∧ sig_status 11 = some 0x58000800 ∧
    mkexitsig 11 = some (11 * 2 ^ 27) :=
  ⟨⟨by decide, by decide⟩, by decide, by decide,
    (exit_status_encoding (-1) 11 (by decide) (by decide)).2.2.2.2.2.1⟩
/-! ## Theorems about `sys_dup2` -/

/-- C30 (dup2 validates its target), as the code has it: `sys_dup2` indexes
the descriptor table with `newn` unchecked.  For the process `ex_proc` with
a table of 13 slots and descriptor 0 open, `sys_dup2(0, 13)` and
`sys_dup2(0, -1)` stop the kernel with an index out of range, after the
object of descriptor 0 was reopened; `sys_dup2(0, 5)` inside the table
returns 5. -/
theorem sys_dup2_target_unchecked :
    ex_proc.fds.length = 13 ∧
    (fd_get ex_proc 0).isSome = true ∧
    (sys_dup2 ex_fops ex_proc 0 13).isNone = true ∧
    (sys_dup2 ex_fops ex_proc 0 (-1)).isNone = true ∧
    (sys_dup2 ex_fops ex_proc 0 5).map (fun r => (r.1.fds[5]?, r.2)) =
      some (some (some ⟨100, 3⟩), [.reopen 100, .close 105], 5) := by
  decide
/-! ## Theorems about pollers -/

/-- C22 (wakeready), as the code has it: `wakeready` tests the events of
every slot, also of a slot that an earlier `wakeready` emptied (`tid` 0,
events kept).  After `addpoller` of thread 1 (read, channel 11) and of
thread 2 (read and write, channel 12), `wakeready(R_WRITE)` notifies and
unregisters thread 2 only, and the mask is the one of thread 1.  The next
`wakeready(R_READ)` sends to channel 11 and again to channel 12, the
channel of the slot that is no longer registered.  In the second run the
emptied slot of thread 1 (read) is passed over by `wakeready(R_WRITE)` and
its events go into the new mask: no waiter is registered and the mask is
`R_READ`, not 0. -/
theorem wakeready_stale_slot :
    pollrun pollers_zero [.add ex_pollA, .add ex_pollB, .wake R_WRITE] =
      some (⟨R_READ, ex_pollA :: { ex_pollB with tid := 0 } ::
        List.replicate 8 pollmsg_zero⟩, [[], [], [12]]) ∧
    (pollrun pollers_zero [.add ex_pollA, .add ex_pollB, .wake R_WRITE, .wake R_READ]).map
      (fun r => (r.1.registered, r.2)) = some ([], [[], [], [12], [11, 12]]) ∧
    (pollrun pollers_zero [.add ex_pollA, .add ⟨12, R_WRITE, true, 2⟩, .wake R_READ,
      .wake R_WRITE]).map (fun r => (r.1.registered, r.1.regmask, r.1.allmask, r.2)) =
      some ([], 0, R_READ, [[], [], [11], [12]]) := by
  decide
/-! ## Theorems about the descriptor scan of `poll` -/

/-- C29 (poll fd scan writes only revents), as the code has it.  The
process `ex_proc` has the descriptors 0 to 12 open.  For the array of the
three entries (fd 20, events `POLLIN`), (fd -129, events `POLLIN`) and
(fd 0, events `POLLIN`), `_checkfds` returns one ready descriptor and the
array (fd 148, events `POLLIN`, revents 0), (fd -1, events `POLLIN`,
revents 0), (fd 0, events `POLLIN`, revents `POLLIN`): for the descriptor
20 that is not open, `POLLNVAL` = 0x80 is put into the descriptor field and
nothing into revents, and the negative descriptor -129 is looked up as
4294967167 and gets the same store, which makes it -1. -/
theorem checkfds_writes_fd_field :
    (_checkfds ex_pollone ex_proc 7 9 pollmsg_zero true
        (pollfd 20 POLLIN 0 ++ pollfd (-129) POLLIN 0 ++ pollfd 0 POLLIN 0) 3).map
      (fun r => (r.buf, r.readyfds, r.writeback)) =
    some (pollfd 148 POLLIN 0 ++ pollfd (-1) POLLIN 0 ++ pollfd 0 POLLIN POLLIN, 1, true) := by
  decide
/-! ## Theorems about `userreadn` and `userwriten` -/

/-- C28 (userwriten/userreadn round trip), as the code has it.  On the
small machine the two pages from `USERMIN` on are mapped writable.  A store
of 4 bytes that starts 2 bytes before the end of the first page stops the
kernel: `userwriten` calls `writen(dst, 4, 0, v)` on the slice of the 2
bytes that are left of the page.  `userreadn` of the same 4 bytes limits
each round to the slice and returns (the second page starts with the byte
7), and inside a page the store followed by the load returns the value. -/
theorem userwriten_straddle :
    (userwriten ex_kern ex_parent (USERMIN + PGSIZE - 2) 4 0x11223344).isNone = true ∧
    (userreadn ex_kern ex_parent (USERMIN + PGSIZE - 2) 4).map (fun r => r.2.2.2) =
      some (some 0x70000) ∧
    ((userwriten ex_kern ex_parent (USERMIN + PGSIZE - 4) 4 0x11223344).bind
      (fun r => (userreadn r.1 r.2.1 (USERMIN + PGSIZE - 4) 4).map (fun x => (r.2.2.2, x.2.2.2)))) =
      some (true, some 0x11223344) := by
  decide
/-! ## Theorems about pipes -/

/-- C21 (pollone contract), as the code has it: `pipe_t.op_poll` never
looks at `dowait`.  A poll of an empty pipe (one reader, one writer) with
the message `ex_nowait`, whose `dowait` is false, returns 0 and registers
the message in the first slot with its mask; a listening socket with no
ready connector returns 0 for the same message and leaves its pollers as
they were. -/
theorem op_poll_ignores_dowait :
    ex_nowait.dowait = false ∧
    ex_pipe.op_poll ex_nowait =
      some ({ ex_pipe with
        pollers := ⟨R_READ ||| R_ERROR ||| R_HUP,
          ex_nowait :: List.replicate 9 pollmsg_zero⟩ }, 0) ∧
    (⟨pollers_zero, 1, 0⟩ : susl_t).susl_poll ex_nowait = some (⟨pollers_zero, 1, 0⟩, 0) := by
  decide
/-- On a closed pipe every call returns `-EBADF` and leaves everything as
it was. -/
theorem piperun_closed (k : kern_t) (p : proc_t) (o : pipe_t) (ops : List pipeop)
    (hc : o.closed = true) :
    piperun k p o ops = some (k, p, o, ops.map (fun _ => .ret 0 (-EBADF))) := by
  induction ops with
  | nil => rfl
  | cons op ops ih =>
    cases op with
    | read dst nb =>
      have h : o.op_read k p dst nb = some ⟨k, p, [], o, dst, [], .ret 0 (-EBADF)⟩ := by
        unfold pipe_t.op_read
        rw [if_pos hc]
      simp only [piperun, h, ih, Option.map_some', List.map_cons]
    | write src nb =>
      have h : o.op_write k p src nb = some ⟨k, p, [], o, src, [], .ret 0 (-EBADF)⟩ := by
        unfold pipe_t.op_write
        rw [if_pos hc]
      simp only [piperun, h, ih, Option.map_some', List.map_cons]
    | reopen rd wd =>
      have h : o.op_reopen rd wd = (o, [], -EBADF) := by
        unfold pipe_t.op_reopen
        rw [if_pos hc]
      simp only [piperun, h, ih, Option.map_some', List.map_cons]

/-- C25 (pipe end-of-file and close).  For every pipe that is not closed:
`op_read` with no writer and an empty buffer returns 0 bytes and no error
without waiting, and leaves the buffer, the counts and the user buffer as
they were; `op_write` with no reader returns `-EPIPE` and changes nothing;
`op_reopen` returns 0, adds its arguments to the two counts, and marks the
pipe closed and gives the slice of the circular buffer back to the pool
exactly when both counts are 0 afterwards (otherwise the buffer is kept).
For every closed pipe and every sequence of `op_read`, `op_write` and
`op_reopen`, every call returns `-EBADF` and the pipe stays as it is,
closed. -/
theorem pipe_eof_close (k : kern_t) (p : proc_t) (o : pipe_t) (ub : userbuf_t)
    (noblock : Bool) (rd wd : Int) (ops : List pipeop) :
    (o.closed = false → o.writers = 0 → o.cbuf.empty = true →
      ∃ r, o.op_read k p ub noblock = some r ∧ r.out = .ret 0 0 ∧ r.o.cbuf = o.cbuf ∧
        r.o.readers = o.readers ∧ r.o.writers = o.writers ∧ r.o.closed = false ∧
        r.ub = ub ∧ r.k = k ∧ r.p = p) ∧
    (o.closed = false → o.readers = 0 →
      ∃ r, o.op_write k p ub noblock = some r ∧ r.out = .ret 0 (-EPIPE) ∧ r.o = o ∧
        r.ub = ub ∧ r.k = k ∧ r.p = p) ∧
    (o.closed = false →
      (o.op_reopen rd wd).2.2 = 0 ∧
      (o.op_reopen rd wd).1.readers = iadd o.readers rd ∧
      (o.op_reopen rd wd).1.writers = iadd o.writers wd ∧
      ((o.op_reopen rd wd).1.closed = true ↔
        iadd o.readers rd = 0 ∧ iadd o.writers wd = 0) ∧
      ((o.op_reopen rd wd).1.closed = true →
        (o.op_reopen rd wd).1.cbuf.buf = [] ∧
        pipeev.release o.cbuf.buf ∈ (o.op_reopen rd wd).2.1) ∧
      ((o.op_reopen rd wd).1.closed = false →
        (o.op_reopen rd wd).1.cbuf = o.cbuf ∧
        ∀ b, pipeev.release b ∉ (o.op_reopen rd wd).2.1)) ∧
    (o.closed = true →
      piperun k p o ops = some (k, p, o, ops.map (fun _ => .ret 0 (-EBADF))) ∧
      o.op_read k p ub noblock = some ⟨k, p, [], o, ub, [], .ret 0 (-EBADF)⟩ ∧
      o.op_write k p ub noblock = some ⟨k, p, [], o, ub, [], .ret 0 (-EBADF)⟩ ∧
      o.op_reopen rd wd = (o, [], -EBADF)) := by
  refine ⟨?_, ?_, ?_, ?_⟩
  · intro hc hw he
    have hco : o.cbuf.copyout k p ub = some ⟨k, p, [], o.cbuf, ub, 0, 0⟩ := by
      unfold circbuf_t.copyout
      rw [if_pos he]
    refine ⟨⟨k, p, [], { o with cbuf := o.cbuf, pollers := (o.pollers.wakeready R_WRITE).1 },
      ub, .wsignal :: (o.pollers.wakeready R_WRITE).2.map .notify, .ret 0 0⟩,
      ?_, rfl, rfl, rfl, rfl, hc, rfl, rfl, rfl⟩
    unfold pipe_t.op_read
    rw [if_neg (by rw [hc]; exact Bool.false_ne_true),
      if_neg (by rw [not_not]; exact Or.inl hw), hco]
    rfl
  · intro hc hr
    refine ⟨⟨k, p, [], o, ub, [], .ret 0 (-EPIPE)⟩, ?_, rfl, rfl, rfl, rfl, rfl⟩
    unfold pipe_t.op_write
    rw [if_neg (by rw [hc]; exact Bool.false_ne_true), if_pos hr]
  · intro hc
    unfold pipe_t.op_reopen
    rw [if_neg (by rw [hc]; exact Bool.false_ne_true)]
    by_cases h0 : iadd o.readers rd = 0 ∧ iadd o.writers wd = 0
    · rw [if_pos h0]
      refine ⟨rfl, rfl, rfl, ?_, ?_, ?_⟩
      · exact ⟨fun _ => h0, fun _ => rfl⟩
      · intro _
        exact ⟨rfl, by simp [circbuf_t.cb_release]⟩
      · intro hf
        exact absurd hf (by simp)
    · rw [if_neg h0]
      refine ⟨rfl, rfl, rfl, ?_, ?_, ?_⟩
      · constructor
        · intro hf
          exact absurd hf (by simp only [hc]; exact Bool.false_ne_true)
        · intro hf
          exact absurd hf h0
      · intro hf
        exact absurd hf (by simp only [hc]; exact Bool.false_ne_true)
      · intro _
        refine ⟨rfl, ?_⟩
        intro b hb
        simp only [List.mem_append] at hb
        rcases hb with hb | hb
        · split at hb <;> simp at hb
        · split at hb <;> simp at hb
  · intro hc
    refine ⟨piperun_closed k p o ops hc, ?_, ?_, ?_⟩
    · unfold pipe_t.op_read
      rw [if_pos hc]
    · unfold pipe_t.op_write
      rw [if_pos hc]
    · unfold pipe_t.op_reopen
      rw [if_pos hc]

/-- C25 on the small pipe: with its writer gone, a read of the empty pipe
returns (0, 0); with its reader gone, a write returns `-EPIPE`; the close
of the last end closes the pipe and releases the buffer, and a read, a
write and a reopen of the closed pipe return `-EBADF`. -/
theorem pipe_eof_close_witness :
    (∃ r, ({ ex_pipe with writers := 0 } : pipe_t).op_read ex_kern ex_parent
        ⟨USERMIN, 8, 0, false, [], []⟩ false = some r ∧ r.out = .ret 0 0) ∧
    (∃ r, ({ ex_pipe with readers := 0 } : pipe_t).op_write ex_kern ex_parent
        ⟨USERMIN, 8, 0, false, [], []⟩ false = some r ∧ r.out = .ret 0 (-EPIPE)) ∧
    (({ ex_pipe with writers := 0 } : pipe_t).op_reopen (-1) 0).1.closed = true ∧
    (({ ex_pipe with writers := 0 } : pipe_t).op_reopen (-1) 0).1.cbuf.buf = [] ∧
    (piperun ex_kern ex_parent { ex_pipe with closed := true }
      [.read ⟨USERMIN, 8, 0, false, [], []⟩ false, .write ⟨USERMIN, 8, 0, false, [], []⟩ true,
        .reopen 1 1]).map (fun r => (r.2.2.1.closed, r.2.2.2)) =
      some (true, [.ret 0 (-EBADF), .ret 0 (-EBADF), .ret 0 (-EBADF)]) := by
  have h1 := pipe_eof_close ex_kern ex_parent { ex_pipe with writers := 0 }
    ⟨USERMIN, 8, 0, false, [], []⟩ false (-1) 0 []
  have h2 := pipe_eof_close ex_kern ex_parent { ex_pipe with readers := 0 }
    ⟨USERMIN, 8, 0, false, [], []⟩ false 0 0 []
  have h3 := pipe_eof_close ex_kern ex_parent { ex_pipe with closed := true }
    ⟨USERMIN, 8, 0, false, [], []⟩ false 0 0
    [.read ⟨USERMIN, 8, 0, false, [], []⟩ false, .write ⟨USERMIN, 8, 0, false, [], []⟩ true,
      .reopen 1 1]
  obtain ⟨r1, e1, o1, _⟩ := h1.1 rfl rfl (by decide)
  obtain ⟨r2, e2, o2, _⟩ := h2.2.1 rfl rfl
  have h4 := (h1.2.2.1 rfl).2.2.2
  refine ⟨⟨r1, e1, o1⟩, ⟨r2, e2, o2⟩, h4.1.2 (by decide), (h4.2.1 (h4.1.2 (by decide))).1, ?_⟩
  rw [(h3.2.2.2 rfl).1]
  rfl
/-! ## Theorems about futex actors -/

/-- C23 as stated fails: with the three sleepers 1, 2 and 3 in the queue
(2 with a deadline), `FUTEX_WAKE` with the count "all" (0xffffffff) wakes
the sleeper 1 only, with the value 1, and acknowledges the caller; the
sleepers 2 and 3 stay in the queue. -/
theorem futex_wake_all_wakes_one :
    futrun ex_futs [(0, .cmd (sleepmsg 5 1 none)), (0, .cmd (sleepmsg 5 2 (some 70))),
      (0, .cmd (sleepmsg 5 3 none)), (0, .cmd (wakemsg 0xffffffff 4))] =
    some ([⟨⟨[2, 3], [⟨70, 2⟩]⟩, 100, 1⟩, ⟨⟨[], []⟩, 101, 1⟩], [(1, 1), (4, 0)]) := by
  decide
theorem torm_idx_spec (who : Nat) (l : List _futto_t) (i : Nat) :
    (match torm_idx who l i with
      | none => l
      | some j => l.eraseIdx (j - i)) = l.eraseP (fun t => decide (t.who = who)) ∧
    ∀ j, torm_idx who l i = some j → i ≤ j := by
  induction l generalizing i with
  | nil => exact ⟨rfl, fun j h => by simp [torm_idx] at h⟩
  | cons t r ih =>
    by_cases h : t.who = who
    · have e : torm_idx who (t :: r) i = some i := by simp [torm_idx, h]
      rw [e]
      refine ⟨?_, fun j hj => by cases hj; exact Nat.le_refl _⟩
      simp [h]
    · have e : torm_idx who (t :: r) i = torm_idx who r (i + 1) := by simp [torm_idx, h]
      rw [e]
      obtain ⟨ih1, ih2⟩ := ih (i + 1)
      refine ⟨?_, fun j hj => by have := ih2 j hj; omega⟩
      rw [List.eraseP_cons_of_neg (by simpa using h), ← ih1]
      cases hx : torm_idx who r (i + 1) with
      | none => rfl
      | some j =>
        have := ih2 j hx
        have e2 : j - i = (j - (i + 1)) + 1 := by omega
        simp only [e2, List.eraseIdx_cons_succ]

theorem torm_eq (f : futex_t) (who : Nat) :
    f._torm who = ⟨f.cnds, f.tos.eraseP (fun t => decide (t.who = who))⟩ := by
  have h := (torm_idx_spec who f.tos 0).1
  unfold futex_t._torm
  cases hx : torm_idx who f.tos 0 with
  | none => rw [hx] at h; simp only at h; rw [← h]
  | some j => rw [hx] at h; simp only [Nat.sub_zero] at h; rw [← h]

theorem cnd_idx_spec (who : Nat) (l : List Nat) (i : Nat) :
    (who ∉ l → cnd_idx who l i = none) ∧
    (who ∈ l → ∃ j, cnd_idx who l i = some j ∧ i ≤ j ∧ l.eraseIdx (j - i) = l.erase who) := by
  induction l generalizing i with
  | nil => exact ⟨fun _ => rfl, fun h => by simp at h⟩
  | cons c r ih =>
    by_cases h : c = who
    · have e : cnd_idx who (c :: r) i = some i := by simp [cnd_idx, h]
      refine ⟨fun hn => absurd (by simp [h]) hn, fun _ => ⟨i, e, Nat.le_refl _, ?_⟩⟩
      simp [h]
    · have e : cnd_idx who (c :: r) i = cnd_idx who r (i + 1) := by simp [cnd_idx, h]
      obtain ⟨ih1, ih2⟩ := ih (i + 1)
      refine ⟨fun hn => ?_, fun hm => ?_⟩
      · rw [e]
        exact ih1 (fun hr => hn (List.mem_cons_of_mem _ hr))
      · have hr : who ∈ r := by
          rcases List.mem_cons.1 hm with h1 | h1
          · exact absurd h1.symm h
          · exact h1
        obtain ⟨j, hj, hle, he⟩ := ih2 hr
        refine ⟨j, by rw [e, hj], by omega, ?_⟩
        have e2 : j - i = (j - (i + 1)) + 1 := by omega
        rw [e2, List.eraseIdx_cons_succ, he, List.erase_cons_tail (by simpa using h)]

theorem towake_eq (f : futex_t) (who : Nat) (v : Int) (h : who ∈ f.cnds) :
    f.towake who v =
      some (⟨f.cnds.erase who, f.tos.eraseP (fun t => decide (t.who = who))⟩, [(who, v)]) := by
  unfold futex_t.towake
  rw [torm_eq]
  obtain ⟨j, hj, _, he⟩ := (cnd_idx_spec who f.cnds 0).2 h
  simp only [hj, Nat.sub_zero] at he ⊢
  rw [he]

theorem map_who_eraseP (l : List _futto_t) (c : Nat) :
    (l.eraseP (fun t => decide (t.who = c))).map (fun t => t.who) =
      (l.map (fun t => t.who)).erase c := by
  induction l with
  | nil => rfl
  | cons t r ih =>
    by_cases h : t.who = c
    · simp [h]
    · rw [List.eraseP_cons_of_neg (by simpa using h), List.map_cons, List.map_cons,
        List.erase_cons_tail (by simpa using h), ih]

theorem eraseP_who_filter (l : List _futto_t) (c : Nat)
    (hn : (l.map (fun t => t.who)).Nodup) :
    l.eraseP (fun t => decide (t.who = c)) = l.filter (fun t => decide (t.who ≠ c)) := by
  induction l with
  | nil => rfl
  | cons t r ih =>
    rw [List.map_cons, List.nodup_cons] at hn
    by_cases h : t.who = c
    · have hr : ∀ x ∈ r, x.who ≠ c := by
        intro x hx hxc
        exact hn.1 (List.mem_map.2 ⟨x, hx, by rw [hxc, h]⟩)
      have hf : r.filter (fun t => decide (t.who ≠ c)) = r :=
        List.filter_eq_self.2 (fun x hx => by simpa using hr x hx)
      rw [List.eraseP_cons_of_pos (by simpa using h),
        List.filter_cons_of_neg (by simpa using h), hf]
    · rw [List.eraseP_cons_of_neg (by simpa using h), ih hn.2,
        List.filter_cons_of_pos (by simpa using h)]

theorem sum_map_set (g : futactor → Nat) (s : List futactor) (id : Nat) (a b : futactor)
    (h : s[id]? = some a) : ((s.set id b).map g).sum + g a = (s.map g).sum + g b := by
  induction s generalizing id with
  | nil => simp at h
  | cons x r ih =>
    cases id with
    | zero =>
      simp only [List.getElem?_cons_zero, Option.some.injEq] at h
      subst h
      simp only [List.set_cons_zero, List.map_cons, List.sum_cons]
      omega
    | succ n =>
      simp only [List.getElem?_cons_succ] at h
      have := ih n h
      simp only [List.set_cons_succ, List.map_cons, List.sum_cons]
      omega

theorem cndcount_set (s : List futactor) (id : Nat) (a b : futactor) (c : Nat)
    (h : s[id]? = some a) :
    cndcount (s.set id b) c + a.f.cnds.count c = cndcount s c + b.f.cnds.count c :=
  sum_map_set (fun a => a.f.cnds.count c) s id a b h

theorem cndcount_allcnds (s : List futactor) (c : Nat) :
    cndcount s c = (allcnds s).count c := by
  induction s with
  | nil => rfl
  | cons x r ih =>
    simp only [cndcount, allcnds, List.map_cons, List.sum_cons, List.flatMap_cons,
      List.count_append] at ih ⊢
    rw [ih]

theorem set_self_eq (s : List futactor) (id : Nat) (a : futactor) (h : s[id]? = some a) :
    s.set id a = s := by
  apply List.ext_getElem?
  intro i
  by_cases hi : id = i
  · subst hi
    rw [h, List.getElem?_set_self]
    exact (List.getElem?_eq_some_iff.1 h).1
  · rw [List.getElem?_set_ne hi]

theorem tonext_loop_spec (l : List _futto_t) (next : _futto_t) :
    (tonext_loop l next.when next ∈ l ∨ tonext_loop l next.when next = next) ∧
    (tonext_loop l next.when next).when ≤ next.when ∧
    ∀ t ∈ l, (tonext_loop l next.when next).when ≤ t.when := by
  induction l generalizing next with
  | nil => exact ⟨Or.inr rfl, Int.le_refl _, fun t h => by simp at h⟩
  | cons x r ih =>
    by_cases h : x.when < next.when
    · have e : tonext_loop (x :: r) next.when next = tonext_loop r x.when x := by
        simp [tonext_loop, h]
      rw [e]
      obtain ⟨h1, h2, h3⟩ := ih x
      refine ⟨?_, by omega, ?_⟩
      · rcases h1 with h1 | h1
        · exact Or.inl (List.mem_cons_of_mem _ h1)
        · exact Or.inl (by rw [h1]; exact List.mem_cons_self _ _)
      · intro t ht
        rcases List.mem_cons.1 ht with ht | ht
        · rw [ht]; exact h2
        · exact h3 t ht
    · have e : tonext_loop (x :: r) next.when next = tonext_loop r next.when next := by
        simp [tonext_loop, h]
      rw [e]
      obtain ⟨h1, h2, h3⟩ := ih next
      refine ⟨?_, h2, ?_⟩
      · rcases h1 with h1 | h1
        · exact Or.inl (List.mem_cons_of_mem _ h1)
        · exact Or.inr h1
      · intro t ht
        rcases List.mem_cons.1 ht with ht | ht
        · rw [ht]; omega
        · exact h3 t ht

theorem tonext_spec (f : futex_t) :
    (f.tos = [] → f.tonext = none) ∧
    (f.tos ≠ [] → ∃ t, f.tonext = some t) ∧
    ∀ t, f.tonext = some t → t ∈ f.tos ∧ ∀ x ∈ f.tos, t.when ≤ x.when := by
  unfold futex_t.tonext
  cases hl : f.tos with
  | nil => exact ⟨fun _ => rfl, fun h => absurd rfl h, fun t h => by simp at h⟩
  | cons t0 r =>
    refine ⟨fun h => by simp at h, fun _ => ⟨_, rfl⟩, ?_⟩
    intro t ht
    simp only [Option.some.injEq] at ht
    obtain ⟨h1, _, h3⟩ := tonext_loop_spec (t0 :: r) t0
    rw [ht] at h1 h3
    refine ⟨?_, h3⟩
    rcases h1 with h1 | h1
    · exact h1
    · rw [h1]; exact List.mem_cons_self _ _
theorem futinv_set (s : List futactor) (id : Nat) (a b : futactor) (hs : s[id]? = some a)
    (hinv : futinv s)
    (hc : ∀ c, cndcount s c + b.f.cnds.count c ≤ 1 + a.f.cnds.count c)
    (ht : ∀ c, (b.f.tos.map (fun t => t.who)).count c ≤ b.f.cnds.count c) :
    futinv (s.set id b) := by
  refine ⟨fun c => ?_, fun x hx c => ?_⟩
  · have h1 := cndcount_set s id a b c hs
    have h2 := hc c
    omega
  · rcases List.mem_or_eq_of_mem_set hx with hx | hx
    · exact hinv.2 x hx c
    · rw [hx]; exact ht c

theorem futinv_wake (s : List futactor) (id : Nat) (a : futactor) (who : Nat)
    (hs : s[id]? = some a) (hinv : futinv s) :
    futinv (s.set id { a with f := ⟨a.f.cnds.erase who,
      a.f.tos.eraseP (fun t => decide (t.who = who))⟩ }) := by
  have ha : a ∈ s := List.getElem?_mem hs
  apply futinv_set s id a _ hs hinv
  · intro c
    have h1 := hinv.1 c
    have h2 : (a.f.cnds.erase who).count c ≤ a.f.cnds.count c :=
      (List.erase_sublist who a.f.cnds).count_le c
    simp only
    omega
  · intro c
    have h2 := hinv.2 a ha c
    simp only [map_who_eraseP, List.count_erase]
    omega

theorem count_le_cndcount (s : List futactor) (id : Nat) (a : futactor) (c : Nat)
    (hs : s[id]? = some a) : a.f.cnds.count c ≤ cndcount s c := by
  have h := cndcount_set s id a ⟨⟨[], []⟩, 0, 0⟩ c hs
  simp only [List.count_nil] at h
  omega

theorem futinv_sleep (s : List futactor) (id : Nat) (a : futactor) (ack : Nat)
    (tos : List _futto_t) (hs : s[id]? = some a) (hinv : futinv s)
    (hfresh : ack ∉ allcnds s)
    (ht : ∀ c, (tos.map (fun t => t.who)).count c ≤
      (a.f.tos.map (fun t => t.who)).count c + (if ack = c then 1 else 0)) :
    futinv (s.set id { a with f := ⟨a.f.cnds ++ [ack], tos⟩ }) := by
  have ha : a ∈ s := List.getElem?_mem hs
  have h0 : cndcount s ack = 0 := by
    rw [cndcount_allcnds]; exact List.count_eq_zero_of_not_mem hfresh
  apply futinv_set s id a _ hs hinv
  · intro c
    have h1 := hinv.1 c
    have h3 := count_le_cndcount s id a c hs
    simp only [List.count_append, List.count_singleton, beq_iff_eq]
    by_cases hc : ack = c
    · subst hc
      rw [if_pos rfl]; omega
    · rw [if_neg hc]; omega
  · intro c
    have h2 := hinv.2 a ha c
    have h3 := ht c
    simp only [List.count_append, List.count_singleton, beq_iff_eq]
    omega

theorem futinv_give (s : List futactor) (id oth : Nat) (a b : futactor)
    (hs : s[id]? = some a) (hb : s[oth]? = some b) (hne : oth ≠ id) (hinv : futinv s) :
    futinv ((s.set oth { b with f := ⟨b.f.cnds ++ a.f.cnds, b.f.tos ++ a.f.tos⟩ }).set id
      { a with f := ⟨[], []⟩ }) := by
  have ha : a ∈ s := List.getElem?_mem hs
  have hbm : b ∈ s := List.getElem?_mem hb
  have hs1 : (s.set oth { b with f := ⟨b.f.cnds ++ a.f.cnds, b.f.tos ++ a.f.tos⟩ })[id]? =
      some a := by
    rw [List.getElem?_set_ne hne]; exact hs
  refine ⟨fun c => ?_, fun x hx c => ?_⟩
  · have h1 := cndcount_set s oth b
      { b with f := ⟨b.f.cnds ++ a.f.cnds, b.f.tos ++ a.f.tos⟩ } c hb
    have h2 := cndcount_set _ id a { a with f := ⟨[], []⟩ } c hs1
    have h3 := hinv.1 c
    simp only [List.count_append, List.count_nil] at h1 h2
    omega
  · rcases List.mem_or_eq_of_mem_set hx with hx | hx
    · rcases List.mem_or_eq_of_mem_set hx with hx | hx
      · exact hinv.2 x hx c
      · rw [hx]
        have h1 := hinv.2 a ha c
        have h2 := hinv.2 b hbm c
        simp only [List.map_append, List.count_append]
        omega
    · rw [hx]; simp

theorem cndwake_eq (f : futex_t) (v : Int) (c : Nat) (q : List Nat) (h : f.cnds = c :: q) :
    f.cndwake v =
      (⟨f.cnds.erase c, f.tos.eraseP (fun t => decide (t.who = c))⟩, [(c, v)]) := by
  unfold futex_t.cndwake
  rw [h]
  simp only [torm_eq, List.erase_cons_head]

theorem cndwake_nil (f : futex_t) (v : Int) (h : f.cnds = []) : f.cndwake v = (f, []) := by
  unfold futex_t.cndwake
  rw [h]

theorem futinv_cndwake (s : List futactor) (id : Nat) (a : futactor) (v : Int)
    (hs : s[id]? = some a) (hinv : futinv s) :
    futinv (s.set id { a with f := (a.f.cndwake v).1 }) := by
  cases hq : a.f.cnds with
  | nil =>
    rw [cndwake_nil a.f v hq]
    have : ({ a with f := a.f } : futactor) = a := rfl
    rw [this, set_self_eq s id a hs]
    exact hinv
  | cons c q =>
    rw [cndwake_eq a.f v c q hq]
    exact futinv_wake s id a c hs hinv

theorem futstep_inv (s : List futactor) (id : Nat) (e : futev) (s1 : List futactor)
    (out : List (Nat × Int)) (hinv : futinv s) (hok : futev_ok s e = true)
    (h : futstep s id e = some (s1, out)) : futinv s1 := by
  unfold futstep at h
  cases hs : s[id]? with
  | none => rw [hs] at h; exact Option.noConfusion h
  | some a =>
    rw [hs] at h
    simp only at h
    by_cases ho : a.opencount ≤ 0
    · rw [if_pos ho] at h; exact Option.noConfusion h
    rw [if_neg ho] at h
    have ha : a ∈ s := List.getElem?_mem hs
    cases e with
    | fire =>
      simp only at h
      cases ht : a.f.tonext with
      | none =>
        rw [ht] at h
        simp only [Option.some.injEq, Prod.mk.injEq] at h
        rw [← h.1]; exact hinv
      | some t =>
        rw [ht] at h
        simp only at h
        have hmem : t ∈ a.f.tos := ((tonext_spec a.f).2.2 t ht).1
        have hw : t.who ∈ a.f.cnds := by
          have h1 : t.who ∈ a.f.tos.map (fun t => t.who) := List.mem_map.2 ⟨t, hmem, rfl⟩
          have h2 := hinv.2 a ha t.who
          have h3 := List.count_pos_iff.2 h1
          exact List.count_pos_iff.1 (by omega)
        rw [towake_eq a.f t.who 0 hw] at h
        simp only [Option.map_some', Option.some.injEq, Prod.mk.injEq] at h
        rw [← h.1]
        exact futinv_wake s id a t.who hs hinv
    | reopen d =>
      simp only [Option.some.injEq, Prod.mk.injEq] at h
      rw [← h.1]
      apply futinv_set s id a _ hs hinv
      · intro c
        have := hinv.1 c
        simp only
        omega
      · intro c
        exact hinv.2 a ha c
    | cmd fm =>
      simp only at h
      simp only [futev_ok] at hok
      by_cases h1 : fm.op = FUTEX_SLEEP
      · rw [if_pos h1] at h
        rw [if_pos h1] at hok
        by_cases h2 : fm.fuerr ≠ 0
        · rw [if_pos h2] at h
          simp only [Option.some.injEq, Prod.mk.injEq] at h
          rw [← h.1]; exact hinv
        rw [if_neg h2] at h
        by_cases h3 : fm.fuval ≠ fm.aux
        · rw [if_pos h3] at h
          simp only [Option.some.injEq, Prod.mk.injEq] at h
          rw [← h.1]; exact hinv
        rw [if_neg h3] at h
        simp only [Option.some.injEq, Prod.mk.injEq] at h
        rw [← h.1]
        have hfresh : fm.ack ∉ allcnds s := of_decide_eq_true hok
        by_cases h4 : fm.useto = true
        · rw [if_pos h4]
          exact futinv_sleep s id a fm.ack _ hs hinv hfresh (fun c => by
            simp only [futex_t.toadd, List.map_append, List.count_append, List.map_cons,
              List.map_nil, List.count_singleton, beq_iff_eq]
            omega)
        · rw [if_neg h4]
          exact futinv_sleep s id a fm.ack _ hs hinv hfresh (fun c => by omega)
      rw [if_neg h1] at h
      rw [if_neg h1] at hok
      by_cases h2 : fm.op = FUTEX_WAKE
      · rw [if_pos h2] at h
        by_cases h3 : fm.aux = 1
        · rw [if_pos h3] at h
          simp only [Option.some.injEq, Prod.mk.injEq] at h
          rw [← h.1]
          exact futinv_cndwake s id a 0 hs hinv
        rw [if_neg h3] at h
        by_cases h4 : fm.aux = 0xffffffff
        · rw [if_pos h4] at h
          simp only [Option.some.injEq, Prod.mk.injEq] at h
          rw [← h.1]
          exact futinv_cndwake s id a 1 hs hinv
        rw [if_neg h4] at h
        exact Option.noConfusion h
      rw [if_neg h2] at h
      by_cases h3 : fm.op = FUTEX_CNDGIVE
      · rw [if_pos h3] at h
        by_cases h4 : a.f.cnds.length = 0
        · rw [if_pos h4] at h
          simp only [Option.some.injEq, Prod.mk.injEq] at h
          rw [← h.1]; exact hinv
        rw [if_neg h4] at h
        by_cases h5 : fm.othmut = id
        · rw [if_pos h5] at h; exact Option.noConfusion h
        rw [if_neg h5] at h
        cases hb : s[fm.othmut]? with
        | none => rw [hb] at h; exact Option.noConfusion h
        | some b =>
          rw [hb] at h
          simp only at h
          by_cases h6 : b.opencount ≤ 0
          · rw [if_pos h6] at h; exact Option.noConfusion h
          rw [if_neg h6] at h
          simp only [Option.some.injEq, Prod.mk.injEq] at h
          rw [← h.1]
          exact futinv_give s id fm.othmut a b hs hb h5 hinv
      rw [if_neg h3] at h
      by_cases h4 : fm.op = _FUTEX_CNDTAKE
      · exact absurd h4 (of_decide_eq_true hok)
      rw [if_neg h4] at h
      exact Option.noConfusion h

theorem futrun_inv (evs : List (Nat × futev)) (s s1 : List futactor) (out : List (Nat × Int))
    (hinv : futinv s) (hok : futrun_ok s evs = true) (h : futrun s evs = some (s1, out)) :
    futinv s1 := by
  induction evs generalizing s out with
  | nil =>
    simp only [futrun, Option.some.injEq, Prod.mk.injEq] at h
    rw [← h.1]; exact hinv
  | cons x evs ih =>
    obtain ⟨id, e⟩ := x
    simp only [futrun] at h
    simp only [futrun_ok, Bool.and_eq_true] at hok
    cases hst : futstep s id e with
    | none => rw [hst] at h; exact Option.noConfusion h
    | some r =>
      obtain ⟨s2, o2⟩ := r
      rw [hst] at h hok
      simp only at h hok
      cases hr : futrun s2 evs with
      | none => rw [hr] at h; exact Option.noConfusion h
      | some r2 =>
        obtain ⟨s3, o3⟩ := r2
        rw [hr] at h
        simp only [Option.map_some', Option.some.injEq, Prod.mk.injEq] at h
        rw [h.1] at hr
        exact ih s2 o3 (futstep_inv s id e s2 o2 hinv hok.1 hst) hok.2 hr

theorem futinv_init (s : List futactor) (h : ∀ a ∈ s, a.f = ⟨[], []⟩) : futinv s := by
  refine ⟨fun c => ?_, fun a ha c => ?_⟩
  · rw [cndcount_allcnds]
    have : allcnds s = [] := by
      unfold allcnds
      rw [List.flatMap_eq_nil_iff]
      intro a ha
      rw [h a ha]
    rw [this]; simp
  · rw [h a ha]; simp
/-- C23 (futex WAKE), as the code has it.  For every running actor and
every `FUTEX_WAKE` message: a count other than 1 and "all" (0xffffffff)
stops the actor with a panic; for the count 1 and for the count "all" alike,
an empty sleep queue gives only the acknowledgement 0 to the caller, and
otherwise exactly the oldest sleeper `c` is woken, with the value 0 for the
count 1 and the value 1 for the count "all", and then the caller is
acknowledged with 0.  The sleep queue afterwards is the rest `q` of the
queue in its order and the timer list has lost the first entry of `c` and
is otherwise in its order; when no channel sleeps twice, `c` is not in the
sleep queue any more, and when no channel has two timer entries, the timer
list afterwards is the old one without the entries of `c`. -/
theorem futex_wake (s : List futactor) (id : Nat) (a : futactor) (fm : futexmsg_t)
    (hs : s[id]? = some a) (ho : 0 < a.opencount) (hop : fm.op = FUTEX_WAKE) :
    (fm.aux ≠ 1 ∧ fm.aux ≠ 0xffffffff → futstep s id (.cmd fm) = none) ∧
    (fm.aux = 1 ∨ fm.aux = 0xffffffff →
      (a.f.cnds = [] → futstep s id (.cmd fm) = some (s, [(fm.ack, 0)])) ∧
      ∀ c q, a.f.cnds = c :: q →
        futstep s id (.cmd fm) =
          some (s.set id { a with f := ⟨q, a.f.tos.eraseP (fun t => decide (t.who = c))⟩ },
            [(c, if fm.aux = 1 then 0 else 1), (fm.ack, 0)]) ∧
        (a.f.tos.eraseP (fun t => decide (t.who = c))).Sublist a.f.tos ∧
        (a.f.cnds.Nodup → c ∉ q) ∧
        ((a.f.tos.map (fun t => t.who)).Nodup →
          a.f.tos.eraseP (fun t => decide (t.who = c)) =
            a.f.tos.filter (fun t => decide (t.who ≠ c)))) := by
  have hne : fm.op ≠ FUTEX_SLEEP := by rw [hop]; decide
  have hstep : futstep s id (.cmd fm) =
      if fm.aux = 1 then
        some (s.set id { a with f := (a.f.cndwake 0).1 }, (a.f.cndwake 0).2 ++ [(fm.ack, 0)])
      else if fm.aux = 0xffffffff then
        some (s.set id { a with f := (a.f.cndwake 1).1 }, (a.f.cndwake 1).2 ++ [(fm.ack, 0)])
      else none := by
    unfold futstep
    rw [hs]
    simp only
    rw [if_neg (by omega), if_neg hne, if_pos hop]
  refine ⟨fun h => ?_, fun h => ⟨fun hq => ?_, fun c q hq => ⟨?_, ?_, ?_, ?_⟩⟩⟩
  · rw [hstep, if_neg h.1, if_neg h.2]
  · have hself : ∀ v, s.set id { a with f := (a.f.cndwake v).1 } = s := by
      intro v
      rw [cndwake_nil a.f v hq]
      exact set_self_eq s id a hs
    rw [hstep]
    rcases h with h | h
    · rw [if_pos h, hself 0, cndwake_nil a.f 0 hq]; rfl
    · have h1 : fm.aux ≠ 1 := by rw [h]; decide
      rw [if_neg h1, if_pos h, hself 1, cndwake_nil a.f 1 hq]; rfl
  · have he : a.f.cnds.erase c = q := by rw [hq, List.erase_cons_head]
    rw [hstep]
    rcases h with h | h
    · rw [if_pos h, if_pos h, cndwake_eq a.f 0 c q hq, he]; rfl
    · have h1 : fm.aux ≠ 1 := by rw [h]; decide
      rw [if_neg h1, if_pos h, if_neg h1, cndwake_eq a.f 1 c q hq, he]; rfl
  · exact List.eraseP_sublist _
  · intro hn
    rw [hq, List.nodup_cons] at hn
    exact hn.1
  · exact eraseP_who_filter a.f.tos c

/-- C23 on two actors: after three sleepers, `FUTEX_WAKE` with the count 1
wakes the sleeper 1 with the value 0. -/
theorem futex_wake_witness :
    (([⟨⟨[1, 2, 3], [⟨70, 2⟩]⟩, 100, 1⟩, ⟨⟨[], []⟩, 101, 1⟩] : List futactor)[0]? =
        some ⟨⟨[1, 2, 3], [⟨70, 2⟩]⟩, 100, 1⟩ ∧
      (0 : Int) < 1 ∧ (wakemsg 1 4).op = FUTEX_WAKE) ∧
    futstep [⟨⟨[1, 2, 3], [⟨70, 2⟩]⟩, 100, 1⟩, ⟨⟨[], []⟩, 101, 1⟩] 0 (.cmd (wakemsg 1 4)) =
      some ([⟨⟨[2, 3], [⟨70, 2⟩]⟩, 100, 1⟩, ⟨⟨[], []⟩, 101, 1⟩], [(1, 0), (4, 0)]) :=
  ⟨⟨rfl, by decide, rfl⟩,
    (((futex_wake [⟨⟨[1, 2, 3], [⟨70, 2⟩]⟩, 100, 1⟩, ⟨⟨[], []⟩, 101, 1⟩] 0
      ⟨⟨[1, 2, 3], [⟨70, 2⟩]⟩, 100, 1⟩ (wakemsg 1 4) rfl (by decide) rfl).2
        (Or.inl rfl)).2 1 [2, 3] rfl).1⟩

/-- C24 (futex deadline consistency).  Take any number of actors with
empty queues and any sequence of rounds (deadline firing, `reopen`,
`FUTEX_SLEEP` with a new channel, `FUTEX_WAKE`, `FUTEX_CNDGIVE`, with the
`_FUTEX_CNDTAKE` that it sends) that ends.  In every actor afterwards no
channel sleeps twice or has two timer entries, and the waiter of every timer
entry is in the sleep queue.  `tonext` returns nothing for an empty timer
list and otherwise an entry of the list whose deadline is the earliest; when
its timer fires, `towake` finds the waiter: the round ends, sends 0 to
exactly that waiter, and leaves both lists as they were without it (one
entry shorter each, the others in their order). -/
theorem futex_deadline (s0 s : List futactor) (evs : List (Nat × futev))
    (out : List (Nat × Int)) (id : Nat) (a : futactor)
    (h0 : ∀ x ∈ s0, x.f = ⟨[], []⟩) (hok : futrun_ok s0 evs = true)
    (hr : futrun s0 evs = some (s, out)) (hs : s[id]? = some a) :
    a.f.cnds.Nodup ∧ (a.f.tos.map (fun t => t.who)).Nodup ∧
    (∀ t ∈ a.f.tos, t.who ∈ a.f.cnds) ∧
    (a.f.tos = [] → a.f.tonext = none) ∧
    (a.f.tos ≠ [] → ∃ t, a.f.tonext = some t) ∧
    ∀ t, a.f.tonext = some t →
      t ∈ a.f.tos ∧ (∀ x ∈ a.f.tos, t.when ≤ x.when) ∧
      a.f.towake t.who 0 =
        some (⟨a.f.cnds.filter (fun c => decide (c ≠ t.who)),
          a.f.tos.filter (fun x => decide (x.who ≠ t.who))⟩, [(t.who, 0)]) ∧
      (0 < a.opencount →
        futstep s id .fire =
          some (s.set id { a with f := ⟨a.f.cnds.filter (fun c => decide (c ≠ t.who)),
            a.f.tos.filter (fun x => decide (x.who ≠ t.who))⟩ }, [(t.who, 0)])) ∧
      (a.f.cnds.filter (fun c => decide (c ≠ t.who))).length + 1 = a.f.cnds.length ∧
      (a.f.tos.filter (fun x => decide (x.who ≠ t.who))).length + 1 = a.f.tos.length := by
  have hinv := futrun_inv evs s0 s out (futinv_init s0 h0) hok hr
  have ha : a ∈ s := List.getElem?_mem hs
  have hcn : a.f.cnds.Nodup := by
    rw [List.nodup_iff_count_le_one]
    intro c
    have h1 := count_le_cndcount s id a c hs
    have h2 := hinv.1 c
    omega
  have htn : (a.f.tos.map (fun t => t.who)).Nodup := by
    rw [List.nodup_iff_count_le_one]
    intro c
    have h1 := hinv.2 a ha c
    have h2 := List.nodup_iff_count_le_one.1 hcn c
    omega
  have hmem : ∀ t ∈ a.f.tos, t.who ∈ a.f.cnds := by
    intro t ht
    have h1 : t.who ∈ a.f.tos.map (fun t => t.who) := List.mem_map.2 ⟨t, ht, rfl⟩
    have h2 := hinv.2 a ha t.who
    have h3 := List.count_pos_iff.2 h1
    exact List.count_pos_iff.1 (by omega)
  obtain ⟨t1, t2, t3⟩ := tonext_spec a.f
  refine ⟨hcn, htn, hmem, t1, t2, fun t ht => ?_⟩
  obtain ⟨hin, hle⟩ := t3 t ht
  have hw := hmem t hin
  have he1 : a.f.cnds.erase t.who = a.f.cnds.filter (fun c => decide (c ≠ t.who)) := by
    rw [hcn.erase_eq_filter]
    apply List.filter_congr
    intro x _
    by_cases hx : x = t.who
    · simp [hx]
    · simp [hx]
  have he2 := eraseP_who_filter a.f.tos t.who htn
  have htw := towake_eq a.f t.who 0 hw
  rw [he1, he2] at htw
  refine ⟨hin, hle, htw, fun ho => ?_, ?_, ?_⟩
  · unfold futstep
    rw [hs]
    simp only
    rw [if_neg (by omega)]
    simp only [ht, htw, Option.map_some']
  · rw [← he1, List.length_erase_of_mem hw]
    have := List.length_pos_of_mem hw
    omega
  · rw [← he2, List.length_eraseP_of_mem hin (by simp)]
    have := List.length_pos_of_mem hin
    omega
/-- C24 on two actors: after the rounds `ex_futevs` the actor 1 holds the
sleepers 5, 2, 3 and 4 with the deadlines 55, 50 and 60; `tonext` selects
the entry of the sleeper 2, and when it fires, 2 leaves both lists and
receives 0. -/
theorem futex_deadline_witness :
    ((∀ x ∈ ex_futs, x.f = ⟨[], []⟩) ∧ futrun_ok ex_futs ex_futevs = true ∧
      futrun ex_futs ex_futevs =
        some ([⟨⟨[], []⟩, 100, 1⟩, ⟨⟨[5, 2, 3, 4], [⟨55, 5⟩, ⟨50, 2⟩, ⟨60, 4⟩]⟩, 101, 1⟩],
          [(1, 0), (6, 0), (7, 0)]) ∧
      ([⟨⟨[], []⟩, 100, 1⟩, ⟨⟨[5, 2, 3, 4], [⟨55, 5⟩, ⟨50, 2⟩, ⟨60, 4⟩]⟩, 101, 1⟩] :
        List futactor)[1]? = some ⟨⟨[5, 2, 3, 4], [⟨55, 5⟩, ⟨50, 2⟩, ⟨60, 4⟩]⟩, 101, 1⟩) ∧
    (⟨[5, 2, 3, 4], [⟨55, 5⟩, ⟨50, 2⟩, ⟨60, 4⟩]⟩ : futex_t).tonext = some ⟨50, 2⟩ ∧
    futstep [⟨⟨[], []⟩, 100, 1⟩, ⟨⟨[5, 2, 3, 4], [⟨55, 5⟩, ⟨50, 2⟩, ⟨60, 4⟩]⟩, 101, 1⟩] 1 .fire =
      some ([⟨⟨[], []⟩, 100, 1⟩, ⟨⟨[5, 3, 4], [⟨55, 5⟩, ⟨60, 4⟩]⟩, 101, 1⟩], [(2, 0)]) :=
  ⟨⟨by decide, by decide, by decide, rfl⟩, by decide,
    ((((futex_deadline ex_futs _ ex_futevs _ 1 _ (by decide) (by decide)
      (show futrun ex_futs ex_futevs =
        some ([⟨⟨[], []⟩, 100, 1⟩, ⟨⟨[5, 2, 3, 4], [⟨55, 5⟩, ⟨50, 2⟩, ⟨60, 4⟩]⟩, 101, 1⟩],
          [(1, 0), (6, 0), (7, 0)]) by decide)
      (show ([⟨⟨[], []⟩, 100, 1⟩, ⟨⟨[5, 2, 3, 4], [⟨55, 5⟩, ⟨50, 2⟩, ⟨60, 4⟩]⟩, 101, 1⟩] :
        List futactor)[1]? = some ⟨⟨[5, 2, 3, 4], [⟨55, 5⟩, ⟨50, 2⟩, ⟨60, 4⟩]⟩, 101, 1⟩
        from rfl)).2.2.2.2.2 ⟨50, 2⟩ (by decide)).2.2.2.1 (by decide)).trans (by decide))⟩

/-! ## Theorems about the circular buffer -/

/-- Within a page, adding `i` to an address keeps the page number and adds `i`
to the page offset. -/
theorem page_arith (va i : Nat) (h : (va &&& PGOFFSET) + i < PGSIZE) :
    (va + i) >>> PGSHIFT = va >>> PGSHIFT ∧ (va + i) &&& PGOFFSET = (va &&& PGOFFSET) + i := by
  have h1 : ∀ x : Nat, x &&& PGOFFSET = x % 4096 := fun x =>
    Nat.and_pow_two_sub_one_eq_mod x 12
  rw [h1] at h
  simp only [PGSIZE] at h
  rw [h1, h1, Nat.shiftRight_eq_div_pow, Nat.shiftRight_eq_div_pow, PGSHIFT]
  constructor <;> omega

/-- A page offset is below the page size. -/
theorem pgoff_lt (va : Nat) : va &&& PGOFFSET < PGSIZE := by
  have h1 : va &&& PGOFFSET = va % 4096 := Nat.and_pow_two_sub_one_eq_mod va 12
  rw [h1, PGSIZE]
  omega

/-- The wrapping sum of two machine integers is their sum when that lies in `0
≤ · < 2^63`. -/
theorem iadd_small (a b : Int) (h0 : 0 ≤ a + b) (h1 : a + b < 2 ^ 63) : iadd a b = a + b := by
  unfold iadd int64 uint64
  have e : ((a + b) % 2 ^ 64).toNat % 2 ^ 64 = (a + b).toNat := by omega
  rw [e, if_pos (by omega)]
  omega

/-- Taking and releasing the pmap lock of a process whose lock is free gives
the process back. -/
theorem unlock_of_unlocked (p : proc_t) (h : p.pgfltaken = false) :
    Unlock_pmap (Lock_pmap p) = p := by
  cases p
  simp only [Unlock_pmap, Lock_pmap] at h ⊢
  simp only [h]

/-- On a mapped page `userdmap8_inner` does not fault: it returns the frame
and the offset of the address and changes nothing. -/
theorem userdmap8_mapped (k : kern_t) (p : proc_t) (va : Int) (w : Bool)
    (hl : p.pgfltaken = true) (hu : (USERMIN : Int) ≤ va)
    (hm : pgmapped p w (va.toNat >>> PGSHIFT) = true) :
    userdmap8_inner k p va w =
      some (k, p, [], some (pte_get p.pmap va.toNat &&& PTE_ADDR, va.toNat &&& PGOFFSET)) := by
  obtain ⟨pm, pp, vr, tk, nt⟩ := p
  simp only at hl
  subst hl
  simp only [pgmapped, Bool.and_eq_true, Bool.or_eq_true, Bool.not_eq_true',
    decide_eq_true_eq] at hm
  obtain ⟨⟨⟨h1, h2⟩, h3⟩, h4⟩ := hm
  have ht : pm.tbl (va.toNat >>> 21) = true := by
    have : (va.toNat >>> PGSHIFT) >>> 9 = va.toNat >>> 21 := by
      rw [← Nat.shiftRight_add]; rfl
    rw [← this]; exact h1
  have hcow : (if w = true then cowfault k ⟨pm, pp, vr, true, nt⟩ va
      else some (k, ⟨pm, pp, vr, true, nt⟩, [])) = some (k, ⟨pm, pp, vr, true, nt⟩, []) := by
    cases w with
    | false => rfl
    | true =>
      have h5 : pm.ent (va.toNat >>> PGSHIFT) &&& PTE_COW = 0 := by
        rcases h4 with h4 | h4
        · exact absurd h4 (by decide)
        · exact h4
      rw [if_pos rfl]
      unfold cowfault
      rw [if_neg (by omega)]
      simp only [Bool.not_true, Bool.false_eq_true, if_false, pmap_walk_of_tbl _ _ ht,
        pte_get, ne_eq, h2, not_false_eq_true, h5, and_self, if_true]
  unfold userdmap8_inner
  simp only [Bool.not_true, Bool.false_eq_true, if_false]
  rw [if_neg (by omega), hcow]
  simp only [pmap_lookup, ht, if_true, h2, decide_False, Bool.false_eq_true, if_false, pte_get,
    h3]

/-- Copying no bytes leaves kernel memory as it is. -/
theorem memcpy_nil (k : kern_t) (sl : Nat × Nat) : memcpy k sl [] = k := by
  unfold memcpy
  cases k
  simp only [List.length_nil, Nat.add_zero]
  congr 1
  funext f o
  rw [if_neg (by omega)]

/-- Copying a slice is copying its first byte and then the rest one byte
further. -/
theorem memcpy_cons (k : kern_t) (f o b : Nat) (bs : List Nat) :
    memcpy k (f, o) (b :: bs) = memcpy (memcpy k (f, o) [b]) (f, o + 1) bs := by
  unfold memcpy
  simp only [List.length_cons, List.length_nil]
  congr 1
  funext f1 o1
  by_cases h1 : f1 = f ∧ o ≤ o1 ∧ o1 < o + (bs.length + 1)
  · rw [if_pos h1]
    by_cases h2 : o1 = o
    · rw [if_neg (by omega), if_pos (by omega), h2]
      simp
    · rw [if_pos (by omega)]
      have e : o1 - o = (o1 - (o + 1)) + 1 := by omega
      rw [e, List.getD_cons_succ]
  · rw [if_neg h1, if_neg (by omega), if_neg (by omega)]

/-- Within a page, `memcpy` to the frame of a user address is the bytewise
store `ustore`. -/
theorem memcpy_ustore (k : kern_t) (p : proc_t) (va : Nat) (bs : List Nat)
    (h : (va &&& PGOFFSET) + bs.length ≤ PGSIZE) :
    memcpy k (pte_get p.pmap va &&& PTE_ADDR, va &&& PGOFFSET) bs = ustore p k va bs := by
  induction bs generalizing k va with
  | nil => rw [memcpy_nil]; rfl
  | cons b bs ih =>
    simp only [List.length_cons] at h
    rw [memcpy_cons, ustore]
    cases bs with
    | nil => rw [memcpy_nil]; rfl
    | cons b2 bs =>
      simp only [List.length_cons] at h
      have h1 := page_arith va 1 (by omega)
      have h2 := ih (memcpy k (pte_get p.pmap va &&& PTE_ADDR, va &&& PGOFFSET) [b]) (va + 1)
        (by rw [h1.2]; simp only [List.length_cons]; omega)
      rw [← h2]
      simp only [pte_get, h1.1, h1.2]

/-- Storing two lists one after the other is storing their concatenation. -/
theorem ustore_append (p : proc_t) (k : kern_t) (va : Nat) (x y : List Nat) :
    ustore p k va (x ++ y) = ustore p (ustore p k va x) (va + x.length) y := by
  induction x generalizing k va with
  | nil => rfl
  | cons b x ih =>
    show ustore p (memcpy k (pte_get p.pmap va &&& PTE_ADDR, va &&& PGOFFSET) [b]) (va + 1)
      (x ++ y) = ustore p (ustore p (memcpy k (pte_get p.pmap va &&& PTE_ADDR,
        va &&& PGOFFSET) [b]) (va + 1) x) (va + (x.length + 1)) y
    rw [ih]
    congr 1
    omega

/-- Reading `a + b` bytes is reading `a` bytes and then `b` bytes. -/
theorem ubytes_add (k : kern_t) (p : proc_t) (va a b : Nat) :
    ubytes k p va (a + b) = ubytes k p va a ++ ubytes k p (va + a) b := by
  unfold ubytes
  rw [List.range_add, List.map_append, List.map_map]
  congr 1
  apply List.map_congr_left
  intro i _
  simp only [Function.comp_apply, Nat.add_assoc]

/-- Reading `n` bytes gives `n` bytes. -/
theorem ubytes_length (k : kern_t) (p : proc_t) (va n : Nat) : (ubytes k p va n).length = n := by
  simp [ubytes]

/-- Within a page, the bytes of the frame of a user address are the bytes
`ubytes` reads. -/
theorem slice_ubytes (k : kern_t) (p : proc_t) (va c : Nat)
    (h : (va &&& PGOFFSET) + c ≤ PGSIZE) :
    slice_bytes k (pte_get p.pmap va &&& PTE_ADDR, va &&& PGOFFSET) c = ubytes k p va c := by
  unfold slice_bytes ubytes
  apply List.map_congr_left
  intro i hi
  have hi2 : i < c := List.mem_range.1 hi
  have h1 := page_arith va i (by omega)
  simp only [slice_byte, uread, pte_get, h1.1, h1.2]

/-- Every byte of a mapped range lies in a mapped page. -/
theorem umapped_at (p : proc_t) (w : Bool) (va n i : Nat) (h : umapped p w va n = true)
    (hi : i < n) : pgmapped p w ((va + i) >>> PGSHIFT) = true := by
  unfold umapped at h
  rw [List.all_eq_true] at h
  exact h i (List.mem_range.2 hi)

/-- A mapped range stays mapped when its start moves forward inside it. -/
theorem umapped_shift (p : proc_t) (w : Bool) (va n c : Nat) (h : umapped p w va n = true) :
    umapped p w (va + c) (n - c) = true := by
  unfold umapped
  rw [List.all_eq_true]
  intro i hi
  have hi2 : i < n - c := List.mem_range.1 hi
  have := umapped_at p w va n (c + i) h (by omega)
  rw [Nat.add_assoc]
  exact this

/-- User space starts above the first page. -/
theorem usermin_ge : (4096 : Int) ≤ (USERMIN : Int) := by decide

/-- The transfer loop from user memory, over mapped pages: it fills the kernel
slice with as many bytes as the slice and the buffer allow, read from the
buffer's position, advances the offset by that number, and returns it with
error 0. -/
theorem tx_loop_read (fuel : Nat) : ∀ (k : kern_t) (p : proc_t) (ev : List tlbev)
    (ub : userbuf_t) (done buf : List Nat) (ret : Int),
    p.pgfltaken = true → 0 ≤ ub.off → ub.off ≤ ub.len → (USERMIN : Int) ≤ ub.userva →
    ub.userva + ub.len < 2 ^ 63 → 0 ≤ ret → ret + buf.length < 2 ^ 63 →
    umapped p false (ub.userva + ub.off).toNat (ub.len - ub.off).toNat = true →
    buf.length < fuel →
    _tx_loop false fuel k p ev ub done buf ret =
      some ⟨k, Unlock_pmap p, ev,
        { ub with off := ub.off + (min buf.length (ub.len - ub.off).toNat : Nat) },
        done ++ ubytes k p (ub.userva + ub.off).toNat (min buf.length (ub.len - ub.off).toNat) ++
          buf.drop (min buf.length (ub.len - ub.off).toNat),
        ret + (min buf.length (ub.len - ub.off).toNat : Nat), 0⟩ := by
  induction fuel with
  | zero => intro k p ev ub done buf ret _ _ _ _ _ _ _ _ hf; omega
  | succ fuel ih =>
    intro k p ev ub done buf ret hl h0 h1 hu hb hr0 hr1 hm hf
    have hU := usermin_ge
    rw [_tx_loop]
    by_cases hstop : buf = [] ∨ ub.off = ub.len
    · rw [if_pos hstop]
      have hc : min buf.length (ub.len - ub.off).toNat = 0 := by
        rcases hstop with hs | hs
        · rw [hs]; simp
        · rw [hs]; simp
      rw [hc]
      simp only [ubytes, List.range_zero, List.map_nil, List.append_nil, List.drop_zero,
        Nat.cast_zero, Int.add_zero]
    · rw [if_neg hstop]
      rw [not_or] at hstop
      have hbl : 0 < buf.length := List.length_pos.2 hstop.1
      have hlt : ub.off < ub.len := lt_of_le_of_ne h1 hstop.2
      have hva : iadd ub.userva ub.off = ub.userva + ub.off := iadd_small _ _ (by omega) (by omega)
      have hpg : pgmapped p false ((ub.userva + ub.off).toNat >>> PGSHIFT) = true := by
        have := umapped_at p false _ _ 0 hm (by omega)
        simpa using this
      have hvo := pgoff_lt (ub.userva + ub.off).toNat
      simp only [hva, userdmap8_mapped k p _ false hl (by omega) hpg, slice_len, Bool.false_eq_true,
        if_false, List.append_nil]
      have hend : iadd ub.off ((PGSIZE - ((ub.userva + ub.off).toNat &&& PGOFFSET) : Nat) : Int) =
          ub.off + ((PGSIZE - ((ub.userva + ub.off).toNat &&& PGOFFSET) : Nat) : Int) :=
        iadd_small _ _ (by omega) (by simp only [PGSIZE] at hvo ⊢; omega)
      rw [hend, if_neg (by omega)]
      generalize hvoff : (ub.userva + ub.off).toNat &&& PGOFFSET = voff at hvo ⊢
      generalize hc1 : min (if ub.off + ((PGSIZE - voff : Nat) : Int) > ub.len
        then (ub.len - ub.off).toNat else PGSIZE - voff) buf.length = c1
      have hc1a : 1 ≤ c1 ∧ c1 ≤ buf.length ∧ c1 ≤ (ub.len - ub.off).toNat ∧ c1 ≤ PGSIZE - voff ∧
          (c1 = buf.length ∨ c1 = (ub.len - ub.off).toNat ∨ c1 = PGSIZE - voff) := by
        rw [← hc1]
        split <;> omega
      have hoff : iadd ub.off (c1 : Int) = ub.off + c1 := iadd_small _ _ (by omega) (by omega)
      have hret : iadd ret (c1 : Int) = ret + c1 := iadd_small _ _ (by omega) (by omega)
      rw [hoff, hret]
      have hm2 : umapped p false (ub.userva + (ub.off + c1)).toNat
          (ub.len - (ub.off + c1)).toNat = true := by
        have := umapped_shift p false _ _ c1 hm
        have e1 : (ub.userva + (ub.off + c1)).toNat = (ub.userva + ub.off).toNat + c1 := by omega
        have e2 : (ub.len - (ub.off + c1)).toNat = (ub.len - ub.off).toNat - c1 := by omega
        rw [e1, e2]; exact this
      have hrec := ih k p ev { ub with off := ub.off + c1 }
        (done ++ slice_bytes k (pte_get p.pmap (ub.userva + ub.off).toNat &&& PTE_ADDR, voff) c1)
        (buf.drop c1) (ret + c1) hl (by simp only; omega) (by simp only; omega) hu hb (by omega)
        (by simp only [List.length_drop]; omega) hm2
        (by simp only [List.length_drop]; omega)
      rw [hrec]
      simp only [List.length_drop]
      generalize hc2 : min (buf.length - c1) (ub.len - (ub.off + c1)).toNat = c2
      have hsum : min buf.length (ub.len - ub.off).toNat = c1 + c2 := by omega
      have hsl := slice_ubytes k p (ub.userva + ub.off).toNat c1 (by rw [hvoff]; omega)
      rw [hvoff] at hsl
      have e1 : (ub.userva + (ub.off + c1)).toNat = (ub.userva + ub.off).toNat + c1 := by omega
      rw [hsum, hsl, e1, ubytes_add, List.drop_drop, List.append_assoc, List.append_assoc,
        List.append_assoc]
      have e3 : ub.off + (c1 : Int) + (c2 : Int) = ub.off + ((c1 + c2 : Nat) : Int) := by
        push_cast; ring
      have e4 : ret + (c1 : Int) + (c2 : Int) = ret + ((c1 + c2 : Nat) : Int) := by
        push_cast; ring
      rw [e3, e4]
      simp only [List.append_assoc]

/-- The transfer loop to user memory, over mapped pages: it stores as many
bytes of the kernel slice as the slice and the buffer allow at the buffer's
position, advances the offset by that number, and returns it with error 0. -/
theorem tx_loop_write (fuel : Nat) : ∀ (k : kern_t) (p : proc_t) (ev : List tlbev)
    (ub : userbuf_t) (done buf : List Nat) (ret : Int),
    p.pgfltaken = true → 0 ≤ ub.off → ub.off ≤ ub.len → (USERMIN : Int) ≤ ub.userva →
    ub.userva + ub.len < 2 ^ 63 → 0 ≤ ret → ret + buf.length < 2 ^ 63 →
    umapped p true (ub.userva + ub.off).toNat (ub.len - ub.off).toNat = true →
    buf.length < fuel →
    _tx_loop true fuel k p ev ub done buf ret =
      some ⟨ustore p k (ub.userva + ub.off).toNat
          (buf.take (min buf.length (ub.len - ub.off).toNat)),
        Unlock_pmap p, ev,
        { ub with off := ub.off + (min buf.length (ub.len - ub.off).toNat : Nat) },
        done ++ buf, ret + (min buf.length (ub.len - ub.off).toNat : Nat), 0⟩ := by
  induction fuel with
  | zero => intro k p ev ub done buf ret _ _ _ _ _ _ _ _ hf; omega
  | succ fuel ih =>
    intro k p ev ub done buf ret hl h0 h1 hu hb hr0 hr1 hm hf
    have hU := usermin_ge
    rw [_tx_loop]
    by_cases hstop : buf = [] ∨ ub.off = ub.len
    · rw [if_pos hstop]
      have hc : min buf.length (ub.len - ub.off).toNat = 0 := by
        rcases hstop with hs | hs
        · rw [hs]; simp
        · rw [hs]; simp
      rw [hc]
      simp only [List.take_zero, ustore, Nat.cast_zero, Int.add_zero]
    · rw [if_neg hstop]
      rw [not_or] at hstop
      have hbl : 0 < buf.length := List.length_pos.2 hstop.1
      have hlt : ub.off < ub.len := lt_of_le_of_ne h1 hstop.2
      have hva : iadd ub.userva ub.off = ub.userva + ub.off := iadd_small _ _ (by omega) (by omega)
      have hpg : pgmapped p true ((ub.userva + ub.off).toNat >>> PGSHIFT) = true := by
        have := umapped_at p true _ _ 0 hm (by omega)
        simpa using this
      have hvo := pgoff_lt (ub.userva + ub.off).toNat
      simp only [hva, userdmap8_mapped k p _ true hl (by omega) hpg, slice_len,
        if_true, List.append_nil]
      have hend : iadd ub.off ((PGSIZE - ((ub.userva + ub.off).toNat &&& PGOFFSET) : Nat) : Int) =
          ub.off + ((PGSIZE - ((ub.userva + ub.off).toNat &&& PGOFFSET) : Nat) : Int) :=
        iadd_small _ _ (by omega) (by simp only [PGSIZE] at hvo ⊢; omega)
      rw [hend, if_neg (by omega)]
      generalize hvoff : (ub.userva + ub.off).toNat &&& PGOFFSET = voff at hvo ⊢
      generalize hc1 : min (if ub.off + ((PGSIZE - voff : Nat) : Int) > ub.len
        then (ub.len - ub.off).toNat else PGSIZE - voff) buf.length = c1
      have hc1a : 1 ≤ c1 ∧ c1 ≤ buf.length ∧ c1 ≤ (ub.len - ub.off).toNat ∧ c1 ≤ PGSIZE - voff ∧
          (c1 = buf.length ∨ c1 = (ub.len - ub.off).toNat ∨ c1 = PGSIZE - voff) := by
        rw [← hc1]
        split <;> omega
      have hoff : iadd ub.off (c1 : Int) = ub.off + c1 := iadd_small _ _ (by omega) (by omega)
      have hret : iadd ret (c1 : Int) = ret + c1 := iadd_small _ _ (by omega) (by omega)
      rw [hoff, hret]
      have hm2 : umapped p true (ub.userva + (ub.off + c1)).toNat
          (ub.len - (ub.off + c1)).toNat = true := by
        have := umapped_shift p true _ _ c1 hm
        have e1 : (ub.userva + (ub.off + c1)).toNat = (ub.userva + ub.off).toNat + c1 := by omega
        have e2 : (ub.len - (ub.off + c1)).toNat = (ub.len - ub.off).toNat - c1 := by omega
        rw [e1, e2]; exact this
      have hrec := ih
        (memcpy k (pte_get p.pmap (ub.userva + ub.off).toNat &&& PTE_ADDR, voff) (buf.take c1))
        p ev { ub with off := ub.off + c1 } (done ++ buf.take c1)
        (buf.drop c1) (ret + c1) hl (by simp only; omega) (by simp only; omega) hu hb (by omega)
        (by simp only [List.length_drop]; omega) hm2
        (by simp only [List.length_drop]; omega)
      rw [hrec]
      simp only [List.length_drop]
      generalize hc2 : min (buf.length - c1) (ub.len - (ub.off + c1)).toNat = c2
      have hsum : min buf.length (ub.len - ub.off).toNat = c1 + c2 := by omega
      have htl : (buf.take c1).length = c1 := by rw [List.length_take]; omega
      have hsl := memcpy_ustore k p (ub.userva + ub.off).toNat (buf.take c1)
        (by rw [hvoff, htl]; omega)
      rw [hvoff] at hsl
      have e1 : (ub.userva + (ub.off + c1)).toNat = (ub.userva + ub.off).toNat + c1 := by omega
      have e5 : ustore p (ustore p k (ub.userva + ub.off).toNat (buf.take c1))
          ((ub.userva + ub.off).toNat + c1) ((buf.drop c1).take c2) =
          ustore p k (ub.userva + ub.off).toNat (buf.take (c1 + c2)) := by
        rw [List.take_add, ustore_append, htl]
      rw [hsum, hsl, e1, e5, List.append_assoc, List.take_append_drop]
      have e3 : ub.off + (c1 : Int) + (c2 : Int) = ub.off + ((c1 + c2 : Nat) : Int) := by
        push_cast; ring
      have e4 : ret + (c1 : Int) + (c2 : Int) = ret + ((c1 + c2 : Nat) : Int) := by
        push_cast; ring
      rw [e3, e4]

/-- The bytewise store depends on the process through its page table only. -/
theorem ustore_congr (p q : proc_t) (h : q.pmap = p.pmap) (k : kern_t) (va : Nat)
    (bs : List Nat) : ustore q k va bs = ustore p k va bs := by
  induction bs generalizing k va with
  | nil => rfl
  | cons b bs ih => simp only [ustore, h, ih]

/-- A read of a fully mapped user buffer into a kernel slice: `userbuf_t.read`
returns min(len(dst), remaining) with error 0, the slice starts with the bytes
read, and the process and kernel memory are unchanged. -/
theorem ub_read_ok (k : kern_t) (p : proc_t) (ub : userbuf_t) (dst : List Nat)
    (hl : p.pgfltaken = false) (hok : ubok p false ub = true) (hd : (dst.length : Int) < 2 ^ 62) :
    ub.read k p dst =
      some ⟨k, p, [],
        { ub with off := ub.off + (min dst.length (ub.len - ub.off).toNat : Nat) },
        ubytes k p (ub.userva + ub.off).toNat (min dst.length (ub.len - ub.off).toNat) ++
          dst.drop (min dst.length (ub.len - ub.off).toNat),
        (min dst.length (ub.len - ub.off).toNat : Nat), 0⟩ := by
  simp only [ubok, Bool.and_eq_true, Bool.not_eq_true', decide_eq_true_eq] at hok
  obtain ⟨⟨⟨⟨⟨h1, h2⟩, h3⟩, h4⟩, h5⟩, h6⟩ := hok
  unfold userbuf_t.read userbuf_t._tx
  rw [if_neg (by rw [h1]; exact Bool.false_ne_true)]
  have h := tx_loop_read (dst.length + 1) k (Lock_pmap p) [] ub [] dst 0 rfl h2 h3 h4 h5
    (le_refl _) (by omega) h6 (by omega)
  rw [h, unlock_of_unlocked p hl]
  simp only [List.nil_append, Int.zero_add]
  rfl

/-- A write of a kernel slice to a fully mapped user buffer: `userbuf_t.write`
returns min(len(src), remaining) with error 0 and user memory receives that
many bytes of the slice. -/
theorem ub_write_ok (k : kern_t) (p : proc_t) (ub : userbuf_t) (src : List Nat)
    (hl : p.pgfltaken = false) (hok : ubok p true ub = true) (hd : (src.length : Int) < 2 ^ 62) :
    ub.write k p src =
      some ⟨ustore p k (ub.userva + ub.off).toNat
          (src.take (min src.length (ub.len - ub.off).toNat)), p, [],
        { ub with off := ub.off + (min src.length (ub.len - ub.off).toNat : Nat) },
        src, (min src.length (ub.len - ub.off).toNat : Nat), 0⟩ := by
  simp only [ubok, Bool.and_eq_true, Bool.not_eq_true', decide_eq_true_eq] at hok
  obtain ⟨⟨⟨⟨⟨h1, h2⟩, h3⟩, h4⟩, h5⟩, h6⟩ := hok
  unfold userbuf_t.write userbuf_t._tx
  rw [if_neg (by rw [h1]; exact Bool.false_ne_true)]
  have h := tx_loop_write (src.length + 1) k (Lock_pmap p) [] ub [] src 0 rfl h2 h3 h4 h5
    (le_refl _) (by omega) h6 (by omega)
  rw [h, unlock_of_unlocked p hl, ustore_congr p (Lock_pmap p) rfl]
  simp only [List.nil_append, Int.zero_add]

/-- A list is the list of its elements by index. -/
theorem list_map_range_getD (l : List Nat) :
    (List.range l.length).map (fun i => l.getD i 0) = l := by
  apply List.ext_getElem
  · simp
  · intro i h1 h2
    simp [List.getD_eq_getElem?_getD, List.getElem?_eq_getElem h2]

/-- Position arithmetic modulo a positive `B`: adding at most `B` wraps around
at most once. -/
theorem emod_pos (T B : Int) (i : Nat) (hB : 0 < B) (hi : (i : Int) ≤ B) :
    0 ≤ T % B ∧ T % B < B ∧
    (T + i) % B = if T % B + i < B then T % B + i else T % B + i - B := by
  have h1 := Int.emod_nonneg T (ne_of_gt hB)
  have h2 := Int.emod_lt_of_pos T hB
  refine ⟨h1, h2, ?_⟩
  rw [← Int.emod_add_emod]
  split
  · exact Int.emod_eq_of_lt (by omega) (by omega)
  · rw [Int.emod_eq_sub_self_emod]
    exact Int.emod_eq_of_lt (by omega) (by omega)

/-- The two layouts of a ring with `T ≤ H ≤ T + B`: straight (`T % B ≤ H % B`)
or wrapped. -/
theorem ring_pos (H T B : Int) (hB : 0 < B) (h1 : T ≤ H) (h2 : H - T ≤ B) :
    (T % B ≤ H % B ∧ H - T = H % B - T % B) ∨ (H % B ≤ T % B ∧ H - T = B + H % B - T % B) := by
  have e1 := Int.ediv_add_emod H B
  have e2 := Int.ediv_add_emod T B
  have a1 := Int.emod_nonneg H (ne_of_gt hB)
  have a2 := Int.emod_lt_of_pos H hB
  have b1 := Int.emod_nonneg T (ne_of_gt hB)
  have b2 := Int.emod_lt_of_pos T hB
  have e3 : B * (H / B - T / B) = B * (H / B) - B * (T / B) := by ring
  rcases (by omega : H / B - T / B ≤ -1 ∨ H / B - T / B = 0 ∨ H / B - T / B = 1 ∨
    2 ≤ H / B - T / B) with hd | hd | hd | hd
  · have := Int.mul_le_mul_of_nonneg_left hd (le_of_lt hB)
    omega
  · rw [hd] at e3
    left; omega
  · rw [hd] at e3
    right; omega
  · have := Int.mul_le_mul_of_nonneg_left hd (le_of_lt hB)
    omega

/-- A buffer whose head moved forward by `len(new)`, whose held positions are
unchanged and whose new positions hold `new`, holds the old bytes followed by
`new`. -/
theorem cbq_push (cb cb1 : circbuf_t) (new : List Nat) (hsz : cb1.bufsz = cb.bufsz)
    (ht : cb1.tail = cb.tail) (hh : cb1.head = cb.head + new.length) (h0 : cb.tail ≤ cb.head)
    (hold : ∀ i : Nat, i < (cb.head - cb.tail).toNat →
      cb1.buf.getD ((cb.tail + i) % cb.bufsz).toNat 0 =
        cb.buf.getD ((cb.tail + i) % cb.bufsz).toNat 0)
    (hnew : ∀ i : Nat, i < new.length →
      cb1.buf.getD ((cb.head + i) % cb.bufsz).toNat 0 = new.getD i 0) :
    cbq cb1 = cbq cb ++ new := by
  unfold cbq
  rw [hsz, ht, hh]
  have e : (cb.head + (new.length : Int) - cb.tail).toNat =
      (cb.head - cb.tail).toNat + new.length := by omega
  rw [e, List.range_add, List.map_append, List.map_map]
  congr 1
  · apply List.map_congr_left
    intro i hi
    exact hold i (List.mem_range.1 hi)
  · conv_rhs => rw [← list_map_range_getD new]
    apply List.map_congr_left
    intro i hi
    have hi2 := List.mem_range.1 hi
    simp only [Function.comp_apply]
    rw [← hnew i hi2]
    congr 3
    push_cast
    omega

/-- Moving the tail forward by `c` drops the `c` oldest bytes. -/
theorem cbq_pop (cb : circbuf_t) (c : Nat) (h0 : cb.tail ≤ cb.head)
    (hc : (c : Int) ≤ cb.head - cb.tail) :
    cbq { cb with tail := cb.tail + c } = (cbq cb).drop c := by
  unfold cbq
  apply List.ext_getElem?
  intro j
  simp only [List.getElem?_map, List.getElem?_drop, List.getElem?_range]
  by_cases hj : j < (cb.head - (cb.tail + c)).toNat
  · rw [List.getElem?_range hj, List.getElem?_range (by omega)]
    simp only [Option.map_some', Option.some.injEq]
    congr 3
    push_cast
    omega
  · rw [List.getElem?_eq_none (by simpa using hj), List.getElem?_eq_none (by simp; omega)]
    rfl

/-- A circular buffer holds `head - tail` bytes. -/
theorem cbq_length (cb : circbuf_t) : (cbq cb).length = (cb.head - cb.tail).toNat := by
  simp [cbq]

/-- Storing bytes inside a slice keeps its length. -/
theorem bput_length (buf : List Nat) (pos : Nat) (bs : List Nat)
    (h : pos + bs.length ≤ buf.length) : (bput buf pos bs).length = buf.length := by
  simp only [bput, List.length_append, List.length_take, List.length_drop]
  omega

/-- The bytes of a slice after `bput`: the stored bytes at their positions,
the old bytes elsewhere. -/
theorem bput_getD (buf : List Nat) (pos : Nat) (bs : List Nat) (j : Nat)
    (h : pos + bs.length ≤ buf.length) :
    (bput buf pos bs).getD j 0 =
      if pos ≤ j ∧ j < pos + bs.length then bs.getD (j - pos) 0 else buf.getD j 0 := by
  simp only [bput, List.getD_eq_getElem?_getD]
  by_cases h1 : j < pos
  · rw [if_neg (by omega), List.append_assoc, List.getElem?_append_left (by
      rw [List.length_take]; omega), List.getElem?_take_of_lt h1]
  · by_cases h2 : j < pos + bs.length
    · rw [if_pos (by omega), List.getElem?_append_left (by
        rw [List.length_append, List.length_take]; omega),
        List.getElem?_append_right (by rw [List.length_take]; omega)]
      have e : j - (List.take pos buf).length = j - pos := by
        rw [List.length_take]; omega
      rw [e]
    · rw [if_neg (by omega), List.getElem?_append_right (by
        rw [List.length_append, List.length_take]; omega), List.getElem?_drop]
      have e : pos + bs.length + (j - (List.take pos buf ++ bs).length) = j := by
        rw [List.length_append, List.length_take]; omega
      rw [e]

/-- The slice after a read into `buf[hi:]` is `bput buf hi new`. -/
theorem bput_first (buf : List Nat) (hi : Nat) (new : List Nat) :
    buf.take hi ++ (new ++ (buf.drop hi).drop new.length) = bput buf hi new := by
  simp only [bput, List.drop_drop, List.append_assoc]

/-- The slice after a read into `buf[hi:ti]` is `bput buf hi new`. -/
theorem bput_rest (buf : List Nat) (hi ti : Nat) (new : List Nat) (h1 : hi + new.length ≤ ti)
    (h2 : ti ≤ buf.length) :
    buf.take hi ++ (new ++ ((buf.take ti).drop hi).drop new.length) ++ buf.drop ti =
      bput buf hi new := by
  simp only [bput, List.drop_drop, List.append_assoc]
  congr 2
  apply List.ext_getElem?
  intro j
  simp only [List.getElem?_append, List.getElem?_drop, List.length_drop, List.length_take]
  by_cases hj : j < min ti buf.length - (hi + new.length)
  · rw [if_pos hj, List.getElem?_take_of_lt (by omega)]
  · rw [if_neg hj]
    congr 1
    omega

/-- A fully mapped user buffer stays fully mapped when its offset advances
within its length. -/
theorem ubok_advance (p : proc_t) (w : Bool) (ub : userbuf_t) (c : Nat)
    (h : ubok p w ub = true) (hc : (c : Int) ≤ ub.len - ub.off) :
    ubok p w { ub with off := ub.off + c } = true := by
  simp only [ubok, Bool.and_eq_true, Bool.not_eq_true', decide_eq_true_eq] at h ⊢
  obtain ⟨⟨⟨⟨⟨h1, h2⟩, h3⟩, h4⟩, h5⟩, h6⟩ := h
  refine ⟨⟨⟨⟨⟨h1, by omega⟩, by omega⟩, h4⟩, h5⟩, ?_⟩
  have := umapped_shift p w _ _ c h6
  have e1 : (ub.userva + (ub.off + c)).toNat = (ub.userva + ub.off).toNat + c := by omega
  have e2 : (ub.len - (ub.off + c)).toNat = (ub.len - ub.off).toNat - c := by omega
  rw [e1, e2]; exact this

/-- The bounds of a fully mapped user buffer. -/
theorem ubok_bounds (p : proc_t) (w : Bool) (ub : userbuf_t) (h : ubok p w ub = true) :
    0 ≤ ub.off ∧ ub.off ≤ ub.len ∧ (USERMIN : Int) ≤ ub.userva ∧ ub.userva + ub.len < 2 ^ 63 := by
  simp only [ubok, Bool.and_eq_true, Bool.not_eq_true', decide_eq_true_eq] at h
  obtain ⟨⟨⟨⟨⟨_, h2⟩, h3⟩, h4⟩, h5⟩, _⟩ := h
  exact ⟨h2, h3, h4, h5⟩

/-- The last part of `copyin` for `hi ≤ ti`: it reads min(ti - hi, remaining)
bytes into `buf[hi:ti]` and adds them and the `c0` bytes taken before to
`head`. -/
theorem copyin_rest_spec (k : kern_t) (p : proc_t) (cb : circbuf_t) (src : userbuf_t)
    (hi ti : Nat) (c0 n : Nat) (hl : p.pgfltaken = false) (hok : ubok p false src = true)
    (hlen : (cb.buf.length : Int) ≤ 1024 * 1024) (hit : hi ≤ ti) (htl : ti ≤ cb.buf.length)
    (hh : 0 ≤ cb.head) (hb : cb.head + c0 + (src.len - src.off) < 2 ^ 63)
    (hc0 : (c0 : Int) ≤ 1024 * 1024)
    (hn : n = min (ti - hi) (src.len - src.off).toNat) :
    copyin_rest k p [] cb src hi ti c0 =
      some ⟨k, p, [],
        { cb with buf := bput cb.buf hi (ubytes k p (src.userva + src.off).toNat n),
                  head := cb.head + ((c0 + n : Nat) : Int) },
        { src with off := src.off + n }, ((c0 + n : Nat) : Int), 0⟩ := by
  obtain ⟨s0, s1, s2, s3⟩ := ubok_bounds p false src hok
  unfold copyin_rest
  rw [if_neg (by omega), if_neg (by omega)]
  have hdl : ((cb.buf.take ti).drop hi).length = ti - hi := by
    rw [List.length_drop, List.length_take]; omega
  have hr := ub_read_ok k p src ((cb.buf.take ti).drop hi) hl hok (by rw [hdl]; omega)
  rw [hdl, ← hn] at hr
  simp only [Int.toNat_ofNat] at hr ⊢
  rw [hr]
  simp only [ne_eq, not_true_eq_false, if_false, List.append_nil]
  have hul : (ubytes k p (src.userva + src.off).toNat n).length = n := ubytes_length _ _ _ _
  have e1 := bput_rest cb.buf hi ti (ubytes k p (src.userva + src.off).toNat n)
    (by rw [hul]; omega) htl
  rw [hul] at e1
  rw [e1]
  have e2 : iadd (c0 : Int) (n : Int) = ((c0 + n : Nat) : Int) := by
    rw [iadd_small _ _ (by omega) (by omega)]; push_cast; rfl
  rw [e2, iadd_small _ _ (by omega) (by omega)]

/-- Storing `new` at the head position, in a straight layout up to the end of
the slice or in a wrapped layout up to the tail position, appends `new` to the
bytes held. -/
theorem cbq_put (cb : circbuf_t) (hi ti : Nat) (new : List Nat)
    (hlen : (cb.buf.length : Int) = cb.bufsz) (hB : 0 < cb.bufsz) (hTH : cb.tail ≤ cb.head)
    (hused : cb.head - cb.tail ≤ cb.bufsz)
    (hhi : cb.head % cb.bufsz = hi) (hti : cb.tail % cb.bufsz = ti)
    (hcase : ((ti : Int) ≤ hi ∧ cb.head - cb.tail = (hi : Int) - ti ∧
        ((hi + new.length : Nat) : Int) ≤ cb.bufsz) ∨
      ((hi : Int) ≤ ti ∧ cb.head - cb.tail = cb.bufsz + (hi : Int) - ti ∧
        hi + new.length ≤ ti)) :
    cbq { cb with buf := bput cb.buf hi new, head := cb.head + new.length } =
      cbq cb ++ new := by
  have hpH : ∀ i : Nat, (i : Int) ≤ cb.bufsz → (cb.head + i) % cb.bufsz =
      if (hi : Int) + i < cb.bufsz then (hi : Int) + i else (hi : Int) + i - cb.bufsz := by
    intro i h
    rw [← hhi]
    exact (emod_pos cb.head cb.bufsz i hB h).2.2
  have hpT : ∀ i : Nat, (i : Int) ≤ cb.bufsz → (cb.tail + i) % cb.bufsz =
      if (ti : Int) + i < cb.bufsz then (ti : Int) + i else (ti : Int) + i - cb.bufsz := by
    intro i h
    rw [← hti]
    exact (emod_pos cb.tail cb.bufsz i hB h).2.2
  have b2 : (ti : Int) < cb.bufsz := by rw [← hti]; exact Int.emod_lt_of_pos _ hB
  have a2 : (hi : Int) < cb.bufsz := by rw [← hhi]; exact Int.emod_lt_of_pos _ hB
  have hfit : hi + new.length ≤ cb.buf.length := by omega
  refine cbq_push cb _ new rfl rfl rfl hTH ?_ ?_
  · intro i hi2
    simp only
    rw [hpT i (by omega), bput_getD _ _ _ _ hfit]
    by_cases hi3 : (ti : Int) + i < cb.bufsz
    · rw [if_pos hi3]
      have e : ((ti : Int) + (i : Int)).toNat = ti + i := by omega
      rw [e, if_neg (by omega)]
    · rw [if_neg hi3]
      have e : ((ti : Int) + (i : Int) - cb.bufsz).toNat = ti + i - cb.buf.length := by omega
      rw [e, if_neg (by omega)]
  · intro i hi2
    simp only
    rw [hpH i (by omega), if_pos (by omega), bput_getD _ _ _ _ hfit]
    have e : ((hi : Int) + (i : Int)).toNat = hi + i := by omega
    rw [e, if_pos (by omega)]
    have e2 : hi + i - hi = i := by omega
    rw [e2]

/-- The body of `copyin` for a well-formed buffer that is not full, with the
positions `hi` and `ti` as natural numbers. -/
theorem copyin_unfold (k : kern_t) (p : proc_t) (cb : circbuf_t) (src : userbuf_t)
    (hi ti : Nat) (hinv : cbinv cb) (hnf : cb.head - cb.tail < cb.bufsz)
    (hhi : cb.head % cb.bufsz = hi) (hti : cb.tail % cb.bufsz = ti) :
    cb.copyin k p src =
      if (ti : Int) ≤ hi then
        match src.read k p (cb.buf.drop hi) with
        | none => none
        | some r =>
          if r.err ≠ 0 then
            some ⟨r.k, r.p, r.ev, { cb with buf := cb.buf.take hi ++ r.buf }, r.ub, 0, r.err⟩
          else if r.ret ≠ ((cb.buf.drop hi).length : Int) then
            some ⟨r.k, r.p, r.ev,
              { cb with buf := cb.buf.take hi ++ r.buf, head := iadd cb.head r.ret },
              r.ub, r.ret, 0⟩
          else
            copyin_rest r.k r.p r.ev { cb with buf := cb.buf.take hi ++ r.buf } r.ub
              ((iadd cb.head r.ret).tmod cb.bufsz) ti r.ret
      else copyin_rest k p [] cb src hi ti 0 := by
  obtain ⟨hlen, hB, hmax, hT0, hTH, hused⟩ := hinv
  have hH0 : 0 ≤ cb.head := by omega
  have e1 : cb.head.tmod cb.bufsz = hi := by
    rw [Int.tmod_eq_emod hH0 (le_of_lt hB)]; exact hhi
  have e2 : cb.tail.tmod cb.bufsz = ti := by
    rw [Int.tmod_eq_emod hT0 (le_of_lt hB)]; exact hti
  have a2 : (hi : Int) < cb.bufsz := by rw [← hhi]; exact Int.emod_lt_of_pos _ hB
  unfold circbuf_t.copyin
  rw [if_neg (by simp only [circbuf_t.full, decide_eq_true_eq]; omega), if_neg (by omega)]
  simp only [e1, e2, Int.toNat_ofNat]
  by_cases hc : (ti : Int) ≤ hi
  · rw [if_pos hc, if_pos hc, if_neg (by omega)]
  · rw [if_neg hc, if_neg hc]

/-- The call `copyin` in the wrapped layout (`hi < ti`). -/
theorem copyin_wrapped (k : kern_t) (p : proc_t) (cb : circbuf_t) (src : userbuf_t)
    (hi ti : Nat) (hinv : cbinv cb) (hl : p.pgfltaken = false)
    (hnf : cb.head - cb.tail < cb.bufsz)
    (hok : ubok p false src = true) (hb : cb.head + (src.len - src.off) < 2 ^ 63)
    (hhi : cb.head % cb.bufsz = hi) (hti : cb.tail % cb.bufsz = ti)
    (_hc : ¬ (ti : Int) ≤ hi) (hu : cb.head - cb.tail = cb.bufsz + (hi : Int) - ti) :
    ∃ cb1, copyin_rest k p [] cb src hi ti 0 =
        some ⟨k, p, [], cb1,
          { src with off := src.off +
            (min (src.len - src.off).toNat (cb.bufsz.toNat - (cb.head - cb.tail).toNat) : Nat) },
          (min (src.len - src.off).toNat (cb.bufsz.toNat - (cb.head - cb.tail).toNat) : Nat),
          0⟩ ∧
      cbinv cb1 ∧ cb1.bufsz = cb.bufsz ∧
      cb1.head = cb.head +
        (min (src.len - src.off).toNat (cb.bufsz.toNat - (cb.head - cb.tail).toNat) : Nat) ∧
      cb1.tail = cb.tail ∧
      cbq cb1 = cbq cb ++ ubytes k p (src.userva + src.off).toNat
        (min (src.len - src.off).toNat (cb.bufsz.toNat - (cb.head - cb.tail).toNat)) := by
  obtain ⟨hlen, hB, hmax, hT0, hTH, hused⟩ := hinv
  obtain ⟨s0, s1, s2, s3⟩ := ubok_bounds p false src hok
  have hH0 : 0 ≤ cb.head := by omega
  have a2 : (hi : Int) < cb.bufsz := by rw [← hhi]; exact Int.emod_lt_of_pos _ hB
  have b2 : (ti : Int) < cb.bufsz := by rw [← hti]; exact Int.emod_lt_of_pos _ hB
  have hul : ∀ va m, (ubytes k p va m).length = m := fun va m => ubytes_length _ _ _ _
  generalize hnd : min (src.len - src.off).toNat (cb.bufsz.toNat - (cb.head - cb.tail).toNat) = n
  have hrest := copyin_rest_spec k p cb src hi ti 0 (min (ti - hi) (src.len - src.off).toNat)
    hl hok (by omega) (by omega) (by omega) hH0 (by simp only [Nat.cast_zero]; omega)
    (by omega) rfl
  simp only [Nat.cast_zero, Nat.zero_add] at hrest
  generalize hc1 : min (ti - hi) (src.len - src.off).toNat = c1 at hrest
  rw [hrest]
  clear hrest
  have hnn : n = c1 := by omega
  have hlen2 : (bput cb.buf hi (ubytes k p (src.userva + src.off).toNat c1)).length =
      cb.buf.length := bput_length _ _ _ (by rw [hul]; omega)
  have hq1 := cbq_put cb hi ti (ubytes k p (src.userva + src.off).toNat c1) hlen hB hTH hused
    hhi hti (Or.inr ⟨by omega, hu, by rw [hul]; omega⟩)
  rw [hul] at hq1
  subst hnn
  refine ⟨_, rfl, ⟨?_, hB, hmax, hT0, ?_, ?_⟩, rfl, rfl, rfl, hq1⟩
  · simp only [hlen2]; exact hlen
  · simp only; omega
  · simp only; omega

/-- The call `copyin` in the straight layout when the source ends before the
end of the slice. -/
theorem copyin_partial (k : kern_t) (p : proc_t) (cb : circbuf_t) (src : userbuf_t)
    (hi ti : Nat) (hinv : cbinv cb) (_hl : p.pgfltaken = false)
    (hnf : cb.head - cb.tail < cb.bufsz)
    (hok : ubok p false src = true) (hb : cb.head + (src.len - src.off) < 2 ^ 63)
    (hhi : cb.head % cb.bufsz = hi) (hti : cb.tail % cb.bufsz = ti) (c1 : Nat)
    (hc : (ti : Int) ≤ hi) (hu : cb.head - cb.tail = (hi : Int) - ti)
    (hc1 : min (cb.buf.length - hi) (src.len - src.off).toNat = c1)
    (hfull : ¬ (c1 : Int) = ((cb.buf.length - hi : Nat) : Int)) :
    ∃ cb1, (some ⟨k, p, [],
        { cb with buf := bput cb.buf hi (ubytes k p (src.userva + src.off).toNat c1),
                  head := iadd cb.head c1 },
        { src with off := src.off + c1 }, (c1 : Int), 0⟩ : Option cbres) =
        some ⟨k, p, [], cb1,
          { src with off := src.off +
            (min (src.len - src.off).toNat (cb.bufsz.toNat - (cb.head - cb.tail).toNat) : Nat) },
          (min (src.len - src.off).toNat (cb.bufsz.toNat - (cb.head - cb.tail).toNat) : Nat),
          0⟩ ∧
      cbinv cb1 ∧ cb1.bufsz = cb.bufsz ∧
      cb1.head = cb.head +
        (min (src.len - src.off).toNat (cb.bufsz.toNat - (cb.head - cb.tail).toNat) : Nat) ∧
      cb1.tail = cb.tail ∧
      cbq cb1 = cbq cb ++ ubytes k p (src.userva + src.off).toNat
        (min (src.len - src.off).toNat (cb.bufsz.toNat - (cb.head - cb.tail).toNat)) := by
  obtain ⟨hlen, hB, hmax, hT0, hTH, hused⟩ := hinv
  obtain ⟨s0, s1, s2, s3⟩ := ubok_bounds p false src hok
  have hH0 : 0 ≤ cb.head := by omega
  have a2 : (hi : Int) < cb.bufsz := by rw [← hhi]; exact Int.emod_lt_of_pos _ hB
  have b2 : (ti : Int) < cb.bufsz := by rw [← hti]; exact Int.emod_lt_of_pos _ hB
  have hul : ∀ va m, (ubytes k p va m).length = m := fun va m => ubytes_length _ _ _ _
  generalize hnd : min (src.len - src.off).toNat (cb.bufsz.toNat - (cb.head - cb.tail).toNat) = n
  have hlen2 : (bput cb.buf hi (ubytes k p (src.userva + src.off).toNat c1)).length =
      cb.buf.length := bput_length _ _ _ (by rw [hul]; omega)
  have hq1 := cbq_put cb hi ti (ubytes k p (src.userva + src.off).toNat c1) hlen hB hTH hused
    hhi hti (Or.inl ⟨hc, hu, by rw [hul]; omega⟩)
  rw [hul] at hq1
  have hnn : n = c1 := by omega
  rw [iadd_small _ _ (by omega) (by omega)]
  subst hnn
  refine ⟨_, rfl, ⟨?_, hB, hmax, hT0, ?_, ?_⟩, rfl, rfl, rfl, hq1⟩
  · simp only [hlen2]; exact hlen
  · simp only; omega
  · simp only; omega

/-- The call `copyin` in the straight layout when the slice is filled to its
end and the rest goes to its start. -/
theorem copyin_filled (k : kern_t) (p : proc_t) (cb : circbuf_t) (src : userbuf_t)
    (hi ti : Nat) (hinv : cbinv cb) (hl : p.pgfltaken = false)
    (hnf : cb.head - cb.tail < cb.bufsz)
    (hok : ubok p false src = true) (hb : cb.head + (src.len - src.off) < 2 ^ 63)
    (hhi : cb.head % cb.bufsz = hi) (hti : cb.tail % cb.bufsz = ti) (c1 : Nat)
    (hc : (ti : Int) ≤ hi) (hu : cb.head - cb.tail = (hi : Int) - ti)
    (hc1 : min (cb.buf.length - hi) (src.len - src.off).toNat = c1)
    (hfull : (c1 : Int) = ((cb.buf.length - hi : Nat) : Int)) :
    ∃ cb1, copyin_rest k p []
        { cb with buf := bput cb.buf hi (ubytes k p (src.userva + src.off).toNat c1) }
        { src with off := src.off + c1 } ((iadd cb.head c1).tmod cb.bufsz) ti c1 =
        some ⟨k, p, [], cb1,
          { src with off := src.off +
            (min (src.len - src.off).toNat (cb.bufsz.toNat - (cb.head - cb.tail).toNat) : Nat) },
          (min (src.len - src.off).toNat (cb.bufsz.toNat - (cb.head - cb.tail).toNat) : Nat),
          0⟩ ∧
      cbinv cb1 ∧ cb1.bufsz = cb.bufsz ∧
      cb1.head = cb.head +
        (min (src.len - src.off).toNat (cb.bufsz.toNat - (cb.head - cb.tail).toNat) : Nat) ∧
      cb1.tail = cb.tail ∧
      cbq cb1 = cbq cb ++ ubytes k p (src.userva + src.off).toNat
        (min (src.len - src.off).toNat (cb.bufsz.toNat - (cb.head - cb.tail).toNat)) := by
  obtain ⟨hlen, hB, hmax, hT0, hTH, hused⟩ := hinv
  obtain ⟨s0, s1, s2, s3⟩ := ubok_bounds p false src hok
  have hH0 : 0 ≤ cb.head := by omega
  have a2 : (hi : Int) < cb.bufsz := by rw [← hhi]; exact Int.emod_lt_of_pos _ hB
  have b2 : (ti : Int) < cb.bufsz := by rw [← hti]; exact Int.emod_lt_of_pos _ hB
  have hul : ∀ va m, (ubytes k p va m).length = m := fun va m => ubytes_length _ _ _ _
  have hlen2 : (bput cb.buf hi (ubytes k p (src.userva + src.off).toNat c1)).length =
      cb.buf.length := bput_length _ _ _ (by rw [hul]; omega)
  have hq1 : cbq ⟨bput cb.buf hi (ubytes k p (src.userva + src.off).toNat c1), cb.bufsz,
      cb.head + c1, cb.tail⟩ = cbq cb ++ ubytes k p (src.userva + src.off).toNat c1 := by
    have := cbq_put cb hi ti (ubytes k p (src.userva + src.off).toNat c1) hlen hB hTH hused
      hhi hti (Or.inl ⟨hc, hu, by rw [hul]; omega⟩)
    rw [hul] at this
    exact this
  have hpz : (cb.head + (c1 : Int)) % cb.bufsz = (hi : Int) + c1 - cb.bufsz := by
    have := (emod_pos cb.head cb.bufsz c1 hB (by omega)).2.2
    rw [hhi, if_neg (by omega)] at this
    exact this
  have hz2 : (cb.head + (c1 : Int)) % cb.bufsz = ((0 : Nat) : Int) := by
    rw [hpz]; push_cast; omega
  have hz : (iadd cb.head (c1 : Int)).tmod cb.bufsz = ((0 : Nat) : Int) := by
    rw [iadd_small _ _ (by omega) (by omega), Int.tmod_eq_emod (by omega) (le_of_lt hB), hz2]
  have hok2 := ubok_advance p false src c1 hok (by omega)
  have hmin : min (src.len - src.off).toNat (cb.bufsz.toNat - (cb.head - cb.tail).toNat) =
      c1 + min (ti - 0) (src.len - (src.off + c1)).toNat := by omega
  have eva : (src.userva + (src.off + c1)).toNat = (src.userva + src.off).toNat + c1 := by
    omega
  have hrest := copyin_rest_spec k p
    { cb with buf := bput cb.buf hi (ubytes k p (src.userva + src.off).toNat c1) }
    { src with off := src.off + c1 } 0 ti c1 (min (ti - 0) (src.len - (src.off + c1)).toNat)
    hl hok2 (by simp only [hlen2]; omega) (by omega) (by simp only [hlen2]; omega)
    hH0 (by simp only; omega) (by omega) rfl
  have hq2 := cbq_put
    { cb with buf := bput cb.buf hi (ubytes k p (src.userva + src.off).toNat c1),
              head := cb.head + c1 } 0 ti
    (ubytes k p ((src.userva + src.off).toNat + c1) (min (ti - 0) (src.len - (src.off + c1)).toNat))
    (by simp only [hlen2]; exact hlen)
    hB (by simp only; omega) (by simp only; omega) hz2 hti
    (Or.inr ⟨by omega, by simp only; push_cast; omega, by rw [hul]; omega⟩)
  rw [hz, hrest, hmin]
  simp only [Nat.cast_add, Int.add_assoc]
  refine ⟨_, rfl, ⟨?_, hB, hmax, hT0, ?_, ?_⟩, rfl, rfl, rfl, ?_⟩
  · simp only
    rw [bput_length _ _ _ (by rw [hul, hlen2]; omega), hlen2]
    exact hlen
  · simp only; omega
  · simp only; omega
  · rw [ubytes_add, ← List.append_assoc, ← hq1]
    simp only [eva]
    rw [← hq2]
    simp only [hul, Nat.cast_add, Int.add_assoc]

/-- The call `copyin` on a well-formed buffer that is not full, from a fully
mapped source: it returns min(source remaining, bufsz - (head - tail)) with
error 0, advances the source and `head` by that number, keeps the buffer well
formed and appends the bytes read to the bytes held. -/
theorem copyin_spec_nat (k : kern_t) (p : proc_t) (cb : circbuf_t) (src : userbuf_t)
    (hi ti : Nat) (hinv : cbinv cb) (hl : p.pgfltaken = false)
    (hnf : cb.head - cb.tail < cb.bufsz)
    (hok : ubok p false src = true) (hb : cb.head + (src.len - src.off) < 2 ^ 63)
    (hhi : cb.head % cb.bufsz = hi) (hti : cb.tail % cb.bufsz = ti) :
    ∃ cb1, cb.copyin k p src =
        some ⟨k, p, [], cb1,
          { src with off := src.off +
            (min (src.len - src.off).toNat (cb.bufsz.toNat - (cb.head - cb.tail).toNat) : Nat) },
          (min (src.len - src.off).toNat (cb.bufsz.toNat - (cb.head - cb.tail).toNat) : Nat),
          0⟩ ∧
      cbinv cb1 ∧ cb1.bufsz = cb.bufsz ∧
      cb1.head = cb.head +
        (min (src.len - src.off).toNat (cb.bufsz.toNat - (cb.head - cb.tail).toNat) : Nat) ∧
      cb1.tail = cb.tail ∧
      cbq cb1 = cbq cb ++ ubytes k p (src.userva + src.off).toNat
        (min (src.len - src.off).toNat (cb.bufsz.toNat - (cb.head - cb.tail).toNat)) := by
  rw [copyin_unfold k p cb src hi ti hinv hnf hhi hti]
  have hinv2 := hinv
  obtain ⟨hlen, hB, hmax, hT0, hTH, hused⟩ := hinv2
  obtain ⟨s0, s1, s2, s3⟩ := ubok_bounds p false src hok
  have a2 : (hi : Int) < cb.bufsz := by rw [← hhi]; exact Int.emod_lt_of_pos _ hB
  have b2 : (ti : Int) < cb.bufsz := by rw [← hti]; exact Int.emod_lt_of_pos _ hB
  have hring := ring_pos cb.head cb.tail cb.bufsz hB hTH hused
  rw [hhi, hti] at hring
  have hul : ∀ va m, (ubytes k p va m).length = m := fun va m => ubytes_length _ _ _ _
  by_cases hc : (ti : Int) ≤ (hi : Int)
  · have hu : cb.head - cb.tail = (hi : Int) - ti := by omega
    rw [if_pos hc]
    have hdl : (cb.buf.drop hi).length = cb.buf.length - hi := List.length_drop _ _
    have hr := ub_read_ok k p src (cb.buf.drop hi) hl hok (by rw [hdl]; omega)
    rw [hdl] at hr
    generalize hc1 : min (cb.buf.length - hi) (src.len - src.off).toNat = c1 at hr
    have hb1 := bput_first cb.buf hi (ubytes k p (src.userva + src.off).toNat c1)
    rw [hul] at hb1
    rw [hr]
    simp only [ne_eq, not_true_eq_false, if_false, hb1, hdl]
    by_cases hfull : (c1 : Int) = ((cb.buf.length - hi : Nat) : Int)
    · rw [if_neg (by rw [not_not]; exact hfull)]
      exact copyin_filled k p cb src hi ti hinv hl hnf hok hb hhi hti c1 hc hu hc1 hfull
    · rw [if_pos hfull]
      exact copyin_partial k p cb src hi ti hinv hl hnf hok hb hhi hti c1 hc hu hc1 hfull
  · have hu : cb.head - cb.tail = cb.bufsz + (hi : Int) - ti := by omega
    rw [if_neg hc]
    exact copyin_wrapped k p cb src hi ti hinv hl hnf hok hb hhi hti hc hu

/-- The `m` oldest bytes are the `m` bytes of the slice from the tail position
on, when they do not wrap around. -/
theorem cbq_take (cb : circbuf_t) (ti m : Nat) (hlen : (cb.buf.length : Int) = cb.bufsz)
    (hB : 0 < cb.bufsz) (hti : cb.tail % cb.bufsz = ti)
    (hm : (m : Int) ≤ cb.head - cb.tail) (hfit : ((ti + m : Nat) : Int) ≤ cb.bufsz) :
    (cbq cb).take m = (cb.buf.drop ti).take m := by
  apply List.ext_getElem
  · rw [List.length_take, List.length_take, cbq_length, List.length_drop]
    omega
  · intro j h1 h2
    rw [List.length_take, cbq_length] at h1
    have hj : j < m := by omega
    rw [List.getElem_take, List.getElem_take, List.getElem_drop]
    simp only [cbq, List.getElem_map, List.getElem_range]
    have hp := (emod_pos cb.tail cb.bufsz j hB (by omega)).2.2
    rw [hti, if_pos (by omega)] at hp
    rw [hp]
    have e : ((ti : Int) + (j : Int)).toNat = ti + j := by omega
    rw [e, List.getD_eq_getElem?_getD, List.getElem?_eq_getElem (by omega)]
    rfl

/-- The first `n` bytes of `buf[ti:hi]` are the first `n` bytes of `buf[ti:]`
when `ti + n ≤ hi`. -/
theorem take_drop_take (buf : List Nat) (hi ti n : Nat) (h : ti + n ≤ hi) :
    ((buf.take hi).drop ti).take n = (buf.drop ti).take n := by
  apply List.ext_getElem?
  intro j
  by_cases hj : j < n
  · rw [List.getElem?_take_of_lt hj, List.getElem?_take_of_lt hj, List.getElem?_drop,
      List.getElem?_drop, List.getElem?_take_of_lt (by omega)]
  · rw [List.getElem?_eq_none (by rw [List.length_take]; omega),
      List.getElem?_eq_none (by rw [List.length_take]; omega)]

/-- The last part of `copyout` for `ti ≤ hi`: it writes min(hi - ti,
remaining) bytes of `buf[ti:hi]` and adds them and the `c0` bytes given before
to `tail`. -/
theorem copyout_rest_spec (k : kern_t) (p : proc_t) (cb : circbuf_t) (dst : userbuf_t)
    (hi ti : Nat) (c0 n : Nat) (hl : p.pgfltaken = false) (hok : ubok p true dst = true)
    (hlen : (cb.buf.length : Int) ≤ 1024 * 1024) (hit : ti ≤ hi) (htl : hi ≤ cb.buf.length)
    (hh : 0 ≤ cb.tail) (hb : cb.tail + c0 + n < 2 ^ 63)
    (hc0 : (c0 : Int) ≤ 1024 * 1024)
    (hn : n = min (hi - ti) (dst.len - dst.off).toNat) :
    copyout_rest k p [] cb dst hi ti c0 =
      some ⟨ustore p k (dst.userva + dst.off).toNat ((cb.buf.drop ti).take n), p, [],
        { cb with tail := cb.tail + ((c0 + n : Nat) : Int) },
        { dst with off := dst.off + n }, ((c0 + n : Nat) : Int), 0⟩ := by
  obtain ⟨s0, s1, s2, s3⟩ := ubok_bounds p true dst hok
  unfold copyout_rest
  rw [if_neg (by omega), if_neg (by omega)]
  have hdl : ((cb.buf.take hi).drop ti).length = hi - ti := by
    rw [List.length_drop, List.length_take]; omega
  have hr := ub_write_ok k p dst ((cb.buf.take hi).drop ti) hl hok (by rw [hdl]; omega)
  rw [hdl, ← hn] at hr
  simp only [Int.toNat_ofNat] at hr ⊢
  rw [hr]
  simp only [ne_eq, not_true_eq_false, if_false, List.append_nil]
  rw [take_drop_take _ _ _ _ (by omega)]
  have e2 : iadd (c0 : Int) (n : Int) = ((c0 + n : Nat) : Int) := by
    rw [iadd_small _ _ (by omega) (by omega)]; push_cast; rfl
  rw [e2, iadd_small _ _ (by omega) (by push_cast; omega)]

/-- The body of `copyout` for a well-formed buffer that is not empty, with the
positions `hi` and `ti` as natural numbers. -/
theorem copyout_unfold (k : kern_t) (p : proc_t) (cb : circbuf_t) (dst : userbuf_t)
    (hi ti : Nat) (hinv : cbinv cb) (hne : cb.head ≠ cb.tail)
    (hhi : cb.head % cb.bufsz = hi) (hti : cb.tail % cb.bufsz = ti) :
    cb.copyout k p dst =
      if (hi : Int) ≤ ti then
        match dst.write k p (cb.buf.drop ti) with
        | none => none
        | some r =>
          if r.err ≠ 0 then some ⟨r.k, r.p, r.ev, cb, r.ub, 0, r.err⟩
          else if r.ret ≠ ((cb.buf.drop ti).length : Int) then
            some ⟨r.k, r.p, r.ev, { cb with tail := iadd cb.tail r.ret }, r.ub, r.ret, 0⟩
          else
            copyout_rest r.k r.p r.ev cb r.ub hi ((iadd cb.tail r.ret).tmod cb.bufsz) r.ret
      else copyout_rest k p [] cb dst hi ti 0 := by
  obtain ⟨hlen, hB, hmax, hT0, hTH, hused⟩ := hinv
  have hH0 : 0 ≤ cb.head := by omega
  have e1 : cb.head.tmod cb.bufsz = hi := by
    rw [Int.tmod_eq_emod hH0 (le_of_lt hB)]; exact hhi
  have e2 : cb.tail.tmod cb.bufsz = ti := by
    rw [Int.tmod_eq_emod hT0 (le_of_lt hB)]; exact hti
  have b2 : (ti : Int) < cb.bufsz := by rw [← hti]; exact Int.emod_lt_of_pos _ hB
  unfold circbuf_t.copyout
  rw [if_neg (by simp only [circbuf_t.empty, decide_eq_true_eq]; exact hne), if_neg (by omega)]
  simp only [e1, e2, Int.toNat_ofNat]
  by_cases hc : (hi : Int) ≤ ti
  · rw [if_pos hc, if_pos hc, if_neg (by omega)]
  · rw [if_neg hc, if_neg hc]

/-- The call `copyout` in the straight layout (`ti < hi`). -/
theorem copyout_straight (k : kern_t) (p : proc_t) (cb : circbuf_t) (dst : userbuf_t)
    (hi ti : Nat) (hinv : cbinv cb) (hl : p.pgfltaken = false)
    (hok : ubok p true dst = true) (hb : cb.head < 2 ^ 63)
    (hhi : cb.head % cb.bufsz = hi) (hti : cb.tail % cb.bufsz = ti)
    (hc : ¬ (hi : Int) ≤ ti) (hu : cb.head - cb.tail = (hi : Int) - ti) :
    ∃ cb1, copyout_rest k p [] cb dst hi ti 0 =
        some ⟨ustore p k (dst.userva + dst.off).toNat
            ((cbq cb).take (min (dst.len - dst.off).toNat (cb.head - cb.tail).toNat)),
          p, [], cb1,
          { dst with off := dst.off +
            (min (dst.len - dst.off).toNat (cb.head - cb.tail).toNat : Nat) },
          (min (dst.len - dst.off).toNat (cb.head - cb.tail).toNat : Nat), 0⟩ ∧
      cbinv cb1 ∧ cb1.bufsz = cb.bufsz ∧ cb1.head = cb.head ∧
      cb1.tail = cb.tail +
        (min (dst.len - dst.off).toNat (cb.head - cb.tail).toNat : Nat) ∧
      cbq cb1 = (cbq cb).drop (min (dst.len - dst.off).toNat (cb.head - cb.tail).toNat) := by
  obtain ⟨hlen, hB, hmax, hT0, hTH, hused⟩ := hinv
  obtain ⟨s0, s1, s2, s3⟩ := ubok_bounds p true dst hok
  have a2 : (hi : Int) < cb.bufsz := by rw [← hhi]; exact Int.emod_lt_of_pos _ hB
  have b2 : (ti : Int) < cb.bufsz := by rw [← hti]; exact Int.emod_lt_of_pos _ hB
  have hmin : min (dst.len - dst.off).toNat (cb.head - cb.tail).toNat =
      min (hi - ti) (dst.len - dst.off).toNat := by omega
  have hrest := copyout_rest_spec k p cb dst hi ti 0 (min (hi - ti) (dst.len - dst.off).toNat)
    hl hok (by omega) (by omega) (by omega) hT0 (by push_cast; omega) (by omega) rfl
  have htk := cbq_take cb ti (min (hi - ti) (dst.len - dst.off).toNat) hlen hB hti (by omega)
    (by omega)
  have hpop := cbq_pop cb (min (hi - ti) (dst.len - dst.off).toNat) hTH (by omega)
  simp only [Nat.cast_zero, Nat.zero_add] at hrest
  rw [hrest, hmin, htk]
  refine ⟨_, rfl, ⟨hlen, hB, hmax, ?_, ?_, ?_⟩, rfl, rfl, rfl, hpop⟩
  · simp only; omega
  · simp only; omega
  · simp only; omega

/-- The call `copyout` in the wrapped layout when the destination ends before
the end of the slice. -/
theorem copyout_partial (k : kern_t) (p : proc_t) (cb : circbuf_t) (dst : userbuf_t)
    (hi ti : Nat) (hinv : cbinv cb) (_hl : p.pgfltaken = false)
    (hok : ubok p true dst = true) (hb : cb.head < 2 ^ 63)
    (hhi : cb.head % cb.bufsz = hi) (hti : cb.tail % cb.bufsz = ti) (c1 : Nat)
    (_hc : (hi : Int) ≤ ti) (hu : cb.head - cb.tail = cb.bufsz + (hi : Int) - ti)
    (hc1 : min (cb.buf.length - ti) (dst.len - dst.off).toNat = c1)
    (hfull : ¬ (c1 : Int) = ((cb.buf.length - ti : Nat) : Int)) :
    ∃ cb1, (some ⟨ustore p k (dst.userva + dst.off).toNat ((cb.buf.drop ti).take c1), p, [],
        { cb with tail := iadd cb.tail c1 },
        { dst with off := dst.off + c1 }, (c1 : Int), 0⟩ : Option cbres) =
        some ⟨ustore p k (dst.userva + dst.off).toNat
            ((cbq cb).take (min (dst.len - dst.off).toNat (cb.head - cb.tail).toNat)),
          p, [], cb1,
          { dst with off := dst.off +
            (min (dst.len - dst.off).toNat (cb.head - cb.tail).toNat : Nat) },
          (min (dst.len - dst.off).toNat (cb.head - cb.tail).toNat : Nat), 0⟩ ∧
      cbinv cb1 ∧ cb1.bufsz = cb.bufsz ∧ cb1.head = cb.head ∧
      cb1.tail = cb.tail +
        (min (dst.len - dst.off).toNat (cb.head - cb.tail).toNat : Nat) ∧
      cbq cb1 = (cbq cb).drop (min (dst.len - dst.off).toNat (cb.head - cb.tail).toNat) := by
  obtain ⟨hlen, hB, hmax, hT0, hTH, hused⟩ := hinv
  obtain ⟨s0, s1, s2, s3⟩ := ubok_bounds p true dst hok
  have a2 : (hi : Int) < cb.bufsz := by rw [← hhi]; exact Int.emod_lt_of_pos _ hB
  have b2 : (ti : Int) < cb.bufsz := by rw [← hti]; exact Int.emod_lt_of_pos _ hB
  have hmin : min (dst.len - dst.off).toNat (cb.head - cb.tail).toNat = c1 := by omega
  have htk := cbq_take cb ti c1 hlen hB hti (by omega) (by omega)
  have hpop := cbq_pop cb c1 hTH (by omega)
  rw [hmin, htk, iadd_small _ _ (by omega) (by omega)]
  refine ⟨_, rfl, ⟨hlen, hB, hmax, ?_, ?_, ?_⟩, rfl, rfl, rfl, hpop⟩
  · simp only; omega
  · simp only; omega
  · simp only; omega

/-- The call `copyout` in the wrapped layout when the slice is given out to
its end and the rest comes from its start. -/
theorem copyout_emptied (k : kern_t) (p : proc_t) (cb : circbuf_t) (dst : userbuf_t)
    (hi ti : Nat) (hinv : cbinv cb) (hl : p.pgfltaken = false)
    (hok : ubok p true dst = true) (hb : cb.head < 2 ^ 63)
    (hhi : cb.head % cb.bufsz = hi) (hti : cb.tail % cb.bufsz = ti) (c1 : Nat)
    (hc : (hi : Int) ≤ ti) (hu : cb.head - cb.tail = cb.bufsz + (hi : Int) - ti)
    (hc1 : min (cb.buf.length - ti) (dst.len - dst.off).toNat = c1)
    (hfull : (c1 : Int) = ((cb.buf.length - ti : Nat) : Int)) :
    ∃ cb1, copyout_rest (ustore p k (dst.userva + dst.off).toNat ((cb.buf.drop ti).take c1)) p []
        cb { dst with off := dst.off + c1 } hi ((iadd cb.tail c1).tmod cb.bufsz) c1 =
        some ⟨ustore p k (dst.userva + dst.off).toNat
            ((cbq cb).take (min (dst.len - dst.off).toNat (cb.head - cb.tail).toNat)),
          p, [], cb1,
          { dst with off := dst.off +
            (min (dst.len - dst.off).toNat (cb.head - cb.tail).toNat : Nat) },
          (min (dst.len - dst.off).toNat (cb.head - cb.tail).toNat : Nat), 0⟩ ∧
      cbinv cb1 ∧ cb1.bufsz = cb.bufsz ∧ cb1.head = cb.head ∧
      cb1.tail = cb.tail +
        (min (dst.len - dst.off).toNat (cb.head - cb.tail).toNat : Nat) ∧
      cbq cb1 = (cbq cb).drop (min (dst.len - dst.off).toNat (cb.head - cb.tail).toNat) := by
  obtain ⟨hlen, hB, hmax, hT0, hTH, hused⟩ := hinv
  obtain ⟨s0, s1, s2, s3⟩ := ubok_bounds p true dst hok
  have a2 : (hi : Int) < cb.bufsz := by rw [← hhi]; exact Int.emod_lt_of_pos _ hB
  have b2 : (ti : Int) < cb.bufsz := by rw [← hti]; exact Int.emod_lt_of_pos _ hB
  have hpz : (cb.tail + (c1 : Int)) % cb.bufsz = ((0 : Nat) : Int) := by
    have := (emod_pos cb.tail cb.bufsz c1 hB (by omega)).2.2
    rw [hti, if_neg (by omega)] at this
    rw [this]; push_cast; omega
  have hz : (iadd cb.tail (c1 : Int)).tmod cb.bufsz = ((0 : Nat) : Int) := by
    rw [iadd_small _ _ (by omega) (by omega), Int.tmod_eq_emod (by omega) (le_of_lt hB), hpz]
  have hok2 := ubok_advance p true dst c1 hok (by omega)
  have hmin : min (dst.len - dst.off).toNat (cb.head - cb.tail).toNat =
      c1 + min (hi - 0) (dst.len - (dst.off + c1)).toNat := by omega
  have eva : (dst.userva + (dst.off + c1)).toNat = (dst.userva + dst.off).toNat + c1 := by
    omega
  have hrest := copyout_rest_spec
    (ustore p k (dst.userva + dst.off).toNat ((cb.buf.drop ti).take c1)) p cb
    { dst with off := dst.off + c1 } hi 0 c1 (min (hi - 0) (dst.len - (dst.off + c1)).toNat)
    hl hok2 (by omega) (by omega) (by omega) hT0 (by push_cast; omega) (by omega) rfl
  have htk1 := cbq_take cb ti c1 hlen hB hti (by omega) (by omega)
  have hpop1 := cbq_pop cb c1 hTH (by omega)
  have htk2 := cbq_take ⟨cb.buf, cb.bufsz, cb.head, cb.tail + c1⟩ 0
    (min (hi - 0) (dst.len - (dst.off + c1)).toNat) hlen hB hpz (by simp only; omega)
    (by simp only; push_cast; omega)
  have hpop := cbq_pop cb (c1 + min (hi - 0) (dst.len - (dst.off + c1)).toNat) hTH
    (by push_cast; omega)
  have hl1 : ((cbq cb).take c1).length = c1 := by
    rw [List.length_take, cbq_length]; omega
  have hst : ustore p (ustore p k (dst.userva + dst.off).toNat ((cb.buf.drop ti).take c1))
      ((dst.userva + dst.off).toNat + c1)
      ((cb.buf.drop 0).take (min (hi - 0) (dst.len - (dst.off + c1)).toNat)) =
      ustore p k (dst.userva + dst.off).toNat
        ((cbq cb).take (c1 + min (hi - 0) (dst.len - (dst.off + c1)).toNat)) := by
    rw [List.take_add, ustore_append, hl1, ← htk1, ← hpop1]
    have e : ({ cb with tail := cb.tail + (c1 : Int) } : circbuf_t) =
        ⟨cb.buf, cb.bufsz, cb.head, cb.tail + c1⟩ := rfl
    rw [e, htk2]
  rw [hz, hrest, hmin]
  simp only [eva, hst, Nat.cast_add, Int.add_assoc]
  simp only [Nat.cast_add, Int.add_assoc] at hpop
  refine ⟨_, rfl, ⟨hlen, hB, hmax, ?_, ?_, ?_⟩, rfl, rfl, rfl, hpop⟩
  · simp only; omega
  · simp only; omega
  · simp only; omega

/-- The call `copyout` on a well-formed buffer, to a fully mapped destination:
it returns min(destination remaining, head - tail) with error 0, stores the
oldest bytes at the destination, advances the destination and `tail` by that
number, keeps the buffer well formed and drops the bytes given. -/
theorem copyout_spec_nat (k : kern_t) (p : proc_t) (cb : circbuf_t) (dst : userbuf_t)
    (hi ti : Nat) (hinv : cbinv cb) (hl : p.pgfltaken = false)
    (hok : ubok p true dst = true) (hb : cb.head < 2 ^ 63)
    (hhi : cb.head % cb.bufsz = hi) (hti : cb.tail % cb.bufsz = ti) :
    ∃ cb1, cb.copyout k p dst =
        some ⟨ustore p k (dst.userva + dst.off).toNat
            ((cbq cb).take (min (dst.len - dst.off).toNat (cb.head - cb.tail).toNat)),
          p, [], cb1,
          { dst with off := dst.off +
            (min (dst.len - dst.off).toNat (cb.head - cb.tail).toNat : Nat) },
          (min (dst.len - dst.off).toNat (cb.head - cb.tail).toNat : Nat), 0⟩ ∧
      cbinv cb1 ∧ cb1.bufsz = cb.bufsz ∧ cb1.head = cb.head ∧
      cb1.tail = cb.tail +
        (min (dst.len - dst.off).toNat (cb.head - cb.tail).toNat : Nat) ∧
      cbq cb1 = (cbq cb).drop (min (dst.len - dst.off).toNat (cb.head - cb.tail).toNat) := by
  by_cases hne : cb.head = cb.tail
  · have hmin : min (dst.len - dst.off).toNat (cb.head - cb.tail).toNat = 0 := by omega
    have he : cb.copyout k p dst = some ⟨k, p, [], cb, dst, 0, 0⟩ := by
      unfold circbuf_t.copyout
      rw [if_pos (by simp only [circbuf_t.empty, decide_eq_true_eq]; exact hne)]
    rw [he, hmin]
    refine ⟨cb, ?_, hinv, rfl, rfl, ?_, ?_⟩
    · simp only [List.take_zero, ustore, Nat.cast_zero, Int.add_zero]
    · simp only [Nat.cast_zero, Int.add_zero]
    · simp only [List.drop_zero]
  · rw [copyout_unfold k p cb dst hi ti hinv hne hhi hti]
    have hinv2 := hinv
    obtain ⟨hlen, hB, hmax, hT0, hTH, hused⟩ := hinv2
    obtain ⟨s0, s1, s2, s3⟩ := ubok_bounds p true dst hok
    have a2 : (hi : Int) < cb.bufsz := by rw [← hhi]; exact Int.emod_lt_of_pos _ hB
    have b2 : (ti : Int) < cb.bufsz := by rw [← hti]; exact Int.emod_lt_of_pos _ hB
    have hring := ring_pos cb.head cb.tail cb.bufsz hB hTH hused
    rw [hhi, hti] at hring
    by_cases hc : (hi : Int) ≤ (ti : Int)
    · have hu : cb.head - cb.tail = cb.bufsz + (hi : Int) - ti := by omega
      rw [if_pos hc]
      have hdl : (cb.buf.drop ti).length = cb.buf.length - ti := List.length_drop _ _
      have hr := ub_write_ok k p dst (cb.buf.drop ti) hl hok (by rw [hdl]; omega)
      rw [hdl] at hr
      generalize hc1 : min (cb.buf.length - ti) (dst.len - dst.off).toNat = c1 at hr
      rw [hr]
      simp only [ne_eq, not_true_eq_false, if_false, hdl]
      by_cases hfull : (c1 : Int) = ((cb.buf.length - ti : Nat) : Int)
      · rw [if_neg (by rw [not_not]; exact hfull)]
        exact copyout_emptied k p cb dst hi ti hinv hl hok hb hhi hti c1 hc hu hc1 hfull
      · rw [if_pos hfull]
        exact copyout_partial k p cb dst hi ti hinv hl hok hb hhi hti c1 hc hu hc1 hfull
    · have hu : cb.head - cb.tail = (hi : Int) - ti := by omega
      rw [if_neg hc]
      exact copyout_straight k p cb dst hi ti hinv hl hok hb hhi hti hc hu

/-- The byte queue conserves bytes: the bytes delivered followed by the bytes
held at the end are the bytes held at the start followed by the bytes
accepted. -/
theorem fifo_conserve (bufsz : Nat) (p : proc_t) (ops : List cbop) :
    ∀ (k : kern_t) (q : List Nat),
      (fiforun bufsz p k q ops).outs ++ (fiforun bufsz p k q ops).q =
        q ++ (fiforun bufsz p k q ops).ins := by
  induction ops with
  | nil => intro k q; simp [fiforun]
  | cons op ops ih =>
    intro k q
    cases op with
    | copyin src =>
      simp only [fiforun]
      rw [ih, List.append_assoc]
    | copyout dst =>
      simp only [fiforun]
      rw [List.append_assoc, ih, ← List.append_assoc, List.take_append_drop]

/-- Fully mapped sources offer a non-negative number of bytes. -/
theorem cbbytes_nonneg (bufsz : Nat) (p : proc_t) (ops : List cbop) :
    ∀ n, fifo_ok bufsz p n ops = true → 0 ≤ cbbytes ops := by
  induction ops with
  | nil => intro n _; exact le_refl _
  | cons op ops ih =>
    intro n h
    cases op with
    | copyin src =>
      simp only [fifo_ok, Bool.and_eq_true] at h
      have h1 := ubok_bounds p false src h.1.2
      have h2 := ih _ h.2
      simp only [cbbytes]
      omega
    | copyout dst =>
      simp only [fifo_ok, Bool.and_eq_true] at h
      simp only [cbbytes]
      exact ih _ h.2

/-- The circular buffer refines the byte queue: under the conditions `fifo_ok`
every sequence of calls returns, with the kernel memory and the results of
`fiforun`, a well-formed buffer of the same size, and the bytes of the queue
in it. -/
theorem circbuf_refines (ops : List cbop) :
    ∀ (k : kern_t) (p : proc_t) (cb : circbuf_t), cbinv cb → p.pgfltaken = false →
      cb.head + cbbytes ops < 2 ^ 63 → fifo_ok cb.bufsz.toNat p (cbq cb).length ops = true →
      ∃ cb1, cbrun k p cb ops =
          some ((fiforun cb.bufsz.toNat p k (cbq cb) ops).k, p, cb1,
            (fiforun cb.bufsz.toNat p k (cbq cb) ops).rets) ∧
        cbinv cb1 ∧ cb1.bufsz = cb.bufsz ∧
        cbq cb1 = (fiforun cb.bufsz.toNat p k (cbq cb) ops).q := by
  induction ops with
  | nil =>
    intro k p cb hinv _ _ _
    exact ⟨cb, rfl, hinv, rfl, rfl⟩
  | cons op ops ih =>
    intro k p cb hinv hl hb hok
    have hB := hinv.2.1
    have hT0 := hinv.2.2.2.1
    have hTH := hinv.2.2.2.2.1
    obtain ⟨hi, hhi⟩ := Int.eq_ofNat_of_zero_le (Int.emod_nonneg cb.head (ne_of_gt hB))
    obtain ⟨ti, hti⟩ := Int.eq_ofNat_of_zero_le (Int.emod_nonneg cb.tail (ne_of_gt hB))
    cases op with
    | copyin src =>
      simp only [fifo_ok, Bool.and_eq_true, decide_eq_true_eq] at hok
      obtain ⟨⟨hnf, hub⟩, hrest⟩ := hok
      have hnn := cbbytes_nonneg _ _ _ _ hrest
      have hs := ubok_bounds p false src hub
      rw [cbq_length] at hnf hrest
      simp only [cbbytes] at hb
      obtain ⟨cb1, h1, h2, h3, h4, h5, h6⟩ := copyin_spec_nat k p cb src hi ti hinv hl
        (by omega) hub (by omega) hhi hti
      have hq : (cbq cb1).length = (cb.head - cb.tail).toNat +
          min (src.len - src.off).toNat (cb.bufsz.toNat - (cb.head - cb.tail).toNat) := by
        rw [h6, List.length_append, cbq_length, ubytes_length]
      obtain ⟨cb2, g1, g2, g3, g4⟩ := ih k p cb1 h2 hl (by rw [h4]; omega)
        (by rw [h3, hq]; exact hrest)
      refine ⟨cb2, ?_, g2, g3.trans h3, ?_⟩
      · simp only [cbrun, h1, fiforun, cbq_length]
        rw [h3, h6] at g1
        rw [g1]
        rfl
      · simp only [fiforun, cbq_length]
        rw [h3, h6] at g4
        exact g4
    | copyout dst =>
      simp only [fifo_ok, Bool.and_eq_true] at hok
      obtain ⟨hub, hrest⟩ := hok
      have hnn := cbbytes_nonneg _ _ _ _ hrest
      rw [cbq_length] at hrest
      simp only [cbbytes] at hb
      obtain ⟨cb1, h1, h2, h3, h4, h5, h6⟩ := copyout_spec_nat k p cb dst hi ti hinv hl
        hub (by omega) hhi hti
      have hq : (cbq cb1).length = (cb.head - cb.tail).toNat -
          min (dst.len - dst.off).toNat (cb.head - cb.tail).toNat := by
        rw [h6, List.length_drop, cbq_length]
      obtain ⟨cb2, g1, g2, g3, g4⟩ := ih
        (ustore p k (dst.userva + dst.off).toNat
          ((cbq cb).take (min (dst.len - dst.off).toNat (cb.head - cb.tail).toNat)))
        p cb1 h2 hl (by rw [h4]; omega) (by rw [h3, hq]; exact hrest)
      refine ⟨cb2, ?_, g2, g3.trans h3, ?_⟩
      · simp only [cbrun, h1, fiforun, cbq_length]
        rw [h3, h6] at g1
        rw [g1]
        rfl
      · simp only [fiforun, cbq_length]
        rw [h3, h6] at g4
        exact g4

/-- C27 (the circular buffer is a byte FIFO).  Let the buffer be well formed
(`len(buf) = bufsz > 0`, `bufsz` at most the `bufmax` of `cb_init`,
`0 ≤ tail ≤ head ≤ tail + bufsz`), let the pmap lock be free, let `head`
stay below 2^63 whatever the sources offer, and let `ops` be a sequence of
`copyin` and `copyout` calls in which `copyin` is called only when the buffer
is not full and every user buffer is fully mapped (`fifo_ok`).  Then the
calls all return, and they do what the byte queue `fiforun` does: `copyin`
accepts min(source remaining, bufsz - (head - tail)) bytes and `copyout`
delivers min(destination remaining, head - tail) bytes, each with error 0
and with the offset of the user buffer advanced by that number; user memory
ends up with the delivered bytes stored at the destinations; the buffer
stays well formed, in particular `0 ≤ head - tail ≤ bufsz`, and holds the
bytes of the queue; and the bytes delivered, followed by the bytes still
held, are the bytes held at the start followed by the bytes accepted, in
that order.  So the bytes delivered are a prefix of the bytes held at the
start followed by the bytes accepted, and of the bytes accepted alone when
the buffer starts empty. -/
theorem circbuf_fifo (k : kern_t) (p : proc_t) (cb : circbuf_t) (ops : List cbop)
    (hinv : cbinv cb) (hl : p.pgfltaken = false) (hb : cb.head + cbbytes ops < 2 ^ 63)
    (hok : fifo_ok cb.bufsz.toNat p (cb.head - cb.tail).toNat ops = true) :
    ∃ cb1, cbrun k p cb ops =
        some ((fiforun cb.bufsz.toNat p k (cbq cb) ops).k, p, cb1,
          (fiforun cb.bufsz.toNat p k (cbq cb) ops).rets) ∧
      cbinv cb1 ∧ cb1.bufsz = cb.bufsz ∧
      0 ≤ cb1.head - cb1.tail ∧ cb1.head - cb1.tail ≤ cb1.bufsz ∧
      cbq cb1 = (fiforun cb.bufsz.toNat p k (cbq cb) ops).q ∧
      (fiforun cb.bufsz.toNat p k (cbq cb) ops).outs ++ cbq cb1 =
        cbq cb ++ (fiforun cb.bufsz.toNat p k (cbq cb) ops).ins ∧
      (fiforun cb.bufsz.toNat p k (cbq cb) ops).outs <+:
        cbq cb ++ (fiforun cb.bufsz.toNat p k (cbq cb) ops).ins ∧
      (cb.head = cb.tail →
        (fiforun cb.bufsz.toNat p k (cbq cb) ops).outs <+:
          (fiforun cb.bufsz.toNat p k (cbq cb) ops).ins) := by
  obtain ⟨cb1, h1, h2, h3, h4⟩ := circbuf_refines ops k p cb hinv hl hb
    (by rw [cbq_length]; exact hok)
  have hc := fifo_conserve cb.bufsz.toNat p ops k (cbq cb)
  rw [← h4] at hc
  refine ⟨cb1, h1, h2, h3, ?_, h2.2.2.2.2.2, h4, hc, ⟨cbq cb1, hc⟩, ?_⟩
  · have := h2.2.2.2.2.1
    omega
  · intro he
    have hq : cbq cb = [] := by
      apply List.eq_nil_of_length_eq_zero
      rw [cbq_length, he]
      simp
    exact ⟨cbq cb1, hc.trans
      (congrArg (fun l => l ++ (fiforun cb.bufsz.toNat p k (cbq cb) ops).ins) hq)⟩

/-- C27 on the buffer of four bytes: the four calls of `ex_cbops` return 3,
2, 2 and 3 bytes, the buffer ends empty with `head = tail = 5`, and the
bytes delivered are the bytes accepted, `a a a 0 b`, across the
wrap-around. -/
theorem circbuf_fifo_witness :
    (cbinv ex_cb ∧ fifo_ok ex_cb.bufsz.toNat ex_parent (ex_cb.head - ex_cb.tail).toNat
      ex_cbops = true) ∧
    (∃ cb1, cbrun ex_strkern ex_parent ex_cb ex_cbops =
        some ((fiforun ex_cb.bufsz.toNat ex_parent ex_strkern (cbq ex_cb) ex_cbops).k,
          ex_parent, cb1,
          (fiforun ex_cb.bufsz.toNat ex_parent ex_strkern (cbq ex_cb) ex_cbops).rets) ∧
      cbq cb1 = (fiforun ex_cb.bufsz.toNat ex_parent ex_strkern (cbq ex_cb) ex_cbops).q ∧
      (fiforun ex_cb.bufsz.toNat ex_parent ex_strkern (cbq ex_cb) ex_cbops).outs <+:
        (fiforun ex_cb.bufsz.toNat ex_parent ex_strkern (cbq ex_cb) ex_cbops).ins) ∧
    (cbrun ex_strkern ex_parent ex_cb ex_cbops).map
        (fun r => (r.2.2.1.head, r.2.2.1.tail, r.2.2.2.map (fun x => x.2))) =
      some (5, 5, [(3, 0), (2, 0), (2, 0), (3, 0)]) ∧
    (fiforun ex_cb.bufsz.toNat ex_parent ex_strkern (cbq ex_cb) ex_cbops).ins =
      [0x61, 0x61, 0x61, 0, 0x62] ∧
    (fiforun ex_cb.bufsz.toNat ex_parent ex_strkern (cbq ex_cb) ex_cbops).outs =
      [0x61, 0x61, 0x61, 0, 0x62] := by
  have hinv : cbinv ex_cb := by
    unfold cbinv
    decide
  have hok : fifo_ok ex_cb.bufsz.toNat ex_parent (ex_cb.head - ex_cb.tail).toNat
      ex_cbops = true := by decide
  obtain ⟨cb1, h1, _, _, _, _, h4, _, _, h5⟩ :=
    circbuf_fifo ex_strkern ex_parent ex_cb ex_cbops hinv rfl (by decide) hok
  exact ⟨⟨hinv, hok⟩, ⟨cb1, h1, h4, h5 rfl⟩, by decide, by decide, by decide⟩

end Biscuit
